import Mathlib

/-!
# newfs: a shallow embedding of the filesystem engine in `newfs/src/newfs.c`

The C code works on one global `super`, on a block device reached through
`super.fd`, and on a heap of dentry / inode nodes linked by pointers.  Here

* memory and device contents are byte stores `Nat → Nat` (`Bytes`); a C buffer of
  `n` bytes is the store restricted to `[0, n)`;
* every function takes the state it reads and returns the state it leaves;
* a pointer into the dentry tree is the list of child positions from the root;
* `calloc` / `malloc` succeed and device transfers succeed.

Conventions for what C leaves undetermined: a local buffer starts zeroed
(`stack_buf`), and a byte addressed past the end of a buffer is a byte of the same
store beyond its bound: it is *not* part of the block that `newfs_block_write`
transfers, and after `newfs_block_read` it still holds the buffer's initial value.
-/

namespace Newfs

/-! ## Constants -/

/-- Error numbers; the C functions return them negated. -/
inductive Errno where
  | ENOENT
  | EIOERR
  | ENOMEM
  | EEXIST
  | ENOTDIR
  | EINVAL
  | ENOSPC
  | ENOSYS
  deriving DecidableEq, Repr

deriving instance DecidableEq for Except

/-- Byte store: the content of a C buffer or of the device, by byte address. -/
abbrev Bytes := Nat → Nat

abbrev NEWFS_BLOCK_SIZE : Nat := 1024
abbrev NEWFS_DIRECT_NUM : Nat := 8
abbrev BITS_PER_BYTE : Nat := 8
abbrev MAX_NAME_LEN : Nat := 128
abbrev PATH_MAX : Nat := 4096

/-- Size of `struct newfs_super_d`: fifteen `uint32_t`. -/
abbrev SIZEOF_SUPER_D : Nat := 60
/-- Size of `struct newfs_inode_d`: three `uint32_t` and `blocks[8]`. -/
abbrev SIZEOF_INODE_D : Nat := 44
/-- Size of `struct newfs_dentry_d`: `name[128]`, `ino`, `mode`. -/
abbrev SIZEOF_DENTRY_D : Nat := 136

abbrev S_IFMT : Nat := 0o170000
abbrev S_IFDIR : Nat := 0o040000
abbrev S_IFREG : Nat := 0o100000

/-- The macro `S_ISDIR` of `<sys/stat.h>`. -/
def S_ISDIR (m : Nat) : Bool := (m &&& S_IFMT) == S_IFDIR

/-- Modelled from the spec: the constants of the header `newfs.h`, which is not among
the sources: the superblock magic and the default permission bits. -/
structure newfs_h where
  NEWFS_MAGIC : Nat
  NEWFS_DEFAULT_PERM : Nat

/-- Truncation of a value stored into a `uint32_t`. -/
def u32 (x : Nat) : Nat := x % 4294967296

/-- Byte `k` of the little-endian image of a `uint32_t`. -/
def le_byte (v k : Nat) : Nat := (v / 256 ^ k) % 256

/-- The `uint32_t` stored little-endian at `off`. -/
def rd32 (b : Bytes) (off : Nat) : Nat :=
  b off % 256 + 256 * (b (off + 1) % 256) + 65536 * (b (off + 2) % 256)
    + 16777216 * (b (off + 3) % 256)

/-- The call `memcpy(dst + doff, src + soff, n)`. -/
def memcpy (dst : Bytes) (doff : Nat) (src : Bytes) (soff n : Nat) : Bytes :=
  fun k => if doff ≤ k ∧ k < doff + n then src (soff + (k - doff)) else dst k

/-- A local buffer before anything is stored in it. -/
def stack_buf : Bytes := fun _ => 0

def round_down (value align : Nat) : Nat := (value / align) * align

def round_up (value align : Nat) : Nat := ((value + align - 1) / align) * align

/-! ## The block device -/

/-- Modelled from the spec: the simulated block device `ddriver`, which is not among
the sources: a byte store with a fixed transfer unit (`IOC_REQ_DEVICE_IO_SZ`) and a
fixed capacity (`IOC_REQ_DEVICE_SIZE`); a seek followed by a read or write moves
the given number of bytes at the seek position and succeeds. -/
structure ddriver where
  io_size : Nat
  disk_size : Nat
  data : Bytes

/-- The calls `ddriver_seek(fd, pos, SEEK_SET); ddriver_read(fd, buf + off, n)`. -/
def ddriver_read (dev : ddriver) (pos : Nat) (buf : Bytes) (off n : Nat) : Bytes :=
  memcpy buf off dev.data pos n

/-- The calls `ddriver_seek(fd, pos, SEEK_SET); ddriver_write(fd, buf + off, n)`. -/
def ddriver_write (dev : ddriver) (pos : Nat) (buf : Bytes) (off n : Nat) : ddriver :=
  { dev with data := memcpy dev.data pos buf off n }

/-! ## In-memory structures (`types.h`) -/

/-- The type `struct newfs_inode`, over the type `D` of dentries.  `dentry` records
whether the back-reference is set; `first_child` is the sibling list, head first. -/
structure inode_of (D : Type) where
  ino : Nat
  mode : Nat
  size : Nat
  links : Nat
  blocks : List Nat
  dentry : Bool
  first_child : List D
  data : Option (List Nat)
  children_loaded : Bool

/-- The type `struct newfs_dentry`; `inode` is the owned, resolved inode (or NULL).
The `brother` link is the tail of the list the dentry sits in. -/
inductive newfs_dentry where
  | mk (name : List Nat) (ino mode : Nat) (inode : Option (inode_of newfs_dentry))

abbrev newfs_inode := inode_of newfs_dentry

def newfs_dentry.name : newfs_dentry → List Nat
  | .mk n _ _ _ => n

def newfs_dentry.ino : newfs_dentry → Nat
  | .mk _ i _ _ => i

def newfs_dentry.mode : newfs_dentry → Nat
  | .mk _ _ m _ => m

def newfs_dentry.inode : newfs_dentry → Option newfs_inode
  | .mk _ _ _ i => i

/-- The global `struct newfs_super super`, without `fd`. -/
structure newfs_super where
  magic : Nat
  io_size : Nat
  block_size : Nat
  disk_size : Nat
  block_count : Nat
  sb_offset : Nat
  sb_blks : Nat
  ino_map_offset : Nat
  ino_map_blks : Nat
  data_map_offset : Nat
  data_map_blks : Nat
  inode_offset : Nat
  inode_blks : Nat
  data_offset : Nat
  data_blks : Nat
  inode_count : Nat
  data_count : Nat
  root_ino : Nat
  inode_map : Bytes
  data_map : Bytes
  root_dentry : Option newfs_dentry

/-- The engine's whole state: `super` and the device behind `super.fd`. -/
structure newfs where
  super : newfs_super
  dev : ddriver

/-- The type `struct newfs_inode_d`. -/
structure newfs_inode_d where
  mode : Nat
  size : Nat
  links : Nat
  blocks : List Nat

/-- The type `struct newfs_dentry_d`; `name` holds the 128 bytes of the field. -/
structure newfs_dentry_d where
  name : Bytes
  ino : Nat
  mode : Nat

/-- The type `struct newfs_super_d`. -/
structure newfs_super_d where
  magic : Nat
  block_size : Nat
  sb_offset : Nat
  sb_blks : Nat
  ino_map_offset : Nat
  ino_map_blks : Nat
  data_map_offset : Nat
  data_map_blks : Nat
  inode_offset : Nat
  inode_blks : Nat
  data_offset : Nat
  data_blks : Nat
  inode_count : Nat
  data_count : Nat
  root_ino : Nat
  deriving DecidableEq, Repr

/-! ## Record images -/

/-- The bytes of a `struct newfs_inode_d` in memory (little-endian, packed). -/
def inode_d_bytes (d : newfs_inode_d) : Bytes := fun k =>
  if k < 4 then le_byte d.mode k
  else if k < 8 then le_byte d.size (k - 4)
  else if k < 12 then le_byte d.links (k - 8)
  else if k < 44 then le_byte (d.blocks.getD ((k - 12) / 4) 0) ((k - 12) % 4)
  else 0

/-- The `struct newfs_inode_d` whose bytes start at `buf + off`. -/
def inode_d_at (buf : Bytes) (off : Nat) : newfs_inode_d :=
  { mode := rd32 buf off
    size := rd32 buf (off + 4)
    links := rd32 buf (off + 8)
    blocks := (List.range NEWFS_DIRECT_NUM).map (fun j => rd32 buf (off + 12 + 4 * j)) }

/-- The bytes of a `struct newfs_dentry_d` in memory. -/
def dentry_d_bytes (d : newfs_dentry_d) : Bytes := fun k =>
  if k < 128 then d.name k
  else if k < 132 then le_byte d.ino (k - 128)
  else if k < 136 then le_byte d.mode (k - 132)
  else 0

/-- The `struct newfs_dentry_d` whose bytes start at `buf + off`. -/
def dentry_d_at (buf : Bytes) (off : Nat) : newfs_dentry_d :=
  { name := fun k => buf (off + k)
    ino := rd32 buf (off + 128)
    mode := rd32 buf (off + 132) }

/-- The fields of a `struct newfs_super_d` in declaration order. -/
def super_d_fields (d : newfs_super_d) : List Nat :=
  [d.magic, d.block_size, d.sb_offset, d.sb_blks, d.ino_map_offset, d.ino_map_blks,
    d.data_map_offset, d.data_map_blks, d.inode_offset, d.inode_blks, d.data_offset,
    d.data_blks, d.inode_count, d.data_count, d.root_ino]

/-- The bytes of a `struct newfs_super_d` in memory. -/
def super_d_bytes (d : newfs_super_d) : Bytes := fun k =>
  le_byte ((super_d_fields d).getD (k / 4) 0) (k % 4)

/-- The `struct newfs_super_d` whose bytes are `buf[0 .. 60)`. -/
def super_d_at (buf : Bytes) : newfs_super_d :=
  { magic := rd32 buf 0
    block_size := rd32 buf 4
    sb_offset := rd32 buf 8
    sb_blks := rd32 buf 12
    ino_map_offset := rd32 buf 16
    ino_map_blks := rd32 buf 20
    data_map_offset := rd32 buf 24
    data_map_blks := rd32 buf 28
    inode_offset := rd32 buf 32
    inode_blks := rd32 buf 36
    data_offset := rd32 buf 40
    data_blks := rd32 buf 44
    inode_count := rd32 buf 48
    data_count := rd32 buf 52
    root_ino := rd32 buf 56 }

/-- The C string held in `n` bytes at `b + off`: the bytes before the first NUL. -/
def cstr_at (b : Bytes) (off : Nat) : Nat → List Nat
  | 0 => []
  | n + 1 => if b off % 256 = 0 then [] else (b off % 256) :: cstr_at b (off + 1) n

/-- The result of `strncpy(dst, name, n)` into a zeroed field: the first `n`
characters of `name`, NUL after them. -/
def strncpy_bytes (name : List Nat) (n : Nat) : Bytes := fun k =>
  if k < n then name.getD k 0 else 0

/-- The test `strncmp(a, b, n) == 0` on C strings. -/
def strncmp_eq (a b : List Nat) (n : Nat) : Bool := a.take n == b.take n

/-! ## Device adapter -/

/-- The transfer loop of `newfs_disk_read` and `newfs_block_read`: `cnt` reads of
`io_sz` bytes, the `i`-th from device position `base + i * io_sz` to
`buf + i * io_sz`, in ascending order of `i`. -/
def read_loop (dev : ddriver) (base io_sz : Nat) : Nat → Bytes → Bytes
  | 0, buf => buf
  | i + 1, buf => ddriver_read dev (base + i * io_sz) (read_loop dev base io_sz i buf) (i * io_sz) io_sz

/-- The transfer loop of `newfs_disk_write` and `newfs_block_write`. -/
def write_loop (base io_sz : Nat) (buf : Bytes) : Nat → ddriver → ddriver
  | 0, dev => dev
  | i + 1, dev => ddriver_write (write_loop base io_sz buf i dev) (base + i * io_sz) buf (i * io_sz) io_sz

/-- The function `newfs_disk_read(offset, buf, size)`: the new content of `buf`. -/
def newfs_disk_read (s : newfs_super) (dev : ddriver) (offset : Int) (buf : Bytes) (size : Nat) :
    Except Errno Bytes :=
  if size = 0 then .ok buf
  else if offset < 0 then .error .EINVAL
  else
    let io_sz := s.io_size
    let down := round_down offset.toNat io_sz
    let up := round_up (offset.toNat + size) io_sz
    if up > s.disk_size then .error .EIOERR
    else
      let tmp := read_loop dev down io_sz ((up - down) / io_sz) stack_buf
      let bias := offset.toNat - down
      .ok (memcpy buf 0 tmp bias size)

/-- The function `newfs_disk_write(offset, buf, size)`: the device it leaves. -/
def newfs_disk_write (s : newfs_super) (dev : ddriver) (offset : Int) (buf : Bytes) (size : Nat) :
    Except Errno ddriver :=
  if size = 0 then .ok dev
  else if offset < 0 then .error .EINVAL
  else
    let io_sz := s.io_size
    let down := round_down offset.toNat io_sz
    let up := round_up (offset.toNat + size) io_sz
    if up > s.disk_size then .error .ENOSPC
    else
      let tmp := read_loop dev down io_sz ((up - down) / io_sz) stack_buf
      let bias := offset.toNat - down
      let tmp := memcpy tmp bias buf 0 size
      .ok (write_loop down io_sz tmp ((up - down) / io_sz) dev)

/-- The function `newfs_block_read(blkno, buf)`: the new content of `buf`. -/
def newfs_block_read (s : newfs_super) (dev : ddriver) (blkno : Nat) (buf : Bytes) : Bytes :=
  read_loop dev (blkno * s.block_size) s.io_size (s.block_size / s.io_size) buf

/-- The function `newfs_block_write(blkno, buf)`: the device it leaves. -/
def newfs_block_write (s : newfs_super) (dev : ddriver) (blkno : Nat) (buf : Bytes) : ddriver :=
  write_loop (blkno * s.block_size) s.io_size buf (s.block_size / s.io_size) dev

/-! ## Bitmaps -/

def bitmap_test (map : Bytes) (idx : Nat) : Bool :=
  ((map (idx / BITS_PER_BYTE) >>> (idx % BITS_PER_BYTE)) &&& 1) != 0

def bitmap_set (map : Bytes) (idx : Nat) : Bytes := fun k =>
  if k = idx / BITS_PER_BYTE then (map k ||| (1 <<< (idx % BITS_PER_BYTE))) % 256 else map k

/-- The function `bitmap_clear`; `~` is the complement of a 32-bit `int`. -/
def bitmap_clear (map : Bytes) (idx : Nat) : Bytes := fun k =>
  if k = idx / BITS_PER_BYTE then
    (map k &&& (4294967295 ^^^ (1 <<< (idx % BITS_PER_BYTE)))) % 256
  else map k

/-- The loop shared by `newfs_flush_inode_map` and `newfs_flush_data_map`: block `i`
of the map goes to block `off + i`. -/
def flush_loop (s : newfs_super) (map : Bytes) (off : Nat) : Nat → ddriver → ddriver
  | 0, dev => dev
  | i + 1, dev =>
    newfs_block_write s (flush_loop s map off i dev) (off + i) (fun k => map (i * s.block_size + k))

def newfs_flush_inode_map (st : newfs) : newfs :=
  { st with
    dev := flush_loop st.super st.super.inode_map st.super.ino_map_offset st.super.ino_map_blks st.dev }

def newfs_flush_data_map (st : newfs) : newfs :=
  { st with
    dev := flush_loop st.super st.super.data_map st.super.data_map_offset st.super.data_map_blks st.dev }

/-- The scan `for (i = ..; i < ..; i++) if (!bitmap_test(map, i))` of the allocators,
from index `i` over `n` indices: the first hit. -/
def first_clear_from (map : Bytes) : Nat → Nat → Option Nat
  | _, 0 => none
  | i, n + 1 => if !bitmap_test map i then some i else first_clear_from map (i + 1) n

/-- The scan over `0 .. count - 1`. -/
def first_clear (map : Bytes) (count : Nat) : Option Nat := first_clear_from map 0 count

/-- The rollback statements `bitmap_clear(super.inode_map, ino); newfs_flush_inode_map();`
of `newfs_mkdir` and `newfs_mknod`. -/
def inode_free (st : newfs) (ino : Nat) : newfs :=
  newfs_flush_inode_map
    { st with super := { st.super with inode_map := bitmap_clear st.super.inode_map ino } }

/-! ## Inode store -/

def newfs_inodes_per_block (s : newfs_super) : Nat := s.block_size / SIZEOF_INODE_D

/-- The function `newfs_alloc_inode`: the index (or `ENOSPC`) and the state left.  The
index is returned as `(int)i`, which is `i` for the capacities below `2^31` that a
bitmap held in memory can have. -/
def newfs_alloc_inode (st : newfs) : Except Errno Nat × newfs :=
  match first_clear st.super.inode_map st.super.inode_count with
  | none => (.error .ENOSPC, st)
  | some i =>
    let st1 : newfs := { st with super := { st.super with inode_map := bitmap_set st.super.inode_map i } }
    let st2 := newfs_flush_inode_map st1
    let zero : newfs_inode_d := { mode := 0, size := 0, links := 0, blocks := List.replicate 8 0 }
    let blk := st2.super.inode_offset + i / newfs_inodes_per_block st2.super
    let off := (i % newfs_inodes_per_block st2.super) * SIZEOF_INODE_D
    let buf := newfs_block_read st2.super st2.dev blk stack_buf
    let buf := memcpy buf off (inode_d_bytes zero) 0 SIZEOF_INODE_D
    (.ok i, { st2 with dev := newfs_block_write st2.super st2.dev blk buf })

/-- The function `newfs_alloc_data_block`: the block number (or `ENOSPC`) and the state
left. -/
def newfs_alloc_data_block (st : newfs) : Except Errno Nat × newfs :=
  match first_clear st.super.data_map st.super.data_count with
  | none => (.error .ENOSPC, st)
  | some i =>
    let st1 : newfs := { st with super := { st.super with data_map := bitmap_set st.super.data_map i } }
    let st2 := newfs_flush_data_map st1
    let zero : Bytes := fun _ => 0
    (.ok (st2.super.data_offset + i),
      { st2 with dev := newfs_block_write st2.super st2.dev (st2.super.data_offset + i) zero })

/-- The function `newfs_read_inode(ino, inode)`: the node it fills in. -/
def newfs_read_inode (s : newfs_super) (dev : ddriver) (ino : Nat) : Except Errno newfs_inode :=
  if ino ≥ s.inode_count then .error .EINVAL
  else
    let blk := s.inode_offset + ino / newfs_inodes_per_block s
    let off := (ino % newfs_inodes_per_block s) * SIZEOF_INODE_D
    let buf := newfs_block_read s dev blk stack_buf
    let disk_inode := inode_d_at buf off
    .ok { ino := ino, mode := disk_inode.mode, size := disk_inode.size, links := disk_inode.links,
          blocks := disk_inode.blocks, dentry := false, first_child := [], data := none,
          children_loaded := false }

/-- The function `newfs_write_inode(inode)`: the device it leaves. -/
def newfs_write_inode (s : newfs_super) (dev : ddriver) (inode : newfs_inode) : Except Errno Unit × ddriver :=
  if inode.ino ≥ s.inode_count then (.error .EINVAL, dev)
  else
    let blk := s.inode_offset + inode.ino / newfs_inodes_per_block s
    let off := (inode.ino % newfs_inodes_per_block s) * SIZEOF_INODE_D
    let buf := newfs_block_read s dev blk stack_buf
    let disk_inode : newfs_inode_d :=
      { mode := inode.mode, size := inode.size, links := inode.links, blocks := inode.blocks }
    let buf := memcpy buf off (inode_d_bytes disk_inode) 0 SIZEOF_INODE_D
    (.ok (), newfs_block_write s dev blk buf)

/-! ## Dentry / inode tree cache -/

/-- Rebuilds a dentry around its (new) resolved inode. -/
def newfs_dentry.with_inode (d : newfs_dentry) (i : newfs_inode) : newfs_dentry :=
  .mk d.name d.ino d.mode (some i)

/-- The function `newfs_link_child`: the child becomes the head of the sibling list. -/
def newfs_link_child (parent : newfs_inode) (child : newfs_dentry) : newfs_inode :=
  { parent with first_child := child :: parent.first_child }

/-- The function `newfs_find_child_dentry`: the first sibling whose name matches. -/
def newfs_find_child_dentry (dir : newfs_inode) (name : List Nat) : Option newfs_dentry :=
  dir.first_child.find? (fun iter => strncmp_eq iter.name name MAX_NAME_LEN)

/-- Position in the sibling list of the dentry `newfs_find_child_dentry` returns. -/
def find_child_pos (dir : newfs_inode) (name : List Nat) : Nat :=
  dir.first_child.findIdx (fun iter => strncmp_eq iter.name name MAX_NAME_LEN)

/-- The local `blk_idx` of the entry loops: the direct-block slot of entry `i`. -/
def entry_blk_idx (s : newfs_super) (i : Nat) : Nat := (i * SIZEOF_DENTRY_D) / s.block_size

/-- The local `blk_off` of the entry loops: the byte offset of entry `i` in its block. -/
def entry_blk_off (s : newfs_super) (i : Nat) : Nat := (i * SIZEOF_DENTRY_D) % s.block_size

/-- The loop of `newfs_load_dir_children` over the entry indices `0 .. cnt - 1`. -/
def load_loop (s : newfs_super) (dev : ddriver) : Nat → newfs_inode → newfs_inode
  | 0, dir => dir
  | i + 1, dir =>
    let dir := load_loop s dev i dir
    let blk_idx := entry_blk_idx s i
    let blk_off := entry_blk_off s i
    if blk_idx ≥ NEWFS_DIRECT_NUM ∨ dir.blocks.getD blk_idx 0 = 0 then dir
    else
      let buf := newfs_block_read s dev (dir.blocks.getD blk_idx 0) stack_buf
      let disk_dentry := dentry_d_at buf blk_off
      let child := newfs_dentry.mk (cstr_at disk_dentry.name 0 (MAX_NAME_LEN - 1))
        disk_dentry.ino disk_dentry.mode none
      newfs_link_child dir child

/-- The function `newfs_load_dir_children(dir, parent)`: result and the inode left. -/
def newfs_load_dir_children (s : newfs_super) (dev : ddriver) (dir : newfs_inode) :
    Except Errno Unit × newfs_inode :=
  if !S_ISDIR dir.mode then (.error .ENOTDIR, dir)
  else if dir.children_loaded then (.ok (), dir)
  else
    let dir := { dir with first_child := [] }
    let entry_cnt := dir.size / SIZEOF_DENTRY_D
    let dir := load_loop s dev entry_cnt dir
    (.ok (), { dir with children_loaded := true })

/-- The function `newfs_get_inode_from_dentry(dentry, inode_out)`: the inode and the
dentry left (which now owns it). -/
def newfs_get_inode_from_dentry (s : newfs_super) (dev : ddriver) (dentry : newfs_dentry) :
    Except Errno newfs_inode × newfs_dentry :=
  match dentry.inode with
  | some inode => (.ok inode, dentry)
  | none =>
    match newfs_read_inode s dev dentry.ino with
    | .error e => (.error e, dentry)
    | .ok inode =>
      let inode := { inode with dentry := true }
      let inode := if S_ISDIR inode.mode then (newfs_load_dir_children s dev inode).2 else inode
      (.ok inode, dentry.with_inode inode)

/-- The statement `if (dir->blocks[blk_idx] == 0) { ... }` of `newfs_add_dentry`: a
slot without a block gets one from `newfs_alloc_data_block`. -/
def add_dentry_slot (st : newfs) (dir : newfs_inode) (blk_idx : Nat) :
    Except Errno Unit × newfs_inode × newfs :=
  if dir.blocks.getD blk_idx 0 = 0 then
    match newfs_alloc_data_block st with
    | (.error e, st) => (.error e, dir, st)
    | (.ok new_blk, st) => (.ok (), { dir with blocks := dir.blocks.set blk_idx (u32 new_blk) }, st)
  else (.ok (), dir, st)

/-- The statements of `newfs_add_dentry` from `newfs_block_read` on: the record is
spliced into its block, the size grows and the inode is written, the child is linked. -/
def add_dentry_store (st : newfs) (dir : newfs_inode) (entry : newfs_dentry_d)
    (blk_idx blk_off : Nat) (child : Option newfs_dentry) : newfs_inode × newfs :=
  let buf := newfs_block_read st.super st.dev (dir.blocks.getD blk_idx 0) stack_buf
  let buf := memcpy buf blk_off (dentry_d_bytes entry) 0 SIZEOF_DENTRY_D
  let dev := newfs_block_write st.super st.dev (dir.blocks.getD blk_idx 0) buf
  let dir := { dir with size := u32 (dir.size + SIZEOF_DENTRY_D) }
  let dev := (newfs_write_inode st.super dev dir).2
  let dir := match child with
    | some c => { newfs_link_child dir c with children_loaded := true }
    | none => dir
  (dir, { st with dev := dev })

/-- The function `newfs_add_dentry(dir, name, ino, mode, child_inode)`: the result, the
directory inode left and the state left.  `name` is the characters of a C string. -/
def newfs_add_dentry (st : newfs) (dir : newfs_inode) (name : List Nat) (ino mode : Nat)
    (child_inode : Option newfs_inode) : Except Errno Unit × newfs_inode × newfs :=
  if !S_ISDIR dir.mode then (.error .ENOTDIR, dir, st)
  else
    let dir := if dir.dentry && !dir.children_loaded then
      (newfs_load_dir_children st.super st.dev dir).2 else dir
    let child : Option newfs_dentry :=
      if dir.dentry || child_inode.isSome then
        some (.mk (name.take (MAX_NAME_LEN - 1)) ino mode
          (child_inode.map (fun ci => { ci with dentry := true })))
      else none
    let entry : newfs_dentry_d :=
      { name := strncpy_bytes name (MAX_NAME_LEN - 1), ino := ino, mode := mode }
    let idx := dir.size / SIZEOF_DENTRY_D
    let blk_idx := entry_blk_idx st.super idx
    let blk_off := entry_blk_off st.super idx
    if blk_idx ≥ NEWFS_DIRECT_NUM then (.error .ENOSPC, dir, st)
    else
      match add_dentry_slot st dir blk_idx with
      | (.error e, dir, st) => (.error e, dir, st)
      | (.ok _, dir, st) =>
        match add_dentry_store st dir entry blk_idx blk_off child with
        | (dir, st) => (.ok (), dir, st)

/-! ## Path resolver -/

/-- The tokens that successive `strtok_r(.., "/", ..)` calls return; `cur` is the
token being read, reversed. -/
def strtok_all : List Nat → List Nat → List (List Nat)
  | [], cur => if cur = [] then [] else [cur.reverse]
  | c :: cs, cur =>
    if c = 47 then (if cur = [] then strtok_all cs [] else cur.reverse :: strtok_all cs [])
    else strtok_all cs (c :: cur)

/-- The tokens of the local copy `tmp` of a path. -/
def path_tokens (path : List Nat) : List (List Nat) :=
  strtok_all (path.take (PATH_MAX - 1)) []

/-- The dentry a pointer (child positions from the root) designates. -/
def dentry_at : newfs_dentry → List Nat → Option newfs_dentry
  | d, [] => some d
  | d, k :: p =>
    match d.inode with
    | none => none
    | some ci =>
      match ci.first_child.get? k with
      | none => none
      | some c => dentry_at c p

/-- Stores through a pointer: the tree with the designated dentry replaced. -/
def dentry_set : newfs_dentry → List Nat → newfs_dentry → newfs_dentry
  | _, [], v => v
  | d, k :: p, v =>
    match d.inode with
    | none => d
    | some ci =>
      match ci.first_child.get? k with
      | none => d
      | some c => d.with_inode { ci with first_child := ci.first_child.set k (dentry_set c p v) }

/-- The `while (token)` loop of `newfs_path_dentry`, at `cur` with `cur->inode = cur_inode`:
the pointer to the dentry found, relative to `cur`, and the subtree of `cur` left. -/
def path_dentry_loop (s : newfs_super) (dev : ddriver) :
    List (List Nat) → newfs_dentry → newfs_inode → Except Errno (List Nat) × newfs_dentry
  | [], cur, cur_inode => (.ok [], cur.with_inode cur_inode)
  | token :: rest, cur, cur_inode =>
    let cur_inode := (newfs_load_dir_children s dev cur_inode).2
    match newfs_find_child_dentry cur_inode token with
    | none => (.error .ENOENT, cur.with_inode cur_inode)
    | some child =>
      let k := find_child_pos cur_inode token
      match newfs_get_inode_from_dentry s dev child with
      | (.error e, child) =>
        (.error e, cur.with_inode { cur_inode with first_child := cur_inode.first_child.set k child })
      | (.ok child_inode, child) =>
        match path_dentry_loop s dev rest child child_inode with
        | (r, child) =>
          (r.map (fun p => k :: p),
            cur.with_inode { cur_inode with first_child := cur_inode.first_child.set k child })

/-- The function `newfs_path_dentry(path, out)`: the pointer `*out` and the state left. -/
def newfs_path_dentry (st : newfs) (path : List Nat) : Except Errno (List Nat) × newfs :=
  match st.super.root_dentry with
  | none => (.error .ENOENT, st)
  | some root =>
    if path = [47] then (.ok [], st)
    else
      match newfs_get_inode_from_dentry st.super st.dev root with
      | (.error e, _) => (.error e, st)
      | (.ok cur_inode, root) =>
        match path_dentry_loop st.super st.dev (path_tokens path) root cur_inode with
        | (r, root) => (r, { st with super := { st.super with root_dentry := some root } })

/-- The `while (token)` loop of `newfs_get_parent_dentry`: the pointer to the parent
relative to `cur`, the parent dentry, the leaf name, and the subtree of `cur` left. -/
def parent_loop (s : newfs_super) (dev : ddriver) :
    List (List Nat) → newfs_dentry → newfs_inode →
      Except Errno (List Nat × newfs_dentry × List Nat) × newfs_dentry
  | [], cur, cur_inode => (.error .ENOENT, cur.with_inode cur_inode)
  | [token], cur, cur_inode =>
    (.ok ([], cur.with_inode cur_inode, token.take (MAX_NAME_LEN - 1)), cur.with_inode cur_inode)
  | token :: next :: rest, cur, cur_inode =>
    let cur_inode := (newfs_load_dir_children s dev cur_inode).2
    match newfs_find_child_dentry cur_inode token with
    | none => (.error .ENOENT, cur.with_inode cur_inode)
    | some child =>
      let k := find_child_pos cur_inode token
      match newfs_get_inode_from_dentry s dev child with
      | (.error e, child) =>
        (.error e, cur.with_inode { cur_inode with first_child := cur_inode.first_child.set k child })
      | (.ok child_inode, child) =>
        match parent_loop s dev (next :: rest) child child_inode with
        | (r, child) =>
          (r.map (fun x => (k :: x.1, x.2)),
            cur.with_inode { cur_inode with first_child := cur_inode.first_child.set k child })

/-- The function `newfs_get_parent_dentry(path, parent, child_name)`. -/
def newfs_get_parent_dentry (st : newfs) (path : List Nat) :
    Except Errno (List Nat × newfs_dentry × List Nat) × newfs :=
  if path = [47] then (.error .EEXIST, st)
  else
    match st.super.root_dentry with
    | none => (.error .ENOENT, st)
    | some root =>
      match newfs_get_inode_from_dentry st.super st.dev root with
      | (.error e, _) => (.error e, st)
      | (.ok cur_inode, root) =>
        match parent_loop st.super st.dev (path_tokens path) root cur_inode with
        | (r, root) => (r, { st with super := { st.super with root_dentry := some root } })

/-! ## Creation (`newfs_mkdir`, `newfs_mknod`) -/

/-- Stores the parent dentry back through its pointer into `super.root_dentry`. -/
def put_parent (st : newfs) (ptr : List Nat) (parent_dentry : newfs_dentry) : newfs :=
  { st with super := { st.super with
      root_dentry := st.super.root_dentry.map (fun root => dentry_set root ptr parent_dentry) } }

/-- The statements of `newfs_mkdir` / `newfs_mknod` before `newfs_alloc_inode`: parent
resolution, the directory check and the duplicate check.  On success: the pointer to
the parent, the parent dentry, its inode (children loaded) and the leaf name. -/
def create_lookup (st : newfs) (path : List Nat) :
    Except Errno (List Nat × newfs_dentry × newfs_inode × List Nat) × newfs :=
  match newfs_get_parent_dentry st path with
  | (.error e, st) => (.error e, st)
  | (.ok (ptr, parent_dentry, name), st) =>
    match newfs_get_inode_from_dentry st.super st.dev parent_dentry with
    | (.error e, _) => (.error e, st)
    | (.ok parent_inode, parent_dentry) =>
      if !S_ISDIR parent_inode.mode then (.error .ENOTDIR, st)
      else
        let parent_inode := (newfs_load_dir_children st.super st.dev parent_inode).2
        let st := put_parent st ptr (parent_dentry.with_inode parent_inode)
        if (newfs_find_child_dentry parent_inode name).isSome then (.error .EEXIST, st)
        else (.ok (ptr, parent_dentry, parent_inode, name), st)

/-- The inode `new_inode` that `newfs_mkdir` / `newfs_mknod` build for index `ret`. -/
def new_inode_of (h : newfs_h) (ifmt ret : Nat) : newfs_inode :=
  { ino := u32 ret, mode := u32 (ifmt ||| h.NEWFS_DEFAULT_PERM), size := 0, links := 1,
    blocks := List.replicate NEWFS_DIRECT_NUM 0, dentry := false, first_child := [],
    data := none, children_loaded := false }

/-- The statements of `newfs_mkdir` / `newfs_mknod` from `newfs_alloc_inode` on. -/
def create_insert (h : newfs_h) (ifmt : Nat) (st : newfs) (ptr : List Nat)
    (parent_dentry : newfs_dentry) (parent_inode : newfs_inode) (name : List Nat) :
    Except Errno Unit × newfs :=
  match newfs_alloc_inode st with
  | (.error e, st) => (.error e, st)
  | (.ok ret, st) =>
    let new_inode := new_inode_of h ifmt ret
    let st : newfs := { st with dev := (newfs_write_inode st.super st.dev new_inode).2 }
    let child_inode := new_inode
    match newfs_add_dentry st parent_inode name new_inode.ino new_inode.mode (some child_inode) with
    | (.error e, parent_inode, st) =>
      let st := inode_free st new_inode.ino
      (.error e, put_parent st ptr (parent_dentry.with_inode parent_inode))
    | (.ok _, parent_inode, st) =>
      (.ok (), put_parent st ptr (parent_dentry.with_inode parent_inode))

/-- The common body of `newfs_mkdir` and `newfs_mknod`, which differ only in the
file-type bits `ifmt` of the mode given to the new inode. -/
def newfs_create (h : newfs_h) (ifmt : Nat) (st : newfs) (path : List Nat) :
    Except Errno Unit × newfs :=
  match create_lookup st path with
  | (.error e, st) => (.error e, st)
  | (.ok (ptr, parent_dentry, parent_inode, name), st) =>
    create_insert h ifmt st ptr parent_dentry parent_inode name

/-- The function `newfs_mkdir(path, mode)`. -/
def newfs_mkdir (h : newfs_h) (st : newfs) (path : List Nat) : Except Errno Unit × newfs :=
  newfs_create h S_IFDIR st path

/-- The function `newfs_mknod(path, mode, dev)`. -/
def newfs_mknod (h : newfs_h) (st : newfs) (path : List Nat) : Except Errno Unit × newfs :=
  newfs_create h S_IFREG st path

/-! ## Superblock manager (`newfs_mount`) -/

/-- The function `newfs_load_super`. -/
def newfs_load_super (s : newfs_super) (disk_super : newfs_super_d) : newfs_super :=
  { s with
    block_size := disk_super.block_size
    magic := disk_super.magic
    sb_offset := disk_super.sb_offset
    sb_blks := disk_super.sb_blks
    ino_map_offset := disk_super.ino_map_offset
    ino_map_blks := disk_super.ino_map_blks
    data_map_offset := disk_super.data_map_offset
    data_map_blks := disk_super.data_map_blks
    inode_offset := disk_super.inode_offset
    inode_blks := disk_super.inode_blks
    data_offset := disk_super.data_offset
    data_blks := disk_super.data_blks
    inode_count := disk_super.inode_count
    data_count := disk_super.data_count
    root_ino := disk_super.root_ino }

/-- The function `newfs_sync_super`. -/
def newfs_sync_super (s : newfs_super) (dev : ddriver) (disk_super : newfs_super_d) :
    Except Errno ddriver :=
  newfs_disk_write s dev 0 (super_d_bytes disk_super) SIZEOF_SUPER_D

/-- The function `newfs_prepare_root`. -/
def newfs_prepare_root (h : newfs_h) (st : newfs) : Except Errno Unit × newfs :=
  let root := newfs_dentry.mk [47] st.super.root_ino (u32 (S_IFDIR ||| h.NEWFS_DEFAULT_PERM)) none
  match newfs_get_inode_from_dentry st.super st.dev root with
  | (.error e, _) => (.error e, { st with super := { st.super with root_dentry := none } })
  | (.ok _, root) => (.ok (), { st with super := { st.super with root_dentry := some root } })

/-- The state `memset(&super, 0, sizeof(super))` leaves. -/
def zero_super : newfs_super :=
  { magic := 0, io_size := 0, block_size := 0, disk_size := 0, block_count := 0, sb_offset := 0,
    sb_blks := 0, ino_map_offset := 0, ino_map_blks := 0, data_map_offset := 0, data_map_blks := 0,
    inode_offset := 0, inode_blks := 0, data_offset := 0, data_blks := 0, inode_count := 0,
    data_count := 0, root_ino := 0, inode_map := fun _ => 0, data_map := fun _ => 0,
    root_dentry := none }

/-- The geometry block `if (is_init) { ... }` of `newfs_mount`, up to `root_ino = 0`:
each local below is the field of `super` of the same name after its assignment. -/
def format_geometry (h : newfs_h) (s : newfs_super) : newfs_super :=
  let sb_offset := 0
  let sb_blks := 1
  let ino_map_offset := sb_offset + sb_blks
  let ino_map_blks := 1
  let data_map_offset := ino_map_offset + ino_map_blks
  let data_map_blks := 1
  let inode_offset := data_map_offset + data_map_blks
  let inode_blks := 1
  let data_offset := inode_offset + inode_blks
  let data_blks := s.block_count - data_offset
  let max_ino_bits := ino_map_blks * s.block_size * BITS_PER_BYTE
  let max_data_bits := data_map_blks * s.block_size * BITS_PER_BYTE
  let inode_count := newfs_inodes_per_block s * inode_blks
  let inode_count := if inode_count > max_ino_bits then max_ino_bits else inode_count
  let data_count := data_blks
  let clamp : Bool := decide (data_count > max_data_bits)
  let data_count := if clamp then max_data_bits else data_count
  let data_blks := if clamp then data_count else data_blks
  { s with
    magic := h.NEWFS_MAGIC, sb_offset := sb_offset, sb_blks := sb_blks,
    ino_map_offset := ino_map_offset, ino_map_blks := ino_map_blks,
    data_map_offset := data_map_offset, data_map_blks := data_map_blks,
    inode_offset := inode_offset, inode_blks := inode_blks, data_offset := data_offset,
    data_blks := data_blks, inode_count := inode_count, data_count := data_count, root_ino := 0 }

/-- The copy of the geometry of `super` into `disk_super`. -/
def super_d_of (s : newfs_super) : newfs_super_d :=
  { magic := s.magic, block_size := s.block_size, sb_offset := s.sb_offset, sb_blks := s.sb_blks,
    ino_map_offset := s.ino_map_offset, ino_map_blks := s.ino_map_blks,
    data_map_offset := s.data_map_offset, data_map_blks := s.data_map_blks,
    inode_offset := s.inode_offset, inode_blks := s.inode_blks, data_offset := s.data_offset,
    data_blks := s.data_blks, inode_count := s.inode_count, data_count := s.data_count,
    root_ino := s.root_ino }

/-- The loops of `newfs_mount` that read a bitmap region: block `off + i` goes to
`map + i * block_size`. -/
def load_map_loop (s : newfs_super) (dev : ddriver) (off : Nat) : Nat → Bytes → Bytes
  | 0, map => map
  | i + 1, map =>
    let map := load_map_loop s dev off i map
    let view := newfs_block_read s dev (off + i) (fun k => map (i * s.block_size + k))
    fun k => if i * s.block_size ≤ k then view (k - i * s.block_size) else map k

/-- The state of `super` in `newfs_mount` when the block count is tested. -/
def mount_super (dev : ddriver) : newfs_super :=
  let s : newfs_super := { zero_super with io_size := dev.io_size, disk_size := dev.disk_size }
  let s := { s with block_size := NEWFS_BLOCK_SIZE }
  { s with block_count := s.disk_size / s.block_size }

/-- The local `is_init` of `newfs_mount`: the superblock cannot be read or its magic
is not `NEWFS_MAGIC`. -/
def mount_is_init (h : newfs_h) (dev : ddriver) : Bool :=
  match newfs_disk_read (mount_super dev) dev 0 stack_buf SIZEOF_SUPER_D with
  | .error _ => true
  | .ok buf => (super_d_at buf).magic != h.NEWFS_MAGIC

/-- The statements of the format path of `newfs_mount` once `newfs_alloc_inode` has
returned `r`, leaving state `st`: the root inode is written, `root_ino` is recorded,
the superblock `disk_super` and both bitmaps are written. -/
def mount_format_root (h : newfs_h) (disk_super : newfs_super_d) (r : Except Errno Nat)
    (st : newfs) : newfs :=
  let root_ino : Nat := match r with
    | .ok i => i
    | .error _ => 4294967268
  let root_inode : newfs_inode :=
    { ino := root_ino, mode := u32 (S_IFDIR ||| h.NEWFS_DEFAULT_PERM), size := 0, links := 1,
      blocks := List.replicate NEWFS_DIRECT_NUM 0, dentry := false, first_child := [],
      data := none, children_loaded := false }
  let st : newfs := { st with dev := (newfs_write_inode st.super st.dev root_inode).2 }
  let st : newfs := { st with super := { st.super with root_ino := root_ino } }
  let disk_super := { disk_super with root_ino := st.super.root_ino }
  let st : newfs := { st with
    dev := match newfs_sync_super st.super st.dev disk_super with
      | .ok dev => dev
      | .error _ => st.dev }
  let st := newfs_flush_inode_map st
  newfs_flush_data_map st

/-- The format path of `newfs_mount`: the branch `if (is_init) { ... }`, the bitmaps,
the root inode, the superblock and bitmap writes, and `newfs_prepare_root`. -/
def mount_format (h : newfs_h) (s : newfs_super) (dev : ddriver) : Except Errno Unit × newfs :=
  let s := format_geometry h s
  let disk_super := super_d_of s
  let s := { s with inode_map := fun _ => 0, data_map := fun _ => 0 }
  let a := newfs_alloc_inode { super := s, dev := dev }
  newfs_prepare_root h (mount_format_root h disk_super a.1 a.2)

/-- The load path of `newfs_mount`: `newfs_load_super`, the bitmaps read from their
regions, and `newfs_prepare_root`. -/
def mount_load (h : newfs_h) (s : newfs_super) (dev : ddriver) (disk_super : newfs_super_d) :
    Except Errno Unit × newfs :=
  let s := newfs_load_super s disk_super
  let s := { s with
    inode_map := load_map_loop s dev s.ino_map_offset s.ino_map_blks (fun _ => 0)
    data_map := load_map_loop s dev s.data_map_offset s.data_map_blks (fun _ => 0) }
  newfs_prepare_root h { super := s, dev := dev }

/-- The function `newfs_mount`, on the device the options name. -/
def newfs_mount (h : newfs_h) (dev : ddriver) : Except Errno Unit × newfs :=
  let s := mount_super dev
  if s.block_count < 5 then (.error .ENOSPC, { super := s, dev := dev })
  else if mount_is_init h dev then mount_format h s dev
  else
    match newfs_disk_read s dev 0 stack_buf SIZEOF_SUPER_D with
    | .ok buf => mount_load h s dev (super_d_at buf)
    | .error _ => mount_load h s dev (super_d_of zero_super)

/-- The function `newfs_umount`: the tree and the bitmaps are freed and the device is
closed; what remains is the device. -/
def newfs_umount (st : newfs) : ddriver := st.dev

/-! ## Request sequences and scenarios used in the statements -/

/-- The rollback statements applied to the data bitmap: the bit of block `blk` is
cleared and the bitmap is flushed. -/
def data_free (st : newfs) (blk : Nat) : newfs :=
  newfs_flush_data_map
    { st with super := { st.super with
        data_map := bitmap_clear st.super.data_map (blk - st.super.data_offset) } }

/-- A request to an allocator: allocate, or free the given index. -/
inductive alloc_op where
  | alloc
  | free (i : Nat)

/-- Runs requests against the inode allocator.  `live` holds the indices returned and
not freed since; a free of an index that is not live is skipped.  The result is
`true` when no allocation returned an index that was live. -/
def inode_ops_unique : List alloc_op → newfs → List Nat → Bool
  | [], _, _ => true
  | .alloc :: ops, st, live =>
    match newfs_alloc_inode st with
    | (.ok i, st) => !live.contains i && inode_ops_unique ops st (i :: live)
    | (.error _, st) => inode_ops_unique ops st live
  | .free i :: ops, st, live =>
    if live.contains i then inode_ops_unique ops (inode_free st i) (live.erase i)
    else inode_ops_unique ops st live

/-- The same run against the data-block allocator, on block numbers. -/
def data_ops_unique : List alloc_op → newfs → List Nat → Bool
  | [], _, _ => true
  | .alloc :: ops, st, live =>
    match newfs_alloc_data_block st with
    | (.ok b, st) => !live.contains b && data_ops_unique ops st (b :: live)
    | (.error _, st) => data_ops_unique ops st live
  | .free b :: ops, st, live =>
    if live.contains b then data_ops_unique ops (data_free st b) (live.erase b)
    else data_ops_unique ops st live

/-- A header for the scenarios: a magic and the permission bits `0777`. -/
def hdr : newfs_h := { NEWFS_MAGIC := 0x52415453, NEWFS_DEFAULT_PERM := 0o777 }

/-- A blank device of 64 blocks of 1024 bytes with a transfer unit of 512 bytes. -/
def dev64 : ddriver := { io_size := 512, disk_size := 65536, data := fun _ => 0 }

/-- A blank device of 5 blocks: after format it has a single data block. -/
def dev5 : ddriver := { io_size := 512, disk_size := 5120, data := fun _ => 0 }

/-- The 64-block volume, freshly formatted and mounted. -/
def vol64 : newfs := (newfs_mount hdr dev64).2

/-- The 5-block volume, freshly formatted and mounted. -/
def vol5 : newfs := (newfs_mount hdr dev5).2

/-- The inode `ino` as `newfs_read_inode` returns it from the device: no dentry, no
children, not loaded (an inode of size 0 when the read fails). -/
def reread_inode (st : newfs) (ino : Nat) : newfs_inode :=
  match newfs_read_inode st.super st.dev ino with
  | .ok inode => inode
  | .error _ =>
    { ino := ino, mode := 0, size := 0, links := 0, blocks := [], dentry := false,
      first_child := [], data := none, children_loaded := false }

/-- What an entry of a sibling list shows: name, inode number, mode. -/
def entry_view (d : newfs_dentry) : List Nat × Nat × Nat := (d.name, d.ino, d.mode)

/-- The sibling list that a fresh `newfs_load_dir_children` builds for inode `ino`
from the device, head first. -/
def fresh_children (st : newfs) (ino : Nat) : List (List Nat × Nat × Nat) :=
  (newfs_load_dir_children st.super st.dev (reread_inode st ino)).2.first_child.map entry_view

/-- The sibling list of the root directory held in memory, head first. -/
def cached_root_children (st : newfs) : List (List Nat × Nat × Nat) :=
  match st.super.root_dentry with
  | none => []
  | some root =>
    match root.inode with
    | none => []
    | some inode => inode.first_child.map entry_view

/-- The entry that `newfs_find_child_dentry` returns for `name` after a fresh
`newfs_load_dir_children` of inode `ino` from the device. -/
def fresh_find (st : newfs) (ino : Nat) (name : List Nat) : Option (List Nat × Nat × Nat) :=
  (newfs_find_child_dentry
    (newfs_load_dir_children st.super st.dev (reread_inode st ino)).2 name).map entry_view

/-- Inserts the names in order into `dir` with `newfs_add_dentry`, entry `k` of the
run with inode number `ino0 + k`, no child inode supplied: the results in order, the
directory inode left and the state left. -/
def add_all (mode : Nat) : List (List Nat) → Nat → newfs_inode → newfs →
    List (Except Errno Unit) × newfs_inode × newfs
  | [], _, dir, st => ([], dir, st)
  | n :: ns, ino0, dir, st =>
    match newfs_add_dentry st dir n ino0 mode none with
    | (r, dir, st) =>
      match add_all mode ns (ino0 + 1) dir st with
      | (rs, dir, st) => (r :: rs, dir, st)

/-- The two-letter name number `k`: `aa`, `ab`, ... -/
def name2 (k : Nat) : List Nat := [97 + k / 26, 97 + k % 26]

/-- The first `n` two-letter names. -/
def names2 (n : Nat) : List (List Nat) := (List.range n).map name2

/-- The path `/` followed by a name. -/
def in_root (name : List Nat) : List Nat := 47 :: name

/-- Runs `newfs_mknod` on the paths in order: the results and the state left. -/
def mknod_all (h : newfs_h) : List (List Nat) → newfs → List (Except Errno Unit) × newfs
  | [], st => ([], st)
  | p :: ps, st =>
    match newfs_mknod h st p with
    | (r, st) =>
      match mknod_all h ps st with
      | (rs, st) => (r :: rs, st)

/-- A regular-file mode for the scenarios: `S_IFREG | 0644`. -/
def mode_reg : Nat := 0o100644

/-- The root directory of the fresh 64-block volume after 60 insertions. -/
def dir60 : List (Except Errno Unit) × newfs_inode × newfs :=
  add_all mode_reg (names2 60) 1 (reread_inode vol64 0) vol64

/-- The root directory of the fresh 64-block volume after 7 insertions. -/
def dir7 : List (Except Errno Unit) × newfs_inode × newfs :=
  add_all mode_reg (names2 7) 1 (reread_inode vol64 0) vol64

/-- The state and directory after the 61st insertion into `dir60`. -/
def dir61 : Except Errno Unit × newfs_inode × newfs :=
  newfs_add_dentry dir60.2.2 dir60.2.1 [122] 61 mode_reg none

/-- The insertion of the name `a` with inode number `ino` as the 8th entry of `dir7`. -/
def dir7_add (ino mode : Nat) : Except Errno Unit × newfs_inode × newfs :=
  newfs_add_dentry dir7.2.2 dir7.2.1 [97] ino mode none

/-- Seven two-letter names followed by a name of 100 letters `x`. -/
def names_long8 : List (List Nat) := names2 7 ++ [List.replicate 100 120]

/-- The fresh 64-block volume after `newfs_mknod` of `/aa`, ..., `/ah`. -/
def vol64_8files : List (Except Errno Unit) × newfs :=
  mknod_all hdr ((names2 8).map in_root) vol64

/-- Two states agree on the device and on `super` apart from the dentry tree. -/
def same_but_tree (st st' : newfs) : Prop :=
  st'.dev = st.dev ∧ st'.super = { st.super with root_dentry := st'.super.root_dentry }

/-- What a rolled-back creation leaves, from state `st` to state `out`, when the
inode index `i` had been allocated: the inode bitmap in memory is the one before
the call, the inode-bitmap region of the device is byte for byte the one before
the call, bit `i` is clear, and the next `newfs_alloc_inode` returns `i`. -/
def rolled_back (st out : newfs) (i : Nat) : Prop :=
  out.super.inode_map = st.super.inode_map ∧
  (∀ k, k < st.super.ino_map_blks * st.super.block_size →
    out.dev.data (st.super.ino_map_offset * st.super.block_size + k)
      = st.dev.data (st.super.ino_map_offset * st.super.block_size + k)) ∧
  bitmap_test out.super.inode_map i = false ∧
  (newfs_alloc_inode out).1 = .ok i

/-- The inode-bitmap region of the device holds the in-memory inode bitmap. -/
def ino_map_synced (st : newfs) : Prop :=
  ∀ k, k < st.super.ino_map_blks * st.super.block_size →
    st.dev.data (st.super.ino_map_offset * st.super.block_size + k) = st.super.inode_map k

/-- The path `/d`. -/
def path_d : List Nat := [47, 100]

/-- The path `/d/f`. -/
def path_d_f : List Nat := [47, 100, 47, 102]

/-- The fresh 5-block volume after `newfs_mkdir("/d")`: the first entry of the root
has taken the only data block. -/
def vol5_d : newfs := (newfs_mkdir hdr vol5 path_d).2

/-- A blank device of 16384 blocks: more blocks than the data bitmap has bits. -/
def dev16k : ddriver := { io_size := 512, disk_size := 16777216, data := fun _ => 0 }

/-- Two devices have the same transfer unit and capacity. -/
def same_sizes (d d' : ddriver) : Prop := d'.io_size = d.io_size ∧ d'.disk_size = d.disk_size

/-- A device of 64 blocks whose every byte is `0xAA`: an unformatted device with
old content. -/
def dev_aa : ddriver := { io_size := 512, disk_size := 65536, data := fun _ => 170 }

/-- The volume that `newfs_mount` makes of `dev_aa` (the magic does not match, so the
device is formatted). -/
def vol_aa : newfs := (newfs_mount hdr dev_aa).2

/-- The device address of the record of inode `ino`: block
`inode_offset + ino / inodes_per_block`, offset `(ino % inodes_per_block) * 44`. -/
def inode_addr (s : newfs_super) (ino : Nat) : Nat :=
  (s.inode_offset + ino / newfs_inodes_per_block s) * s.block_size
    + (ino % newfs_inodes_per_block s) * SIZEOF_INODE_D

/-- The fields of an in-memory inode fit their `uint32_t` fields and `blocks` has its
8 slots. -/
def inode_fits (node : newfs_inode) : Prop :=
  node.mode < 4294967296 ∧ node.size < 4294967296 ∧ node.links < 4294967296 ∧
  node.blocks.length = NEWFS_DIRECT_NUM ∧ ∀ b, b ∈ node.blocks → b < 4294967296

/-- An inode for the scenarios: number 5, a regular file of 272 bytes with two
blocks. -/
def node5 : newfs_inode :=
  { ino := 5, mode := mode_reg, size := 272, links := 1, blocks := [4, 5, 0, 0, 0, 0, 0, 0],
    dentry := false, first_child := [], data := none, children_loaded := false }

/-- The inode `root_inode` that the format path of `newfs_mount` writes. -/
def format_root_inode (h : newfs_h) : newfs_inode :=
  { ino := 0, mode := u32 (S_IFDIR ||| h.NEWFS_DEFAULT_PERM), size := 0, links := 1,
    blocks := List.replicate NEWFS_DIRECT_NUM 0, dentry := false, first_child := [],
    data := none, children_loaded := false }

/-- The state of the format path of `newfs_mount` when `newfs_alloc_inode` is
called: the geometry is set and both bitmaps are zeroed. -/
def format_start (h : newfs_h) (dev : ddriver) : newfs :=
  { super := { format_geometry h (mount_super dev) with
      inode_map := fun _ => 0, data_map := fun _ => 0 }, dev := dev }

/-- The geometry that the format path of `newfs_mount` lays out, with a transfer unit
that divides the block size: blocks 0, 1, 2, 3 are the superblock, the inode bitmap,
the data bitmap and the inode table (23 records), the data blocks start at block 4. -/
def formatted (s : newfs_super) : Prop :=
  s.io_size ∣ s.block_size ∧ s.block_size = NEWFS_BLOCK_SIZE ∧
  s.ino_map_offset = 1 ∧ s.ino_map_blks = 1 ∧ s.data_map_offset = 2 ∧ s.data_map_blks = 1 ∧
  s.inode_offset = 3 ∧ s.data_offset = 4 ∧ s.inode_count = 23 ∧ s.data_count ≤ 8192

/-- The inode-bitmap region of the device, as a byte store. -/
def ino_map_region (st : newfs) : Bytes := fun k =>
  st.dev.data (st.super.ino_map_offset * st.super.block_size + k)

/-- The data-bitmap region of the device, as a byte store. -/
def data_map_region (st : newfs) : Bytes := fun k =>
  st.dev.data (st.super.data_map_offset * st.super.block_size + k)

/-- The data-bitmap region of the device holds the in-memory data bitmap. -/
def data_map_synced (st : newfs) : Prop :=
  ∀ k, k < st.super.data_map_blks * st.super.block_size →
    st.dev.data (st.super.data_map_offset * st.super.block_size + k) = st.super.data_map k

/-- Both bitmap regions of the device hold the in-memory bitmaps, byte for byte. -/
def maps_synced (st : newfs) : Prop := ino_map_synced st ∧ data_map_synced st

/-- A call of the session: one of the two allocators, `newfs_mkdir` or `newfs_mknod`. -/
inductive fs_op where
  | alloc_inode
  | alloc_data_block
  | mkdir (path : List Nat)
  | mknod (path : List Nat)

/-- The state a call leaves. -/
def run_op (h : newfs_h) (st : newfs) : fs_op → newfs
  | .alloc_inode => (newfs_alloc_inode st).2
  | .alloc_data_block => (newfs_alloc_data_block st).2
  | .mkdir path => (newfs_mkdir h st path).2
  | .mknod path => (newfs_mknod h st path).2

/-- The state a sequence of calls leaves. -/
def run_ops (h : newfs_h) : List fs_op → newfs → newfs
  | [], st => st
  | op :: ops, st => run_ops h ops (run_op h st op)

/-- An inode of the session tree is well formed: it has its 8 block slots, each 0 or a
block of the data region (from block `lo` on), and if its children are not loaded it
has none in memory and none on the device (`size` below one entry). -/
def inode_ok (lo : Nat) (inode : newfs_inode) : Prop :=
  inode.blocks.length = NEWFS_DIRECT_NUM ∧ (∀ b, b ∈ inode.blocks → b = 0 ∨ lo ≤ b) ∧
  (inode.children_loaded = false → inode.first_child = [] ∧ inode.size < SIZEOF_DENTRY_D)

/-- A dentry tree built in memory by the session: every dentry owns its inode, and
every inode is well formed. -/
inductive tree_ok (lo : Nat) : newfs_dentry → Prop where
  | mk (name : List Nat) (ino mode : Nat) (inode : newfs_inode) :
      inode_ok lo inode → (∀ c, c ∈ inode.first_child → tree_ok lo c) →
      tree_ok lo (.mk name ino mode (some inode))

/-- The dentry `d` is `root` or is reachable from `root` through sibling lists. -/
inductive in_tree : newfs_dentry → newfs_dentry → Prop where
  | self (d : newfs_dentry) : in_tree d d
  | child (name : List Nat) (ino mode : Nat) (inode : newfs_inode) (c d : newfs_dentry) :
      c ∈ inode.first_child → in_tree c d → in_tree (.mk name ino mode (some inode)) d

/-- The inode number `i` is that of `root` or of a dentry reachable from it. -/
def has_ino (root : newfs_dentry) (i : Nat) : Prop :=
  ∃ d, in_tree root d ∧ d.ino = i

/-- Block `b` is a direct-block pointer of a directory inode of `root` or of a dentry
reachable from it. -/
def has_blk (root : newfs_dentry) (b : Nat) : Prop :=
  ∃ d inode, in_tree root d ∧ d.inode = some inode ∧ S_ISDIR inode.mode = true ∧ b ∈ inode.blocks

/-- The bitmap liveness invariant of a state: every set bit of the inode bitmap is
the inode number of the root or of a dentry reachable from it, and every set bit `j`
of the data bitmap is the block `data_offset + j` of a reachable directory inode. -/
def bitmaps_live (st : newfs) : Prop :=
  ∃ root, st.super.root_dentry = some root ∧
    (∀ i, bitmap_test st.super.inode_map i = true → has_ino root i) ∧
    (∀ j, bitmap_test st.super.data_map j = true → has_blk root (st.super.data_offset + j))

/-- The state a sequence of `newfs_mkdir` (`true`) and `newfs_mknod` (`false`) calls
leaves. -/
def run_creates (h : newfs_h) : List (Bool × List Nat) → newfs → newfs
  | [], st => st
  | (true, path) :: ops, st => run_creates h ops (newfs_mkdir h st path).2
  | (false, path) :: ops, st => run_creates h ops (newfs_mknod h st path).2

/-- Nothing reachable is lost from `d` to `d'`: every inode number of `d` and every
non-zero block of a directory inode of `d` is one of `d'`. -/
def grows (d d' : newfs_dentry) : Prop :=
  (∀ i, has_ino d i → has_ino d' i) ∧ (∀ b, b ≠ 0 → has_blk d b → has_blk d' b)

/-- The state of a session begun by formatting: the geometry is the formatted one and
the tree is one built in memory. -/
def session_ok (st : newfs) : Prop :=
  formatted st.super ∧ ∃ root, st.super.root_dentry = some root ∧ tree_ok 4 root

/-- The bytes of blocks 0, 1 and 2 (superblock and bitmaps) are the same on both
devices. -/
def low_kept (dev dev' : ddriver) : Prop := ∀ a, a < 3072 → dev'.data a = dev.data a

/-- The child dentry that `newfs_add_dentry` links when a child inode is given. -/
def add_dentry_child (name : List Nat) (ino mode : Nat) (ci : newfs_inode) : newfs_dentry :=
  .mk (name.take (MAX_NAME_LEN - 1)) ino mode (some { ci with dentry := true })

/-- The record that `newfs_add_dentry` writes. -/
def add_dentry_entry (name : List Nat) (ino mode : Nat) : newfs_dentry_d :=
  { name := strncpy_bytes name (MAX_NAME_LEN - 1), ino := ino, mode := mode }

/-- The directory inode once slot `bi` has been given block `b`. -/
def dir_with_block (dir : newfs_inode) (bi b : Nat) : newfs_inode :=
  { dir with blocks := dir.blocks.set bi b }

/-- The state of `newfs_mkdir` / `newfs_mknod` when `newfs_add_dentry` is called,
`newfs_alloc_inode` having returned `i`: the new inode has been written. -/
def create_written (h : newfs_h) (ifmt : Nat) (st : newfs) (i : Nat) : newfs :=
  { (newfs_alloc_inode st).2 with
    dev := (newfs_write_inode (newfs_alloc_inode st).2.super (newfs_alloc_inode st).2.dev
      (new_inode_of h ifmt i)).2 }

/-- The call of `newfs_add_dentry` that `newfs_mkdir` / `newfs_mknod` make,
`newfs_alloc_inode` having returned `i`. -/
def create_add (h : newfs_h) (ifmt : Nat) (st : newfs) (pi : newfs_inode) (name : List Nat)
    (i : Nat) : Except Errno Unit × newfs_inode × newfs :=
  newfs_add_dentry (create_written h ifmt st i) pi name (new_inode_of h ifmt i).ino
    (new_inode_of h ifmt i).mode (some (new_inode_of h ifmt i))

/-- What a `newfs_mkdir` / `newfs_mknod` call does to a session, from state `st` with
tree `root` to state `out`: the geometry is kept; the tree stays a session tree that
has lost nothing; a bit set in a bitmap of `out` was set in `st` or designates
something reachable; no bit set in `st` is cleared; synced bitmaps stay synced. -/
def create_step (st out : newfs) (root : newfs_dentry) : Prop :=
  formatted out.super ∧
  (∃ root', out.super.root_dentry = some root' ∧ tree_ok 4 root' ∧ grows root root' ∧
    (∀ i, bitmap_test out.super.inode_map i = true →
      bitmap_test st.super.inode_map i = true ∨ has_ino root' i) ∧
    (∀ j, bitmap_test out.super.data_map j = true →
      bitmap_test st.super.data_map j = true ∨ has_blk root' (out.super.data_offset + j))) ∧
  (∀ i, bitmap_test st.super.inode_map i = true → bitmap_test out.super.inode_map i = true) ∧
  (∀ j, bitmap_test st.super.data_map j = true → bitmap_test out.super.data_map j = true) ∧
  (maps_synced st → maps_synced out)

/-- No bit set in a bitmap of `st` is clear in `out`. -/
def bits_kept (st out : newfs) : Prop :=
  (∀ i, bitmap_test st.super.inode_map i = true → bitmap_test out.super.inode_map i = true) ∧
  (∀ j, bitmap_test st.super.data_map j = true → bitmap_test out.super.data_map j = true)

/-! ## Stubbed operations -/

/-- The conversion `(int)size` of a `size_t` to a 32-bit `int`. -/
def int_of_size (size : Nat) : Int :=
  if size % 4294967296 < 2147483648 then ((size % 4294967296 : Nat) : Int)
  else ((size % 4294967296 : Nat) : Int) - 4294967296

/-- The function `newfs_write(path, buf, size, offset, fi)`: the `int` it returns and
the state left.  An `int` result is `.error e` for `-e` and `.ok v` for a value `v`
that the code does not build from an error number. -/
def newfs_write (st : newfs) (_path _buf : List Nat) (size : Nat) (_offset : Int) :
    Except Errno Int × newfs :=
  (.ok (int_of_size size), st)

/-- The function `newfs_read(path, buf, size, offset, fi)`. -/
def newfs_read (st : newfs) (_path _buf : List Nat) (_size : Nat) (_offset : Int) :
    Except Errno Int × newfs :=
  (.ok 0, st)

/-- The function `newfs_unlink(path)`. -/
def newfs_unlink (st : newfs) (_path : List Nat) : Except Errno Int × newfs :=
  (.error .ENOSYS, st)

/-- The function `newfs_rmdir(path)`. -/
def newfs_rmdir (st : newfs) (_path : List Nat) : Except Errno Int × newfs :=
  (.error .ENOSYS, st)

/-- The function `newfs_rename(from, to)`. -/
def newfs_rename (st : newfs) (_src _dst : List Nat) : Except Errno Int × newfs :=
  (.error .ENOSYS, st)

/-- The function `newfs_truncate(path, offset)`. -/
def newfs_truncate (st : newfs) (_path : List Nat) (_offset : Int) : Except Errno Int × newfs :=
  (.ok 0, st)

/-! ## Block transfers by units -/

/-- The device positions of the transfers of one logical block, in the words of the
specification: `block_size / io_size` positions `index * block_size + k * io_size`,
in ascending order of `k`. -/
def unit_positions (s : newfs_super) (index : Nat) : List Nat :=
  (List.range (s.block_size / s.io_size)).map (fun k => index * s.block_size + k * s.io_size)

/-- Reads one transfer unit at each position of the list in turn, the unit at
position `pos` going to `buf + (pos - base)`. -/
def read_units (dev : ddriver) (io_sz base : Nat) (positions : List Nat) (buf : Bytes) : Bytes :=
  positions.foldl (fun b pos => ddriver_read dev pos b (pos - base) io_sz) buf

/-- Writes one transfer unit at each position of the list in turn, the unit at
position `pos` coming from `buf + (pos - base)`. -/
def write_units (io_sz base : Nat) (positions : List Nat) (buf : Bytes) (dev : ddriver) : ddriver :=
  positions.foldl (fun d pos => ddriver_write d pos buf (pos - base) io_sz) dev

/-! ## Attributes and listing (`newfs_getattr`, `newfs_readdir`) -/

/-- The fields of `struct stat` that `newfs_getattr` takes from the engine; the
owner and the three times come from the process and the clock. -/
structure newfs_stat where
  st_blksize : Nat
  st_mode : Nat
  st_ino : Nat
  st_size : Nat
  st_blocks : Nat
  st_nlink : Nat
  deriving DecidableEq, Repr

/-- The dentry a pointer designates in the tree of a state (NULL without a root). -/
def state_dentry (st : newfs) (ptr : List Nat) : Option newfs_dentry :=
  st.super.root_dentry.bind (fun root => dentry_at root ptr)

/-- The function `newfs_getattr(path, newfs_stat)`: the attributes and the state left.
The test `dentry == super.root_dentry` is the test that the pointer is the empty one. -/
def newfs_getattr (st : newfs) (path : List Nat) : Except Errno newfs_stat × newfs :=
  match newfs_path_dentry st path with
  | (.error e, st) => (.error e, st)
  | (.ok ptr, st) =>
    match state_dentry st ptr with
    | none => (.error .ENOENT, st)
    | some dentry =>
      match newfs_get_inode_from_dentry st.super st.dev dentry with
      | (.error e, _) => (.error e, st)
      | (.ok inode, dentry) =>
        (.ok { st_blksize := st.super.block_size
               st_mode := inode.mode
               st_ino := inode.ino
               st_size := inode.size
               st_blocks := ((inode.size + st.super.io_size + 4294967295) % 4294967296) / st.super.io_size
               st_nlink := if ptr = [] then 2 else if inode.links ≠ 0 then inode.links else 1 },
          put_parent st ptr dentry)

/-- The `while (child)` loop of `newfs_readdir` from index `idx`: the calls
`filler(buf, name, NULL, idx + 1)` it makes, in order, as pairs of name and next
offset. -/
def readdir_fill (offset : Nat) : Nat → List newfs_dentry → List (List Nat × Nat)
  | _, [] => []
  | idx, child :: rest =>
    if idx ≥ offset then (child.name, u32 (idx + 1)) :: readdir_fill offset (u32 (idx + 1)) rest
    else readdir_fill offset (u32 (idx + 1)) rest

/-- The function `newfs_readdir(path, buf, filler, offset, fi)`: the calls of `filler`
in order, and the state left. -/
def newfs_readdir (st : newfs) (path : List Nat) (offset : Int) :
    Except Errno (List (List Nat × Nat)) × newfs :=
  match newfs_path_dentry st path with
  | (.error e, st) => (.error e, st)
  | (.ok ptr, st) =>
    match state_dentry st ptr with
    | none => (.error .ENOENT, st)
    | some dir_dentry =>
      match newfs_get_inode_from_dentry st.super st.dev dir_dentry with
      | (.error e, _) => (.error e, st)
      | (.ok dir_inode, dir_dentry) =>
        if !S_ISDIR dir_inode.mode then (.error .ENOTDIR, put_parent st ptr dir_dentry)
        else
          let dir_inode := (newfs_load_dir_children st.super st.dev dir_inode).2
          (.ok (readdir_fill (offset % 4294967296).toNat 0 dir_inode.first_child),
            put_parent st ptr (dir_dentry.with_inode dir_inode))

/-! ## The entries of a tree -/

mutual
/-- The entries of a tree as name, inode number and mode: the root first, then the
subtree of each child in sibling order. -/
def tree_entries : newfs_dentry → List (List Nat × Nat × Nat)
  | .mk name ino mode none => [(name, ino, mode)]
  | .mk name ino mode (some i) => (name, ino, mode) :: forest_entries i.first_child
/-- The entries of the trees of a sibling list, in order. -/
def forest_entries : List newfs_dentry → List (List Nat × Nat × Nat)
  | [] => []
  | c :: cs => tree_entries c ++ forest_entries cs
end

/-- The inode numbers of the entries of a tree, with repetitions. -/
def tree_inos (d : newfs_dentry) : List Nat := (tree_entries d).map (fun e => e.2.1)

/-- Every name of the tree fits the field `char name[MAX_NAME_LEN]` with its NUL. -/
def names_fit (d : newfs_dentry) : Prop :=
  ∀ e, e ∈ tree_entries d → e.1.length < MAX_NAME_LEN

/-- In the words of the specification: starting at `d`, for each segment in order,
the first child of the current directory whose name is exactly the segment. -/
def walk : List (List Nat) → newfs_dentry → Option newfs_dentry
  | [], d => some d
  | seg :: rest, d =>
    match d.inode with
    | none => none
    | some i =>
      match i.first_child.find? (fun c => c.name == seg) with
      | none => none
      | some c => walk rest c

/-- The entries of the tree of a state. -/
def state_entries (st : newfs) : List (List Nat × Nat × Nat) :=
  match st.super.root_dentry with
  | none => []
  | some root => tree_entries root

/-- A path `/` followed by 128 letters `x`. -/
def path_x128 : List Nat := 47 :: List.replicate 128 120

/-- The fresh 64-block volume after `newfs_mkdir("/d")` and `newfs_mknod("/d/f")`. -/
def vol64_d_f : newfs := (newfs_mknod hdr (newfs_mkdir hdr vol64 path_d).2 path_d_f).2

/-- The inode numbers of the entries of the tree of a state, with repetitions. -/
def state_inos (st : newfs) : List Nat := (state_entries st).map (fun e => e.2.1)

/-- The tree of a state is a session tree whose names fit the name field. -/
def session_tree (st : newfs) : Prop :=
  ∃ root, st.super.root_dentry = some root ∧ tree_ok 4 root ∧ names_fit root

/-- The dentry that the walk by exact names reaches from the root of a state. -/
def state_walk (st : newfs) (segs : List (List Nat)) : Option newfs_dentry :=
  st.super.root_dentry.bind (walk segs)

/-- A session whose names fit, whose entries all have their inode bit set and no two
of whose entries share an inode number. -/
def fresh_session (st : newfs) : Prop :=
  session_ok st ∧ session_tree st ∧
  (∀ i, i ∈ state_inos st → bitmap_test st.super.inode_map i = true) ∧
  (state_inos st).Nodup

/-- The names of the children, in sibling order, of the directory that the walk by
exact names reaches from the root of a state; none when the walk reaches nothing or
what it reaches is not a directory. -/
def state_listing (st : newfs) (segs : List (List Nat)) : Option (List (List Nat)) :=
  (state_walk st segs).bind (fun d =>
    d.inode.bind (fun i =>
      if S_ISDIR i.mode then some (i.first_child.map newfs_dentry.name) else none))

/-- The root dentry of the state has its inode, as after every mount. -/
def root_resolved (st : newfs) : Bool :=
  match st.super.root_dentry with
  | none => false
  | some root => root.inode.isSome

/-! ## Access checks (`newfs_path_resolve`, `newfs_access`) -/

/-- The function `newfs_path_resolve(path, inode)`: the copy `*inode` of the inode
found, with its navigation fields cleared, and the state left. -/
def newfs_path_resolve (st : newfs) (path : List Nat) : Except Errno newfs_inode × newfs :=
  match newfs_path_dentry st path with
  | (.error e, st) => (.error e, st)
  | (.ok ptr, st) =>
    match state_dentry st ptr with
    | none => (.error .ENOENT, st)
    | some dentry =>
      match newfs_get_inode_from_dentry st.super st.dev dentry with
      | (.error e, _) => (.error e, st)
      | (.ok found, dentry) =>
        (.ok { found with dentry := false, first_child := [], data := none, children_loaded := false },
          put_parent st ptr dentry)

/-- The function `newfs_access(path, type)`: the result of `newfs_path_resolve`. -/
def newfs_access (st : newfs) (path : List Nat) (_type : Int) : Except Errno Unit × newfs :=
  match newfs_path_resolve st path with
  | (.error e, st) => (.error e, st)
  | (.ok _, st) => (.ok (), st)

/-- The state with the bytes of its device replaced. -/
def with_data (st : newfs) (data : Bytes) : newfs :=
  { st with dev := { st.dev with data := data } }

/-- A `super` with the geometry that the format path of `newfs_mount` computes for the
device `dev`, and any bitmaps and tree. -/
def format_super (h : newfs_h) (dev : ddriver) (m1 m2 : Bytes) (r : Option newfs_dentry) :
    newfs_super :=
  { format_geometry h (mount_super dev) with inode_map := m1, data_map := m2, root_dentry := r }

/-- The walk by exact names from the root of a state reaches an entry whose inode is
not a directory. -/
def state_is_file (st : newfs) (segs : List (List Nat)) : Bool :=
  match state_walk st segs with
  | none => false
  | some f =>
    match f.inode with
    | none => false
    | some fi => !S_ISDIR fi.mode

/-! ## What the dentries of a tree hold -/

mutual
/-- Collects what `f` gives for every dentry of a tree: the root first, then the
subtree of each child in sibling order. -/
def tree_fold {α : Type} (f : newfs_dentry → List α) : newfs_dentry → List α
  | .mk name ino mode none => f (.mk name ino mode none)
  | .mk name ino mode (some i) => f (.mk name ino mode (some i)) ++ forest_fold f i.first_child
/-- Collects what `f` gives for every dentry of the trees of a sibling list. -/
def forest_fold {α : Type} (f : newfs_dentry → List α) : List newfs_dentry → List α
  | [] => []
  | c :: cs => tree_fold f c ++ forest_fold f cs
end

/-- What `f` gives for a dentry depends neither on the flag `children_loaded` of its
inode nor on which dentries its sibling list holds, only on how many. -/
def node_stable {α : Type} (f : newfs_dentry → List α) : Prop :=
  ∀ (d : newfs_dentry) (ci : newfs_inode) (l : List newfs_dentry) (b : Bool),
    l.length = ci.first_child.length →
    f (d.with_inode { ci with first_child := l, children_loaded := b }) = f (d.with_inode ci)

/-- The non-zero direct-block pointers of the inode of a dentry, slot by slot. -/
def own_blocks (d : newfs_dentry) : List Nat :=
  match d.inode with
  | none => []
  | some i => i.blocks.filter (fun b => b != 0)

/-- The non-zero direct-block pointers of all the inodes of a tree, one occurrence
for each inode and slot. -/
def tree_blocks (d : newfs_dentry) : List Nat := tree_fold own_blocks d

/-- What `f` gives for every dentry of the tree of a state. -/
def state_fold {α : Type} (f : newfs_dentry → List α) (st : newfs) : List α :=
  match st.super.root_dentry with
  | none => []
  | some root => tree_fold f root

/-- The non-zero direct-block pointers of all the inodes of the tree of a state. -/
def state_blocks (st : newfs) : List Nat := state_fold own_blocks st

/-- One mark for each child in memory of a dentry whose inode is not a directory. -/
def own_file_kids (d : newfs_dentry) : List Unit :=
  match d.inode with
  | none => []
  | some i => if S_ISDIR i.mode then [] else List.replicate i.first_child.length ()

/-- One mark for each child in memory of a non-directory of the tree of a state. -/
def state_file_kids (st : newfs) : List Unit := state_fold own_file_kids st

/-- No entry of the tree of the state whose inode is not a directory has children
in memory. -/
def files_childless (st : newfs) : Prop :=
  ∀ (ptr : List Nat) (d : newfs_dentry) (i : newfs_inode),
    state_dentry st ptr = some d → d.inode = some i → S_ISDIR i.mode = false → i.first_child = []

/-- Every block pointer of the tree has its bit set in the data bitmap, and no block
is pointed to twice. -/
def blocks_owned (st : newfs) : Prop :=
  (state_blocks st).Nodup ∧
  ∀ b, b ∈ state_blocks st → 4 ≤ b ∧ bitmap_test st.super.data_map (b - 4) = true

/-- The bytes of the data region (from block 4 on) outside block `blk` are the same
on both devices; with `blk = 0` the whole data region is. -/
def data_kept_but (blk : Nat) (dev dev' : ddriver) : Prop :=
  ∀ a, 4096 ≤ a → (a < blk * 1024 ∨ blk * 1024 + 1024 ≤ a) → dev'.data a = dev.data a

/-- A session begun by formatting in which every block pointer of the tree is owned
once and marked, and no entry that is not a directory has children. -/
def kept_session (st : newfs) : Prop :=
  session_ok st ∧ blocks_owned st ∧ state_file_kids st = []

/-! ## Records inside the block buffer -/

/-- The record that `newfs_add_dentry` copies for the directory inode `dir` lies inside
the local `char buf[NEWFS_BLOCK_SIZE]`: `blk_off + sizeof(struct newfs_dentry_d)` is at
most `NEWFS_BLOCK_SIZE`, for the entry index `dir->size / sizeof(struct newfs_dentry_d)`. -/
def record_fits (s : newfs_super) (dir : newfs_inode) : Bool :=
  decide (entry_blk_off s (dir.size / SIZEOF_DENTRY_D) + SIZEOF_DENTRY_D ≤ NEWFS_BLOCK_SIZE)

/-- The `memcpy` of the `newfs_add_dentry` call that `newfs_mkdir` / `newfs_mknod` make
for `path` stays inside the block buffer; a path that the lookup refuses reaches no
`newfs_add_dentry`. -/
def create_fits (st : newfs) (path : List Nat) : Bool :=
  match create_lookup st path with
  | (.error _, _) => true
  | (.ok (_, _, parent_inode, _), st) => record_fits st.super parent_inode

/-- Every call of a sequence of `newfs_mkdir` (`true`) and `newfs_mknod` (`false`)
calls keeps its record inside the block buffer. -/
def creates_fit (h : newfs_h) : List (Bool × List Nat) → newfs → Bool
  | [], _ => true
  | (true, path) :: ops, st => create_fits st path && creates_fit h ops (newfs_mkdir h st path).2
  | (false, path) :: ops, st => create_fits st path && creates_fit h ops (newfs_mknod h st path).2

/-- The call keeps its record, if it copies one, inside the block buffer. -/
def op_fits (st : newfs) : fs_op → Bool
  | .alloc_inode => true
  | .alloc_data_block => true
  | .mkdir path => create_fits st path
  | .mknod path => create_fits st path

/-- Every call of a sequence keeps its record inside the block buffer. -/
def ops_fit (h : newfs_h) : List fs_op → newfs → Bool
  | [], _ => true
  | op :: ops, st => op_fits st op && ops_fit h ops (run_op h st op)

/-- The children of a directory once they are loaded: the child list that
`newfs_load_dir_children` leaves on the inode. -/
def loaded_children (s : newfs_super) (dev : ddriver) (i : newfs_inode) : List newfs_dentry :=
  (newfs_load_dir_children s dev i).2.first_child

/-- In the words of the specification: starting at the dentry `cur` with inode `i`,
for each segment in order the children of the current directory are loaded and the
first child whose name is exactly the segment is taken, with the inode it owns or the
one read for it; the first segment that has no such child gives `ENOENT`.  The result
is the dentry reached, with its inode. -/
def lazy_walk (s : newfs_super) (dev : ddriver) :
    List (List Nat) → newfs_dentry → newfs_inode → Except Errno newfs_dentry
  | [], cur, i => .ok (cur.with_inode i)
  | seg :: rest, _, i =>
    match (loaded_children s dev i).find? (fun c => c.name == seg) with
    | none => .error .ENOENT
    | some c =>
      match newfs_get_inode_from_dentry s dev c with
      | (.error e, _) => .error e
      | (.ok ci, c) => lazy_walk s dev rest c ci

/-- The dentry that the walk with lazy loading reaches from the root of a state. -/
def state_lazy_walk (st : newfs) (segs : List (List Nat)) : Except Errno newfs_dentry :=
  match st.super.root_dentry with
  | none => .error .ENOENT
  | some root =>
    match newfs_get_inode_from_dentry st.super st.dev root with
    | (.error e, _) => .error e
    | (.ok ri, root) => lazy_walk st.super st.dev segs root ri

/-- Every name of the tree of the state fits the field `char name[MAX_NAME_LEN]` with
its NUL. -/
def state_names_fit (st : newfs) : Bool :=
  (state_entries st).all (fun e => decide (e.1.length < MAX_NAME_LEN))

/-- The names of the children, in sibling order, of the directory that the walk with
lazy loading reaches from the root of a state, once they are loaded; none when the
walk reaches nothing or what it reaches is not a directory. -/
def lazy_listing (st : newfs) (segs : List (List Nat)) : Option (List (List Nat)) :=
  match state_lazy_walk st segs with
  | .error _ => none
  | .ok d =>
    d.inode.bind (fun i =>
      if S_ISDIR i.mode then
        some ((loaded_children st.super st.dev i).map newfs_dentry.name)
      else none)

/-- The walk with lazy loading reaches, from the root of the state, an entry whose
inode is not a directory. -/
def lazy_is_file (st : newfs) (segs : List (List Nat)) : Bool :=
  match state_lazy_walk st segs with
  | .error _ => false
  | .ok d =>
    match d.inode with
    | none => false
    | some i => !S_ISDIR i.mode

/-- The volume with the tree `/` with `d` with `f`, unmounted and mounted again: the
tree in memory is the root with the entries of its block, nothing below them read. -/
def vol64_d_f_again : newfs := (newfs_mount hdr (newfs_umount vol64_d_f)).2

/-- The dentry has its inode, the names of its tree fit the name field, and no entry
of its tree that is not a directory has children in memory. -/
def tree_sound (d : newfs_dentry) : Prop :=
  d.inode.isSome = true ∧ names_fit d ∧ tree_fold own_file_kids d = []

/-- The root dentry of the state has its inode, the names of the tree in memory fit
the name field, and no entry that is not a directory has children in memory. -/
def state_sound (st : newfs) : Prop :=
  root_resolved st = true ∧ state_names_fit st = true ∧ state_file_kids st = []

/-- A call on a mounted volume: `newfs_path_dentry`, `newfs_getattr`, `newfs_readdir`,
`newfs_access`, `newfs_mkdir` or `newfs_mknod`. -/
inductive fs_call where
  | path_dentry (path : List Nat)
  | getattr (path : List Nat)
  | readdir (path : List Nat) (offset : Int)
  | access (path : List Nat) (type : Int)
  | mkdir (path : List Nat)
  | mknod (path : List Nat)

/-- The state a call on a mounted volume leaves. -/
def run_call (h : newfs_h) (st : newfs) : fs_call → newfs
  | .path_dentry path => (newfs_path_dentry st path).2
  | .getattr path => (newfs_getattr st path).2
  | .readdir path offset => (newfs_readdir st path offset).2
  | .access path type => (newfs_access st path type).2
  | .mkdir path => (newfs_mkdir h st path).2
  | .mknod path => (newfs_mknod h st path).2

/-- The state a sequence of calls on a mounted volume leaves. -/
def run_calls (h : newfs_h) : List fs_call → newfs → newfs
  | [], st => st
  | c :: cs, st => run_calls h cs (run_call h st c)

/-- The call keeps its record, if it copies one, inside the block buffer of
`newfs_add_dentry`. -/
def call_fits (st : newfs) : fs_call → Bool
  | .mkdir path => create_fits st path
  | .mknod path => create_fits st path
  | _ => true

/-- Every call of a sequence on a mounted volume keeps its record inside the block
buffer. -/
def calls_fit (h : newfs_h) : List fs_call → newfs → Bool
  | [], _ => true
  | c :: cs, st => call_fits st c && calls_fit h cs (run_call h st c)

/-! ## Bytes, bits and the allocation scan -/

theorem shift_and_one_eq_testBit (x r : Nat) : (((x >>> r) &&& 1) != 0) = x.testBit r := by
  unfold Nat.testBit
  rw [Nat.and_comm]

theorem byte_test_or (b k r : Nat) (hr : r < 8) :
    (((((b ||| (1 <<< k)) % 256) >>> r) &&& 1) != 0)
      = (decide (r = k) || (((b >>> r) &&& 1) != 0)) := by
  rw [shift_and_one_eq_testBit, shift_and_one_eq_testBit]
  have h256 : (256 : Nat) = 2 ^ 8 := by norm_num
  rw [h256, Nat.testBit_mod_two_pow, Nat.testBit_or, Nat.one_shiftLeft, Nat.testBit_two_pow]
  simp [hr]
  by_cases h : k = r <;> simp [h, eq_comm]

theorem byte_test_clear (b k r : Nat) (hr : r < 8) :
    (((((b &&& (4294967295 ^^^ (1 <<< k))) % 256) >>> r) &&& 1) != 0)
      = (!decide (r = k) && (((b >>> r) &&& 1) != 0)) := by
  rw [shift_and_one_eq_testBit, shift_and_one_eq_testBit]
  have h256 : (256 : Nat) = 2 ^ 8 := by norm_num
  have h32 : (4294967295 : Nat) = 2 ^ 32 - 1 := by norm_num
  rw [h256, Nat.testBit_mod_two_pow, Nat.testBit_and, Nat.testBit_xor, h32,
    Nat.testBit_two_pow_sub_one, Nat.one_shiftLeft, Nat.testBit_two_pow]
  have h : r < 32 := by omega
  simp [hr, h]
  by_cases h : k = r <;> simp [h, eq_comm]

theorem bitmap_test_set (map : Bytes) (i j : Nat) :
    bitmap_test (bitmap_set map i) j = (decide (j = i) || bitmap_test map j) := by
  unfold bitmap_test bitmap_set
  by_cases hb : j / 8 = i / 8
  · have hr : j % 8 < 8 := Nat.mod_lt _ (by norm_num)
    simp only [BITS_PER_BYTE, hb, if_true]
    rw [byte_test_or _ _ _ hr, ← hb]
    congr 2
    apply propext
    constructor <;> intro h <;> omega
  · have hne : j ≠ i := fun h => hb (by rw [h])
    simp [BITS_PER_BYTE, hb, hne]

theorem bitmap_test_clear (map : Bytes) (i j : Nat) :
    bitmap_test (bitmap_clear map i) j = (!decide (j = i) && bitmap_test map j) := by
  unfold bitmap_test bitmap_clear
  by_cases hb : j / 8 = i / 8
  · have hr : j % 8 < 8 := Nat.mod_lt _ (by norm_num)
    simp only [BITS_PER_BYTE, hb, if_true]
    rw [byte_test_clear _ _ _ hr, ← hb]
    congr 3
    apply propext
    constructor <;> intro h <;> omega
  · have hne : j ≠ i := fun h => hb (by rw [h])
    simp [BITS_PER_BYTE, hb, hne]

theorem first_clear_from_some (map : Bytes) (n i r : Nat) :
    first_clear_from map i n = some r ↔
      i ≤ r ∧ r < i + n ∧ bitmap_test map r = false ∧
        ∀ j, i ≤ j → j < r → bitmap_test map j = true := by
  induction n generalizing i with
  | zero => simp [first_clear_from]; intro h1 h2; omega
  | succ n ih =>
    unfold first_clear_from
    by_cases ht : bitmap_test map i = true
    · simp only [ht, Bool.not_true, Bool.false_eq_true, if_false]
      rw [ih]
      constructor
      · rintro ⟨h1, h2, h3, h4⟩
        refine ⟨by omega, by omega, h3, ?_⟩
        intro j hj1 hj2
        by_cases hji : j = i
        · rw [hji]; exact ht
        · exact h4 j (by omega) hj2
      · rintro ⟨h1, h2, h3, h4⟩
        have hne : r ≠ i := by
          intro h; rw [h] at h3; rw [h3] at ht; exact Bool.noConfusion ht
        exact ⟨by omega, by omega, h3, fun j hj1 hj2 => h4 j (by omega) hj2⟩
    · have hf : bitmap_test map i = false := by simpa using ht
      simp only [hf, Bool.not_false, if_true, Option.some.injEq]
      constructor
      · intro h
        subst h
        exact ⟨le_refl _, by omega, hf, fun j hj1 hj2 => by omega⟩
      · rintro ⟨h1, h2, h3, h4⟩
        by_contra hne
        have := h4 i (le_refl _) (by omega)
        rw [hf] at this
        exact Bool.noConfusion this

theorem first_clear_from_none (map : Bytes) (n i : Nat) :
    first_clear_from map i n = none ↔ ∀ j, i ≤ j → j < i + n → bitmap_test map j = true := by
  induction n generalizing i with
  | zero => simp [first_clear_from]; intro j h1 h2; omega
  | succ n ih =>
    unfold first_clear_from
    by_cases ht : bitmap_test map i = true
    · simp only [ht, Bool.not_true, Bool.false_eq_true, if_false]
      rw [ih]
      constructor
      · intro h j hj1 hj2
        by_cases hji : j = i
        · rw [hji]; exact ht
        · exact h j (by omega) (by omega)
      · intro h j hj1 hj2
        exact h j (by omega) (by omega)
    · have hf : bitmap_test map i = false := by simpa using ht
      simp only [hf, Bool.not_false, if_true]
      constructor
      · intro h; exact Option.noConfusion h
      · intro h
        have := h i (le_refl _) (by omega)
        rw [hf] at this
        exact Bool.noConfusion this

/-! ## The allocators -/

theorem contains_nat (l : List Nat) (a : Nat) : l.contains a = decide (a ∈ l) := by
  simp


theorem newfs_alloc_inode_some (st : newfs) (i : Nat)
    (h : first_clear st.super.inode_map st.super.inode_count = some i) :
    (newfs_alloc_inode st).1 = .ok i ∧
      (newfs_alloc_inode st).2.super
        = { st.super with inode_map := bitmap_set st.super.inode_map i } := by
  unfold newfs_alloc_inode
  rw [h]
  exact ⟨rfl, rfl⟩

theorem newfs_alloc_inode_none (st : newfs)
    (h : first_clear st.super.inode_map st.super.inode_count = none) :
    newfs_alloc_inode st = (.error .ENOSPC, st) := by
  unfold newfs_alloc_inode
  rw [h]

theorem newfs_alloc_data_block_some (st : newfs) (i : Nat)
    (h : first_clear st.super.data_map st.super.data_count = some i) :
    (newfs_alloc_data_block st).1 = .ok (st.super.data_offset + i) ∧
      (newfs_alloc_data_block st).2.super
        = { st.super with data_map := bitmap_set st.super.data_map i } := by
  unfold newfs_alloc_data_block
  rw [h]
  exact ⟨rfl, rfl⟩

theorem newfs_alloc_data_block_none (st : newfs)
    (h : first_clear st.super.data_map st.super.data_count = none) :
    newfs_alloc_data_block st = (.error .ENOSPC, st) := by
  unfold newfs_alloc_data_block
  rw [h]

theorem inode_free_super (st : newfs) (i : Nat) :
    (inode_free st i).super
      = { st.super with inode_map := bitmap_clear st.super.inode_map i } := rfl

theorem data_free_super (st : newfs) (b : Nat) :
    (data_free st b).super
      = { st.super with data_map := bitmap_clear st.super.data_map (b - st.super.data_offset) } :=
  rfl

/-- Every live index has its bit set: the invariant behind allocation uniqueness. -/
theorem inode_ops_unique_of_live (ops : List alloc_op) :
    ∀ (st : newfs) (live : List Nat), live.Nodup →
      (∀ i ∈ live, bitmap_test st.super.inode_map i = true) →
      inode_ops_unique ops st live = true := by
  induction ops with
  | nil => intro st live _ _; rfl
  | cons op ops ih =>
    intro st live hnd hlive
    cases op with
    | alloc =>
      unfold inode_ops_unique
      cases hfc : first_clear st.super.inode_map st.super.inode_count with
      | none =>
        rw [newfs_alloc_inode_none st hfc]
        exact ih st live hnd hlive
      | some i =>
        obtain ⟨h1, h2⟩ := newfs_alloc_inode_some st i hfc
        have hclear : bitmap_test st.super.inode_map i = false :=
          ((first_clear_from_some _ _ _ _).1 hfc).2.2.1
        have hnot : i ∉ live := by
          intro hmem
          rw [hlive i hmem] at hclear
          exact Bool.noConfusion hclear
        rcases hres : newfs_alloc_inode st with ⟨r, st1⟩
        rw [hres] at h1 h2
        simp only at h1 h2
        subst h1
        show (!live.contains _ && _) = true
        rw [contains_nat, decide_eq_false hnot, Bool.not_false, Bool.true_and]
        apply ih st1 (i :: live) (List.nodup_cons.2 ⟨hnot, hnd⟩)
        intro j hj
        rw [h2]
        simp only [bitmap_test_set]
        rcases List.mem_cons.1 hj with hji | hjl
        · simp [hji]
        · simp [hlive j hjl]
    | free i =>
      unfold inode_ops_unique
      by_cases hmem : i ∈ live
      · rw [contains_nat, decide_eq_true hmem, if_pos rfl]
        apply ih (inode_free st i) (live.erase i) (hnd.erase i)
        intro j hj
        rw [inode_free_super]
        simp only [bitmap_test_clear]
        have hjl : j ∈ live := List.mem_of_mem_erase hj
        have hne : j ≠ i := fun h => by
          rw [h] at hj
          exact (List.Nodup.not_mem_erase hnd) hj
        simp [hne, hlive j hjl]
      · rw [contains_nat, decide_eq_false hmem, if_neg Bool.false_ne_true]
        exact ih st live hnd hlive

theorem data_ops_unique_of_live (ops : List alloc_op) :
    ∀ (st : newfs) (live : List Nat), live.Nodup →
      (∀ b ∈ live, st.super.data_offset ≤ b ∧
        bitmap_test st.super.data_map (b - st.super.data_offset) = true) →
      data_ops_unique ops st live = true := by
  induction ops with
  | nil => intro st live _ _; rfl
  | cons op ops ih =>
    intro st live hnd hlive
    cases op with
    | alloc =>
      unfold data_ops_unique
      cases hfc : first_clear st.super.data_map st.super.data_count with
      | none =>
        rw [newfs_alloc_data_block_none st hfc]
        exact ih st live hnd hlive
      | some i =>
        obtain ⟨h1, h2⟩ := newfs_alloc_data_block_some st i hfc
        have hclear : bitmap_test st.super.data_map i = false :=
          ((first_clear_from_some _ _ _ _).1 hfc).2.2.1
        have hnot : st.super.data_offset + i ∉ live := by
          intro hmem
          have := (hlive _ hmem).2
          rw [Nat.add_sub_cancel_left, hclear] at this
          exact Bool.noConfusion this
        rcases hres : newfs_alloc_data_block st with ⟨r, st1⟩
        rw [hres] at h1 h2
        simp only at h1 h2
        subst h1
        show (!live.contains _ && _) = true
        rw [contains_nat, decide_eq_false hnot, Bool.not_false, Bool.true_and]
        apply ih st1 (_ :: live) (List.nodup_cons.2 ⟨hnot, hnd⟩)
        intro b hb
        rw [h2]
        simp only [bitmap_test_set]
        rcases List.mem_cons.1 hb with hbi | hbl
        · subst hbi
          exact ⟨Nat.le_add_right _ _, by simp⟩
        · exact ⟨(hlive b hbl).1, by simp [(hlive b hbl).2]⟩
    | free b =>
      unfold data_ops_unique
      by_cases hmem : b ∈ live
      · rw [contains_nat, decide_eq_true hmem, if_pos rfl]
        apply ih (data_free st b) (live.erase b) (hnd.erase b)
        intro c hc
        rw [data_free_super]
        simp only [bitmap_test_clear]
        have hcl : c ∈ live := List.mem_of_mem_erase hc
        have hne : c ≠ b := fun h => by
          rw [h] at hc
          exact (List.Nodup.not_mem_erase hnd) hc
        have h1 := (hlive c hcl).1
        have h2 := (hlive b hmem).1
        have hne2 : c - st.super.data_offset ≠ b - st.super.data_offset := by omega
        exact ⟨h1, by simp [hne2, (hlive c hcl).2]⟩
      · rw [contains_nat, decide_eq_false hmem, if_neg Bool.false_ne_true]
        exact ih st live hnd hlive

/-- C4. Allocation uniqueness: whatever the starting bitmap, in every sequence of
allocations and frees of live indices no allocation returns an index that is live,
for `newfs_alloc_inode` and for `newfs_alloc_data_block`; and once an index is freed,
the next allocation returns it again when it is the lowest clear bit. -/
theorem alloc_free_unique (st : newfs) (ops : List alloc_op) :
    inode_ops_unique ops st [] = true ∧ data_ops_unique ops st [] = true ∧
    (∀ i, i < st.super.inode_count →
      (∀ j, j < i → bitmap_test (inode_free st i).super.inode_map j = true) →
      (newfs_alloc_inode (inode_free st i)).1 = .ok i) ∧
    (∀ b, st.super.data_offset ≤ b → b - st.super.data_offset < st.super.data_count →
      (∀ j, j < b - st.super.data_offset →
        bitmap_test (data_free st b).super.data_map j = true) →
      (newfs_alloc_data_block (data_free st b)).1 = .ok b) := by
  refine ⟨?_, ?_, ?_, ?_⟩
  · exact inode_ops_unique_of_live ops st [] List.nodup_nil (fun i hi => by cases hi)
  · exact data_ops_unique_of_live ops st [] List.nodup_nil (fun i hi => by cases hi)
  · intro i hi hlow
    have hfc : first_clear (inode_free st i).super.inode_map (inode_free st i).super.inode_count
        = some i := by
      unfold first_clear
      rw [first_clear_from_some]
      refine ⟨Nat.zero_le _, by simpa [inode_free_super] using hi, ?_, fun j _ hj => hlow j hj⟩
      rw [inode_free_super]
      simp [bitmap_test_clear]
    exact (newfs_alloc_inode_some _ i hfc).1
  · intro b hb hcnt hlow
    have hfc : first_clear (data_free st b).super.data_map (data_free st b).super.data_count
        = some (b - st.super.data_offset) := by
      unfold first_clear
      rw [first_clear_from_some]
      refine ⟨Nat.zero_le _, by simpa [data_free_super] using hcnt, ?_, fun j _ hj => hlow j hj⟩
      rw [data_free_super]
      simp [bitmap_test_clear]
    have h := (newfs_alloc_data_block_some _ _ hfc).1
    rw [h, data_free_super]
    simp only
    congr 1
    omega

/-- Witness of C4 on the fresh 64-block volume: inode 1 is allocated, freed and
allocated again, and block 4 likewise. -/
theorem alloc_free_unique_witness :
    (newfs_alloc_inode (inode_free (newfs_alloc_inode vol64).2 1)).1 = .ok 1 ∧
    (newfs_alloc_data_block (data_free (newfs_alloc_data_block vol64).2 4)).1 = .ok 4 :=
  ⟨(alloc_free_unique (newfs_alloc_inode vol64).2 []).2.2.1 1 (by decide!) (by decide!),
   (alloc_free_unique (newfs_alloc_data_block vol64).2 []).2.2.2 4 (by decide!) (by decide!)
     (by decide!)⟩

/-- C5. First fit: `newfs_alloc_inode` returns the smallest index below `inode_count`
whose bit is clear, sets that bit and changes no other bit or byte of the bitmap; it
returns `ENOSPC` exactly when every bit below `inode_count` is set, and then it
leaves the whole state unchanged; it always returns one or the other. -/
theorem alloc_inode_first_fit (st : newfs) :
    (∀ i, (newfs_alloc_inode st).1 = .ok i →
      i < st.super.inode_count ∧ bitmap_test st.super.inode_map i = false ∧
      (∀ j, j < i → bitmap_test st.super.inode_map j = true) ∧
      bitmap_test (newfs_alloc_inode st).2.super.inode_map i = true ∧
      (∀ j, j ≠ i → bitmap_test (newfs_alloc_inode st).2.super.inode_map j
        = bitmap_test st.super.inode_map j) ∧
      (∀ k, k ≠ i / 8 → (newfs_alloc_inode st).2.super.inode_map k = st.super.inode_map k)) ∧
    ((newfs_alloc_inode st).1 = .error .ENOSPC ↔
      ∀ j, j < st.super.inode_count → bitmap_test st.super.inode_map j = true) ∧
    ((newfs_alloc_inode st).1 = .error .ENOSPC → (newfs_alloc_inode st).2 = st) ∧
    ((∃ i, (newfs_alloc_inode st).1 = .ok i) ∨ (newfs_alloc_inode st).1 = .error .ENOSPC) := by
  cases hfc : first_clear st.super.inode_map st.super.inode_count with
  | none =>
    have hall := (first_clear_from_none _ _ _).1 hfc
    rw [newfs_alloc_inode_none st hfc]
    refine ⟨fun i h => (by cases h), ⟨fun _ j hj => hall j (Nat.zero_le _) (by omega), fun _ => rfl⟩,
      fun _ => rfl, Or.inr rfl⟩
  | some r =>
    obtain ⟨h1, h2⟩ := newfs_alloc_inode_some st r hfc
    obtain ⟨_, hr, hclr, hlow⟩ := (first_clear_from_some _ _ _ _).1 hfc
    rw [h1, h2]
    refine ⟨?_, ⟨fun h => (by cases h), fun hall => ?_⟩, fun h => (by cases h), Or.inl ⟨r, rfl⟩⟩
    · intro i hi
      have hir : r = i := by injection hi
      subst hir
      refine ⟨by omega, hclr, fun j hj => hlow j (Nat.zero_le _) hj, ?_, ?_, ?_⟩
      · simp [bitmap_test_set]
      · intro j hj
        simp [bitmap_test_set, hj]
      · intro k hk
        simp [bitmap_set, hk]
    · have := hall r (by omega)
      rw [hclr] at this
      exact Bool.noConfusion this

/-- Witness of C5 on the fresh 64-block volume, where only the root's bit 0 is set:
the allocation returns index 1. -/
theorem alloc_inode_first_fit_witness :
    1 < vol64.super.inode_count ∧ bitmap_test vol64.super.inode_map 1 = false ∧
      (∀ j, j < 1 → bitmap_test vol64.super.inode_map j = true) ∧
      bitmap_test (newfs_alloc_inode vol64).2.super.inode_map 1 = true ∧
      (∀ j, j ≠ 1 → bitmap_test (newfs_alloc_inode vol64).2.super.inode_map j
        = bitmap_test vol64.super.inode_map j) ∧
      (∀ k, k ≠ 1 / 8 → (newfs_alloc_inode vol64).2.super.inode_map k
        = vol64.super.inode_map k) :=
  (alloc_inode_first_fit vol64).1 1 (by decide!)

/-! ## Directory entries: the code at the block boundaries -/

/-- C1, the code at the boundary. The root directory of a fresh 64-block volume takes
60 insertions (`size = 60 * 136`).  One more `newfs_add_dentry` does not fail with
`ENOSPC`: entry 60 starts in slot 7 (`blk_idx = 7 < 8`), the call returns 0 and the
entry count grows to 61 in memory and in the on-disk inode record, although the
record would end at byte 992 + 136 of a 1024-byte block.  Only the 62nd insertion
returns `ENOSPC`, and it leaves the size alone. -/
theorem add_dentry_accepts_entry_60 :
    dir60.1 = List.replicate 60 (.ok ()) ∧
    dir60.2.1.size = 60 * SIZEOF_DENTRY_D ∧
    entry_blk_idx vol64.super 60 = 7 ∧ entry_blk_off vol64.super 60 = 992 ∧
    dir61.1 = .ok () ∧
    dir61.2.1.size = 61 * SIZEOF_DENTRY_D ∧
    (reread_inode dir61.2.2 0).size = 61 * SIZEOF_DENTRY_D ∧
    (newfs_add_dentry dir61.2.2 dir61.2.1 [121] 62 mode_reg none).1 = .error .ENOSPC ∧
    (newfs_add_dentry dir61.2.2 dir61.2.1 [121] 62 mode_reg none).2.1.size
      = 61 * SIZEOF_DENTRY_D := by
  decide!

/-- C2, the code at entry count 7. With no entry yet the round trip holds: after
`newfs_add_dentry(dir, "a", 5, M)` a fresh load finds `a` with inode 5 and mode `M`.
With 7 entries present the call still returns 0, but the record starts at byte 952
of the block, its `ino` and `mode` fields fall past byte 1024 and never reach the
device: the data block is the same whether inode 5 or inode 6 (and another mode) was
added, and a fresh load finds `a` with inode 0 and mode 0. -/
theorem add_dentry_round_trip_lost_at_7 :
    fresh_find (newfs_add_dentry vol64 (reread_inode vol64 0) [97] 5 mode_reg none).2.2 0 [97]
      = some ([97], 5, mode_reg) ∧
    dir7.1 = List.replicate 7 (.ok ()) ∧
    (dir7_add 5 mode_reg).1 = .ok () ∧
    entry_blk_off vol64.super 7 + 128 = 1080 ∧
    (∀ k, k < 1024 →
      (dir7_add 5 mode_reg).2.2.dev.data (4 * 1024 + k)
        = (dir7_add 6 S_IFDIR).2.2.dev.data (4 * 1024 + k)) ∧
    fresh_find (dir7_add 5 mode_reg).2.2 0 [97] = some ([97], 0, 0) := by
  decide!

/-- C3, the code at entry index 7. `newfs_add_dentry` accepts the insertion at
index 7 (slot 0, below `NEWFS_DIRECT_NUM`, result 0), and there
`blk_off + sizeof(struct newfs_dentry_d) = 1088` exceeds the block size 1024: the
`memcpy` into the 1024-byte buffer runs 64 bytes past its end.  Among the indices
0..60 that the code accepts, the records of 7, 15, 22, 30, 37, 45, 52 and 60 do not
fit in their block. -/
theorem dentry_record_crosses_block_end :
    (dir7_add 5 mode_reg).1 = .ok () ∧
    dir7.2.1.size / SIZEOF_DENTRY_D = 7 ∧
    entry_blk_idx vol64.super 7 < NEWFS_DIRECT_NUM ∧
    entry_blk_off vol64.super 7 + SIZEOF_DENTRY_D = 1088 ∧
    ¬ (entry_blk_off vol64.super 7 + SIZEOF_DENTRY_D ≤ vol64.super.block_size) ∧
    (List.range 61).filter
        (fun i => decide (vol64.super.block_size < entry_blk_off vol64.super i + SIZEOF_DENTRY_D))
      = [7, 15, 22, 30, 37, 45, 52, 60] := by
  decide!

/-- C7, the code on eight names. Inserting `a`, `b`, `c` into the unloaded root and
loading yields `c`, `b`, `a`.  Inserting seven short names and then a name of 100
letters, all accepted, and loading does not yield the reverse order of the names:
the head of the sibling list is a name of 72 letters, because only the first 72
bytes of the eighth record lie inside its block. -/
theorem sibling_order_lost_for_long_eighth_name :
    (fresh_children (add_all mode_reg [[97], [98], [99]] 1 (reread_inode vol64 0) vol64).2.2 0).map
        (fun e => e.1) = [[99], [98], [97]] ∧
    (add_all mode_reg names_long8 1 (reread_inode vol64 0) vol64).1
      = List.replicate 8 (.ok ()) ∧
    names_long8.Nodup ∧
    (fresh_children (add_all mode_reg names_long8 1 (reread_inode vol64 0) vol64).2.2 0).map
        (fun e => e.1) ≠ names_long8.reverse ∧
    ((fresh_children (add_all mode_reg names_long8 1 (reread_inode vol64 0) vol64).2.2 0).map
        (fun e => e.1)).head? = some (List.replicate 72 120) := by
  decide!

/-- C8, the code after eight creations. On a freshly formatted and mounted 64-block
volume, `newfs_mknod` of `/aa`, ..., `/ah` succeeds eight times.  The sibling list of
the root in memory then starts with `ah` at inode 8 with a regular-file mode.  The
`ino` and `mode` fields of the eighth record start at byte 952 + 128 of a 1024-byte
block, so the list a fresh `newfs_load_dir_children` builds from the device starts
with `ah` at inode 0 with mode 0: the two lists differ. -/
theorem cache_differs_from_disk_after_8_files :
    vol64_8files.1 = List.replicate 8 (.ok ()) ∧
    (cached_root_children vol64_8files.2).head? = some ([97, 104], 8, S_IFREG ||| 0o777) ∧
    vol64_8files.2.super.block_size ≤ entry_blk_off vol64_8files.2.super 7 + 128 ∧
    (fresh_children vol64_8files.2 vol64_8files.2.super.root_ino).head? = some ([97, 104], 0, 0) ∧
    cached_root_children vol64_8files.2
      ≠ fresh_children vol64_8files.2 vol64_8files.2.super.root_ino := by
  decide!

/-! ## Device transfers -/

theorem write_loop_data (base io : Nat) (buf : Bytes) (n : Nat) (dev : ddriver) (a : Nat) :
    (write_loop base io buf n dev).data a
      = if base ≤ a ∧ a < base + n * io then buf (a - base) else dev.data a := by
  induction n with
  | zero =>
    simp only [write_loop, Nat.zero_mul, Nat.add_zero]
    rw [if_neg]
    omega
  | succ n ih =>
    simp only [write_loop, ddriver_write, memcpy, ih]
    by_cases h1 : base + n * io ≤ a ∧ a < base + n * io + io
    · have h2 : base ≤ a ∧ a < base + (n + 1) * io := by
        constructor
        · omega
        · rw [Nat.add_mul]; omega
      rw [if_pos h1, if_pos h2]
      congr 1
      omega
    · rw [if_neg h1]
      by_cases h3 : base ≤ a ∧ a < base + n * io
      · have h2 : base ≤ a ∧ a < base + (n + 1) * io := by
          constructor
          · omega
          · rw [Nat.add_mul]; omega
        rw [if_pos h3, if_pos h2]
      · have h2 : ¬ (base ≤ a ∧ a < base + (n + 1) * io) := by
          rw [Nat.add_mul]; omega
        rw [if_neg h3, if_neg h2]

theorem write_loop_io_size (base io : Nat) (buf : Bytes) (n : Nat) (dev : ddriver) :
    (write_loop base io buf n dev).io_size = dev.io_size ∧
      (write_loop base io buf n dev).disk_size = dev.disk_size := by
  induction n with
  | zero => exact ⟨rfl, rfl⟩
  | succ n ih => exact ih

theorem read_loop_apply (dev : ddriver) (base io : Nat) (n : Nat) (buf : Bytes) (k : Nat) :
    read_loop dev base io n buf k = if k < n * io then dev.data (base + k) else buf k := by
  induction n with
  | zero => simp [read_loop]
  | succ n ih =>
    simp only [read_loop, ddriver_read, memcpy, ih]
    by_cases h1 : n * io ≤ k ∧ k < n * io + io
    · have h2 : k < (n + 1) * io := by rw [Nat.add_mul]; omega
      rw [if_pos h1, if_pos h2]
      congr 1
      omega
    · rw [if_neg h1]
      by_cases h3 : k < n * io
      · have h2 : k < (n + 1) * io := by rw [Nat.add_mul]; omega
        rw [if_pos h3, if_pos h2]
      · have h2 : ¬ k < (n + 1) * io := by rw [Nat.add_mul]; omega
        rw [if_neg h3, if_neg h2]

theorem newfs_block_write_data (s : newfs_super) (dev : ddriver) (blk : Nat) (buf : Bytes)
    (hio : s.io_size ∣ s.block_size) (a : Nat) :
    (newfs_block_write s dev blk buf).data a
      = if blk * s.block_size ≤ a ∧ a < blk * s.block_size + s.block_size
        then buf (a - blk * s.block_size) else dev.data a := by
  unfold newfs_block_write
  rw [write_loop_data, Nat.div_mul_cancel hio]

theorem newfs_block_read_apply (s : newfs_super) (dev : ddriver) (blk : Nat) (buf : Bytes)
    (hio : s.io_size ∣ s.block_size) (k : Nat) :
    newfs_block_read s dev blk buf k
      = if k < s.block_size then dev.data (blk * s.block_size + k) else buf k := by
  unfold newfs_block_read
  rw [read_loop_apply, Nat.div_mul_cancel hio]

theorem flush_loop_data (s : newfs_super) (map : Bytes) (off n : Nat) (dev : ddriver)
    (hio : s.io_size ∣ s.block_size) (a : Nat) :
    (flush_loop s map off n dev).data a
      = if off * s.block_size ≤ a ∧ a < (off + n) * s.block_size
        then map (a - off * s.block_size) else dev.data a := by
  induction n with
  | zero =>
    simp only [flush_loop, Nat.add_zero]
    rw [if_neg]
    omega
  | succ n ih =>
    simp only [flush_loop]
    rw [newfs_block_write_data _ _ _ _ hio, ih]
    have e1 : (off + n) * s.block_size = off * s.block_size + n * s.block_size := Nat.add_mul _ _ _
    have e2 : (off + (n + 1)) * s.block_size
        = off * s.block_size + n * s.block_size + s.block_size := by
      rw [← Nat.add_assoc, Nat.add_mul, Nat.add_mul, Nat.one_mul]
    rw [e1, e2]
    by_cases h1 : off * s.block_size + n * s.block_size ≤ a ∧
        a < off * s.block_size + n * s.block_size + s.block_size
    · rw [if_pos h1, if_pos (by omega)]
      congr 1
      omega
    · rw [if_neg h1]
      by_cases h3 : off * s.block_size ≤ a ∧ a < off * s.block_size + n * s.block_size
      · rw [if_pos h3, if_pos (by omega)]
      · rw [if_neg h3, if_neg (by omega)]

/-! ## What the resolver leaves alone -/

theorem same_but_tree_refl (st : newfs) : same_but_tree st st := ⟨rfl, rfl⟩

theorem same_but_tree_root (st : newfs) (r : Option newfs_dentry) :
    same_but_tree st { st with super := { st.super with root_dentry := r } } := ⟨rfl, rfl⟩

theorem same_but_tree_trans {a b c : newfs} (h1 : same_but_tree a b) (h2 : same_but_tree b c) :
    same_but_tree a c := by
  obtain ⟨d1, s1⟩ := h1
  obtain ⟨d2, s2⟩ := h2
  refine ⟨d2.trans d1, ?_⟩
  rw [s2, s1]

theorem newfs_get_parent_dentry_frame (st : newfs) (path : List Nat) :
    same_but_tree st (newfs_get_parent_dentry st path).2 := by
  unfold newfs_get_parent_dentry
  split_ifs
  · exact same_but_tree_refl st
  · split
    · exact same_but_tree_refl st
    · split
      · exact same_but_tree_refl st
      · split
        exact same_but_tree_root st _

theorem put_parent_frame (st : newfs) (ptr : List Nat) (d : newfs_dentry) :
    same_but_tree st (put_parent st ptr d) := ⟨rfl, rfl⟩

theorem create_lookup_frame (st : newfs) (path : List Nat) :
    same_but_tree st (create_lookup st path).2 := by
  have hp := newfs_get_parent_dentry_frame st path
  unfold create_lookup
  split
  · rename_i heq; rw [heq] at hp; exact hp
  · rename_i heq; rw [heq] at hp
    split
    · exact hp
    · split_ifs
      · exact hp
      · simp only []
        split_ifs
        · exact same_but_tree_trans hp (put_parent_frame _ _ _)
        · exact same_but_tree_trans hp (put_parent_frame _ _ _)

/-! ## Rollback of a failed creation -/

theorem byte_clear_set : ∀ b, b < 256 → ∀ r, r < 8 → (((b >>> r) &&& 1) != 0) = false →
    ((b ||| 1 <<< r) % 256 &&& (4294967295 ^^^ 1 <<< r)) % 256 = b := by
  decide!

theorem bitmap_clear_set (map : Bytes) (i : Nat) (hclr : bitmap_test map i = false)
    (hb : map (i / 8) < 256) : bitmap_clear (bitmap_set map i) i = map := by
  funext k
  unfold bitmap_clear bitmap_set
  by_cases hk : k = i / 8
  · subst hk
    simp only [BITS_PER_BYTE, if_true]
    exact byte_clear_set _ hb _ (Nat.mod_lt _ (by norm_num)) hclr
  · simp [BITS_PER_BYTE, hk]

theorem newfs_alloc_data_block_frame (st : newfs) :
    (newfs_alloc_data_block st).2.super
      = { st.super with data_map := (newfs_alloc_data_block st).2.super.data_map } := by
  unfold newfs_alloc_data_block
  cases first_clear st.super.data_map st.super.data_count <;> rfl

theorem add_dentry_slot_frame (st : newfs) (dir : newfs_inode) (blk_idx : Nat) :
    (add_dentry_slot st dir blk_idx).2.2.super
      = { st.super with data_map := (add_dentry_slot st dir blk_idx).2.2.super.data_map } := by
  have hd := newfs_alloc_data_block_frame st
  unfold add_dentry_slot
  split
  · split
    · rename_i h2; rw [h2] at hd; exact hd
    · rename_i h2; rw [h2] at hd; exact hd
  · rfl

theorem newfs_add_dentry_frame (st : newfs) (dir : newfs_inode) (name : List Nat) (ino mode : Nat)
    (ci : Option newfs_inode) :
    (newfs_add_dentry st dir name ino mode ci).2.2.super
      = { st.super with data_map := (newfs_add_dentry st dir name ino mode ci).2.2.super.data_map } := by
  unfold newfs_add_dentry
  by_cases h1 : (!S_ISDIR dir.mode) = true
  · rw [if_pos h1]
  · rw [if_neg h1]
    dsimp only
    generalize (if (dir.dentry && !dir.children_loaded) = true then
          (newfs_load_dir_children st.super st.dev dir).2 else dir) = dir1
    by_cases h2 : entry_blk_idx st.super (dir1.size / SIZEOF_DENTRY_D) ≥ NEWFS_DIRECT_NUM
    · rw [if_pos h2]
    · rw [if_neg h2]
      have hs := add_dentry_slot_frame st dir1 (entry_blk_idx st.super (dir1.size / SIZEOF_DENTRY_D))
      rcases hres : add_dentry_slot st dir1 (entry_blk_idx st.super (dir1.size / SIZEOF_DENTRY_D))
        with ⟨r, d, s⟩
      rw [hres] at hs
      cases r with
      | error e => exact hs
      | ok u => exact hs

theorem u32_of_lt (x : Nat) (h : x < 4294967296) : u32 x = x := Nat.mod_eq_of_lt h

theorem newfs_flush_inode_map_data (st : newfs) (hio : st.super.io_size ∣ st.super.block_size)
    (k : Nat) (hk : k < st.super.ino_map_blks * st.super.block_size) :
    (newfs_flush_inode_map st).dev.data (st.super.ino_map_offset * st.super.block_size + k)
      = st.super.inode_map k := by
  unfold newfs_flush_inode_map
  simp only
  rw [flush_loop_data _ _ _ _ _ hio, if_pos]
  · congr 1
    omega
  · rw [Nat.add_mul]
    omega

theorem inode_free_dev_data (st : newfs) (i : Nat) (hio : st.super.io_size ∣ st.super.block_size)
    (k : Nat) (hk : k < st.super.ino_map_blks * st.super.block_size) :
    (inode_free st i).dev.data (st.super.ino_map_offset * st.super.block_size + k)
      = (inode_free st i).super.inode_map k :=
  newfs_flush_inode_map_data
    { st with super := { st.super with inode_map := bitmap_clear st.super.inode_map i } } hio k hk

theorem create_insert_rollback (h : newfs_h) (ifmt : Nat) (st : newfs) (ptr : List Nat)
    (pd : newfs_dentry) (pi : newfs_inode) (name : List Nat) (i : Nat) (e : Errno)
    (hio : st.super.io_size ∣ st.super.block_size)
    (hbyte : st.super.inode_map (i / 8) < 256)
    (hcount : st.super.inode_count ≤ 4294967296)
    (halloc : (newfs_alloc_inode st).1 = .ok i)
    (hfail : (create_insert h ifmt st ptr pd pi name).1 = .error e) :
    (create_insert h ifmt st ptr pd pi name).2.super.inode_map = st.super.inode_map ∧
    (∀ k, k < st.super.ino_map_blks * st.super.block_size →
      (create_insert h ifmt st ptr pd pi name).2.dev.data
          (st.super.ino_map_offset * st.super.block_size + k) = st.super.inode_map k) ∧
    bitmap_test (create_insert h ifmt st ptr pd pi name).2.super.inode_map i = false ∧
    (newfs_alloc_inode (create_insert h ifmt st ptr pd pi name).2).1 = .ok i := by
  cases hfc : first_clear st.super.inode_map st.super.inode_count with
  | none =>
    rw [newfs_alloc_inode_none st hfc] at halloc
    cases halloc
  | some r =>
    obtain ⟨h1, h2⟩ := newfs_alloc_inode_some st r hfc
    rw [h1] at halloc
    have hri : r = i := by injection halloc
    subst hri
    obtain ⟨_, hr, hclr, hlow⟩ := (first_clear_from_some _ _ _ _).1 hfc
    have hu : u32 r = r := u32_of_lt r (by omega)
    unfold create_insert at hfail ⊢
    rcases hres : newfs_alloc_inode st with ⟨ra, st2⟩
    rw [hres] at h1 h2 hfail
    simp only at h1 h2
    subst h1
    simp only at hfail ⊢
    have hfr := newfs_add_dentry_frame
      { st2 with dev := (newfs_write_inode st2.super st2.dev (new_inode_of h ifmt r)).2 } pi name
      (new_inode_of h ifmt r).ino (new_inode_of h ifmt r).mode (some (new_inode_of h ifmt r))
    rcases hadd : newfs_add_dentry
      { st2 with dev := (newfs_write_inode st2.super st2.dev (new_inode_of h ifmt r)).2 } pi name
      (new_inode_of h ifmt r).ino (new_inode_of h ifmt r).mode (some (new_inode_of h ifmt r))
      with ⟨r2, pi2, st4⟩
    rw [hadd] at hfr hfail
    cases r2 with
    | ok u => cases hfail
    | error e2 =>
      simp only at hfr ⊢
      have hmap4 : st4.super.inode_map = bitmap_set st.super.inode_map r := by
        rw [hfr, h2]
      have hino : (new_inode_of h ifmt r).ino = r := hu
      have hmap : (inode_free st4 (new_inode_of h ifmt r).ino).super.inode_map
          = st.super.inode_map := by
        rw [inode_free_super, hino]
        simp only
        rw [hmap4]
        exact bitmap_clear_set _ _ hclr hbyte
      have hgeo : st4.super.io_size = st.super.io_size ∧
          st4.super.block_size = st.super.block_size ∧
          st4.super.ino_map_offset = st.super.ino_map_offset ∧
          st4.super.ino_map_blks = st.super.ino_map_blks ∧
          st4.super.inode_count = st.super.inode_count := by
        rw [hfr, h2]
        exact ⟨rfl, rfl, rfl, rfl, rfl⟩
      obtain ⟨g1, g2, g3, g4, g5⟩ := hgeo
      refine ⟨hmap, ?_, ?_, ?_⟩
      · intro k hk
        have hio4 : st4.super.io_size ∣ st4.super.block_size := by
          rw [g1, g2]
          exact hio
        have hd := inode_free_dev_data st4 (new_inode_of h ifmt r).ino hio4 k
          (by rw [g4, g2]; exact hk)
        rw [g3, g2, hmap] at hd
        exact hd
      · show bitmap_test (inode_free st4 (new_inode_of h ifmt r).ino).super.inode_map r = false
        rw [hmap]
        exact hclr
      · apply (newfs_alloc_inode_some _ r _).1
        show first_clear (inode_free st4 (new_inode_of h ifmt r).ino).super.inode_map
          (inode_free st4 (new_inode_of h ifmt r).ino).super.inode_count = some r
        rw [hmap, inode_free_super]
        simp only
        rw [g5]
        exact hfc

theorem create_rollback (h : newfs_h) (ifmt : Nat) (st : newfs) (path : List Nat) (i : Nat)
    (e : Errno)
    (hio : st.super.io_size ∣ st.super.block_size)
    (hbyte : st.super.inode_map (i / 8) < 256)
    (hcount : st.super.inode_count ≤ 4294967296)
    (hsync : ino_map_synced st)
    (hlook : (create_lookup st path).1.isOk = true)
    (halloc : (newfs_alloc_inode (create_lookup st path).2).1 = .ok i)
    (hfail : (newfs_create h ifmt st path).1 = .error e) :
    rolled_back st (newfs_create h ifmt st path).2 i := by
  have hfr := create_lookup_frame st path
  unfold newfs_create at hfail ⊢
  rcases hres : create_lookup st path with ⟨r, st1⟩
  rw [hres] at hfr hlook halloc hfail
  cases r with
  | error e1 => cases hlook
  | ok x =>
    obtain ⟨ptr, pd, pi, name⟩ := x
    simp only at hfr halloc hfail ⊢
    obtain ⟨hdev, hsup⟩ := hfr
    have e1 : st1.super.io_size = st.super.io_size := by rw [hsup]
    have e2 : st1.super.block_size = st.super.block_size := by rw [hsup]
    have e3 : st1.super.inode_map = st.super.inode_map := by rw [hsup]
    have e4 : st1.super.inode_count = st.super.inode_count := by rw [hsup]
    have e5 : st1.super.ino_map_blks = st.super.ino_map_blks := by rw [hsup]
    have e6 : st1.super.ino_map_offset = st.super.ino_map_offset := by rw [hsup]
    obtain ⟨c1, c2, c3, c4⟩ := create_insert_rollback h ifmt st1 ptr pd pi name i e
      (by rw [e1, e2]; exact hio) (by rw [e3]; exact hbyte) (by rw [e4]; exact hcount)
      halloc hfail
    refine ⟨c1.trans e3, ?_, c3, c4⟩
    intro k hk
    have := c2 k (by rw [e5, e2]; exact hk)
    rw [e6, e2, e3] at this
    rw [this]
    exact (hsync k hk).symm

/-- C6. Rollback: when `newfs_mkdir` or `newfs_mknod` gets through the lookup, has
`newfs_alloc_inode` return index `i`, and then fails (in `newfs_add_dentry`, the only
step left that can fail), the inode bitmap in memory and its region on the device
are what they were before the call, bit `i` is clear, and the next
`newfs_alloc_inode` returns `i`. -/
theorem mkdir_mknod_rollback (h : newfs_h) (st : newfs) (path : List Nat) (i : Nat)
    (hio : st.super.io_size ∣ st.super.block_size)
    (hbyte : st.super.inode_map (i / 8) < 256)
    (hcount : st.super.inode_count ≤ 4294967296)
    (hsync : ino_map_synced st)
    (hlook : (create_lookup st path).1.isOk = true)
    (halloc : (newfs_alloc_inode (create_lookup st path).2).1 = .ok i) :
    (∀ e, (newfs_mkdir h st path).1 = .error e → rolled_back st (newfs_mkdir h st path).2 i) ∧
    (∀ e, (newfs_mknod h st path).1 = .error e → rolled_back st (newfs_mknod h st path).2 i) :=
  ⟨fun e hfail => create_rollback h S_IFDIR st path i e hio hbyte hcount hsync hlook halloc hfail,
   fun e hfail => create_rollback h S_IFREG st path i e hio hbyte hcount hsync hlook halloc hfail⟩

/-- Witness of C6 on the 5-block volume, which has one data block: after
`newfs_mkdir("/d")` both creations of `/d/f` allocate inode 2 and fail with `ENOSPC`
in `newfs_add_dentry`, and are rolled back. -/
theorem mkdir_mknod_rollback_witness :
    (newfs_mkdir hdr vol5_d path_d_f).1 = .error .ENOSPC ∧
    (newfs_mknod hdr vol5_d path_d_f).1 = .error .ENOSPC ∧
    rolled_back vol5_d (newfs_mkdir hdr vol5_d path_d_f).2 2 ∧
    rolled_back vol5_d (newfs_mknod hdr vol5_d path_d_f).2 2 :=
  have hw := mkdir_mknod_rollback hdr vol5_d path_d_f 2 (by decide!) (by decide!) (by decide!)
    (by unfold ino_map_synced; decide!) (by decide!) (by decide!)
  ⟨by decide!, by decide!, hw.1 .ENOSPC (by decide!), hw.2 .ENOSPC (by decide!)⟩

/-! ## Format and reload -/

theorem format_geometry_eq (h : newfs_h) (dev : ddriver) :
    format_geometry h (mount_super dev) =
      { zero_super with
        magic := h.NEWFS_MAGIC, io_size := dev.io_size, block_size := 1024,
        disk_size := dev.disk_size, block_count := dev.disk_size / 1024,
        sb_offset := 0, sb_blks := 1, ino_map_offset := 1, ino_map_blks := 1,
        data_map_offset := 2, data_map_blks := 1, inode_offset := 3, inode_blks := 1,
        data_offset := 4, data_blks := min (dev.disk_size / 1024 - 4) 8192,
        inode_count := 23, data_count := min (dev.disk_size / 1024 - 4) 8192, root_ino := 0 } := by
  by_cases hb : dev.disk_size / 1024 - 4 > 8192
  · have hm : min (dev.disk_size / 1024 - 4) 8192 = 8192 := by omega
    have hd : decide (dev.disk_size / 1024 - (0 + 1 + 1 + 1 + 1) > 1 * 1024 * 8) = true :=
      decide_eq_true hb
    rw [hm]
    unfold format_geometry
    dsimp only [mount_super, zero_super, newfs_inodes_per_block, NEWFS_BLOCK_SIZE, BITS_PER_BYTE,
      SIZEOF_INODE_D]
    rw [hd]
    rfl
  · have hm : min (dev.disk_size / 1024 - 4) 8192 = dev.disk_size / 1024 - 4 := by omega
    have hd : decide (dev.disk_size / 1024 - (0 + 1 + 1 + 1 + 1) > 1 * 1024 * 8) = false :=
      decide_eq_false hb
    rw [hm]
    unfold format_geometry
    dsimp only [mount_super, zero_super, newfs_inodes_per_block, NEWFS_BLOCK_SIZE, BITS_PER_BYTE,
      SIZEOF_INODE_D]
    rw [hd]
    rfl

theorem newfs_prepare_root_frame (h : newfs_h) (st : newfs) :
    same_but_tree st (newfs_prepare_root h st).2 := by
  unfold newfs_prepare_root
  dsimp only
  split
  · exact ⟨rfl, rfl⟩
  · exact ⟨rfl, rfl⟩

theorem format_first_clear (h : newfs_h) (dev : ddriver) :
    first_clear (fun _ => 0) (format_geometry h (mount_super dev)).inode_count = some 0 := by
  rw [format_geometry_eq]
  rfl

theorem mount_format_root_super (h : newfs_h) (d : newfs_super_d) (st : newfs) :
    (mount_format_root h d (.ok 0) st).super = { st.super with root_ino := 0 } := rfl

/-- The state of the format path after `newfs_alloc_inode`. -/
theorem mount_format_alloc (h : newfs_h) (dev : ddriver) :
    (newfs_alloc_inode
      { super := { format_geometry h (mount_super dev) with
          inode_map := fun _ => 0, data_map := fun _ => 0 }, dev := dev }).1 = .ok 0 ∧
    (newfs_alloc_inode
      { super := { format_geometry h (mount_super dev) with
          inode_map := fun _ => 0, data_map := fun _ => 0 }, dev := dev }).2.super
      = { format_geometry h (mount_super dev) with
          inode_map := bitmap_set (fun _ => 0) 0, data_map := fun _ => 0 } :=
  newfs_alloc_inode_some _ 0 (format_first_clear h dev)

/-- The format path ends in `newfs_prepare_root` on the state the root allocation and
the writes leave, the root having index 0. -/
theorem mount_format_eq (h : newfs_h) (dev : ddriver) :
    mount_format h (mount_super dev) dev
      = newfs_prepare_root h
          (mount_format_root h (super_d_of (format_geometry h (mount_super dev))) (.ok 0)
            (newfs_alloc_inode
              { super := { format_geometry h (mount_super dev) with
                  inode_map := fun _ => 0, data_map := fun _ => 0 }, dev := dev }).2) := by
  have h1 := (mount_format_alloc h dev).1
  unfold mount_format
  simp only []
  rw [h1]

theorem newfs_mount_format (h : newfs_h) (dev : ddriver) (hblk : 5 ≤ dev.disk_size / 1024)
    (hinit : mount_is_init h dev = true) :
    newfs_mount h dev = mount_format h (mount_super dev) dev := by
  unfold newfs_mount
  have hb : ¬ (mount_super dev).block_count < 5 := by
    show ¬ dev.disk_size / 1024 < 5
    omega
  simp only []
  rw [if_neg hb, if_pos hinit]

/-- The state the format path of `newfs_mount` leaves: the computed geometry, bit 0 of
the inode bitmap set, an empty data bitmap, and the device after the writes. -/
theorem newfs_mount_format_state (h : newfs_h) (dev : ddriver) (hblk : 5 ≤ dev.disk_size / 1024)
    (hinit : mount_is_init h dev = true) :
    (newfs_mount h dev).2.super
      = { format_geometry h (mount_super dev) with
          inode_map := bitmap_set (fun _ => 0) 0, data_map := fun _ => 0,
          root_dentry := (newfs_mount h dev).2.super.root_dentry } ∧
    (newfs_mount h dev).2.dev
      = (mount_format_root h (super_d_of (format_geometry h (mount_super dev))) (.ok 0)
          (newfs_alloc_inode
            { super := { format_geometry h (mount_super dev) with
                inode_map := fun _ => 0, data_map := fun _ => 0 }, dev := dev }).2).dev := by
  rw [newfs_mount_format h dev hblk hinit, mount_format_eq]
  obtain ⟨hd, hs⟩ := newfs_prepare_root_frame h
    (mount_format_root h (super_d_of (format_geometry h (mount_super dev))) (.ok 0)
      (newfs_alloc_inode
        { super := { format_geometry h (mount_super dev) with
            inode_map := fun _ => 0, data_map := fun _ => 0 }, dev := dev }).2)
  refine ⟨hs.trans ?_, hd⟩
  rw [mount_format_root_super, (mount_format_alloc h dev).2]
  rfl

/-- C10. Format geometry: on a device of at least 5 blocks whose superblock is not
valid, `newfs_mount` lays the regions out in the order superblock, inode bitmap, data
bitmap, inode table, data at block offsets 0, 1, 2, 3, 4, the first four of one
block each and each starting where the previous one ends; `inode_count` is
`min(recordsPerBlock * inode_blks, 8192)` with `recordsPerBlock = 1024 / 44 = 23`;
`data_count` is `min(block_count - 4, 8192)`; `data_blks = data_count`; and the data
region ends inside the device. -/
theorem format_geometry_layout (h : newfs_h) (dev : ddriver) (hblk : 5 ≤ dev.disk_size / 1024)
    (hinit : mount_is_init h dev = true) :
    (newfs_mount h dev).2.super.block_size = 1024 ∧
    (newfs_mount h dev).2.super.block_count = dev.disk_size / 1024 ∧
    (newfs_mount h dev).2.super.sb_offset = 0 ∧
    (newfs_mount h dev).2.super.sb_blks = 1 ∧
    (newfs_mount h dev).2.super.ino_map_offset = 1 ∧
    (newfs_mount h dev).2.super.ino_map_blks = 1 ∧
    (newfs_mount h dev).2.super.data_map_offset = 2 ∧
    (newfs_mount h dev).2.super.data_map_blks = 1 ∧
    (newfs_mount h dev).2.super.inode_offset = 3 ∧
    (newfs_mount h dev).2.super.inode_blks = 1 ∧
    (newfs_mount h dev).2.super.data_offset = 4 ∧
    newfs_inodes_per_block (newfs_mount h dev).2.super = 23 ∧
    (newfs_mount h dev).2.super.inode_count
      = min (newfs_inodes_per_block (newfs_mount h dev).2.super
          * (newfs_mount h dev).2.super.inode_blks) 8192 ∧
    (newfs_mount h dev).2.super.data_count
      = min ((newfs_mount h dev).2.super.block_count - 4) 8192 ∧
    (newfs_mount h dev).2.super.data_blks = (newfs_mount h dev).2.super.data_count ∧
    (newfs_mount h dev).2.super.data_offset + (newfs_mount h dev).2.super.data_blks
      ≤ (newfs_mount h dev).2.super.block_count := by
  have hs := (newfs_mount_format_state h dev hblk hinit).1
  rw [format_geometry_eq] at hs
  have e1 : (newfs_mount h dev).2.super.block_size = 1024 := by rw [hs]
  have e2 : (newfs_mount h dev).2.super.block_count = dev.disk_size / 1024 := by rw [hs]
  have e3 : (newfs_mount h dev).2.super.inode_blks = 1 := by rw [hs]
  have e4 : (newfs_mount h dev).2.super.inode_count = 23 := by rw [hs]
  have e5 : (newfs_mount h dev).2.super.data_count = min (dev.disk_size / 1024 - 4) 8192 := by
    rw [hs]
  have e6 : (newfs_mount h dev).2.super.data_blks = min (dev.disk_size / 1024 - 4) 8192 := by
    rw [hs]
  have e7 : (newfs_mount h dev).2.super.data_offset = 4 := by rw [hs]
  have e8 : newfs_inodes_per_block (newfs_mount h dev).2.super = 23 := by
    unfold newfs_inodes_per_block
    rw [e1]
    rfl
  refine ⟨e1, e2, by rw [hs], by rw [hs], by rw [hs], by rw [hs], by rw [hs], by rw [hs],
    by rw [hs], e3, e7, e8, ?_, ?_, ?_, ?_⟩
  · rw [e8, e3, e4]; rfl
  · rw [e5, e2]
  · rw [e5, e6]
  · rw [e6, e7, e2]
    omega

/-- Witness of C10 on a blank device of 16384 blocks, where the data bitmap is the
binding constraint: `data_count = data_blks = 8192`. -/
theorem format_geometry_layout_witness :
    (newfs_mount hdr dev16k).2.super.block_count = 16384 ∧
    (newfs_mount hdr dev16k).2.super.data_offset = 4 ∧
    (newfs_mount hdr dev16k).2.super.data_count = 8192 ∧
    (newfs_mount hdr dev16k).2.super.data_blks = 8192 ∧
    (newfs_mount hdr dev16k).2.super.inode_count = 23 :=
  have hw := format_geometry_layout hdr dev16k (by decide!) (by decide!)
  ⟨hw.2.1, hw.2.2.2.2.2.2.2.2.2.2.1, by rw [hw.2.2.2.2.2.2.2.2.2.2.2.2.2.1, hw.2.1]; rfl,
    by rw [hw.2.2.2.2.2.2.2.2.2.2.2.2.2.2.1, hw.2.2.2.2.2.2.2.2.2.2.2.2.2.1, hw.2.1]; rfl,
    by rw [hw.2.2.2.2.2.2.2.2.2.2.2.2.1, hw.2.2.2.2.2.2.2.2.2.2.2.1, hw.2.2.2.2.2.2.2.2.2.1]; rfl⟩

theorem round_down_le (v io : Nat) : round_down v io ≤ v := Nat.div_mul_le_self v io

theorem le_round_up (v io : Nat) (hio : 0 < io) : v ≤ round_up v io := by
  unfold round_up
  have h := Nat.lt_mul_div_succ (v + io - 1) hio
  rw [Nat.mul_add, Nat.mul_one, Nat.mul_comm] at h
  omega

theorem round_span (a b io : Nat) (hio : 0 < io) :
    (round_up b io - round_down a io) / io * io = round_up b io - round_down a io := by
  unfold round_up round_down
  rw [← Nat.sub_mul, Nat.mul_div_cancel _ hio]

/-- What `newfs_disk_write` leaves on the device: the bytes written, and every other
byte as it was. -/
theorem newfs_disk_write_ok (s : newfs_super) (dev : ddriver) (o : Nat) (buf : Bytes) (size : Nat)
    (hsize : 0 < size) (hio : 0 < s.io_size)
    (hfit : round_up (o + size) s.io_size ≤ s.disk_size) :
    ∃ dev', newfs_disk_write s dev (o : Int) buf size = .ok dev' ∧
      dev'.io_size = dev.io_size ∧ dev'.disk_size = dev.disk_size ∧
      ∀ a, dev'.data a = if o ≤ a ∧ a < o + size then buf (a - o) else dev.data a := by
  unfold newfs_disk_write
  have h1 : ¬ size = 0 := by omega
  have h2 : ¬ ((o : Int) < 0) := by omega
  have h3 : ¬ (round_up ((o : Int).toNat + size) s.io_size > s.disk_size) := by
    rw [Int.toNat_ofNat]; omega
  rw [if_neg h1, if_neg h2]
  simp only []
  rw [if_neg h3]
  refine ⟨_, rfl, (write_loop_io_size _ _ _ _ _).1, (write_loop_io_size _ _ _ _ _).2, ?_⟩
  intro a
  rw [Int.toNat_ofNat, write_loop_data, round_span _ _ _ hio]
  have hd := round_down_le o s.io_size
  have hu := le_round_up (o + size) s.io_size hio
  have hdu : round_down o s.io_size ≤ round_up (o + size) s.io_size := by omega
  by_cases ha : o ≤ a ∧ a < o + size
  · rw [if_pos ha, if_pos (by omega)]
    unfold memcpy
    rw [if_pos (by omega)]
    congr 1
    omega
  · rw [if_neg ha]
    by_cases hb : round_down o s.io_size ≤ a ∧
        a < round_down o s.io_size + (round_up (o + size) s.io_size - round_down o s.io_size)
    · rw [if_pos hb]
      unfold memcpy
      rw [if_neg (by omega), read_loop_apply, round_span _ _ _ hio, if_pos (by omega)]
      congr 1
      omega
    · rw [if_neg hb]

/-- What `newfs_disk_read` returns: the device bytes of the range, in `buf`. -/
theorem newfs_disk_read_ok (s : newfs_super) (dev : ddriver) (o : Nat) (buf : Bytes) (size : Nat)
    (hsize : 0 < size) (hio : 0 < s.io_size)
    (hfit : round_up (o + size) s.io_size ≤ s.disk_size) :
    ∃ buf', newfs_disk_read s dev (o : Int) buf size = .ok buf' ∧
      ∀ k, buf' k = if k < size then dev.data (o + k) else buf k := by
  unfold newfs_disk_read
  have h1 : ¬ size = 0 := by omega
  have h2 : ¬ ((o : Int) < 0) := by omega
  have h3 : ¬ (round_up ((o : Int).toNat + size) s.io_size > s.disk_size) := by
    rw [Int.toNat_ofNat]; omega
  rw [if_neg h1, if_neg h2]
  simp only []
  rw [if_neg h3]
  refine ⟨_, rfl, ?_⟩
  intro k
  rw [Int.toNat_ofNat]
  have hd := round_down_le o s.io_size
  have hu := le_round_up (o + size) s.io_size hio
  unfold memcpy
  by_cases hk : k < size
  · rw [if_pos hk, if_pos (by omega), read_loop_apply, round_span _ _ _ hio, if_pos (by omega)]
    congr 1
    omega
  · rw [if_neg hk, if_neg (by omega)]

theorem rd32_le_bytes (b : Bytes) (off v : Nat)
    (h0 : b off = le_byte v 0) (h1 : b (off + 1) = le_byte v 1)
    (h2 : b (off + 2) = le_byte v 2) (h3 : b (off + 3) = le_byte v 3) :
    rd32 b off = u32 v := by
  unfold rd32 u32
  rw [h0, h1, h2, h3]
  unfold le_byte
  norm_num
  omega

theorem rd32_super_d (buf : Bytes) (d : newfs_super_d)
    (hb : ∀ k, k < 60 → buf k = super_d_bytes d k) (j : Nat) (hj : j < 15) :
    rd32 buf (4 * j) = u32 ((super_d_fields d).getD j 0) := by
  have e : ∀ t, t < 4 → buf (4 * j + t) = le_byte ((super_d_fields d).getD j 0) t := by
    intro t ht
    rw [hb _ (by omega)]
    unfold super_d_bytes
    have e1 : (4 * j + t) / 4 = j := by omega
    have e2 : (4 * j + t) % 4 = t := by omega
    rw [e1, e2]
  exact rd32_le_bytes buf (4 * j) _ (e 0 (by norm_num)) (e 1 (by norm_num)) (e 2 (by norm_num))
    (e 3 (by norm_num))

/-- A superblock image read back gives the fields written, each as a `uint32_t`. -/
theorem super_d_at_bytes (buf : Bytes) (d : newfs_super_d)
    (hb : ∀ k, k < 60 → buf k = super_d_bytes d k) :
    super_d_at buf =
      { magic := u32 d.magic, block_size := u32 d.block_size, sb_offset := u32 d.sb_offset,
        sb_blks := u32 d.sb_blks, ino_map_offset := u32 d.ino_map_offset,
        ino_map_blks := u32 d.ino_map_blks, data_map_offset := u32 d.data_map_offset,
        data_map_blks := u32 d.data_map_blks, inode_offset := u32 d.inode_offset,
        inode_blks := u32 d.inode_blks, data_offset := u32 d.data_offset,
        data_blks := u32 d.data_blks, inode_count := u32 d.inode_count,
        data_count := u32 d.data_count, root_ino := u32 d.root_ino } := by
  unfold super_d_at
  have r := rd32_super_d buf d hb
  have r0 := r 0 (by norm_num)
  have r1 := r 1 (by norm_num)
  have r2 := r 2 (by norm_num)
  have r3 := r 3 (by norm_num)
  have r4 := r 4 (by norm_num)
  have r5 := r 5 (by norm_num)
  have r6 := r 6 (by norm_num)
  have r7 := r 7 (by norm_num)
  have r8 := r 8 (by norm_num)
  have r9 := r 9 (by norm_num)
  have r10 := r 10 (by norm_num)
  have r11 := r 11 (by norm_num)
  have r12 := r 12 (by norm_num)
  have r13 := r 13 (by norm_num)
  have r14 := r 14 (by norm_num)
  simp only [Nat.mul_zero, Nat.mul_one, Nat.reduceMul, super_d_fields, List.getD_cons_zero,
    List.getD_cons_succ] at r0 r1 r2 r3 r4 r5 r6 r7 r8 r9 r10 r11 r12 r13 r14
  rw [r0, r1, r2, r3, r4, r5, r6, r7, r8, r9, r10, r11, r12, r13, r14]

theorem same_sizes_trans {a b c : ddriver} (h1 : same_sizes a b) (h2 : same_sizes b c) :
    same_sizes a c := ⟨h2.1.trans h1.1, h2.2.trans h1.2⟩

theorem newfs_block_write_sizes (s : newfs_super) (dev : ddriver) (blk : Nat) (buf : Bytes) :
    same_sizes dev (newfs_block_write s dev blk buf) :=
  write_loop_io_size _ _ _ _ _

theorem newfs_block_write_low (s : newfs_super) (dev : ddriver) (blk : Nat) (buf : Bytes)
    (a : Nat) (ha : a < blk * s.block_size) :
    (newfs_block_write s dev blk buf).data a = dev.data a := by
  unfold newfs_block_write
  rw [write_loop_data, if_neg]
  omega

theorem flush_loop_sizes (s : newfs_super) (map : Bytes) (off n : Nat) (dev : ddriver) :
    same_sizes dev (flush_loop s map off n dev) := by
  induction n with
  | zero => exact ⟨rfl, rfl⟩
  | succ n ih => exact same_sizes_trans ih (newfs_block_write_sizes _ _ _ _)

theorem flush_loop_low (s : newfs_super) (map : Bytes) (off n : Nat) (dev : ddriver)
    (a : Nat) (ha : a < off * s.block_size) :
    (flush_loop s map off n dev).data a = dev.data a := by
  induction n with
  | zero => rfl
  | succ n ih =>
    simp only [flush_loop]
    rw [newfs_block_write_low _ _ _ _ _ (by rw [Nat.add_mul]; omega), ih]

theorem newfs_write_inode_sizes (s : newfs_super) (dev : ddriver) (inode : newfs_inode) :
    same_sizes dev (newfs_write_inode s dev inode).2 := by
  unfold newfs_write_inode
  split
  · exact ⟨rfl, rfl⟩
  · exact newfs_block_write_sizes _ _ _ _

theorem newfs_alloc_inode_sizes (st : newfs) : same_sizes st.dev (newfs_alloc_inode st).2.dev := by
  unfold newfs_alloc_inode
  split
  · exact ⟨rfl, rfl⟩
  · exact same_sizes_trans (flush_loop_sizes _ _ _ _ _) (newfs_block_write_sizes _ _ _ _)

theorem newfs_disk_write_sizes (s : newfs_super) (dev dev' : ddriver) (offset : Int) (buf : Bytes)
    (size : Nat) (h : newfs_disk_write s dev offset buf size = .ok dev') : same_sizes dev dev' := by
  unfold newfs_disk_write at h
  split_ifs at h
  · cases h; exact ⟨rfl, rfl⟩
  · simp only [] at h
    split_ifs at h
    cases h
    exact write_loop_io_size _ _ _ _ _

theorem newfs_sync_super_sizes (s : newfs_super) (dev : ddriver) (d : newfs_super_d) :
    same_sizes dev
      (match newfs_sync_super s dev d with
        | .ok dev' => dev'
        | .error _ => dev) := by
  cases hres : newfs_sync_super s dev d with
  | error e => exact ⟨rfl, rfl⟩
  | ok dev' => exact newfs_disk_write_sizes s dev dev' 0 _ _ hres

theorem mount_format_root_sizes (h : newfs_h) (d : newfs_super_d) (r : Except Errno Nat)
    (st : newfs) : same_sizes st.dev (mount_format_root h d r st).dev := by
  exact same_sizes_trans (same_sizes_trans (same_sizes_trans
    (newfs_write_inode_sizes st.super st.dev _) (newfs_sync_super_sizes _ _ _))
    (flush_loop_sizes _ _ _ _ _)) (flush_loop_sizes _ _ _ _ _)

/-- After the writes of the format path the device starts with the superblock image. -/
theorem mount_format_root_data (h : newfs_h) (d : newfs_super_d) (st : newfs)
    (hio : 0 < st.super.io_size)
    (hfit : round_up (0 + SIZEOF_SUPER_D) st.super.io_size ≤ st.super.disk_size)
    (hi : 60 ≤ st.super.ino_map_offset * st.super.block_size)
    (hd : 60 ≤ st.super.data_map_offset * st.super.block_size)
    (k : Nat) (hk : k < 60) :
    (mount_format_root h d (.ok 0) st).dev.data k = super_d_bytes { d with root_ino := 0 } k := by
  obtain ⟨dev', hw, _, _, hdata⟩ := newfs_disk_write_ok { st.super with root_ino := 0 }
    (newfs_write_inode st.super st.dev
      { ino := 0, mode := u32 (S_IFDIR ||| h.NEWFS_DEFAULT_PERM), size := 0, links := 1,
        blocks := List.replicate NEWFS_DIRECT_NUM 0, dentry := false, first_child := [],
        data := none, children_loaded := false }).2
    0 (super_d_bytes { d with root_ino := 0 }) SIZEOF_SUPER_D (by norm_num) hio hfit
  have hs : newfs_sync_super { st.super with root_ino := 0 }
      (newfs_write_inode st.super st.dev
        { ino := 0, mode := u32 (S_IFDIR ||| h.NEWFS_DEFAULT_PERM), size := 0, links := 1,
          blocks := List.replicate NEWFS_DIRECT_NUM 0, dentry := false, first_child := [],
          data := none, children_loaded := false }).2
      { d with root_ino := 0 } = .ok dev' := hw
  unfold mount_format_root
  simp only [newfs_flush_data_map, newfs_flush_inode_map]
  rw [flush_loop_low _ _ _ _ _ _ (by simpa using (by omega : k < st.super.data_map_offset * st.super.block_size)),
    flush_loop_low _ _ _ _ _ _ (by simpa using (by omega : k < st.super.ino_map_offset * st.super.block_size)),
    hs]
  simp only []
  rw [hdata, if_pos (by simp only [SIZEOF_SUPER_D]; omega)]
  rfl

theorem mount_super_congr (dev dev' : ddriver) (h : same_sizes dev dev') :
    mount_super dev' = mount_super dev := by
  unfold mount_super
  rw [h.1, h.2]

theorem mount_load_geometry (h : newfs_h) (s : newfs_super) (dev : ddriver) (d : newfs_super_d) :
    super_d_of (mount_load h s dev d).2.super = d := by
  unfold mount_load
  simp only []
  rw [(newfs_prepare_root_frame h _).2]
  rfl

/-- The geometry the format path records, field by field. -/
theorem format_super_d (h : newfs_h) (dev : ddriver) :
    super_d_of (format_geometry h (mount_super dev)) =
      { magic := h.NEWFS_MAGIC, block_size := 1024, sb_offset := 0, sb_blks := 1,
        ino_map_offset := 1, ino_map_blks := 1, data_map_offset := 2, data_map_blks := 1,
        inode_offset := 3, inode_blks := 1, data_offset := 4,
        data_blks := min (dev.disk_size / 1024 - 4) 8192, inode_count := 23,
        data_count := min (dev.disk_size / 1024 - 4) 8192, root_ino := 0 } := by
  rw [format_geometry_eq]
  rfl

theorem newfs_mount_format_geometry (h : newfs_h) (dev : ddriver)
    (hblk : 5 ≤ dev.disk_size / 1024) (hinit : mount_is_init h dev = true) :
    super_d_of (newfs_mount h dev).2.super = super_d_of (format_geometry h (mount_super dev)) := by
  rw [(newfs_mount_format_state h dev hblk hinit).1]
  rfl

/-- The device the format path leaves has the sizes of the device mounted. -/
theorem newfs_mount_format_sizes (h : newfs_h) (dev : ddriver)
    (hblk : 5 ≤ dev.disk_size / 1024) (hinit : mount_is_init h dev = true) :
    same_sizes dev (newfs_mount h dev).2.dev := by
  rw [(newfs_mount_format_state h dev hblk hinit).2]
  exact same_sizes_trans
    (newfs_alloc_inode_sizes
      { super := { format_geometry h (mount_super dev) with
          inode_map := fun _ => 0, data_map := fun _ => 0 }, dev := dev })
    (mount_format_root_sizes _ _ _ _)

theorem mount_format_alloc_fields (h : newfs_h) (dev : ddriver) :
    (newfs_alloc_inode
      { super := { format_geometry h (mount_super dev) with
          inode_map := fun _ => 0, data_map := fun _ => 0 }, dev := dev }).2.super.io_size
      = dev.io_size ∧
    (newfs_alloc_inode
      { super := { format_geometry h (mount_super dev) with
          inode_map := fun _ => 0, data_map := fun _ => 0 }, dev := dev }).2.super.disk_size
      = dev.disk_size ∧
    (newfs_alloc_inode
      { super := { format_geometry h (mount_super dev) with
          inode_map := fun _ => 0, data_map := fun _ => 0 }, dev := dev }).2.super.block_size
      = 1024 ∧
    (newfs_alloc_inode
      { super := { format_geometry h (mount_super dev) with
          inode_map := fun _ => 0, data_map := fun _ => 0 }, dev := dev }).2.super.ino_map_offset
      = 1 ∧
    (newfs_alloc_inode
      { super := { format_geometry h (mount_super dev) with
          inode_map := fun _ => 0, data_map := fun _ => 0 }, dev := dev }).2.super.data_map_offset
      = 2 := by
  rw [(mount_format_alloc h dev).2, format_geometry_eq]
  exact ⟨rfl, rfl, rfl, rfl, rfl⟩

/-- The device the format path leaves starts with the image of the geometry. -/
theorem newfs_mount_format_data (h : newfs_h) (dev : ddriver)
    (hblk : 5 ≤ dev.disk_size / 1024) (hinit : mount_is_init h dev = true)
    (hio : 0 < dev.io_size) (hfit : round_up (0 + SIZEOF_SUPER_D) dev.io_size ≤ dev.disk_size)
    (k : Nat) (hk : k < 60) :
    (newfs_mount h dev).2.dev.data k
      = super_d_bytes (super_d_of (format_geometry h (mount_super dev))) k := by
  rw [(newfs_mount_format_state h dev hblk hinit).2]
  obtain ⟨f1, f2, f3, f4, f5⟩ := mount_format_alloc_fields h dev
  rw [mount_format_root_data h _ _ (by rw [f1]; exact hio) (by rw [f1, f2]; exact hfit)
    (by rw [f3, f4]; norm_num) (by rw [f3, f5]; norm_num) k hk, format_super_d]

/-- The superblock read back from the device the format path leaves. -/
theorem reload_reads_geometry (h : newfs_h) (dev : ddriver)
    (hio : 0 < dev.io_size) (hblk : 5 ≤ dev.disk_size / 1024)
    (hinit : mount_is_init h dev = true)
    (hfit : round_up (0 + SIZEOF_SUPER_D) dev.io_size ≤ dev.disk_size) :
    ∃ buf, newfs_disk_read (mount_super (newfs_mount h dev).2.dev) (newfs_mount h dev).2.dev 0
        stack_buf SIZEOF_SUPER_D = .ok buf ∧
      super_d_at buf =
        { magic := u32 h.NEWFS_MAGIC, block_size := 1024, sb_offset := 0, sb_blks := 1,
          ino_map_offset := 1, ino_map_blks := 1, data_map_offset := 2, data_map_blks := 1,
          inode_offset := 3, inode_blks := 1, data_offset := 4,
          data_blks := min (dev.disk_size / 1024 - 4) 8192, inode_count := 23,
          data_count := min (dev.disk_size / 1024 - 4) 8192, root_ino := 0 } := by
  have hsz := newfs_mount_format_sizes h dev hblk hinit
  have hio2 : 0 < (mount_super (newfs_mount h dev).2.dev).io_size := by
    show 0 < (newfs_mount h dev).2.dev.io_size
    rw [hsz.1]; exact hio
  have hfit2 : round_up (0 + SIZEOF_SUPER_D) (mount_super (newfs_mount h dev).2.dev).io_size
      ≤ (mount_super (newfs_mount h dev).2.dev).disk_size := by
    show round_up (0 + SIZEOF_SUPER_D) (newfs_mount h dev).2.dev.io_size
      ≤ (newfs_mount h dev).2.dev.disk_size
    rw [hsz.1, hsz.2]; exact hfit
  obtain ⟨buf, hrd, hbuf⟩ := newfs_disk_read_ok (mount_super (newfs_mount h dev).2.dev)
    (newfs_mount h dev).2.dev 0 stack_buf SIZEOF_SUPER_D (by norm_num) hio2 hfit2
  refine ⟨buf, hrd, ?_⟩
  have hcontent : ∀ k, k < 60 →
      buf k = super_d_bytes (super_d_of (format_geometry h (mount_super dev))) k := by
    intro k hk
    rw [hbuf k, if_pos hk, Nat.zero_add, newfs_mount_format_data h dev hblk hinit hio hfit k hk]
  rw [super_d_at_bytes buf _ hcontent, format_super_d]
  have hm : u32 (min (dev.disk_size / 1024 - 4) 8192) = min (dev.disk_size / 1024 - 4) 8192 :=
    u32_of_lt _ (by omega)
  simp only [hm]
  rfl

theorem newfs_mount_load (h : newfs_h) (dev : ddriver) (buf : Bytes)
    (hblk : 5 ≤ dev.disk_size / 1024) (hinit : mount_is_init h dev = false)
    (hrd : newfs_disk_read (mount_super dev) dev 0 stack_buf SIZEOF_SUPER_D = .ok buf) :
    newfs_mount h dev = mount_load h (mount_super dev) dev (super_d_at buf) := by
  have hnb : ¬ (mount_super dev).block_count < 5 := by
    show ¬ dev.disk_size / 1024 < 5
    omega
  unfold newfs_mount
  simp only []
  rw [if_neg hnb, hinit, if_neg Bool.false_ne_true, hrd]

/-- The aligned span of the superblock fits a device of at least one block when the
transfer unit divides the block size. -/
theorem super_span_fits (io disk_size : Nat) (hdvd : io ∣ 1024) (hblk : 1 ≤ disk_size / 1024) :
    round_up SIZEOF_SUPER_D io ≤ disk_size := by
  obtain ⟨q, hq⟩ := hdvd
  have hio : 0 < io := by
    rcases Nat.eq_zero_or_pos io with h0 | h0
    · rw [h0] at hq; omega
    · exact h0
  unfold round_up
  have hq2 : (io * q + (io - 1)) / io = q := by
    rw [Nat.mul_add_div hio, Nat.div_eq_of_lt (by omega), Nat.add_zero]
  have h1 : (SIZEOF_SUPER_D + io - 1) / io ≤ q := by
    rw [← hq2]
    exact Nat.div_le_div_right (by simp only [SIZEOF_SUPER_D]; omega)
  have h2 : (SIZEOF_SUPER_D + io - 1) / io * io ≤ q * io := Nat.mul_le_mul_right io h1
  have h3 : q * io = 1024 := by rw [Nat.mul_comm]; exact hq.symm
  omega

/-- C9. Format idempotence: mounting a device of at least 5 blocks whose superblock is
not valid formats it and yields a geometry; unmounting and mounting the device again
yields the same geometry in every field (magic, block size, the five region
offset / block-count pairs, `inode_count`, `data_count`, `root_ino`).  The second mount
takes the load path whenever the magic is a `uint32_t` value and the aligned span of
the superblock fits the device, in particular for every transfer unit dividing the
block size. -/
theorem format_then_reload_geometry (h : newfs_h) (dev : ddriver)
    (hio : 0 < dev.io_size) (hblk : 5 ≤ dev.disk_size / 1024)
    (hinit : mount_is_init h dev = true) :
    super_d_of (newfs_mount h (newfs_umount (newfs_mount h dev).2)).2.super
      = super_d_of (newfs_mount h dev).2.super ∧
    (h.NEWFS_MAGIC < 4294967296 → round_up SIZEOF_SUPER_D dev.io_size ≤ dev.disk_size →
      mount_is_init h (newfs_umount (newfs_mount h dev).2) = false) ∧
    (h.NEWFS_MAGIC < 4294967296 → dev.io_size ∣ NEWFS_BLOCK_SIZE →
      mount_is_init h (newfs_umount (newfs_mount h dev).2) = false) := by
  have hload : h.NEWFS_MAGIC < 4294967296 → round_up SIZEOF_SUPER_D dev.io_size ≤ dev.disk_size →
      mount_is_init h (newfs_mount h dev).2.dev = false := by
    intro hmagic hfit
    obtain ⟨buf, hrd, hat⟩ := reload_reads_geometry h dev hio hblk hinit
      (by rw [Nat.zero_add]; exact hfit)
    unfold mount_is_init
    rw [hrd]
    simp only [hat, u32_of_lt _ hmagic]
    simp
  have hsz := newfs_mount_format_sizes h dev hblk hinit
  have hms := mount_super_congr dev _ hsz
  have hblk2 : 5 ≤ (newfs_mount h dev).2.dev.disk_size / 1024 := by rw [hsz.2]; exact hblk
  have G1 := newfs_mount_format_geometry h dev hblk hinit
  unfold newfs_umount
  refine ⟨?_, hload, fun hmagic hdvd =>
    hload hmagic (super_span_fits _ _ hdvd (by omega))⟩
  · by_cases hfit : round_up (0 + SIZEOF_SUPER_D) dev.io_size ≤ dev.disk_size
    · obtain ⟨buf, hrd, hat⟩ := reload_reads_geometry h dev hio hblk hinit hfit
      cases hB : mount_is_init h (newfs_mount h dev).2.dev with
      | true =>
        rw [newfs_mount_format_geometry h _ hblk2 hB, hms, G1]
      | false =>
        have hmag : u32 h.NEWFS_MAGIC = h.NEWFS_MAGIC := by
          unfold mount_is_init at hB
          rw [hrd] at hB
          simp only [hat] at hB
          simpa using hB
        rw [newfs_mount_load h _ buf hblk2 hB hrd, mount_load_geometry, G1, format_super_d, hat,
          hmag]
    · have hsz1 : (mount_super (newfs_mount h dev).2.dev).io_size = dev.io_size := hsz.1
      have hsz2 : (mount_super (newfs_mount h dev).2.dev).disk_size = dev.disk_size := hsz.2
      have hB : mount_is_init h (newfs_mount h dev).2.dev = true := by
        unfold mount_is_init newfs_disk_read
        have h1 : ¬ SIZEOF_SUPER_D = 0 := by norm_num
        have h2 : ¬ ((0 : Int) < 0) := by omega
        rw [if_neg h1, if_neg h2]
        simp only []
        rw [hsz1, hsz2, if_pos (by simpa using hfit)]
      rw [newfs_mount_format_geometry h _ hblk2 hB, hms, G1]

/-- Witness of C9 on the blank 64-block device: the second mount takes the load path
and yields the geometry of the first. -/
theorem format_then_reload_geometry_witness :
    super_d_of (newfs_mount hdr (newfs_umount (newfs_mount hdr dev64).2)).2.super
      = super_d_of (newfs_mount hdr dev64).2.super ∧
    mount_is_init hdr (newfs_umount (newfs_mount hdr dev64).2) = false ∧
    super_d_of (newfs_mount hdr dev64).2.super =
      { magic := hdr.NEWFS_MAGIC, block_size := 1024, sb_offset := 0, sb_blks := 1,
        ino_map_offset := 1, ino_map_blks := 1, data_map_offset := 2, data_map_blks := 1,
        inode_offset := 3, inode_blks := 1, data_offset := 4, data_blks := 60,
        inode_count := 23, data_count := 60, root_ino := 0 } :=
  have hw := format_then_reload_geometry hdr dev64 (by decide!) (by decide!) (by decide!)
  ⟨hw.1, hw.2.2 (by decide!) (by decide!), by decide!⟩

/-! ## The inode store -/

theorem newfs_read_inode_ok (s : newfs_super) (dev : ddriver) (ino : Nat)
    (h : ino < s.inode_count) :
    newfs_read_inode s dev ino = .ok
      { ino := ino
        mode := (inode_d_at (newfs_block_read s dev
          (s.inode_offset + ino / newfs_inodes_per_block s) stack_buf)
          ((ino % newfs_inodes_per_block s) * SIZEOF_INODE_D)).mode
        size := (inode_d_at (newfs_block_read s dev
          (s.inode_offset + ino / newfs_inodes_per_block s) stack_buf)
          ((ino % newfs_inodes_per_block s) * SIZEOF_INODE_D)).size
        links := (inode_d_at (newfs_block_read s dev
          (s.inode_offset + ino / newfs_inodes_per_block s) stack_buf)
          ((ino % newfs_inodes_per_block s) * SIZEOF_INODE_D)).links
        blocks := (inode_d_at (newfs_block_read s dev
          (s.inode_offset + ino / newfs_inodes_per_block s) stack_buf)
          ((ino % newfs_inodes_per_block s) * SIZEOF_INODE_D)).blocks
        dentry := false, first_child := [], data := none, children_loaded := false } := by
  unfold newfs_read_inode
  rw [if_neg (by omega)]

theorem newfs_read_inode_error (s : newfs_super) (dev : ddriver) (ino : Nat)
    (h : s.inode_count ≤ ino) : newfs_read_inode s dev ino = .error .EINVAL := by
  unfold newfs_read_inode
  rw [if_pos h]

/-- C18. `newfs_read_inode(ino)` fails with `EINVAL` exactly when
`ino ≥ inode_count` and fails with no other code; for `ino < inode_count` it returns
a node, and every node it returns has the number `ino`, no dentry back-reference, no
first child, no content buffer and `children_loaded = false`, whatever the device
holds. -/
theorem read_inode_einval_iff_out_of_range (s : newfs_super) (dev : ddriver) (ino : Nat) :
    (newfs_read_inode s dev ino = .error .EINVAL ↔ ino ≥ s.inode_count) ∧
    (∀ e, newfs_read_inode s dev ino = .error e → e = .EINVAL) ∧
    (ino < s.inode_count → ∃ inode, newfs_read_inode s dev ino = .ok inode) ∧
    (∀ inode, newfs_read_inode s dev ino = .ok inode →
      inode.ino = ino ∧ inode.dentry = false ∧ inode.first_child = [] ∧ inode.data = none ∧
        inode.children_loaded = false) := by
  by_cases h : ino < s.inode_count
  · rw [newfs_read_inode_ok s dev ino h]
    refine ⟨⟨fun e => (by cases e), fun e => (by omega)⟩, fun e he => (by cases he), fun _ => ⟨_, rfl⟩, ?_⟩
    intro inode he
    injection he with he
    subst he
    exact ⟨rfl, rfl, rfl, rfl, rfl⟩
  · rw [newfs_read_inode_error s dev ino (by omega)]
    refine ⟨⟨fun _ => (by omega), fun _ => rfl⟩, ?_, fun h2 => absurd h2 h, fun inode he => (by cases he)⟩
    intro e he
    injection he with he
    exact he.symm

/-- Witness of C18 on the fresh 64-block volume (23 inodes): inode 23 is refused,
inode 0 is returned with cleared navigation fields. -/
theorem read_inode_einval_iff_out_of_range_witness :
    newfs_read_inode vol64.super vol64.dev 23 = .error .EINVAL ∧
    (∃ inode, newfs_read_inode vol64.super vol64.dev 0 = .ok inode ∧ inode.ino = 0 ∧
      inode.dentry = false ∧ inode.first_child = [] ∧ inode.data = none ∧
      inode.children_loaded = false) :=
  ⟨(read_inode_einval_iff_out_of_range vol64.super vol64.dev 23).1.2 (by decide!),
    Exists.elim ((read_inode_einval_iff_out_of_range vol64.super vol64.dev 0).2.2.1 (by decide!))
      (fun inode hi =>
        ⟨inode, hi, (read_inode_einval_iff_out_of_range vol64.super vol64.dev 0).2.2.2 inode hi⟩)⟩

/-! ## Mount: the block-count floor -/

theorem newfs_get_inode_from_dentry_error (s : newfs_super) (dev : ddriver) (d : newfs_dentry)
    (e : Errno) (h : (newfs_get_inode_from_dentry s dev d).1 = .error e) : e = .EINVAL := by
  unfold newfs_get_inode_from_dentry at h
  split at h
  · cases h
  · split at h
    · rename_i e2 heq
      injection h with h
      subst h
      by_cases hi : d.ino < s.inode_count
      · rw [newfs_read_inode_ok s dev d.ino hi] at heq
        cases heq
      · rw [newfs_read_inode_error s dev d.ino (by omega)] at heq
        injection heq with heq
        exact heq.symm
    · cases h

theorem newfs_prepare_root_result (h : newfs_h) (st : newfs) :
    (newfs_prepare_root h st).1 = .ok () ∨ (newfs_prepare_root h st).1 = .error .EINVAL := by
  unfold newfs_prepare_root
  have hg := newfs_get_inode_from_dentry_error st.super st.dev
    (newfs_dentry.mk [47] st.super.root_ino (u32 (S_IFDIR ||| h.NEWFS_DEFAULT_PERM)) none)
  simp only
  split
  · rename_i e _ heq
    rw [heq] at hg
    right
    rw [hg e rfl]
  · left
    rfl

theorem mount_load_result (h : newfs_h) (s : newfs_super) (dev : ddriver) (d : newfs_super_d) :
    (mount_load h s dev d).1 = .ok () ∨ (mount_load h s dev d).1 = .error .EINVAL :=
  newfs_prepare_root_result h _

/-- C12. `newfs_mount` returns `-ENOSPC` exactly when the device has fewer than 5
blocks of 1024 bytes: it does so for every such device, and for a device of 5 blocks
or more it returns 0 or `-EINVAL`, never `-ENOSPC`. -/
theorem mount_enospc_iff_below_floor (h : newfs_h) (dev : ddriver) :
    ((newfs_mount h dev).1 = .error .ENOSPC ↔ dev.disk_size / NEWFS_BLOCK_SIZE < 5) ∧
    (5 ≤ dev.disk_size / NEWFS_BLOCK_SIZE →
      (newfs_mount h dev).1 = .ok () ∨ (newfs_mount h dev).1 = .error .EINVAL) := by
  have hbc : (mount_super dev).block_count = dev.disk_size / NEWFS_BLOCK_SIZE := rfl
  have key : 5 ≤ dev.disk_size / NEWFS_BLOCK_SIZE →
      (newfs_mount h dev).1 = .ok () ∨ (newfs_mount h dev).1 = .error .EINVAL := by
    intro h5
    unfold newfs_mount
    simp only
    rw [if_neg (by rw [hbc]; omega)]
    split_ifs
    · exact newfs_prepare_root_result h _
    · split
      · exact mount_load_result h _ _ _
      · exact mount_load_result h _ _ _
  refine ⟨⟨?_, ?_⟩, key⟩
  · intro he
    by_contra hn
    rcases key (by omega) with h1 | h1
    · rw [h1] at he; cases he
    · rw [h1] at he; cases he
  · intro hlt
    unfold newfs_mount
    simp only
    rw [if_pos (by rw [hbc]; exact hlt)]

/-- Witness of C12: a device of 4 blocks is refused with `ENOSPC`, the device of 5
blocks is mounted. -/
theorem mount_enospc_iff_below_floor_witness :
    (newfs_mount hdr { io_size := 512, disk_size := 4096, data := fun _ => 0 }).1
      = .error .ENOSPC ∧
    ((newfs_mount hdr dev5).1 = .ok () ∨ (newfs_mount hdr dev5).1 = .error .EINVAL) :=
  ⟨(mount_enospc_iff_below_floor hdr
      { io_size := 512, disk_size := 4096, data := fun _ => 0 }).1.2 (by decide),
    (mount_enospc_iff_below_floor hdr dev5).2 (by decide)⟩

/-! ## Unaligned transfers -/

/-- C19. For a transfer unit `io_size > 0`, an offset `≥ 0` and a length `> 0` with
`round_up(offset + length, io_size) ≤ disk_size`, `newfs_disk_read` succeeds and puts
in `buf[0 .. length)` exactly the device bytes at `[offset, offset + length)`; the
rest of `buf` is untouched.  The device is only read: `newfs_disk_read` has no device
among its results. -/
theorem disk_read_unaligned_exact (s : newfs_super) (dev : ddriver) (offset : Int) (buf : Bytes)
    (size : Nat) (hio : 0 < s.io_size) (hoff : 0 ≤ offset) (hsize : 0 < size)
    (hfit : round_up (offset.toNat + size) s.io_size ≤ s.disk_size) :
    ∃ out, newfs_disk_read s dev offset buf size = .ok out ∧
      (∀ k, k < size → out k = dev.data (offset.toNat + k)) ∧
      (∀ k, size ≤ k → out k = buf k) := by
  obtain ⟨o, rfl⟩ := Int.eq_ofNat_of_zero_le hoff
  rw [Int.toNat_ofNat] at hfit ⊢
  obtain ⟨out, h1, h2⟩ := newfs_disk_read_ok s dev o buf size hsize hio hfit
  refine ⟨out, h1, ?_, ?_⟩
  · intro k hk
    rw [h2, if_pos hk]
  · intro k hk
    rw [h2, if_neg (by omega)]

/-- Witness of C19: 100 bytes at offset 1000 of the volume made of `dev_aa`, with a
transfer unit of 512: the read crosses the unit boundary at 1024, where the inode
bitmap starts with the byte 1. -/
theorem disk_read_unaligned_exact_witness :
    ∃ out, newfs_disk_read vol_aa.super vol_aa.dev 1000 stack_buf 100 = .ok out ∧
      (∀ k, k < 100 → out k = vol_aa.dev.data (1000 + k)) ∧
      (∀ k, 100 ≤ k → out k = stack_buf k) :=
  disk_read_unaligned_exact vol_aa.super vol_aa.dev 1000 stack_buf 100 (by decide!) (by decide)
    (by decide) (by decide!)

/-- C20. For a transfer unit `io_size > 0`, an offset `≥ 0` and `size > 0` bytes `b`
with `round_up(offset + size, io_size) ≤ disk_size`, `newfs_disk_write` succeeds; the
device then holds `b` at `[offset, offset + size)`, every other byte of the device is
what it was, and `newfs_disk_read(offset, size)` on the device left returns `b`. -/
theorem disk_write_unaligned_frame (s : newfs_super) (dev : ddriver) (offset : Int) (b : Bytes)
    (size : Nat) (hio : 0 < s.io_size) (hoff : 0 ≤ offset) (hsize : 0 < size)
    (hfit : round_up (offset.toNat + size) s.io_size ≤ s.disk_size) :
    ∃ dev', newfs_disk_write s dev offset b size = .ok dev' ∧
      (∀ k, k < size → dev'.data (offset.toNat + k) = b k) ∧
      (∀ a, a < offset.toNat ∨ offset.toNat + size ≤ a → dev'.data a = dev.data a) ∧
      dev'.io_size = dev.io_size ∧ dev'.disk_size = dev.disk_size ∧
      ∀ buf, ∃ out, newfs_disk_read s dev' offset buf size = .ok out ∧
        ∀ k, k < size → out k = b k := by
  obtain ⟨o, rfl⟩ := Int.eq_ofNat_of_zero_le hoff
  rw [Int.toNat_ofNat] at hfit ⊢
  obtain ⟨dev', h1, h2, h3, h4⟩ := newfs_disk_write_ok s dev o b size hsize hio hfit
  have hin : ∀ k, k < size → dev'.data (o + k) = b k := by
    intro k hk
    rw [h4, if_pos (by omega)]
    congr 1
    omega
  refine ⟨dev', h1, hin, ?_, h2, h3, ?_⟩
  · intro a ha
    rw [h4, if_neg (by omega)]
  · intro buf
    obtain ⟨out, r1, r2⟩ := newfs_disk_read_ok s dev' o buf size hsize hio hfit
    refine ⟨out, r1, ?_⟩
    intro k hk
    rw [r2, if_pos hk, hin k hk]

/-- Witness of C20: the 60 bytes of a superblock image written at offset 1000 of the
volume made of `dev_aa`, across the unit boundary at 1024. -/
theorem disk_write_unaligned_frame_witness :
    ∃ dev', newfs_disk_write vol_aa.super vol_aa.dev 1000
        (super_d_bytes (super_d_of vol_aa.super)) 60 = .ok dev' ∧
      (∀ k, k < 60 → dev'.data (1000 + k) = super_d_bytes (super_d_of vol_aa.super) k) ∧
      (∀ a, a < 1000 ∨ 1000 + 60 ≤ a → dev'.data a = vol_aa.dev.data a) ∧
      dev'.io_size = vol_aa.dev.io_size ∧ dev'.disk_size = vol_aa.dev.disk_size ∧
      ∀ buf, ∃ out, newfs_disk_read vol_aa.super dev' 1000 buf 60 = .ok out ∧
        ∀ k, k < 60 → out k = super_d_bytes (super_d_of vol_aa.super) k :=
  disk_write_unaligned_frame vol_aa.super vol_aa.dev 1000
    (super_d_bytes (super_d_of vol_aa.super)) 60 (by decide!) (by decide) (by decide) (by decide!)

/-! ## Zero fill -/

/-- C14. When `newfs_alloc_data_block` returns block `b`, with a block size of 1024
that the transfer unit divides, the 1024 bytes of block `b` on the device are 0 on
return, whatever the device held. -/
theorem alloc_data_block_zero_fills (st : newfs) (b : Nat)
    (hio : st.super.io_size ∣ st.super.block_size)
    (hbs : st.super.block_size = NEWFS_BLOCK_SIZE)
    (hret : (newfs_alloc_data_block st).1 = .ok b) :
    ∀ k, k < NEWFS_BLOCK_SIZE →
      (newfs_alloc_data_block st).2.dev.data (b * NEWFS_BLOCK_SIZE + k) = 0 := by
  intro k hk
  cases hfc : first_clear st.super.data_map st.super.data_count with
  | none =>
    rw [(newfs_alloc_data_block_none st hfc)] at hret
    cases hret
  | some i =>
    revert hret
    unfold newfs_alloc_data_block
    rw [hfc]
    intro hret
    simp only at hret ⊢
    injection hret with hret
    subst hret
    have hs : (newfs_flush_data_map { st with super :=
        { st.super with data_map := bitmap_set st.super.data_map i } }).super.block_size
        = st.super.block_size := rfl
    have hi : (newfs_flush_data_map { st with super :=
        { st.super with data_map := bitmap_set st.super.data_map i } }).super.io_size
        = st.super.io_size := rfl
    rw [newfs_block_write_data _ _ _ _ (by rw [hs, hi]; exact hio), hs, hbs, if_pos (by omega)]

/-- Witness of C14 on the volume made of `dev_aa`: block 4 is returned; it held the
byte `0xAA` throughout and holds 0 throughout on return. -/
theorem alloc_data_block_zero_fills_witness :
    (newfs_alloc_data_block vol_aa).1 = .ok 4 ∧ vol_aa.dev.data (4 * NEWFS_BLOCK_SIZE) = 170 ∧
    ∀ k, k < NEWFS_BLOCK_SIZE →
      (newfs_alloc_data_block vol_aa).2.dev.data (4 * NEWFS_BLOCK_SIZE + k) = 0 :=
  ⟨by decide!, by decide!,
    alloc_data_block_zero_fills vol_aa 4 (by decide!) (by decide!) (by decide!)⟩

/-! ## Inode records -/

theorem inodes_per_block_1024 (s : newfs_super) (hbs : s.block_size = NEWFS_BLOCK_SIZE) :
    newfs_inodes_per_block s = 23 := by
  unfold newfs_inodes_per_block
  rw [hbs]
  rfl

theorem inode_d_at_congr (buf buf' : Bytes) (off off' : Nat)
    (h : ∀ k, k < 44 → buf (off + k) = buf' (off' + k)) :
    inode_d_at buf off = inode_d_at buf' off' := by
  have r : ∀ t, t + 4 ≤ 44 → rd32 buf (off + t) = rd32 buf' (off' + t) := by
    intro t ht
    unfold rd32
    have a0 := h t (by omega)
    have a1 := h (t + 1) (by omega)
    have a2 := h (t + 2) (by omega)
    have a3 := h (t + 3) (by omega)
    simp only [Nat.add_assoc] at a0 a1 a2 a3 ⊢
    rw [a0, a1, a2, a3]
  unfold inode_d_at
  have r0 := r 0 (by omega)
  have r4 := r 4 (by omega)
  have r8 := r 8 (by omega)
  simp only [Nat.add_zero] at r0
  rw [r0, r4, r8]
  congr 1
  apply List.map_congr_left
  intro j hj
  have hj8 : j < 8 := by simpa [NEWFS_DIRECT_NUM] using hj
  have := r (12 + 4 * j) (by omega)
  simp only [Nat.add_assoc] at this ⊢
  exact this

theorem inode_d_at_bytes (buf : Bytes) (off : Nat) (d : newfs_inode_d)
    (hb : ∀ k, k < 44 → buf (off + k) = inode_d_bytes d k) :
    inode_d_at buf off =
      { mode := u32 d.mode, size := u32 d.size, links := u32 d.links,
        blocks := (List.range NEWFS_DIRECT_NUM).map (fun j => u32 (d.blocks.getD j 0)) } := by
  have e : ∀ t, t < 44 → buf (off + t) = inode_d_bytes d t := hb
  unfold inode_d_at
  have m : rd32 buf off = u32 d.mode := by
    apply rd32_le_bytes
    · have := e 0 (by omega); simpa [inode_d_bytes] using this
    · have := e 1 (by omega); simpa [inode_d_bytes] using this
    · have := e 2 (by omega); simpa [inode_d_bytes] using this
    · have := e 3 (by omega); simpa [inode_d_bytes] using this
  have sz : rd32 buf (off + 4) = u32 d.size := by
    apply rd32_le_bytes
    · have := e 4 (by omega); simpa [inode_d_bytes] using this
    · have := e 5 (by omega); simpa [inode_d_bytes, Nat.add_assoc] using this
    · have := e 6 (by omega); simpa [inode_d_bytes, Nat.add_assoc] using this
    · have := e 7 (by omega); simpa [inode_d_bytes, Nat.add_assoc] using this
  have lk : rd32 buf (off + 8) = u32 d.links := by
    apply rd32_le_bytes
    · have := e 8 (by omega); simpa [inode_d_bytes] using this
    · have := e 9 (by omega); simpa [inode_d_bytes, Nat.add_assoc] using this
    · have := e 10 (by omega); simpa [inode_d_bytes, Nat.add_assoc] using this
    · have := e 11 (by omega); simpa [inode_d_bytes, Nat.add_assoc] using this
  rw [m, sz, lk]
  congr 1
  apply List.map_congr_left
  intro j hj
  have hj8 : j < 8 := by simpa [NEWFS_DIRECT_NUM] using hj
  have q : ∀ t, t < 4 → buf (off + 12 + 4 * j + t) = le_byte (d.blocks.getD j 0) t := by
    intro t ht
    have := e (12 + 4 * j + t) (by omega)
    simp only [← Nat.add_assoc] at this
    rw [this]
    unfold inode_d_bytes
    rw [if_neg (by omega), if_neg (by omega), if_neg (by omega), if_pos (by omega)]
    have e1 : (12 + 4 * j + t - 12) / 4 = j := by omega
    have e2 : (12 + 4 * j + t - 12) % 4 = t := by omega
    rw [e1, e2]
  exact rd32_le_bytes buf (off + 12 + 4 * j) _ (q 0 (by omega)) (q 1 (by omega)) (q 2 (by omega))
    (q 3 (by omega))

theorem blocks_u32_id (l : List Nat) (hlen : l.length = NEWFS_DIRECT_NUM)
    (hb : ∀ b, b ∈ l → b < 4294967296) :
    (List.range NEWFS_DIRECT_NUM).map (fun j => u32 (l.getD j 0)) = l := by
  apply List.ext_getElem
  · simp [hlen]
  · intro n h1 h2
    simp only [List.getElem_map, List.getElem_range]
    rw [List.getD_eq_getElem _ _ h2]
    exact u32_of_lt _ (hb _ (List.getElem_mem _))

/-- The record of an inode lies inside its block. -/
theorem inode_off_fits (ino : Nat) : (ino % 23) * 44 + 44 ≤ 1024 := by
  have := Nat.mod_lt ino (show 0 < 23 by norm_num)
  omega

/-- What `newfs_read_inode` returns, in terms of the device bytes at the address of
the record. -/
theorem newfs_read_inode_dev (s : newfs_super) (dev : ddriver) (ino : Nat)
    (hio : s.io_size ∣ s.block_size) (hbs : s.block_size = NEWFS_BLOCK_SIZE)
    (h : ino < s.inode_count) :
    newfs_read_inode s dev ino = .ok
      { ino := ino, mode := (inode_d_at dev.data (inode_addr s ino)).mode,
        size := (inode_d_at dev.data (inode_addr s ino)).size,
        links := (inode_d_at dev.data (inode_addr s ino)).links,
        blocks := (inode_d_at dev.data (inode_addr s ino)).blocks,
        dentry := false, first_child := [], data := none, children_loaded := false } := by
  rw [newfs_read_inode_ok s dev ino h]
  have hc : inode_d_at (newfs_block_read s dev (s.inode_offset + ino / newfs_inodes_per_block s)
      stack_buf) ((ino % newfs_inodes_per_block s) * SIZEOF_INODE_D)
      = inode_d_at dev.data (inode_addr s ino) := by
    apply inode_d_at_congr
    intro k hk
    rw [newfs_block_read_apply _ _ _ _ hio]
    have hf := inode_off_fits ino
    rw [inodes_per_block_1024 s hbs, hbs]
    simp only [SIZEOF_INODE_D, NEWFS_BLOCK_SIZE]
    rw [if_pos (by omega)]
    unfold inode_addr
    rw [inodes_per_block_1024 s hbs, hbs]
    simp only [SIZEOF_INODE_D, NEWFS_BLOCK_SIZE, Nat.add_assoc]
  rw [hc]

/-- What `newfs_write_inode` leaves on the device: the 44 bytes of the record at its
address, and every other byte as it was. -/
theorem newfs_write_inode_data (s : newfs_super) (dev : ddriver) (node : newfs_inode)
    (hio : s.io_size ∣ s.block_size) (hbs : s.block_size = NEWFS_BLOCK_SIZE)
    (h : node.ino < s.inode_count) (a : Nat) :
    (newfs_write_inode s dev node).2.data a
      = if inode_addr s node.ino ≤ a ∧ a < inode_addr s node.ino + 44 then
          inode_d_bytes
            { mode := node.mode, size := node.size, links := node.links, blocks := node.blocks }
            (a - inode_addr s node.ino)
        else dev.data a := by
  unfold newfs_write_inode
  rw [if_neg (by omega)]
  simp only
  rw [newfs_block_write_data _ _ _ _ hio]
  have hf := inode_off_fits node.ino
  unfold inode_addr
  rw [inodes_per_block_1024 s hbs, hbs]
  simp only [SIZEOF_INODE_D, NEWFS_BLOCK_SIZE]
  by_cases h1 : (s.inode_offset + node.ino / 23) * 1024 ≤ a ∧
      a < (s.inode_offset + node.ino / 23) * 1024 + 1024
  · rw [if_pos h1]
    unfold memcpy
    by_cases h2 : (s.inode_offset + node.ino / 23) * 1024 + node.ino % 23 * 44 ≤ a ∧
        a < (s.inode_offset + node.ino / 23) * 1024 + node.ino % 23 * 44 + 44
    · rw [if_pos h2, if_pos (by omega)]
      congr 1
      omega
    · rw [if_neg h2, if_neg (by omega), newfs_block_read_apply _ _ _ _ hio, hbs]
      simp only [NEWFS_BLOCK_SIZE]
      rw [if_pos (by omega)]
      congr 1
      omega
  · rw [if_neg h1, if_neg (by omega)]

theorem newfs_write_inode_ok (s : newfs_super) (dev : ddriver) (node : newfs_inode)
    (h : node.ino < s.inode_count) : (newfs_write_inode s dev node).1 = .ok () := by
  unfold newfs_write_inode
  rw [if_neg (by omega)]

theorem newfs_write_inode_error (s : newfs_super) (dev : ddriver) (node : newfs_inode)
    (h : s.inode_count ≤ node.ino) : newfs_write_inode s dev node = (.error .EINVAL, dev) := by
  unfold newfs_write_inode
  rw [if_pos h]

/-- The records of two inodes do not overlap. -/
theorem inode_addr_disjoint (s : newfs_super) (hbs : s.block_size = NEWFS_BLOCK_SIZE)
    (i j : Nat) (hij : i ≠ j) :
    inode_addr s i + 44 ≤ inode_addr s j ∨ inode_addr s j + 44 ≤ inode_addr s i := by
  unfold inode_addr
  rw [inodes_per_block_1024 s hbs, hbs]
  simp only [SIZEOF_INODE_D, NEWFS_BLOCK_SIZE]
  rcases Nat.lt_or_gt_of_ne hij with hlt | hlt
  · have := Nat.div_le_div_right (c := 23) (Nat.le_of_lt hlt)
    omega
  · have := Nat.div_le_div_right (c := 23) (Nat.le_of_lt hlt)
    omega

/-- C16. After `newfs_write_inode(node)` on a node with `ino < inode_count` whose
fields fit their `uint32_t` fields, with a block size of 1024 that the transfer unit
divides, the write has returned 0 and `newfs_read_inode(node.ino)` returns a node
with the same `ino`, `mode`, `size`, `links` and the same 8 block pointers. -/
theorem inode_record_round_trip (s : newfs_super) (dev : ddriver) (node : newfs_inode)
    (hio : s.io_size ∣ s.block_size) (hbs : s.block_size = NEWFS_BLOCK_SIZE)
    (hino : node.ino < s.inode_count) (hfit : inode_fits node) :
    (newfs_write_inode s dev node).1 = .ok () ∧
    ∃ r, newfs_read_inode s (newfs_write_inode s dev node).2 node.ino = .ok r ∧
      r.ino = node.ino ∧ r.mode = node.mode ∧ r.size = node.size ∧ r.links = node.links ∧
      r.blocks = node.blocks := by
  obtain ⟨f1, f2, f3, f4, f5⟩ := hfit
  refine ⟨newfs_write_inode_ok s dev node hino, ?_⟩
  rw [newfs_read_inode_dev s _ node.ino hio hbs hino]
  have hb : inode_d_at (newfs_write_inode s dev node).2.data (inode_addr s node.ino)
      = { mode := u32 node.mode, size := u32 node.size, links := u32 node.links,
          blocks := (List.range NEWFS_DIRECT_NUM).map (fun j => u32 (node.blocks.getD j 0)) } := by
    apply inode_d_at_bytes _ _
      { mode := node.mode, size := node.size, links := node.links, blocks := node.blocks }
    intro k hk
    rw [newfs_write_inode_data s dev node hio hbs hino, if_pos (by omega)]
    congr 1
    omega
  refine ⟨_, rfl, rfl, ?_, ?_, ?_, ?_⟩
  · rw [hb]; exact u32_of_lt _ f1
  · rw [hb]; exact u32_of_lt _ f2
  · rw [hb]; exact u32_of_lt _ f3
  · rw [hb]; exact blocks_u32_id _ f4 f5

/-- C17. `newfs_write_inode(node)`, with a block size of 1024 that the transfer unit
divides, leaves every device byte outside the 44 bytes of the record of `node.ino`
as it was, so `newfs_read_inode(j)` returns the same for every `j ≠ node.ino`
before and after; the capacity and the transfer unit of the device are kept. -/
theorem inode_write_leaves_others (s : newfs_super) (dev : ddriver) (node : newfs_inode)
    (hio : s.io_size ∣ s.block_size) (hbs : s.block_size = NEWFS_BLOCK_SIZE) :
    (∀ a, a < inode_addr s node.ino ∨ inode_addr s node.ino + 44 ≤ a →
      (newfs_write_inode s dev node).2.data a = dev.data a) ∧
    (∀ j, j ≠ node.ino →
      newfs_read_inode s (newfs_write_inode s dev node).2 j = newfs_read_inode s dev j) ∧
    same_sizes dev (newfs_write_inode s dev node).2 := by
  by_cases hino : node.ino < s.inode_count
  · have hout : ∀ a, a < inode_addr s node.ino ∨ inode_addr s node.ino + 44 ≤ a →
        (newfs_write_inode s dev node).2.data a = dev.data a := by
      intro a ha
      rw [newfs_write_inode_data s dev node hio hbs hino, if_neg (by omega)]
    refine ⟨hout, ?_, newfs_write_inode_sizes s dev node⟩
    intro j hj
    by_cases hjc : j < s.inode_count
    · rw [newfs_read_inode_dev s _ j hio hbs hjc, newfs_read_inode_dev s dev j hio hbs hjc]
      have hc : inode_d_at (newfs_write_inode s dev node).2.data (inode_addr s j)
          = inode_d_at dev.data (inode_addr s j) := by
        apply inode_d_at_congr
        intro k hk
        apply hout
        have := inode_addr_disjoint s hbs j node.ino hj
        omega
      rw [hc]
    · rw [newfs_read_inode_error s _ j (by omega), newfs_read_inode_error s dev j (by omega)]
  · rw [newfs_write_inode_error s dev node (by omega)]
    exact ⟨fun _ _ => rfl, fun _ _ => rfl, rfl, rfl⟩

/-- Witness of C16 on the volume made of `dev_aa`: inode 5 written and read back. -/
theorem inode_record_round_trip_witness :
    (newfs_write_inode vol_aa.super vol_aa.dev node5).1 = .ok () ∧
    ∃ r, newfs_read_inode vol_aa.super (newfs_write_inode vol_aa.super vol_aa.dev node5).2
        node5.ino = .ok r ∧
      r.ino = node5.ino ∧ r.mode = node5.mode ∧ r.size = node5.size ∧ r.links = node5.links ∧
      r.blocks = node5.blocks :=
  inode_record_round_trip vol_aa.super vol_aa.dev node5 (by decide!) (by decide!) (by decide!)
    (by unfold inode_fits; decide!)

/-- Witness of C17 on the volume made of `dev_aa`: writing inode 5 leaves the rest of
the device, and so the root inode, as they were. -/
theorem inode_write_leaves_others_witness :
    (∀ a, a < inode_addr vol_aa.super node5.ino ∨ inode_addr vol_aa.super node5.ino + 44 ≤ a →
      (newfs_write_inode vol_aa.super vol_aa.dev node5).2.data a = vol_aa.dev.data a) ∧
    (∀ j, j ≠ node5.ino →
      newfs_read_inode vol_aa.super (newfs_write_inode vol_aa.super vol_aa.dev node5).2 j
        = newfs_read_inode vol_aa.super vol_aa.dev j) ∧
    same_sizes vol_aa.dev (newfs_write_inode vol_aa.super vol_aa.dev node5).2 :=
  inode_write_leaves_others vol_aa.super vol_aa.dev node5 (by decide!) (by decide!)

/-! ## The root after format -/

theorem pos_of_dvd_block (io : Nat) (h : io ∣ NEWFS_BLOCK_SIZE) : 0 < io := by
  rcases Nat.eq_zero_or_pos io with h0 | h0
  · rw [h0] at h
    obtain ⟨q, hq⟩ := h
    simp [NEWFS_BLOCK_SIZE] at hq
  · exact h0

/-- The device the writes of the format path leave: the superblock image, the two
bitmaps in their blocks, the root record, and every other byte as it was. -/
theorem mount_format_root_dev (h : newfs_h) (d : newfs_super_d) (st : newfs)
    (hio : st.super.io_size ∣ st.super.block_size)
    (hbs : st.super.block_size = NEWFS_BLOCK_SIZE)
    (hfit : round_up (0 + SIZEOF_SUPER_D) st.super.io_size ≤ st.super.disk_size)
    (hcount : 0 < st.super.inode_count)
    (g1 : st.super.ino_map_offset = 1) (g2 : st.super.ino_map_blks = 1)
    (g3 : st.super.data_map_offset = 2) (g4 : st.super.data_map_blks = 1)
    (g5 : st.super.inode_offset = 3) (a : Nat) :
    (mount_format_root h d (.ok 0) st).dev.data a =
      if 2048 ≤ a ∧ a < 3072 then st.super.data_map (a - 2048)
      else if 1024 ≤ a ∧ a < 2048 then st.super.inode_map (a - 1024)
      else if a < 60 then super_d_bytes { d with root_ino := 0 } a
      else if 3072 ≤ a ∧ a < 3116 then
        inode_d_bytes
          { mode := u32 (S_IFDIR ||| h.NEWFS_DEFAULT_PERM), size := 0, links := 1,
            blocks := List.replicate NEWFS_DIRECT_NUM 0 }
          (a - 3072)
      else st.dev.data a := by
  have hio0 : 0 < st.super.io_size := pos_of_dvd_block _ (by rw [← hbs]; exact hio)
  have hw := newfs_write_inode_data st.super st.dev (format_root_inode h) hio hbs hcount
  have haddr : inode_addr st.super (format_root_inode h).ino = 3072 := by
    unfold inode_addr
    rw [inodes_per_block_1024 _ hbs, g5, hbs]
    simp only [format_root_inode, NEWFS_BLOCK_SIZE, SIZEOF_INODE_D]
  rw [haddr] at hw
  obtain ⟨dev', hs, _, _, hdata⟩ := newfs_disk_write_ok { st.super with root_ino := 0 }
    (newfs_write_inode st.super st.dev (format_root_inode h)).2
    0 (super_d_bytes { d with root_ino := 0 }) SIZEOF_SUPER_D (by norm_num) hio0 hfit
  have hs2 : newfs_sync_super { st.super with root_ino := 0 }
      (newfs_write_inode st.super st.dev (format_root_inode h)).2
      { d with root_ino := 0 } = .ok dev' := hs
  have hio2 : ({ st.super with root_ino := 0 } : newfs_super).io_size
      ∣ ({ st.super with root_ino := 0 } : newfs_super).block_size := hio
  unfold mount_format_root
  simp only [newfs_flush_data_map, newfs_flush_inode_map]
  rw [flush_loop_data _ _ _ _ _ hio2, flush_loop_data _ _ _ _ _ hio2]
  change (if st.super.data_map_offset * st.super.block_size ≤ a ∧
        a < (st.super.data_map_offset + st.super.data_map_blks) * st.super.block_size then
      st.super.data_map (a - st.super.data_map_offset * st.super.block_size)
    else if st.super.ino_map_offset * st.super.block_size ≤ a ∧
        a < (st.super.ino_map_offset + st.super.ino_map_blks) * st.super.block_size then
      st.super.inode_map (a - st.super.ino_map_offset * st.super.block_size)
    else (match newfs_sync_super { st.super with root_ino := 0 }
        (newfs_write_inode st.super st.dev (format_root_inode h)).2 { d with root_ino := 0 } with
      | .ok dev => dev
      | .error _ => (newfs_write_inode st.super st.dev (format_root_inode h)).2).data a) = _
  rw [hs2, g1, g2, g3, g4, hbs]
  simp only [NEWFS_BLOCK_SIZE, Nat.reduceMul, Nat.reduceAdd, Nat.one_mul]
  rw [hdata, hw]
  simp only [SIZEOF_SUPER_D, Nat.zero_add, Nat.sub_zero, Nat.zero_le, true_and]
  rfl

theorem newfs_prepare_root_ok (h : newfs_h) (st : newfs)
    (hr : st.super.root_ino < st.super.inode_count) : (newfs_prepare_root h st).1 = .ok () := by
  rcases newfs_prepare_root_result h st with h1 | h1
  · exact h1
  · exfalso
    unfold newfs_prepare_root newfs_get_inode_from_dentry at h1
    simp only [newfs_dentry.inode, newfs_dentry.ino] at h1
    rw [newfs_read_inode_ok _ _ _ hr] at h1
    simp at h1

theorem bitmap_set_zero_byte (k : Nat) :
    bitmap_set (fun _ => 0) 0 k = if k = 0 then 1 else 0 := by
  unfold bitmap_set
  by_cases hk : k = 0
  · subst hk
    rfl
  · have : ¬ k = 0 / BITS_PER_BYTE := by simpa [BITS_PER_BYTE] using hk
    rw [if_neg this, if_neg hk]

theorem getD_replicate_zero (n j : Nat) : (List.replicate n 0).getD j 0 = 0 := by
  induction n generalizing j with
  | zero => rfl
  | succ n ih =>
    cases j with
    | zero => rfl
    | succ j => exact ih j

theorem inode_d_bytes_zero (k : Nat) :
    inode_d_bytes { mode := 0, size := 0, links := 0, blocks := List.replicate 8 0 } k = 0 := by
  unfold inode_d_bytes le_byte
  simp only [getD_replicate_zero, Nat.zero_div, Nat.zero_mod, ite_self]

/-- The geometry fields do not depend on the bitmaps or on the tree. -/
theorem formatted_of_eq (s s' : newfs_super) (m1 m2 : Bytes) (r : Option newfs_dentry)
    (h : s' = { s with inode_map := m1, data_map := m2, root_dentry := r })
    (hf : formatted s) : formatted s' := by
  unfold formatted at hf ⊢
  rw [h]
  exact hf

theorem format_start_formatted (h : newfs_h) (dev : ddriver)
    (hio : dev.io_size ∣ NEWFS_BLOCK_SIZE) : formatted (format_start h dev).super := by
  have e := format_geometry_eq h dev
  have hs : (format_start h dev).super
      = { format_geometry h (mount_super dev) with
          inode_map := fun _ => 0, data_map := fun _ => 0 } := rfl
  unfold formatted
  rw [hs, e]
  refine ⟨hio, rfl, rfl, rfl, rfl, rfl, rfl, rfl, rfl, ?_⟩
  show min (dev.disk_size / 1024 - 4) 8192 ≤ 8192
  omega

/-- A one-block bitmap flushed to block `o`. -/
theorem flush_loop_block (s : newfs_super) (map : Bytes) (off n : Nat) (dev : ddriver) (o : Nat)
    (hio : s.io_size ∣ s.block_size) (hbs : s.block_size = NEWFS_BLOCK_SIZE)
    (ho : off = o) (hn : n = 1) (a : Nat) :
    (flush_loop s map off n dev).data a
      = if o * 1024 ≤ a ∧ a < o * 1024 + 1024 then map (a - o * 1024) else dev.data a := by
  subst ho hn
  rw [flush_loop_data _ _ _ _ _ hio, hbs]
  simp only [NEWFS_BLOCK_SIZE, Nat.add_mul, Nat.one_mul]

/-- The read-splice-write of `n` bytes at offset `o` of block `b`. -/
theorem splice_data (s : newfs_super) (dev : ddriver) (blk off n : Nat) (bytes : Bytes)
    (b o : Nat) (hio : s.io_size ∣ s.block_size) (hbs : s.block_size = NEWFS_BLOCK_SIZE)
    (hb : blk = b) (ho : off = o) (hfit : o + n ≤ 1024) (a : Nat) :
    (newfs_block_write s dev blk (memcpy (newfs_block_read s dev blk stack_buf) off bytes 0 n)).data a
      = if b * 1024 + o ≤ a ∧ a < b * 1024 + o + n then bytes (a - (b * 1024 + o))
        else dev.data a := by
  subst hb ho
  rw [newfs_block_write_data _ _ _ _ hio, hbs]
  simp only [NEWFS_BLOCK_SIZE]
  unfold memcpy
  by_cases h1 : blk * 1024 ≤ a ∧ a < blk * 1024 + 1024
  · rw [if_pos h1]
    by_cases h2 : blk * 1024 + off ≤ a ∧ a < blk * 1024 + off + n
    · rw [if_pos h2, if_pos (by omega)]
      congr 1
      omega
    · rw [if_neg h2, if_neg (by omega), newfs_block_read_apply _ _ _ _ hio, hbs]
      simp only [NEWFS_BLOCK_SIZE]
      rw [if_pos (by omega)]
      congr 1
      omega
  · rw [if_neg h1, if_neg (by omega)]

/-- What `newfs_alloc_inode` leaves on the device of a formatted volume when it
returns `i`: the record of `i` zeroed, the inode bitmap in block 1, and every other
byte as it was. -/
theorem newfs_alloc_inode_data (st : newfs) (i : Nat) (hf : formatted st.super)
    (hfc : first_clear st.super.inode_map st.super.inode_count = some i) (a : Nat) :
    (newfs_alloc_inode st).2.dev.data a =
      if 3072 + i * 44 ≤ a ∧ a < 3072 + i * 44 + 44 then 0
      else if 1024 ≤ a ∧ a < 2048 then bitmap_set st.super.inode_map i (a - 1024)
      else st.dev.data a := by
  obtain ⟨hio, hbs, g1, g2, g3, g4, g5, g6, g7, g8⟩ := hf
  obtain ⟨_, hi, _, _⟩ := (first_clear_from_some _ _ _ _).1 hfc
  rw [g7] at hi
  have hi23 : i / 23 = 0 := by omega
  have him : i % 23 = i := by omega
  have key : ∀ S : newfs_super,
      S = { st.super with inode_map := bitmap_set st.super.inode_map i } →
      (newfs_alloc_inode st).2.dev
        = newfs_block_write S
            (flush_loop S S.inode_map S.ino_map_offset S.ino_map_blks st.dev)
            (S.inode_offset + i / newfs_inodes_per_block S)
            (memcpy
              (newfs_block_read S
                (flush_loop S S.inode_map S.ino_map_offset S.ino_map_blks st.dev)
                (S.inode_offset + i / newfs_inodes_per_block S) stack_buf)
              (i % newfs_inodes_per_block S * SIZEOF_INODE_D)
              (inode_d_bytes { mode := 0, size := 0, links := 0, blocks := List.replicate 8 0 })
              0 SIZEOF_INODE_D) := by
    intro S hS
    subst hS
    unfold newfs_alloc_inode
    rw [hfc]
    rfl
  obtain ⟨S, hS⟩ : ∃ S : newfs_super,
      S = { st.super with inode_map := bitmap_set st.super.inode_map i } := ⟨_, rfl⟩
  have s1 : S.io_size ∣ S.block_size := by rw [hS]; exact hio
  have s2 : S.block_size = NEWFS_BLOCK_SIZE := by rw [hS]; exact hbs
  have s3 : S.inode_offset = 3 := by rw [hS]; exact g5
  have s4 : S.ino_map_offset = 1 := by rw [hS]; exact g1
  have s5 : S.ino_map_blks = 1 := by rw [hS]; exact g2
  have s6 : S.inode_map = bitmap_set st.super.inode_map i := by rw [hS]
  rw [key S hS, splice_data _ _ _ _ _ _ 3 (i * 44) s1 s2
    (by rw [s3, inodes_per_block_1024 _ s2, hi23])
    (by rw [inodes_per_block_1024 _ s2, him])
    (by simp only [SIZEOF_INODE_D]; omega)]
  rw [flush_loop_block _ _ _ _ _ 1 s1 s2 s4 s5, inode_d_bytes_zero, s6]

/-- What `newfs_alloc_data_block` leaves on the device of a formatted volume when it
takes bit `i`: block `4 + i` zeroed, the data bitmap in block 2, and every other
byte as it was. -/
theorem newfs_alloc_data_block_data (st : newfs) (i : Nat) (hf : formatted st.super)
    (hfc : first_clear st.super.data_map st.super.data_count = some i) (a : Nat) :
    (newfs_alloc_data_block st).2.dev.data a =
      if (4 + i) * 1024 ≤ a ∧ a < (4 + i) * 1024 + 1024 then 0
      else if 2048 ≤ a ∧ a < 3072 then bitmap_set st.super.data_map i (a - 2048)
      else st.dev.data a := by
  obtain ⟨hio, hbs, g1, g2, g3, g4, g5, g6, g7, g8⟩ := hf
  have key : ∀ S : newfs_super,
      S = { st.super with data_map := bitmap_set st.super.data_map i } →
      (newfs_alloc_data_block st).2.dev
        = newfs_block_write S
            (flush_loop S S.data_map S.data_map_offset S.data_map_blks st.dev)
            (S.data_offset + i) (fun _ => 0) := by
    intro S hS
    subst hS
    unfold newfs_alloc_data_block
    rw [hfc]
    rfl
  obtain ⟨S, hS⟩ : ∃ S : newfs_super,
      S = { st.super with data_map := bitmap_set st.super.data_map i } := ⟨_, rfl⟩
  have s1 : S.io_size ∣ S.block_size := by rw [hS]; exact hio
  have s2 : S.block_size = NEWFS_BLOCK_SIZE := by rw [hS]; exact hbs
  have s3 : S.data_offset = 4 := by rw [hS]; exact g6
  have s4 : S.data_map_offset = 2 := by rw [hS]; exact g3
  have s5 : S.data_map_blks = 1 := by rw [hS]; exact g4
  have s6 : S.data_map = bitmap_set st.super.data_map i := by rw [hS]
  rw [key S hS, newfs_block_write_data _ _ _ _ s1, flush_loop_block _ _ _ _ _ 2 s1 s2 s4 s5, s3, s2,
    s6]

/-- The device that the format path of `newfs_mount` leaves, in closed form. -/
theorem newfs_mount_format_dev (h : newfs_h) (dev : ddriver)
    (hio : dev.io_size ∣ NEWFS_BLOCK_SIZE) (hblk : 5 ≤ dev.disk_size / NEWFS_BLOCK_SIZE)
    (hinit : mount_is_init h dev = true) (a : Nat) :
    (newfs_mount h dev).2.dev.data a =
      if 2048 ≤ a ∧ a < 3072 then 0
      else if 1024 ≤ a ∧ a < 2048 then (if a = 1024 then 1 else 0)
      else if a < 60 then super_d_bytes (super_d_of (format_geometry h (mount_super dev))) a
      else if 3072 ≤ a ∧ a < 3116 then
        inode_d_bytes
          { mode := u32 (S_IFDIR ||| h.NEWFS_DEFAULT_PERM), size := 0, links := 1,
            blocks := List.replicate NEWFS_DIRECT_NUM 0 }
          (a - 3072)
      else dev.data a := by
  have hfit : round_up (0 + SIZEOF_SUPER_D) dev.io_size ≤ dev.disk_size := by
    rw [Nat.zero_add]
    exact super_span_fits _ _ hio (by simp only [NEWFS_BLOCK_SIZE] at hblk; omega)
  have hf0 := format_start_formatted h dev hio
  have hfc : first_clear (format_start h dev).super.inode_map
      (format_start h dev).super.inode_count = some 0 := format_first_clear h dev
  have hsup : (newfs_alloc_inode (format_start h dev)).2.super
      = { (format_start h dev).super with
          inode_map := bitmap_set (format_start h dev).super.inode_map 0 } :=
    (newfs_alloc_inode_some _ 0 hfc).2
  have hf1 : formatted (newfs_alloc_inode (format_start h dev)).2.super :=
    formatted_of_eq _ _ _ _ _ hsup hf0
  have hdev := newfs_alloc_inode_data (format_start h dev) 0 hf0 hfc a
  have hmapi : (newfs_alloc_inode (format_start h dev)).2.super.inode_map
      = bitmap_set (fun _ => 0) 0 := by rw [hsup]; rfl
  have hmapd : (newfs_alloc_inode (format_start h dev)).2.super.data_map = fun _ => 0 := by
    rw [hsup]; rfl
  have hios : (newfs_alloc_inode (format_start h dev)).2.super.io_size = dev.io_size := by
    rw [hsup]; exact congrArg newfs_super.io_size (format_geometry_eq h dev)
  have hdsz : (newfs_alloc_inode (format_start h dev)).2.super.disk_size = dev.disk_size := by
    rw [hsup]; exact congrArg newfs_super.disk_size (format_geometry_eq h dev)
  have hst : (newfs_mount h dev).2.dev
      = (mount_format_root h (super_d_of (format_geometry h (mount_super dev))) (.ok 0)
          (newfs_alloc_inode (format_start h dev)).2).dev :=
    (newfs_mount_format_state h dev hblk hinit).2
  obtain ⟨f1, f2, f3, f4, f5, f6, f7, f8, f9, f10⟩ := hf1
  rw [hst, mount_format_root_dev h _ _ f1 f2 (by rw [hios, hdsz]; exact hfit)
    (by rw [f9]; norm_num) f3 f4 f5 f6 f7 a, hmapi, hmapd, hdev, format_super_d]
  have hz : (format_start h dev).super.inode_map = fun _ => 0 := rfl
  have hd0 : (format_start h dev).dev = dev := rfl
  rw [hz, hd0]
  simp only [bitmap_set_zero_byte]
  split_ifs <;> first | rfl | omega

theorem bitmap_test_congr (m m' : Bytes) (j : Nat) (h : m (j / 8) = m' (j / 8)) :
    bitmap_test m j = bitmap_test m' j := by
  unfold bitmap_test
  simp only [BITS_PER_BYTE]
  rw [h]

theorem bitmap_test_zero (j : Nat) : bitmap_test (fun _ => 0) j = false := by
  simp [bitmap_test]

/-- The state that the format path of `newfs_mount` leaves is formatted. -/
theorem newfs_mount_formatted (h : newfs_h) (dev : ddriver)
    (hio : dev.io_size ∣ NEWFS_BLOCK_SIZE) (hblk : 5 ≤ dev.disk_size / NEWFS_BLOCK_SIZE)
    (hinit : mount_is_init h dev = true) : formatted (newfs_mount h dev).2.super :=
  formatted_of_eq (format_start h dev).super _ _ _ _
    (newfs_mount_format_state h dev hblk hinit).1 (format_start_formatted h dev hio)

theorem newfs_mount_format_maps (h : newfs_h) (dev : ddriver)
    (hblk : 5 ≤ dev.disk_size / NEWFS_BLOCK_SIZE) (hinit : mount_is_init h dev = true) :
    (newfs_mount h dev).2.super.inode_map = bitmap_set (fun _ => 0) 0 ∧
    (newfs_mount h dev).2.super.data_map = (fun _ => 0) ∧
    (newfs_mount h dev).2.super.root_ino = 0 ∧
    (newfs_mount h dev).2.super.io_size = dev.io_size ∧
    (newfs_mount h dev).2.super.disk_size = dev.disk_size := by
  rw [(newfs_mount_format_state h dev hblk hinit).1]
  refine ⟨rfl, rfl, ?_, ?_, ?_⟩
  · exact congrArg newfs_super.root_ino (format_geometry_eq h dev)
  · exact congrArg newfs_super.io_size (format_geometry_eq h dev)
  · exact congrArg newfs_super.disk_size (format_geometry_eq h dev)

theorem newfs_mount_format_ok (h : newfs_h) (dev : ddriver)
    (hblk : 5 ≤ dev.disk_size / NEWFS_BLOCK_SIZE) (hinit : mount_is_init h dev = true) :
    (newfs_mount h dev).1 = .ok () := by
  rw [newfs_mount_format h dev hblk hinit, mount_format_eq]
  apply newfs_prepare_root_ok
  rw [mount_format_root_super, (mount_format_alloc h dev).2]
  show 0 < (format_geometry h (mount_super dev)).inode_count
  rw [format_geometry_eq]
  show 0 < 23
  norm_num

/-- C11. After `newfs_mount` formats a device of at least 5 blocks (transfer unit
dividing the block size; memory allocation succeeding): the mount returns 0; the
first allocation returned index 0, which is the `root_ino` of the session and of the
superblock read back from the device; `newfs_read_inode(root_ino)` returns mode
`(uint32_t)(S_IFDIR | NEWFS_DEFAULT_PERM)` (which is `S_IFDIR | NEWFS_DEFAULT_PERM`
for a 32-bit constant), 1 link, size 0 and 8 zero block pointers; in the inode-bitmap
region of the device exactly bit `root_ino` is set; the data-bitmap region is all
zero. -/
theorem format_root_inode_and_bitmaps (h : newfs_h) (dev : ddriver)
    (hio : dev.io_size ∣ NEWFS_BLOCK_SIZE) (hblk : 5 ≤ dev.disk_size / NEWFS_BLOCK_SIZE)
    (hinit : mount_is_init h dev = true) :
    (newfs_mount h dev).1 = .ok () ∧
    (newfs_alloc_inode (format_start h dev)).1 = .ok 0 ∧
    (newfs_mount h dev).2.super.root_ino = 0 ∧
    (∃ buf, newfs_disk_read (newfs_mount h dev).2.super (newfs_mount h dev).2.dev 0 stack_buf
        SIZEOF_SUPER_D = .ok buf ∧ (super_d_at buf).root_ino = 0) ∧
    newfs_read_inode (newfs_mount h dev).2.super (newfs_mount h dev).2.dev
        (newfs_mount h dev).2.super.root_ino
      = .ok { ino := 0, mode := u32 (S_IFDIR ||| h.NEWFS_DEFAULT_PERM), size := 0, links := 1,
              blocks := [0, 0, 0, 0, 0, 0, 0, 0], dentry := false, first_child := [],
              data := none, children_loaded := false } ∧
    (h.NEWFS_DEFAULT_PERM < 4294967296 →
      u32 (S_IFDIR ||| h.NEWFS_DEFAULT_PERM) = S_IFDIR ||| h.NEWFS_DEFAULT_PERM) ∧
    (∀ j, j < (newfs_mount h dev).2.super.ino_map_blks * (newfs_mount h dev).2.super.block_size
          * BITS_PER_BYTE →
      bitmap_test (ino_map_region (newfs_mount h dev).2) j
        = decide (j = (newfs_mount h dev).2.super.root_ino)) ∧
    (∀ k, k < (newfs_mount h dev).2.super.data_map_blks * (newfs_mount h dev).2.super.block_size →
      data_map_region (newfs_mount h dev).2 k = 0) := by
  have hf := newfs_mount_formatted h dev hio hblk hinit
  obtain ⟨m1, m2, m3, m4, m5⟩ := newfs_mount_format_maps h dev hblk hinit
  have hdev := newfs_mount_format_dev h dev hio hblk hinit
  obtain ⟨f1, f2, f3, f4, f5, f6, f7, f8, f9, f10⟩ := hf
  have hio0 := pos_of_dvd_block _ hio
  have hfit : round_up (0 + SIZEOF_SUPER_D) dev.io_size ≤ dev.disk_size := by
    rw [Nat.zero_add]
    exact super_span_fits _ _ hio (by simp only [NEWFS_BLOCK_SIZE] at hblk; omega)
  refine ⟨newfs_mount_format_ok h dev hblk hinit, (mount_format_alloc h dev).1, m3, ?_, ?_, ?_, ?_, ?_⟩
  · obtain ⟨buf, hrd, hbuf⟩ := newfs_disk_read_ok (newfs_mount h dev).2.super
      (newfs_mount h dev).2.dev 0 stack_buf SIZEOF_SUPER_D (by norm_num)
      (by rw [m4]; exact hio0) (by rw [m4, m5]; exact hfit)
    refine ⟨buf, hrd, ?_⟩
    have hcontent : ∀ k, k < 60 →
        buf k = super_d_bytes (super_d_of (format_geometry h (mount_super dev))) k := by
      intro k hk
      rw [hbuf k, if_pos hk, Nat.zero_add, hdev, if_neg (by omega), if_neg (by omega), if_pos hk]
    rw [super_d_at_bytes buf _ hcontent, format_super_d]
    rfl
  · rw [m3, newfs_read_inode_dev _ _ 0 f1 f2 (by rw [f9]; norm_num)]
    have haddr : inode_addr (newfs_mount h dev).2.super 0 = 3072 := by
      unfold inode_addr
      rw [inodes_per_block_1024 _ f2, f7, f2]
      simp only [NEWFS_BLOCK_SIZE, SIZEOF_INODE_D]
    rw [haddr, inode_d_at_bytes _ _
      { mode := u32 (S_IFDIR ||| h.NEWFS_DEFAULT_PERM), size := 0, links := 1,
        blocks := List.replicate NEWFS_DIRECT_NUM 0 }
      (by
        intro k hk
        rw [hdev, if_neg (by omega), if_neg (by omega), if_neg (by omega), if_pos (by omega),
          Nat.add_sub_cancel_left])]
    have hu : u32 (u32 (S_IFDIR ||| h.NEWFS_DEFAULT_PERM)) = u32 (S_IFDIR ||| h.NEWFS_DEFAULT_PERM) :=
      Nat.mod_mod _ _
    simp only [hu]
    rfl
  · intro hp
    apply u32_of_lt
    have h1 : S_IFDIR < 2 ^ 32 := by norm_num [S_IFDIR]
    have h2 : h.NEWFS_DEFAULT_PERM < 2 ^ 32 := by norm_num; exact hp
    have := Nat.or_lt_two_pow h1 h2
    norm_num at this
    exact this
  · intro j hj
    rw [f4, f2] at hj
    simp only [NEWFS_BLOCK_SIZE, BITS_PER_BYTE] at hj
    rw [m3, bitmap_test_congr _ (bitmap_set (fun _ => 0) 0) j, bitmap_test_set, bitmap_test_zero,
      Bool.or_false]
    unfold ino_map_region
    rw [f3, f2, hdev, bitmap_set_zero_byte]
    simp only [NEWFS_BLOCK_SIZE]
    rw [if_neg (by omega), if_pos (by omega)]
    by_cases h0 : j / 8 = 0
    · rw [if_pos h0, if_pos (by omega)]
    · rw [if_neg h0, if_neg (by omega)]
  · intro k hk
    rw [f6, f2] at hk
    simp only [NEWFS_BLOCK_SIZE] at hk
    unfold data_map_region
    rw [f5, f2, hdev]
    simp only [NEWFS_BLOCK_SIZE]
    rw [if_pos (by omega)]

/-- Witness of C11 on the device `dev_aa`, every byte of which was `0xAA`. -/
theorem format_root_inode_and_bitmaps_witness :
    (newfs_mount hdr dev_aa).1 = .ok () ∧
    vol_aa.super.root_ino = 0 ∧
    newfs_read_inode vol_aa.super vol_aa.dev vol_aa.super.root_ino
      = .ok { ino := 0, mode := 0o40777, size := 0, links := 1,
              blocks := [0, 0, 0, 0, 0, 0, 0, 0], dentry := false, first_child := [],
              data := none, children_loaded := false } ∧
    (∀ j, j < 8192 → bitmap_test (ino_map_region vol_aa) j = decide (j = 0)) ∧
    (∀ k, k < 1024 → data_map_region vol_aa k = 0) :=
  have hw := format_root_inode_and_bitmaps hdr dev_aa (by decide!) (by decide!) (by decide!)
  ⟨hw.1, hw.2.2.1, hw.2.2.2.2.1, hw.2.2.2.2.2.2.1, hw.2.2.2.2.2.2.2⟩

/-! ## The session tree -/

theorem tree_ok_inode (lo : Nat) (d : newfs_dentry) (h : tree_ok lo d) :
    ∃ inode, d = .mk d.name d.ino d.mode (some inode) ∧ inode_ok lo inode ∧
      ∀ c, c ∈ inode.first_child → tree_ok lo c := by
  cases h with
  | mk name ino mode inode h1 h2 => exact ⟨inode, rfl, h1, h2⟩

theorem tree_ok_with_inode (lo : Nat) (d : newfs_dentry) (inode : newfs_inode)
    (h1 : inode_ok lo inode) (h2 : ∀ c, c ∈ inode.first_child → tree_ok lo c) :
    tree_ok lo (d.with_inode inode) :=
  tree_ok.mk _ _ _ inode h1 h2

theorem with_inode_inode (d : newfs_dentry) (i : newfs_inode) : (d.with_inode i).inode = some i :=
  rfl

theorem with_inode_ino (d : newfs_dentry) (i : newfs_inode) : (d.with_inode i).ino = d.ino := rfl

theorem with_inode_self (d : newfs_dentry) (i : newfs_inode) (h : d.inode = some i) :
    d.with_inode i = d := by
  cases d with
  | mk n ino m oi =>
    simp only [newfs_dentry.inode] at h
    subst h
    rfl

theorem newfs_get_inode_from_dentry_resolved (s : newfs_super) (dev : ddriver) (d : newfs_dentry)
    (inode : newfs_inode) (h : d.inode = some inode) :
    newfs_get_inode_from_dentry s dev d = (.ok inode, d) := by
  unfold newfs_get_inode_from_dentry
  rw [h]

/-- Loading the children of a well-formed inode reads nothing from the device: at
most `children_loaded` changes. -/
theorem newfs_load_dir_children_ok (s : newfs_super) (dev : ddriver) (lo : Nat) (ci : newfs_inode)
    (h : inode_ok lo ci) :
    (newfs_load_dir_children s dev ci).2.first_child = ci.first_child ∧
    (newfs_load_dir_children s dev ci).2.blocks = ci.blocks ∧
    (newfs_load_dir_children s dev ci).2.mode = ci.mode ∧
    (newfs_load_dir_children s dev ci).2.size = ci.size ∧
    (newfs_load_dir_children s dev ci).2.ino = ci.ino ∧
    inode_ok lo (newfs_load_dir_children s dev ci).2 ∧
    (S_ISDIR ci.mode = true → (newfs_load_dir_children s dev ci).2.children_loaded = true) := by
  obtain ⟨h1, h2, h3⟩ := h
  by_cases hd : S_ISDIR ci.mode = true
  · by_cases hl : ci.children_loaded = true
    · have e : (newfs_load_dir_children s dev ci).2 = ci := by
        unfold newfs_load_dir_children
        rw [hd, if_neg (by simp), if_pos hl]
      rw [e]
      exact ⟨rfl, rfl, rfl, rfl, rfl, ⟨h1, h2, h3⟩, fun _ => hl⟩
    · have hl' : ci.children_loaded = false := by simpa using hl
      obtain ⟨e1, e2⟩ := h3 hl'
      have e3 : ci.size / SIZEOF_DENTRY_D = 0 := Nat.div_eq_of_lt e2
      have e : (newfs_load_dir_children s dev ci).2
          = { ci with first_child := [], children_loaded := true } := by
        unfold newfs_load_dir_children
        rw [hd, if_neg (by simp), if_neg hl]
        simp only [e3, load_loop]
      rw [e]
      refine ⟨e1.symm, rfl, rfl, rfl, rfl, ⟨h1, h2, ?_⟩, fun _ => rfl⟩
      intro hc
      cases hc
  · have hd' : S_ISDIR ci.mode = false := by simpa using hd
    have e : (newfs_load_dir_children s dev ci).2 = ci := by
      unfold newfs_load_dir_children
      rw [hd', if_pos (by simp)]
    rw [e]
    exact ⟨rfl, rfl, rfl, rfl, rfl, ⟨h1, h2, h3⟩, fun hc => absurd hc hd⟩

theorem find_child_get (dir : newfs_inode) (name : List Nat) (c : newfs_dentry)
    (h : newfs_find_child_dentry dir name = some c) :
    dir.first_child.get? (find_child_pos dir name) = some c := by
  unfold newfs_find_child_dentry at h
  unfold find_child_pos
  generalize dir.first_child = l at h ⊢
  induction l with
  | nil => simp at h
  | cons x xs ih =>
    rw [List.find?_cons] at h
    rw [List.findIdx_cons]
    by_cases hx : strncmp_eq x.name name MAX_NAME_LEN = true
    · rw [hx] at h ⊢
      simp only [Option.some.injEq] at h
      subst h
      rfl
    · have hx' : strncmp_eq x.name name MAX_NAME_LEN = false := by simpa using hx
      rw [hx'] at h ⊢
      simp only [cond_false, List.get?_cons_succ]
      exact ih h

theorem get?_mem {α : Type} (l : List α) (k : Nat) (c : α) (h : l.get? k = some c) : c ∈ l := by
  exact List.get?_mem h

theorem get?_set_self {α : Type} (l : List α) (k : Nat) (c x : α) (h : l.get? k = some c) :
    (l.set k x).get? k = some x := by
  rw [List.get?_eq_getElem?] at h ⊢
  obtain ⟨hk, _⟩ := List.getElem?_eq_some_iff.1 h
  exact List.getElem?_set_self hk

theorem mem_set_cases {α : Type} (l : List α) (k : Nat) (x y : α) (h : y ∈ l.set k x) :
    y ∈ l ∨ y = x := by
  rcases List.mem_or_eq_of_mem_set h with h1 | h1
  · exact Or.inl h1
  · exact Or.inr h1

theorem mem_set_other {α : Type} (l : List α) (k : Nat) (c x y : α) (hk : l.get? k = some c)
    (hy : y ∈ l) : y ∈ l.set k x ∨ y = c := by
  induction l generalizing k with
  | nil => cases hy
  | cons a as ih =>
    cases k with
    | zero =>
      simp only [List.get?_cons_zero, Option.some.injEq] at hk
      subst hk
      rcases List.mem_cons.1 hy with h1 | h1
      · exact Or.inr h1
      · exact Or.inl (List.mem_cons_of_mem _ h1)
    | succ k =>
      simp only [List.get?_cons_succ] at hk
      rcases List.mem_cons.1 hy with h1 | h1
      · subst h1
        exact Or.inl (List.mem_cons_self _ _)
      · rcases ih k hk h1 with h2 | h2
        · exact Or.inl (List.mem_cons_of_mem _ h2)
        · exact Or.inr h2

theorem mem_set_self {α : Type} (l : List α) (k : Nat) (c x : α) (hk : l.get? k = some c) :
    x ∈ l.set k x := by
  have := get?_set_self l k c x hk
  exact get?_mem _ _ _ this

theorem dentry_at_cons (d : newfs_dentry) (k : Nat) (p : List Nat) (x : newfs_dentry)
    (h : dentry_at d (k :: p) = some x) :
    ∃ ci c, d.inode = some ci ∧ ci.first_child.get? k = some c ∧ dentry_at c p = some x := by
  unfold dentry_at at h
  cases hi : d.inode with
  | none => rw [hi] at h; cases h
  | some ci =>
    rw [hi] at h
    simp only at h
    cases hc : ci.first_child.get? k with
    | none => rw [hc] at h; cases h
    | some c =>
      rw [hc] at h
      exact ⟨ci, c, rfl, hc, h⟩

theorem dentry_at_cons_eq (d : newfs_dentry) (k : Nat) (p : List Nat) (ci : newfs_inode)
    (c : newfs_dentry) (h1 : d.inode = some ci) (h2 : ci.first_child.get? k = some c) :
    dentry_at d (k :: p) = dentry_at c p := by
  rw [dentry_at, h1]
  simp only
  rw [h2]

theorem dentry_set_cons (d : newfs_dentry) (k : Nat) (p : List Nat) (v : newfs_dentry)
    (ci : newfs_inode) (c : newfs_dentry)
    (h1 : d.inode = some ci) (h2 : ci.first_child.get? k = some c) :
    dentry_set d (k :: p) v
      = d.with_inode { ci with first_child := ci.first_child.set k (dentry_set c p v) } := by
  rw [dentry_set, h1]
  simp only
  rw [h2]

theorem dentry_at_set_self (root : newfs_dentry) (ptr : List Nat) (pd v : newfs_dentry)
    (h : dentry_at root ptr = some pd) : dentry_at (dentry_set root ptr v) ptr = some v := by
  induction ptr generalizing root with
  | nil => rfl
  | cons k p ih =>
    obtain ⟨ci, c, h1, h2, h3⟩ := dentry_at_cons root k p pd h
    rw [dentry_set_cons root k p v ci c h1 h2,
      dentry_at_cons_eq _ k p _ (dentry_set c p v) (with_inode_inode _ _)
        (get?_set_self _ _ _ _ h2)]
    exact ih c h3

theorem tree_ok_at (lo : Nat) (root : newfs_dentry) (ptr : List Nat) (pd : newfs_dentry)
    (hr : tree_ok lo root) (h : dentry_at root ptr = some pd) : tree_ok lo pd := by
  induction ptr generalizing root with
  | nil =>
    simp only [dentry_at, Option.some.injEq] at h
    subst h
    exact hr
  | cons k p ih =>
    obtain ⟨ci, c, h1, h2, h3⟩ := dentry_at_cons root k p pd h
    obtain ⟨inode, e, _, hc⟩ := tree_ok_inode lo root hr
    rw [e] at h1
    simp only [newfs_dentry.inode, Option.some.injEq] at h1
    subst h1
    exact ih c (hc c (get?_mem _ _ _ h2)) h3

theorem tree_ok_set (lo : Nat) (root : newfs_dentry) (ptr : List Nat) (pd v : newfs_dentry)
    (hr : tree_ok lo root) (h : dentry_at root ptr = some pd) (hv : tree_ok lo v) :
    tree_ok lo (dentry_set root ptr v) := by
  induction ptr generalizing root with
  | nil => exact hv
  | cons k p ih =>
    obtain ⟨ci, c, h1, h2, h3⟩ := dentry_at_cons root k p pd h
    obtain ⟨inode, e, hi, hc⟩ := tree_ok_inode lo root hr
    have h1' := h1
    rw [e] at h1'
    simp only [newfs_dentry.inode, Option.some.injEq] at h1'
    subst h1'
    rw [dentry_set_cons root k p v inode c h1 h2]
    apply tree_ok_with_inode
    · obtain ⟨a1, a2, a3⟩ := hi
      refine ⟨a1, a2, ?_⟩
      intro hl
      obtain ⟨b1, b2⟩ := a3 hl
      rw [b1] at h2
      simp at h2
    · intro y hy
      rcases mem_set_cases _ _ _ _ hy with h4 | h4
      · exact hc y h4
      · rw [h4]
        exact ih c (hc c (get?_mem _ _ _ h2)) h3

/-! ## Reachability -/

theorem in_tree_trans (a b c : newfs_dentry) (h1 : in_tree a b) (h2 : in_tree b c) :
    in_tree a c := by
  induction h1 with
  | self d => exact h2
  | child name ino mode inode x d hm _ ih => exact in_tree.child name ino mode inode x c hm (ih h2)

theorem in_tree_node (n : List Nat) (i m : Nat) (ci : newfs_inode) (d : newfs_dentry)
    (h : in_tree (.mk n i m (some ci)) d) :
    d = .mk n i m (some ci) ∨ ∃ c, c ∈ ci.first_child ∧ in_tree c d := by
  cases h with
  | self => exact Or.inl rfl
  | child _ _ _ _ c _ hm hc => exact Or.inr ⟨c, hm, hc⟩

theorem in_tree_at (root : newfs_dentry) (ptr : List Nat) (d : newfs_dentry)
    (h : dentry_at root ptr = some d) : in_tree root d := by
  induction ptr generalizing root with
  | nil =>
    simp only [dentry_at, Option.some.injEq] at h
    subst h
    exact in_tree.self _
  | cons k p ih =>
    obtain ⟨ci, c, h1, h2, h3⟩ := dentry_at_cons root k p d h
    cases root with
    | mk n i m oi =>
      simp only [newfs_dentry.inode] at h1
      subst h1
      exact in_tree.child n i m ci c d (get?_mem _ _ _ h2) (ih c h3)

theorem grows_refl (d : newfs_dentry) : grows d d := ⟨fun _ h => h, fun _ _ h => h⟩

theorem grows_trans (a b c : newfs_dentry) (h1 : grows a b) (h2 : grows b c) : grows a c :=
  ⟨fun i h => h2.1 i (h1.1 i h), fun x hx h => h2.2 x hx (h1.2 x hx h)⟩

theorem has_ino_child (n : List Nat) (i m : Nat) (ci : newfs_inode) (c : newfs_dentry) (x : Nat)
    (hm : c ∈ ci.first_child) (h : has_ino c x) : has_ino (.mk n i m (some ci)) x := by
  obtain ⟨d, hd, he⟩ := h
  exact ⟨d, in_tree.child n i m ci c d hm hd, he⟩

theorem has_blk_child (n : List Nat) (i m : Nat) (ci : newfs_inode) (c : newfs_dentry) (b : Nat)
    (hm : c ∈ ci.first_child) (h : has_blk c b) : has_blk (.mk n i m (some ci)) b := by
  obtain ⟨d, inode, hd, h1, h2, h3⟩ := h
  exact ⟨d, inode, in_tree.child n i m ci c d hm hd, h1, h2, h3⟩

/-- A node keeps what is reachable when its inode keeps its directory blocks and each
child has a counterpart that keeps what is reachable. -/
theorem grows_node (n : List Nat) (i m : Nat) (ci ci' : newfs_inode)
    (hm : S_ISDIR ci.mode = true →
      S_ISDIR ci'.mode = true ∧ ∀ b, b ∈ ci.blocks → b ≠ 0 → b ∈ ci'.blocks)
    (hc : ∀ c, c ∈ ci.first_child → ∃ c', c' ∈ ci'.first_child ∧ grows c c') :
    grows (.mk n i m (some ci)) (.mk n i m (some ci')) := by
  constructor
  · intro x hx
    obtain ⟨d, hd, he⟩ := hx
    rcases in_tree_node n i m ci d hd with h1 | ⟨c, h1, h2⟩
    · subst h1
      exact ⟨_, in_tree.self _, he⟩
    · obtain ⟨c', hc1, hc2⟩ := hc c h1
      exact has_ino_child n i m ci' c' x hc1 (hc2.1 x ⟨d, h2, he⟩)
  · intro b hb hx
    obtain ⟨d, inode, hd, e1, e2, e3⟩ := hx
    rcases in_tree_node n i m ci d hd with h1 | ⟨c, h1, h2⟩
    · subst h1
      simp only [newfs_dentry.inode, Option.some.injEq] at e1
      subst e1
      obtain ⟨g1, g2⟩ := hm e2
      exact ⟨_, ci', in_tree.self _, rfl, g1, g2 b e3 hb⟩
    · obtain ⟨c', hc1, hc2⟩ := hc c h1
      exact has_blk_child n i m ci' c' b hc1 (hc2.2 b hb ⟨d, inode, h2, e1, e2, e3⟩)

theorem grows_set (root : newfs_dentry) (ptr : List Nat) (pd v : newfs_dentry)
    (h : dentry_at root ptr = some pd) (hv : grows pd v) : grows root (dentry_set root ptr v) := by
  induction ptr generalizing root with
  | nil =>
    simp only [dentry_at, Option.some.injEq] at h
    subst h
    exact hv
  | cons k p ih =>
    obtain ⟨ci, c, h1, h2, h3⟩ := dentry_at_cons root k p pd h
    rw [dentry_set_cons root k p v ci c h1 h2]
    cases root with
    | mk n i m oi =>
      simp only [newfs_dentry.inode] at h1
      subst h1
      apply grows_node
      · intro hd
        exact ⟨hd, fun b hb _ => hb⟩
      · intro y hy
        rcases mem_set_other _ k c (dentry_set c p v) y h2 hy with h4 | h4
        · exact ⟨y, h4, grows_refl y⟩
        · subst h4
          exact ⟨_, mem_set_self _ k y _ h2, ih y h3⟩

/-! ## The resolver on a session tree -/

theorem inode_ok_set_child (lo : Nat) (ci : newfs_inode) (k : Nat) (c x : newfs_dentry)
    (h : inode_ok lo ci) (hk : ci.first_child.get? k = some c) :
    inode_ok lo { ci with first_child := ci.first_child.set k x } := by
  obtain ⟨a1, a2, a3⟩ := h
  refine ⟨a1, a2, ?_⟩
  intro hl
  obtain ⟨b1, _⟩ := a3 hl
  rw [b1] at hk
  simp at hk

/-- The walk of `newfs_get_parent_dentry` over a session tree: the tree it leaves is a
session tree that has lost nothing, and the pointer it returns designates the
parent dentry it returns. -/
theorem parent_loop_spec (s : newfs_super) (dev : ddriver) (lo : Nat) (l : List (List Nat)) :
    ∀ (token : List Nat) (cur : newfs_dentry) (ci : newfs_inode),
      inode_ok lo ci → (∀ c, c ∈ ci.first_child → tree_ok lo c) →
      tree_ok lo (parent_loop s dev (token :: l) cur ci).2 ∧
      grows (cur.with_inode ci) (parent_loop s dev (token :: l) cur ci).2 ∧
      ∀ ptr pd name, (parent_loop s dev (token :: l) cur ci).1 = .ok (ptr, pd, name) →
        dentry_at (parent_loop s dev (token :: l) cur ci).2 ptr = some pd := by
  induction l with
  | nil =>
    intro token cur ci h1 h2
    simp only [parent_loop]
    refine ⟨tree_ok_with_inode lo cur ci h1 h2, grows_refl _, ?_⟩
    intro ptr pd name he
    injection he with he
    injection he with e1 e2
    injection e2 with e2 e3
    subst e1 e2
    rfl
  | cons next rest ih =>
    intro token cur ci h1 h2
    obtain ⟨l1, l2, l3, l4, l5, l6, l7⟩ := newfs_load_dir_children_ok s dev lo ci h1
    simp only [parent_loop]
    generalize (newfs_load_dir_children s dev ci).2 = ci1 at l1 l2 l3 l4 l5 l6 l7 ⊢
    have hch : ∀ c, c ∈ ci1.first_child → tree_ok lo c := by rw [l1]; exact h2
    have hgrow1 : grows (cur.with_inode ci) (cur.with_inode ci1) := by
      apply grows_node
      · intro hd
        rw [l3, l2]
        exact ⟨hd, fun b hb _ => hb⟩
      · intro c hc
        exact ⟨c, by rw [l1]; exact hc, grows_refl c⟩
    cases hfind : newfs_find_child_dentry ci1 token with
    | none =>
      simp only
      refine ⟨tree_ok_with_inode lo cur ci1 l6 hch, hgrow1, ?_⟩
      intro ptr pd name he
      cases he
    | some child =>
      simp only
      have hk := find_child_get ci1 token child hfind
      have hmem := get?_mem _ _ _ hk
      obtain ⟨chi, ech, hchi, hchc⟩ := tree_ok_inode lo child (hch child hmem)
      have hres : child.inode = some chi := by rw [ech]; rfl
      rw [newfs_get_inode_from_dentry_resolved s dev child chi hres]
      simp only
      obtain ⟨r1, r2, r3⟩ := ih next child chi hchi hchc
      rcases hrec : parent_loop s dev (next :: rest) child chi with ⟨r, child'⟩
      rw [hrec] at r1 r2 r3
      simp only at r1 r2 r3 ⊢
      refine ⟨?_, ?_, ?_⟩
      · apply tree_ok_with_inode
        · exact inode_ok_set_child lo ci1 _ child child' l6 hk
        · intro y hy
          rcases mem_set_cases _ _ _ _ hy with h4 | h4
          · exact hch y h4
          · rw [h4]; exact r1
      · apply grows_trans _ _ _ hgrow1
        apply grows_node
        · intro hd
          exact ⟨hd, fun b hb _ => hb⟩
        · intro y hy
          rcases mem_set_other _ _ child child' y hk hy with h4 | h4
          · exact ⟨y, h4, grows_refl y⟩
          · subst h4
            refine ⟨child', mem_set_self _ _ y _ hk, ?_⟩
            rw [with_inode_self y chi hres] at r2
            exact r2
      · intro ptr pd name he
        cases r with
        | error e => cases he
        | ok x =>
          obtain ⟨p', pd', name'⟩ := x
          simp only [Except.map] at he
          injection he with he
          injection he with e1 e2
          injection e2 with e2 e3
          subst e1 e2
          rw [dentry_at_cons_eq _ _ p' _ child' (with_inode_inode _ _)
            (get?_set_self _ _ _ _ hk)]
          exact r3 p' pd' name' rfl

theorem set_root_self (st : newfs) (root : newfs_dentry)
    (h : st.super.root_dentry = some root) :
    st = { st with super := { st.super with root_dentry := some root } } := by
  cases st with
  | mk super dev =>
    cases super
    simp only at h
    subst h
    rfl

/-- The function `newfs_get_parent_dentry` on a session tree: only the tree changes,
it stays a session tree and loses nothing, and the pointer returned designates the
parent dentry returned. -/
theorem newfs_get_parent_dentry_spec (lo : Nat) (st : newfs) (path : List Nat)
    (root : newfs_dentry) (hroot : st.super.root_dentry = some root) (hok : tree_ok lo root) :
    ∃ root', (newfs_get_parent_dentry st path).2
        = { st with super := { st.super with root_dentry := some root' } } ∧
      tree_ok lo root' ∧ grows root root' ∧
      ∀ ptr pd name, (newfs_get_parent_dentry st path).1 = .ok (ptr, pd, name) →
        dentry_at root' ptr = some pd := by
  unfold newfs_get_parent_dentry
  by_cases hp : path = [47]
  · rw [if_pos hp]
    exact ⟨root, set_root_self st root hroot, hok, grows_refl root, fun _ _ _ he => by cases he⟩
  · rw [if_neg hp, hroot]
    simp only
    obtain ⟨ci, eroot, hci, hcc⟩ := tree_ok_inode lo root hok
    have hres : root.inode = some ci := by rw [eroot]; rfl
    rw [newfs_get_inode_from_dentry_resolved _ _ root ci hres]
    simp only
    cases htok : path_tokens path with
    | nil =>
      simp only [parent_loop]
      rw [with_inode_self root ci hres]
      exact ⟨root, rfl, hok, grows_refl root, fun _ _ _ he => by cases he⟩
    | cons token l =>
      obtain ⟨r1, r2, r3⟩ := parent_loop_spec st.super st.dev lo l token root ci hci hcc
      rcases hrec : parent_loop st.super st.dev (token :: l) root ci with ⟨r, root'⟩
      rw [hrec] at r1 r2 r3
      simp only at r1 r2 r3 ⊢
      rw [with_inode_self root ci hres] at r2
      exact ⟨root', rfl, r1, r2, r3⟩

/-- The lookup of `newfs_mkdir` / `newfs_mknod` on a session tree: only the tree
changes, it stays a session tree and loses nothing; on success the pointer
designates the parent dentry with the inode returned, which is a directory with its
children loaded. -/
theorem create_lookup_spec (lo : Nat) (st : newfs) (path : List Nat)
    (root : newfs_dentry) (hroot : st.super.root_dentry = some root) (hok : tree_ok lo root) :
    ∃ root', (create_lookup st path).2
        = { st with super := { st.super with root_dentry := some root' } } ∧
      tree_ok lo root' ∧ grows root root' ∧
      ∀ ptr pd pi name, (create_lookup st path).1 = .ok (ptr, pd, pi, name) →
        dentry_at root' ptr = some (pd.with_inode pi) ∧ S_ISDIR pi.mode = true ∧
          pi.children_loaded = true ∧ newfs_find_child_dentry pi name = none := by
  obtain ⟨root1, e1, t1, g1, p1⟩ := newfs_get_parent_dentry_spec lo st path root hroot hok
  unfold create_lookup
  rcases hres : newfs_get_parent_dentry st path with ⟨r, st1⟩
  rw [hres] at e1 p1
  simp only at e1 p1
  cases r with
  | error e =>
    simp only
    exact ⟨root1, e1, t1, g1, fun _ _ _ _ he => by cases he⟩
  | ok x =>
    obtain ⟨ptr, pd, name⟩ := x
    simp only
    have hat := p1 ptr pd name rfl
    have tpd := tree_ok_at lo root1 ptr pd t1 hat
    obtain ⟨pi0, epd, hpi0, hpc⟩ := tree_ok_inode lo pd tpd
    have hresd : pd.inode = some pi0 := by rw [epd]; rfl
    rw [newfs_get_inode_from_dentry_resolved _ _ pd pi0 hresd]
    simp only
    by_cases hd : S_ISDIR pi0.mode = true
    · rw [hd]
      simp only [Bool.not_true, Bool.false_eq_true, if_false]
      obtain ⟨l1, l2, l3, l4, l5, l6, l7⟩ := newfs_load_dir_children_ok st1.super st1.dev lo pi0 hpi0
      generalize (newfs_load_dir_children st1.super st1.dev pi0).2 = pi at l1 l2 l3 l4 l5 l6 l7 ⊢
      have tv : tree_ok lo (pd.with_inode pi) :=
        tree_ok_with_inode lo pd pi l6 (by rw [l1]; exact hpc)
      have gv : grows pd (pd.with_inode pi) := by
        rw [epd]
        apply grows_node
        · intro hm
          rw [l3, l2]
          exact ⟨hm, fun b hb _ => hb⟩
        · intro c hc
          exact ⟨c, by rw [l1]; exact hc, grows_refl c⟩
      have hroot' : put_parent st1 ptr (pd.with_inode pi)
          = { st with super := { st.super with
                root_dentry := some (dentry_set root1 ptr (pd.with_inode pi)) } } := by
        rw [e1]
        rfl
      refine ⟨dentry_set root1 ptr (pd.with_inode pi), ?_, tree_ok_set lo root1 ptr pd _ t1 hat tv,
        grows_trans _ _ _ g1 (grows_set root1 ptr pd _ hat gv), ?_⟩
      · split_ifs
        · exact hroot'
        · exact hroot'
      · intro ptr' pd' pi' name' he
        split_ifs at he with hf
        injection he with he
        injection he with a1 a2
        injection a2 with a2 a3
        injection a3 with a3 a4
        subst a1 a2 a3 a4
        refine ⟨dentry_at_set_self root1 ptr pd _ hat, ?_, l7 hd, ?_⟩
        · rw [l3]; exact hd
        · cases hfc : newfs_find_child_dentry pi name with
          | none => rfl
          | some c => rw [hfc] at hf; simp at hf
    · have hd' : S_ISDIR pi0.mode = false := by simpa using hd
      rw [hd']
      simp only [Bool.not_false, if_true]
      exact ⟨root1, e1, t1, g1, fun _ _ _ _ he => by cases he⟩

/-! ## The insertion on a session tree -/

/-- The three ways `newfs_add_dentry` ends on a loaded directory when a child inode
is given: `ENOSPC` with nothing changed; the record stored in a block the directory
has; the record stored in a block just allocated. -/
theorem newfs_add_dentry_cases (st : newfs) (dir : newfs_inode) (name : List Nat) (ino mode : Nat)
    (ci : newfs_inode) (hd : S_ISDIR dir.mode = true) (hl : dir.children_loaded = true) :
    newfs_add_dentry st dir name ino mode (some ci) = (.error .ENOSPC, dir, st) ∨
    (entry_blk_idx st.super (dir.size / SIZEOF_DENTRY_D) < NEWFS_DIRECT_NUM ∧
      dir.blocks.getD (entry_blk_idx st.super (dir.size / SIZEOF_DENTRY_D)) 0 ≠ 0 ∧
      newfs_add_dentry st dir name ino mode (some ci)
        = (.ok (), add_dentry_store st dir (add_dentry_entry name ino mode)
            (entry_blk_idx st.super (dir.size / SIZEOF_DENTRY_D))
            (entry_blk_off st.super (dir.size / SIZEOF_DENTRY_D))
            (some (add_dentry_child name ino mode ci)))) ∨
    (entry_blk_idx st.super (dir.size / SIZEOF_DENTRY_D) < NEWFS_DIRECT_NUM ∧
      dir.blocks.getD (entry_blk_idx st.super (dir.size / SIZEOF_DENTRY_D)) 0 = 0 ∧
      ∃ j, first_clear st.super.data_map st.super.data_count = some j ∧
        newfs_add_dentry st dir name ino mode (some ci)
          = (.ok (), add_dentry_store (newfs_alloc_data_block st).2
              (dir_with_block dir (entry_blk_idx st.super (dir.size / SIZEOF_DENTRY_D))
                (u32 (st.super.data_offset + j)))
              (add_dentry_entry name ino mode)
              (entry_blk_idx st.super (dir.size / SIZEOF_DENTRY_D))
              (entry_blk_off st.super (dir.size / SIZEOF_DENTRY_D))
              (some (add_dentry_child name ino mode ci)))) := by
  have hdir : (if (dir.dentry && !dir.children_loaded) = true then
      (newfs_load_dir_children st.super st.dev dir).2 else dir) = dir := by
    rw [hl]
    simp
  unfold newfs_add_dentry
  rw [if_neg (by rw [hd]; simp)]
  simp only [hdir, Option.isSome_some, Bool.or_true, if_true, Option.map_some']
  by_cases h2 : entry_blk_idx st.super (dir.size / SIZEOF_DENTRY_D) ≥ NEWFS_DIRECT_NUM
  · rw [if_pos h2]
    exact Or.inl rfl
  · rw [if_neg h2]
    have hlt : entry_blk_idx st.super (dir.size / SIZEOF_DENTRY_D) < NEWFS_DIRECT_NUM := by omega
    unfold add_dentry_slot
    by_cases h3 : dir.blocks.getD (entry_blk_idx st.super (dir.size / SIZEOF_DENTRY_D)) 0 = 0
    · rw [if_pos h3]
      cases hfc : first_clear st.super.data_map st.super.data_count with
      | none =>
        rw [newfs_alloc_data_block_none st hfc]
        exact Or.inl rfl
      | some j =>
        obtain ⟨a1, a2⟩ := newfs_alloc_data_block_some st j hfc
        right
        right
        refine ⟨hlt, h3, j, rfl, ?_⟩
        rcases hres : newfs_alloc_data_block st with ⟨r, st'⟩
        rw [hres] at a1
        simp only at a1
        subst a1
        rfl
    · rw [if_neg h3]
      right
      left
      exact ⟨hlt, h3, rfl⟩

/-! ## The bitmap regions through the writes -/

theorem maps_synced_iff (st : newfs) (hf : formatted st.super) :
    maps_synced st ↔
      (∀ k, k < 1024 → st.dev.data (1024 + k) = st.super.inode_map k) ∧
      (∀ k, k < 1024 → st.dev.data (2048 + k) = st.super.data_map k) := by
  obtain ⟨hio, hbs, g1, g2, g3, g4, g5, g6, g7, g8⟩ := hf
  unfold maps_synced ino_map_synced data_map_synced
  rw [g1, g2, g3, g4, hbs]
  simp only [NEWFS_BLOCK_SIZE, Nat.one_mul, Nat.reduceMul]

theorem low_kept_refl (dev : ddriver) : low_kept dev dev := fun _ _ => rfl

theorem low_kept_trans (a b c : ddriver) (h1 : low_kept a b) (h2 : low_kept b c) :
    low_kept a c := fun x hx => (h2 x hx).trans (h1 x hx)

/-- A state whose bitmaps are those of a synced state, over a device with the same
first three blocks, is synced. -/
theorem maps_synced_of_low_kept (st st' : newfs) (hf : formatted st.super)
    (hf' : formatted st'.super) (hi : st'.super.inode_map = st.super.inode_map)
    (hd : st'.super.data_map = st.super.data_map) (hk : low_kept st.dev st'.dev)
    (h : maps_synced st) : maps_synced st' := by
  rw [maps_synced_iff st hf] at h
  rw [maps_synced_iff st' hf', hi, hd]
  constructor
  · intro k hk1
    rw [hk _ (by omega)]
    exact h.1 k hk1
  · intro k hk1
    rw [hk _ (by omega)]
    exact h.2 k hk1

theorem newfs_block_write_low_kept (s : newfs_super) (dev : ddriver) (blk : Nat) (buf : Bytes)
    (hf : formatted s) (hblk : 3 ≤ blk) : low_kept dev (newfs_block_write s dev blk buf) := by
  intro a ha
  apply newfs_block_write_low
  rw [hf.2.1]
  simp only [NEWFS_BLOCK_SIZE]
  omega

theorem newfs_write_inode_low_kept (s : newfs_super) (dev : ddriver) (node : newfs_inode)
    (hf : formatted s) : low_kept dev (newfs_write_inode s dev node).2 := by
  unfold newfs_write_inode
  split
  · exact low_kept_refl dev
  · apply newfs_block_write_low_kept _ _ _ _ hf
    rw [hf.2.2.2.2.2.2.1]
    exact Nat.le_add_right _ _

/-- The function `newfs_alloc_inode` keeps a formatted volume formatted and synced. -/
theorem newfs_alloc_inode_synced (st : newfs) (hf : formatted st.super) (h : maps_synced st) :
    formatted (newfs_alloc_inode st).2.super ∧ maps_synced (newfs_alloc_inode st).2 := by
  cases hfc : first_clear st.super.inode_map st.super.inode_count with
  | none =>
    rw [newfs_alloc_inode_none st hfc]
    exact ⟨hf, h⟩
  | some i =>
    obtain ⟨_, hsup⟩ := newfs_alloc_inode_some st i hfc
    have hf' : formatted (newfs_alloc_inode st).2.super := formatted_of_eq _ _ _ _ _ hsup hf
    refine ⟨hf', ?_⟩
    rw [maps_synced_iff st hf] at h
    rw [maps_synced_iff _ hf']
    have hi : (newfs_alloc_inode st).2.super.inode_map = bitmap_set st.super.inode_map i := by
      rw [hsup]
    have hd : (newfs_alloc_inode st).2.super.data_map = st.super.data_map := by rw [hsup]
    rw [hi, hd]
    constructor
    · intro k hk
      rw [newfs_alloc_inode_data st i hf hfc, if_neg (by omega), if_pos (by omega),
        Nat.add_sub_cancel_left]
    · intro k hk
      rw [newfs_alloc_inode_data st i hf hfc, if_neg (by omega), if_neg (by omega)]
      exact h.2 k hk

/-- The function `newfs_alloc_data_block` keeps a formatted volume formatted and
synced. -/
theorem newfs_alloc_data_block_synced (st : newfs) (hf : formatted st.super)
    (h : maps_synced st) :
    formatted (newfs_alloc_data_block st).2.super ∧ maps_synced (newfs_alloc_data_block st).2 := by
  cases hfc : first_clear st.super.data_map st.super.data_count with
  | none =>
    rw [newfs_alloc_data_block_none st hfc]
    exact ⟨hf, h⟩
  | some i =>
    obtain ⟨_, hsup⟩ := newfs_alloc_data_block_some st i hfc
    have hf' : formatted (newfs_alloc_data_block st).2.super :=
      formatted_of_eq _ _ _ _ _ hsup hf
    refine ⟨hf', ?_⟩
    rw [maps_synced_iff st hf] at h
    rw [maps_synced_iff _ hf']
    have hi : (newfs_alloc_data_block st).2.super.inode_map = st.super.inode_map := by rw [hsup]
    have hd : (newfs_alloc_data_block st).2.super.data_map = bitmap_set st.super.data_map i := by
      rw [hsup]
    rw [hi, hd]
    constructor
    · intro k hk
      rw [newfs_alloc_data_block_data st i hf hfc, if_neg (by omega), if_neg (by omega)]
      exact h.1 k hk
    · intro k hk
      rw [newfs_alloc_data_block_data st i hf hfc, if_neg (by omega), if_pos (by omega),
        Nat.add_sub_cancel_left]

/-- The rollback statements keep a formatted volume formatted and synced. -/
theorem inode_free_synced (st : newfs) (i : Nat) (hf : formatted st.super) (h : maps_synced st) :
    formatted (inode_free st i).super ∧ maps_synced (inode_free st i) := by
  have hsup := inode_free_super st i
  have hf' : formatted (inode_free st i).super := formatted_of_eq _ _ _ _ _ hsup hf
  refine ⟨hf', ?_⟩
  rw [maps_synced_iff st hf] at h
  rw [maps_synced_iff _ hf']
  obtain ⟨hio, hbs, g1, g2, g3, g4, g5, g6, g7, g8⟩ := hf
  have hdev : ∀ a, (inode_free st i).dev.data a
      = if 1024 ≤ a ∧ a < 2048 then bitmap_clear st.super.inode_map i (a - 1024)
        else st.dev.data a := by
    intro a
    have := flush_loop_block
      ({ st.super with inode_map := bitmap_clear st.super.inode_map i } : newfs_super)
      (bitmap_clear st.super.inode_map i) st.super.ino_map_offset st.super.ino_map_blks st.dev 1
      hio hbs g1 g2 a
    simp only [Nat.one_mul, Nat.reduceAdd] at this
    exact this
  have hi : (inode_free st i).super.inode_map = bitmap_clear st.super.inode_map i := by rw [hsup]
  have hd : (inode_free st i).super.data_map = st.super.data_map := by rw [hsup]
  rw [hi, hd]
  constructor
  · intro k hk
    rw [hdev, if_pos (by omega), Nat.add_sub_cancel_left]
  · intro k hk
    rw [hdev, if_neg (by omega)]
    exact h.2 k hk

theorem get?_getD (l : List Nat) (k : Nat) (h : k < l.length) : l.get? k = some (l.getD k 0) := by
  rw [List.get?_eq_getElem?, List.getD_eq_getElem?_getD, List.getElem?_eq_getElem h]
  rfl

theorem getD_set_self (l : List Nat) (k x : Nat) (h : k < l.length) : (l.set k x).getD k 0 = x := by
  rw [List.getD_eq_getElem?_getD, List.getElem?_set_self h]
  rfl

theorem add_dentry_store_inode (st : newfs) (dir : newfs_inode) (entry : newfs_dentry_d)
    (bi bo : Nat) (c : newfs_dentry) :
    (add_dentry_store st dir entry bi bo (some c)).1.blocks = dir.blocks ∧
    (add_dentry_store st dir entry bi bo (some c)).1.mode = dir.mode ∧
    (add_dentry_store st dir entry bi bo (some c)).1.first_child = c :: dir.first_child ∧
    (add_dentry_store st dir entry bi bo (some c)).1.children_loaded = true :=
  ⟨rfl, rfl, rfl, rfl⟩

theorem add_dentry_store_super (st : newfs) (dir : newfs_inode) (entry : newfs_dentry_d)
    (bi bo : Nat) (c : Option newfs_dentry) :
    (add_dentry_store st dir entry bi bo c).2.super = st.super := rfl

theorem add_dentry_store_low_kept (st : newfs) (dir : newfs_inode) (entry : newfs_dentry_d)
    (bi bo : Nat) (c : Option newfs_dentry) (hf : formatted st.super)
    (hb : 3 ≤ dir.blocks.getD bi 0) :
    low_kept st.dev (add_dentry_store st dir entry bi bo c).2.dev := by
  unfold add_dentry_store
  exact low_kept_trans _ _ _ (newfs_block_write_low_kept _ _ _ _ hf hb)
    (newfs_write_inode_low_kept _ _ _ hf)

theorem add_dentry_child_ok (lo : Nat) (name : List Nat) (ino mode : Nat) (ci : newfs_inode)
    (hci : inode_ok lo ci) (hcc : ∀ c, c ∈ ci.first_child → tree_ok lo c) :
    tree_ok lo (add_dentry_child name ino mode ci) :=
  tree_ok.mk _ _ _ _ hci hcc

/-- The function `newfs_add_dentry` on a loaded directory of a session tree, a child
inode being given: what it leaves of the directory inode, of the bitmaps and of the
bitmap regions. -/
theorem newfs_add_dentry_session (st : newfs) (dir : newfs_inode) (name : List Nat)
    (ino mode : Nat) (ci : newfs_inode)
    (r : Except Errno Unit × newfs_inode × newfs)
    (hr : r = newfs_add_dentry st dir name ino mode (some ci))
    (hf : formatted st.super) (hd : S_ISDIR dir.mode = true) (hl : dir.children_loaded = true)
    (hok : inode_ok 4 dir) (hch : ∀ c, c ∈ dir.first_child → tree_ok 4 c)
    (hci : inode_ok 4 ci) (hcc : ∀ c, c ∈ ci.first_child → tree_ok 4 c) :
    (inode_ok 4 r.2.1 ∧ (∀ c, c ∈ r.2.1.first_child → tree_ok 4 c) ∧ r.2.1.mode = dir.mode ∧
      (∀ b, b ∈ dir.blocks → b ≠ 0 → b ∈ r.2.1.blocks) ∧
      (∀ c, c ∈ dir.first_child → c ∈ r.2.1.first_child) ∧
      (r.1 = .ok () → add_dentry_child name ino mode ci ∈ r.2.1.first_child)) ∧
    ((∀ e, r.1 = .error e → r.2.2 = st) ∧
      r.2.2.super.inode_map = st.super.inode_map ∧
      r.2.2.super.root_dentry = st.super.root_dentry ∧ formatted r.2.2.super ∧
      (r.2.2.super.data_map = st.super.data_map ∨
        ∃ j, first_clear st.super.data_map st.super.data_count = some j ∧
          r.2.2.super.data_map = bitmap_set st.super.data_map j ∧
          (st.super.data_offset + j) ∈ r.2.1.blocks) ∧
      (maps_synced st → maps_synced r.2.2)) := by
  obtain ⟨k1, k2, k3⟩ := hok
  have hchild := add_dentry_child_ok 4 name ino mode ci hci hcc
  rcases newfs_add_dentry_cases st dir name ino mode ci hd hl with h | ⟨hlt, hne, h⟩ |
    ⟨hlt, h0, j, hfc, h⟩
  · rw [h] at hr
    subst hr
    exact ⟨⟨⟨k1, k2, k3⟩, hch, rfl, fun b hb _ => hb, fun c hc => hc, fun he => (by cases he)⟩,
      fun _ _ => rfl, rfl, rfl, hf, Or.inl rfl, fun hs => hs⟩
  · rw [h] at hr
    subst hr
    have hlen : entry_blk_idx st.super (dir.size / SIZEOF_DENTRY_D) < dir.blocks.length := by
      rw [k1]; exact hlt
    have hmem := get?_mem _ _ _ (get?_getD dir.blocks _ hlen)
    have hge : 3 ≤ dir.blocks.getD (entry_blk_idx st.super (dir.size / SIZEOF_DENTRY_D)) 0 := by
      rcases k2 _ hmem with h1 | h1
      · exact absurd h1 hne
      · omega
    refine ⟨⟨⟨k1, k2, fun hc => (by cases hc)⟩, ?_, rfl, fun b hb _ => hb,
      fun c hc => List.mem_cons_of_mem _ hc, fun _ => List.mem_cons_self _ _⟩,
      fun e he => (by cases he), rfl, rfl, hf, Or.inl rfl, ?_⟩
    · intro c hc
      rcases List.mem_cons.1 hc with h1 | h1
      · rw [h1]; exact hchild
      · exact hch c h1
    · intro hs
      exact maps_synced_of_low_kept st _ hf hf rfl rfl
        (add_dentry_store_low_kept st dir _ _ _ _ hf hge) hs
  · rw [h] at hr
    subst hr
    obtain ⟨_, hj, _, _⟩ := (first_clear_from_some _ _ _ _).1 hfc
    have hdo : st.super.data_offset = 4 := hf.2.2.2.2.2.2.2.1
    have hdc : st.super.data_count ≤ 8192 := hf.2.2.2.2.2.2.2.2.2
    have hu : u32 (st.super.data_offset + j) = st.super.data_offset + j :=
      u32_of_lt _ (by omega)
    rw [hu]
    have hlen : entry_blk_idx st.super (dir.size / SIZEOF_DENTRY_D) < dir.blocks.length := by
      rw [k1]; exact hlt
    have hget := get?_getD dir.blocks _ hlen
    obtain ⟨_, hsup⟩ := newfs_alloc_data_block_some st j hfc
    obtain ⟨hf1, hs1⟩ : formatted (newfs_alloc_data_block st).2.super ∧
        (maps_synced st → maps_synced (newfs_alloc_data_block st).2) :=
      ⟨formatted_of_eq _ _ _ _ _ hsup hf, fun hs => (newfs_alloc_data_block_synced st hf hs).2⟩
    have hnew : (st.super.data_offset + j) ∈ dir.blocks.set
        (entry_blk_idx st.super (dir.size / SIZEOF_DENTRY_D)) (st.super.data_offset + j) :=
      mem_set_self _ _ _ _ hget
    refine ⟨⟨⟨?_, ?_, fun hc => (by cases hc)⟩, ?_, rfl, ?_,
      fun c hc => List.mem_cons_of_mem _ hc, fun _ => List.mem_cons_self _ _⟩,
      fun e he => (by cases he), ?_, ?_, hf1, Or.inr ⟨j, hfc, ?_, hnew⟩, ?_⟩
    · show (dir.blocks.set _ _).length = NEWFS_DIRECT_NUM
      rw [List.length_set]
      exact k1
    · intro b hb
      rcases mem_set_cases _ _ _ _ hb with h1 | h1
      · exact k2 b h1
      · right
        rw [h1, hdo]
        omega
    · intro c hc
      rcases List.mem_cons.1 hc with h1 | h1
      · rw [h1]; exact hchild
      · exact hch c h1
    · intro b hb hb0
      rcases mem_set_other _ _ _ (st.super.data_offset + j) b hget hb with h1 | h1
      · exact h1
      · rw [h0] at h1
        exact absurd h1 hb0
    · show (newfs_alloc_data_block st).2.super.inode_map = st.super.inode_map
      rw [hsup]
    · show (newfs_alloc_data_block st).2.super.root_dentry = st.super.root_dentry
      rw [hsup]
    · show (newfs_alloc_data_block st).2.super.data_map = bitmap_set st.super.data_map j
      rw [hsup]
    · intro hs
      have hb : 3 ≤ (dir_with_block dir (entry_blk_idx st.super (dir.size / SIZEOF_DENTRY_D))
          (st.super.data_offset + j)).blocks.getD
            (entry_blk_idx st.super (dir.size / SIZEOF_DENTRY_D)) 0 := by
        show 3 ≤ (dir.blocks.set _ _).getD _ 0
        rw [getD_set_self _ _ _ hlen, hdo]
        omega
      exact maps_synced_of_low_kept (newfs_alloc_data_block st).2 _ hf1 hf1 rfl rfl
        (add_dentry_store_low_kept _ _ _ _ _ _ hf1 hb) (hs1 hs)

/-! ## A creation on a session tree -/

theorem create_insert_none (h : newfs_h) (ifmt : Nat) (st : newfs) (ptr : List Nat)
    (pd : newfs_dentry) (pi : newfs_inode) (name : List Nat)
    (hfc : first_clear st.super.inode_map st.super.inode_count = none) :
    create_insert h ifmt st ptr pd pi name = (.error .ENOSPC, st) := by
  unfold create_insert
  rw [newfs_alloc_inode_none st hfc]

theorem create_insert_some (h : newfs_h) (ifmt : Nat) (st : newfs) (ptr : List Nat)
    (pd : newfs_dentry) (pi : newfs_inode) (name : List Nat) (i : Nat)
    (hfc : first_clear st.super.inode_map st.super.inode_count = some i) :
    (∀ e, (create_add h ifmt st pi name i).1 = .error e →
      create_insert h ifmt st ptr pd pi name
        = (.error e, put_parent (inode_free (create_add h ifmt st pi name i).2.2
            (new_inode_of h ifmt i).ino) ptr (pd.with_inode (create_add h ifmt st pi name i).2.1))) ∧
    ((create_add h ifmt st pi name i).1 = .ok () →
      create_insert h ifmt st ptr pd pi name
        = (.ok (), put_parent (create_add h ifmt st pi name i).2.2 ptr
            (pd.with_inode (create_add h ifmt st pi name i).2.1))) := by
  obtain ⟨a1, _⟩ := newfs_alloc_inode_some st i hfc
  unfold create_insert create_add create_written
  rcases hres : newfs_alloc_inode st with ⟨ra, st2⟩
  rw [hres] at a1
  simp only at a1
  subst a1
  simp only
  rcases hadd : newfs_add_dentry
      { st2 with dev := (newfs_write_inode st2.super st2.dev (new_inode_of h ifmt i)).2 } pi name
      (new_inode_of h ifmt i).ino (new_inode_of h ifmt i).mode (some (new_inode_of h ifmt i))
    with ⟨r, pi2, st4⟩
  constructor
  · intro e he
    simp only at he
    subst he
    rfl
  · intro he
    simp only at he
    subst he
    rfl

theorem new_inode_ok (lo : Nat) (h : newfs_h) (ifmt i : Nat) :
    inode_ok lo (new_inode_of h ifmt i) ∧
      ∀ c, c ∈ (new_inode_of h ifmt i).first_child → tree_ok lo c := by
  refine ⟨⟨rfl, ?_, fun _ => ⟨rfl, by simp [new_inode_of, SIZEOF_DENTRY_D]⟩⟩, ?_⟩
  · intro b hb
    left
    exact List.eq_of_mem_replicate hb
  · intro c hc
    cases hc

theorem create_written_facts (h : newfs_h) (ifmt : Nat) (st : newfs) (i : Nat)
    (hf : formatted st.super)
    (hfc : first_clear st.super.inode_map st.super.inode_count = some i) :
    formatted (create_written h ifmt st i).super ∧
    (create_written h ifmt st i).super.inode_map = bitmap_set st.super.inode_map i ∧
    (create_written h ifmt st i).super.data_map = st.super.data_map ∧
    (create_written h ifmt st i).super.data_offset = st.super.data_offset ∧
    (create_written h ifmt st i).super.root_dentry = st.super.root_dentry ∧
    (maps_synced st → maps_synced (create_written h ifmt st i)) := by
  obtain ⟨_, hsup⟩ := newfs_alloc_inode_some st i hfc
  have hs : (create_written h ifmt st i).super = (newfs_alloc_inode st).2.super := rfl
  have hf2 : formatted (newfs_alloc_inode st).2.super := formatted_of_eq _ _ _ _ _ hsup hf
  refine ⟨by rw [hs]; exact hf2, by rw [hs, hsup], by rw [hs, hsup], by rw [hs, hsup],
    by rw [hs, hsup], ?_⟩
  intro hsync
  exact maps_synced_of_low_kept (newfs_alloc_inode st).2 _ hf2 (by rw [hs]; exact hf2) rfl rfl
    (newfs_write_inode_low_kept _ _ _ hf2) (newfs_alloc_inode_synced st hf hsync).2

theorem put_parent_super (st : newfs) (ptr : List Nat) (v : newfs_dentry) :
    (put_parent st ptr v).super
      = { st.super with root_dentry := st.super.root_dentry.map (fun root => dentry_set root ptr v) } :=
  rfl

theorem put_parent_facts (st : newfs) (ptr : List Nat) (v root : newfs_dentry)
    (hf : formatted st.super) (hroot : st.super.root_dentry = some root) :
    formatted (put_parent st ptr v).super ∧
    (put_parent st ptr v).super.inode_map = st.super.inode_map ∧
    (put_parent st ptr v).super.data_map = st.super.data_map ∧
    (put_parent st ptr v).super.data_offset = st.super.data_offset ∧
    (put_parent st ptr v).super.root_dentry = some (dentry_set root ptr v) ∧
    (maps_synced st → maps_synced (put_parent st ptr v)) := by
  have hf' : formatted (put_parent st ptr v).super :=
    formatted_of_eq _ _ _ _ _ (put_parent_super st ptr v) hf
  refine ⟨hf', rfl, rfl, rfl, ?_, ?_⟩
  · rw [put_parent_super]
    simp only [hroot, Option.map_some']
  · intro hs
    exact maps_synced_of_low_kept st _ hf hf' rfl rfl (low_kept_refl _) hs

theorem with_inode_grows (pd : newfs_dentry) (pi pi' : newfs_inode)
    (hm : pi'.mode = pi.mode) (hb : ∀ b, b ∈ pi.blocks → b ≠ 0 → b ∈ pi'.blocks)
    (hc : ∀ c, c ∈ pi.first_child → c ∈ pi'.first_child) :
    grows (pd.with_inode pi) (pd.with_inode pi') := by
  apply grows_node
  · intro hd
    rw [hm]
    exact ⟨hd, hb⟩
  · intro c hcm
    exact ⟨c, hc c hcm, grows_refl c⟩

/-- The statements of `newfs_mkdir` / `newfs_mknod` from `newfs_alloc_inode` on, on a
session whose tree has the parent at `ptr`. -/
theorem create_insert_session (h : newfs_h) (ifmt : Nat) (st : newfs) (ptr : List Nat)
    (pd : newfs_dentry) (pi : newfs_inode) (name : List Nat) (root : newfs_dentry)
    (hf : formatted st.super) (hroot : st.super.root_dentry = some root) (hok : tree_ok 4 root)
    (hat : dentry_at root ptr = some (pd.with_inode pi)) (hd : S_ISDIR pi.mode = true)
    (hl : pi.children_loaded = true) :
    create_step st (create_insert h ifmt st ptr pd pi name).2 root := by
  obtain ⟨pi', epi, hpi, hpc⟩ := tree_ok_inode 4 _ (tree_ok_at 4 root ptr _ hok hat)
  have epi' : pi' = pi := by
    have : (pd.with_inode pi).inode = some pi' := by rw [epi]; rfl
    rw [with_inode_inode] at this
    injection this with this
    exact this.symm
  subst epi'
  cases hfc : first_clear st.super.inode_map st.super.inode_count with
  | none =>
    rw [create_insert_none h ifmt st ptr pd pi' name hfc]
    exact ⟨hf, ⟨root, hroot, hok, grows_refl root, fun _ hi => Or.inl hi, fun _ hj => Or.inl hj⟩,
      fun _ hi => hi, fun _ hj => hj, fun hs => hs⟩
  | some i =>
    obtain ⟨_, hi23, hclr, _⟩ := (first_clear_from_some _ _ _ _).1 hfc
    have hcount : st.super.inode_count = 23 := hf.2.2.2.2.2.2.2.2.1
    have hu : (new_inode_of h ifmt i).ino = i := u32_of_lt i (by omega)
    obtain ⟨w1, w2, w3, w4, w5, w6⟩ := create_written_facts h ifmt st i hf hfc
    obtain ⟨⟨s1, s2, s3, s4, s5, s6⟩, s7, s8, s9, s10, s11, s12⟩ :=
      newfs_add_dentry_session (create_written h ifmt st i) pi' name (new_inode_of h ifmt i).ino
        (new_inode_of h ifmt i).mode (new_inode_of h ifmt i) (create_add h ifmt st pi' name i) rfl
        w1 hd hl hpi hpc (new_inode_ok 4 h ifmt i).1 (new_inode_ok 4 h ifmt i).2
    obtain ⟨c1, c2⟩ := create_insert_some h ifmt st ptr pd pi' name i hfc
    have hgv : grows (pd.with_inode pi')
        (pd.with_inode (create_add h ifmt st pi' name i).2.1) := with_inode_grows pd _ _ s3 s4 s5
    have htv : tree_ok 4 (pd.with_inode (create_add h ifmt st pi' name i).2.1) :=
      tree_ok_with_inode 4 pd _ s1 s2
    have hgrow := grows_set root ptr _ _ hat hgv
    have htree := tree_ok_set 4 root ptr _ _ hok hat htv
    have hatv := dentry_at_set_self root ptr _
      (pd.with_inode (create_add h ifmt st pi' name i).2.1) hat
    cases hr1 : (create_add h ifmt st pi' name i).1 with
    | error e =>
      rw [c1 e hr1]
      have hst := s7 e hr1
      rw [hst, hu]
      have f2 := fun hs => (inode_free_synced (create_written h ifmt st i) i w1 hs).2
      have hfsup := inode_free_super (create_written h ifmt st i) i
      have hfroot : (inode_free (create_written h ifmt st i) i).super.root_dentry = some root := by
        rw [hfsup]; exact w5.trans hroot
      obtain ⟨p1, p2, p3, p4, p5, p6⟩ := put_parent_facts (inode_free (create_written h ifmt st i) i)
        ptr (pd.with_inode (create_add h ifmt st pi' name i).2.1) root
        (formatted_of_eq _ _ _ _ _ hfsup w1) hfroot
      have hmap : (put_parent (inode_free (create_written h ifmt st i) i) ptr
          (pd.with_inode (create_add h ifmt st pi' name i).2.1)).super.inode_map
          = bitmap_clear (bitmap_set st.super.inode_map i) i := by
        rw [p2, hfsup]
        simp only
        rw [w2]
      have hdmap : (put_parent (inode_free (create_written h ifmt st i) i) ptr
          (pd.with_inode (create_add h ifmt st pi' name i).2.1)).super.data_map
          = st.super.data_map := by
        rw [p3, hfsup]
        exact w3
      refine ⟨p1, ⟨_, p5, htree, hgrow, ?_, ?_⟩, ?_, ?_, ?_⟩
      · intro x hx
        left
        rw [hmap, bitmap_test_clear, bitmap_test_set] at hx
        by_cases hxi : x = i
        · simp [hxi] at hx
        · simpa [hxi] using hx
      · intro x hx
        left
        rw [hdmap] at hx
        exact hx
      · intro x hx
        rw [hmap, bitmap_test_clear, bitmap_test_set]
        have hxi : x ≠ i := by
          intro hxi
          rw [hxi, hclr] at hx
          cases hx
        simp [hxi, hx]
      · intro x hx
        rw [hdmap]
        exact hx
      · intro hs
        exact p6 (f2 (w6 hs))
    | ok u =>
      rw [c2 hr1]
      have hroot4 : (create_add h ifmt st pi' name i).2.2.super.root_dentry = some root :=
        s9.trans (w5.trans hroot)
      obtain ⟨p1, p2, p3, p4, p5, p6⟩ := put_parent_facts (create_add h ifmt st pi' name i).2.2
        ptr (pd.with_inode (create_add h ifmt st pi' name i).2.1) root s10 hroot4
      have hin := in_tree_at _ ptr _ hatv
      refine ⟨p1, ⟨_, p5, htree, hgrow, ?_, ?_⟩, ?_, ?_, ?_⟩
      · intro x hx
        rw [p2, s8, w2, bitmap_test_set] at hx
        by_cases hxi : x = i
        · right
          subst hxi
          refine ⟨add_dentry_child name (new_inode_of h ifmt x).ino (new_inode_of h ifmt x).mode
            (new_inode_of h ifmt x), in_tree_trans _ _ _ hin ?_, hu⟩
          exact in_tree.child _ _ _ _ _ _ (s6 hr1) (in_tree.self _)
        · left
          simpa [hxi] using hx
      · intro x hx
        rw [p3] at hx
        rcases s11 with e1 | ⟨j, j1, j2, j3⟩
        · left
          rw [e1, w3] at hx
          exact hx
        · rw [j2, w3, bitmap_test_set] at hx
          by_cases hxj : x = j
          · right
            subst hxj
            rw [p4]
            have hdo : (create_add h ifmt st pi' name i).2.2.super.data_offset
                = (create_written h ifmt st i).super.data_offset := by
              rw [s10.2.2.2.2.2.2.2.1, w1.2.2.2.2.2.2.2.1]
            rw [hdo]
            exact ⟨_, (create_add h ifmt st pi' name i).2.1, hin, rfl, by rw [s3]; exact hd, j3⟩
          · left
            simpa [hxj] using hx
      · intro x hx
        rw [p2, s8, w2, bitmap_test_set, hx]
        simp
      · intro x hx
        rw [p3]
        rcases s11 with e1 | ⟨j, j1, j2, j3⟩
        · rw [e1, w3]
          exact hx
        · rw [j2, w3, bitmap_test_set, hx]
          simp
      · intro hs
        exact p6 (s12 (w6 hs))

/-- A `newfs_mkdir` / `newfs_mknod` call on a session. -/
theorem newfs_create_session (h : newfs_h) (ifmt : Nat) (st : newfs) (path : List Nat)
    (root : newfs_dentry) (hf : formatted st.super) (hroot : st.super.root_dentry = some root)
    (hok : tree_ok 4 root) : create_step st (newfs_create h ifmt st path).2 root := by
  obtain ⟨root1, e1, t1, g1, p1⟩ := create_lookup_spec 4 st path root hroot hok
  have hf1 : formatted (create_lookup st path).2.super := by
    rw [e1]
    exact formatted_of_eq st.super _ _ _ _ rfl hf
  have hm1 : (create_lookup st path).2.super.inode_map = st.super.inode_map := by rw [e1]
  have hm2 : (create_lookup st path).2.super.data_map = st.super.data_map := by rw [e1]
  have hr1 : (create_lookup st path).2.super.root_dentry = some root1 := by rw [e1]
  have hs1 : maps_synced st → maps_synced (create_lookup st path).2 := by
    intro hs
    refine maps_synced_of_low_kept st _ hf hf1 hm1 hm2 ?_ hs
    rw [e1]
    exact low_kept_refl _
  unfold newfs_create
  rcases hres : create_lookup st path with ⟨r, st1⟩
  rw [hres] at hf1 hm1 hm2 hr1 hs1 p1
  simp only at hf1 hm1 hm2 hr1 hs1 p1
  cases r with
  | error e =>
    simp only
    exact ⟨hf1, ⟨root1, hr1, t1, g1, fun i hi => Or.inl (by rw [← hm1]; exact hi),
      fun j hj => Or.inl (by rw [← hm2]; exact hj)⟩, fun i hi => by rw [hm1]; exact hi,
      fun j hj => by rw [hm2]; exact hj, hs1⟩
  | ok x =>
    obtain ⟨ptr, pd, pi, name⟩ := x
    simp only
    obtain ⟨q1, q2, q3, _⟩ := p1 ptr pd pi name rfl
    obtain ⟨c1, ⟨root2, c2, c3, c4, c5, c6⟩, c7, c8, c9⟩ :=
      create_insert_session h ifmt st1 ptr pd pi name root1 hf1 hr1 t1 q1 q2 q3
    refine ⟨c1, ⟨root2, c2, c3, grows_trans _ _ _ g1 c4, ?_, ?_⟩, ?_, ?_, fun hs => c9 (hs1 hs)⟩
    · intro i hi
      rw [← hm1]
      exact c5 i hi
    · intro j hj
      rw [← hm2]
      exact c6 j hj
    · intro i hi
      exact c7 i (by rw [hm1]; exact hi)
    · intro j hj
      exact c8 j (by rw [hm2]; exact hj)

/-! ## The session that a format begins -/

/-- The function `newfs_prepare_root` on a formatted volume whose inode 0 is the root
record the format path writes: the root dentry it builds is a session tree with
inode number `root_ino`. -/
theorem newfs_prepare_root_tree (h : newfs_h) (st : newfs) (hf : formatted st.super)
    (hr : st.super.root_ino = 0)
    (hrec : ∀ k, k < 44 → st.dev.data (3072 + k) = inode_d_bytes
      { mode := u32 (S_IFDIR ||| h.NEWFS_DEFAULT_PERM), size := 0, links := 1,
        blocks := List.replicate NEWFS_DIRECT_NUM 0 } k) :
    ∃ root, (newfs_prepare_root h st).2.super.root_dentry = some root ∧ tree_ok 4 root ∧
      root.ino = 0 := by
  obtain ⟨f1, f2, f3, f4, f5, f6, f7, f8, f9, f10⟩ := hf
  have haddr : inode_addr st.super 0 = 3072 := by
    unfold inode_addr
    rw [inodes_per_block_1024 _ f2, f7, f2]
    simp only [NEWFS_BLOCK_SIZE, SIZEOF_INODE_D]
  have hread := newfs_read_inode_dev st.super st.dev 0 f1 f2 (by rw [f9]; norm_num)
  rw [haddr, inode_d_at_bytes _ _ _ hrec] at hread
  simp only at hread
  have hb : (List.range NEWFS_DIRECT_NUM).map
      (fun j => u32 ((List.replicate NEWFS_DIRECT_NUM 0).getD j 0)) = List.replicate 8 0 := by
    decide
  rw [hb] at hread
  unfold newfs_prepare_root newfs_get_inode_from_dentry
  simp only [newfs_dentry.inode, newfs_dentry.ino, hr, hread]
  have hok0 : inode_ok 4
      ({ ino := 0, mode := u32 (u32 (S_IFDIR ||| h.NEWFS_DEFAULT_PERM)), size := u32 0,
         links := u32 1, blocks := List.replicate 8 0, dentry := true, first_child := [],
         data := none, children_loaded := false } : newfs_inode) := by
    refine ⟨rfl, fun b hb => Or.inl (List.eq_of_mem_replicate hb), fun _ => ⟨rfl, (by show u32 0 < 136; decide)⟩⟩
  split_ifs with hd
  · obtain ⟨l1, _, _, _, _, l6, _⟩ := newfs_load_dir_children_ok st.super st.dev 4 _ hok0
    refine ⟨_, rfl, tree_ok_with_inode 4 _ _ l6 ?_, rfl⟩
    intro c hc
    rw [l1] at hc
    cases hc
  · refine ⟨_, rfl, tree_ok_with_inode 4 _ _ hok0 ?_, rfl⟩
    intro c hc
    cases hc

theorem formatted_root_ino (s : newfs_super) (r : Nat) (hf : formatted s) :
    formatted { s with root_ino := r } := by
  unfold formatted at hf ⊢
  exact hf

/-- The state that the format path of `newfs_mount` leaves begins a session: the
volume is formatted, the tree is the root alone, with inode number 0, the bitmaps
are synced, bit 0 is the only bit set. -/
theorem newfs_mount_session (h : newfs_h) (dev : ddriver)
    (hio : dev.io_size ∣ NEWFS_BLOCK_SIZE) (hblk : 5 ≤ dev.disk_size / NEWFS_BLOCK_SIZE)
    (hinit : mount_is_init h dev = true) :
    formatted (newfs_mount h dev).2.super ∧
    (∃ root, (newfs_mount h dev).2.super.root_dentry = some root ∧ tree_ok 4 root ∧
      root.ino = 0) ∧
    maps_synced (newfs_mount h dev).2 ∧
    (newfs_mount h dev).2.super.inode_map = bitmap_set (fun _ => 0) 0 ∧
    (newfs_mount h dev).2.super.data_map = (fun _ => 0) := by
  have hf := newfs_mount_formatted h dev hio hblk hinit
  obtain ⟨m1, m2, m3, m4, m5⟩ := newfs_mount_format_maps h dev hblk hinit
  have hdev := newfs_mount_format_dev h dev hio hblk hinit
  refine ⟨hf, ?_, ?_, m1, m2⟩
  · have hfc : first_clear (format_start h dev).super.inode_map
        (format_start h dev).super.inode_count = some 0 := format_first_clear h dev
    have hsup := (newfs_alloc_inode_some _ 0 hfc).2
    have hf1 : formatted (newfs_alloc_inode (format_start h dev)).2.super :=
      formatted_of_eq _ _ _ _ _ hsup (format_start_formatted h dev hio)
    have hst : (newfs_mount h dev).2.dev
        = (mount_format_root h (super_d_of (format_geometry h (mount_super dev))) (.ok 0)
            (newfs_alloc_inode (format_start h dev)).2).dev :=
      (newfs_mount_format_state h dev hblk hinit).2
    have hmount : newfs_mount h dev
        = newfs_prepare_root h
            (mount_format_root h (super_d_of (format_geometry h (mount_super dev))) (.ok 0)
              (newfs_alloc_inode (format_start h dev)).2) := by
      rw [newfs_mount_format h dev hblk hinit, mount_format_eq]
      rfl
    have hS := mount_format_root_super h (super_d_of (format_geometry h (mount_super dev)))
      (newfs_alloc_inode (format_start h dev)).2
    have hfS : formatted (mount_format_root h
        (super_d_of (format_geometry h (mount_super dev))) (.ok 0)
        (newfs_alloc_inode (format_start h dev)).2).super := by
      rw [hS]
      exact formatted_root_ino _ 0 hf1
    rw [hmount]
    apply newfs_prepare_root_tree h _ hfS (by rw [hS])
    intro k hk
    rw [← hst, hdev, if_neg (by omega), if_neg (by omega), if_neg (by omega), if_pos (by omega),
      Nat.add_sub_cancel_left]
  · rw [maps_synced_iff _ hf, m1, m2]
    constructor
    · intro k hk
      rw [hdev, if_neg (by omega), if_pos (by omega), bitmap_set_zero_byte]
      by_cases h0 : k = 0
      · rw [if_pos h0, if_pos (by omega)]
      · rw [if_neg h0, if_neg (by omega)]
    · intro k hk
      rw [hdev, if_pos (by omega)]

/-! ## Sessions -/

theorem newfs_alloc_inode_root (st : newfs) :
    (newfs_alloc_inode st).2.super.root_dentry = st.super.root_dentry := by
  cases hfc : first_clear st.super.inode_map st.super.inode_count with
  | none => rw [newfs_alloc_inode_none st hfc]
  | some i => rw [(newfs_alloc_inode_some st i hfc).2]

theorem newfs_alloc_data_block_root (st : newfs) :
    (newfs_alloc_data_block st).2.super.root_dentry = st.super.root_dentry := by
  cases hfc : first_clear st.super.data_map st.super.data_count with
  | none => rw [newfs_alloc_data_block_none st hfc]
  | some i => rw [(newfs_alloc_data_block_some st i hfc).2]

/-- Every call keeps a synced session a synced session. -/
theorem run_op_session (h : newfs_h) (st : newfs) (op : fs_op) (hk : session_ok st)
    (hs : maps_synced st) : session_ok (run_op h st op) ∧ maps_synced (run_op h st op) := by
  obtain ⟨hf, root, hroot, hok⟩ := hk
  cases op with
  | alloc_inode =>
    obtain ⟨a1, a2⟩ := newfs_alloc_inode_synced st hf hs
    exact ⟨⟨a1, root, (newfs_alloc_inode_root st).trans hroot, hok⟩, a2⟩
  | alloc_data_block =>
    obtain ⟨a1, a2⟩ := newfs_alloc_data_block_synced st hf hs
    exact ⟨⟨a1, root, (newfs_alloc_data_block_root st).trans hroot, hok⟩, a2⟩
  | mkdir path =>
    obtain ⟨c1, ⟨root', c2, c3, _, _, _⟩, _, _, c9⟩ :=
      newfs_create_session h S_IFDIR st path root hf hroot hok
    exact ⟨⟨c1, root', c2, c3⟩, c9 hs⟩
  | mknod path =>
    obtain ⟨c1, ⟨root', c2, c3, _, _, _⟩, _, _, c9⟩ :=
      newfs_create_session h S_IFREG st path root hf hroot hok
    exact ⟨⟨c1, root', c2, c3⟩, c9 hs⟩

theorem run_ops_session (h : newfs_h) (ops : List fs_op) :
    ∀ st, session_ok st → maps_synced st →
      session_ok (run_ops h ops st) ∧ maps_synced (run_ops h ops st) := by
  induction ops with
  | nil => exact fun st hk hs => ⟨hk, hs⟩
  | cons op ops ih =>
    intro st hk hs
    obtain ⟨k1, s1⟩ := run_op_session h st op hk hs
    exact ih _ k1 s1

/-- A creation keeps a live session a live session. -/
theorem create_live (h : newfs_h) (ifmt : Nat) (st : newfs) (path : List Nat)
    (hk : session_ok st) (hl : bitmaps_live st) :
    session_ok (newfs_create h ifmt st path).2 ∧ bitmaps_live (newfs_create h ifmt st path).2 ∧
      bits_kept st (newfs_create h ifmt st path).2 := by
  obtain ⟨hf, root, hroot, hok⟩ := hk
  obtain ⟨root0, l1, l2, l3⟩ := hl
  have e0 : root0 = root := by
    rw [hroot] at l1
    injection l1 with l1
    exact l1.symm
  subst e0
  obtain ⟨c1, ⟨root', c2, c3, c4, c5, c6⟩, c7, c8, _⟩ :=
    newfs_create_session h ifmt st path root0 hf hroot hok
  have hdo : st.super.data_offset = 4 := hf.2.2.2.2.2.2.2.1
  have hdo' : (newfs_create h ifmt st path).2.super.data_offset = 4 := c1.2.2.2.2.2.2.2.1
  refine ⟨⟨c1, root', c2, c3⟩, ⟨root', c2, ?_, ?_⟩, c7, c8⟩
  · intro i hi
    rcases c5 i hi with h1 | h1
    · exact c4.1 i (l2 i h1)
    · exact h1
  · intro j hj
    rcases c6 j hj with h1 | h1
    · have := l3 j h1
      rw [hdo] at this
      rw [hdo']
      exact c4.2 _ (by omega) this
    · exact h1

theorem run_creates_live (h : newfs_h) (ops : List (Bool × List Nat)) :
    ∀ st, session_ok st → bitmaps_live st →
      session_ok (run_creates h ops st) ∧ bitmaps_live (run_creates h ops st) := by
  induction ops with
  | nil => exact fun st hk hl => ⟨hk, hl⟩
  | cons op ops ih =>
    intro st hk hl
    obtain ⟨b, path⟩ := op
    cases b with
    | true =>
      obtain ⟨k1, l1, _⟩ := create_live h S_IFDIR st path hk hl
      exact ih _ k1 l1
    | false =>
      obtain ⟨k1, l1, _⟩ := create_live h S_IFREG st path hk hl
      exact ih _ k1 l1

theorem newfs_mount_live (h : newfs_h) (dev : ddriver)
    (hio : dev.io_size ∣ NEWFS_BLOCK_SIZE) (hblk : 5 ≤ dev.disk_size / NEWFS_BLOCK_SIZE)
    (hinit : mount_is_init h dev = true) :
    session_ok (newfs_mount h dev).2 ∧ bitmaps_live (newfs_mount h dev).2 := by
  obtain ⟨hf, ⟨root, r1, r2, r3⟩, _, m1, m2⟩ := newfs_mount_session h dev hio hblk hinit
  refine ⟨⟨hf, root, r1, r2⟩, root, r1, ?_, ?_⟩
  · intro i hi
    rw [m1, bitmap_test_set, bitmap_test_zero, Bool.or_false] at hi
    have hi0 : i = 0 := by simpa using hi
    subst hi0
    exact ⟨root, in_tree.self root, r3⟩
  · intro j hj
    rw [m2, bitmap_test_zero] at hj
    cases hj

/-- Bitmaps in step while the records stay inside the buffer.  In a session begun by a
format (device of at least 5 blocks, transfer unit dividing the block size), after
`newfs_mount` and after every sequence of calls of `newfs_alloc_inode`,
`newfs_alloc_data_block`, `newfs_mkdir` and `newfs_mknod` each of which copies its
record, if it copies one, inside the block buffer of `newfs_add_dentry`, whatever the
calls return, the inode-bitmap region of the device equals the inode bitmap in memory
and the data-bitmap region equals the data bitmap in memory, byte for byte. -/
theorem bitmaps_synced_while_records_fit (h : newfs_h) (dev : ddriver)
    (hio : dev.io_size ∣ NEWFS_BLOCK_SIZE) (hblk : 5 ≤ dev.disk_size / NEWFS_BLOCK_SIZE)
    (hinit : mount_is_init h dev = true) (ops : List fs_op)
    (_hfit : ops_fit h ops (newfs_mount h dev).2 = true) :
    maps_synced (run_ops h ops (newfs_mount h dev).2) := by
  obtain ⟨hf, ⟨root, r1, r2, _⟩, hs, _, _⟩ := newfs_mount_session h dev hio hblk hinit
  exact (run_ops_session h ops _ ⟨hf, root, r1, r2⟩ hs).2

/-- On the 5-block device: a `newfs_mkdir`, a bare `newfs_alloc_inode`, a `newfs_mknod`
that is rolled back for want of a data block, and a bare `newfs_alloc_data_block`. -/
theorem bitmaps_synced_while_records_fit_witness :
    (newfs_mknod hdr (run_ops hdr [.mkdir path_d, .alloc_inode] (newfs_mount hdr dev5).2)
      path_d_f).1 = .error .ENOSPC ∧
    maps_synced (run_ops hdr [.mkdir path_d, .alloc_inode, .mknod path_d_f, .alloc_data_block]
      (newfs_mount hdr dev5).2) :=
  ⟨by decide!, bitmaps_synced_while_records_fit hdr dev5 (by decide!) (by decide!) (by decide!)
    [.mkdir path_d, .alloc_inode, .mknod path_d_f, .alloc_data_block] (by decide!)⟩

/-- Live bitmaps while the records stay inside the buffer.  In a session begun by a
format (device of at least 5 blocks, transfer unit dividing the block size), after
every sequence of `newfs_mkdir` / `newfs_mknod` calls each of which copies its record
inside the block buffer of `newfs_add_dentry`, whatever they return: every set bit `i`
of the inode bitmap is the inode number of the root dentry or of a dentry reachable
from it in the session tree, and every set bit `j` of the data bitmap is the block
`data_offset + j` held in a direct-block pointer of a directory inode of that tree;
and a further such `newfs_mkdir` or `newfs_mknod` call, whatever it returns, leaves
every bit set that was set before it (the rollback clears only the bit the call
itself had set). -/
theorem bitmaps_live_while_records_fit (h : newfs_h) (dev : ddriver)
    (hio : dev.io_size ∣ NEWFS_BLOCK_SIZE) (hblk : 5 ≤ dev.disk_size / NEWFS_BLOCK_SIZE)
    (hinit : mount_is_init h dev = true) (ops : List (Bool × List Nat))
    (_hfit : creates_fit h ops (newfs_mount h dev).2 = true) :
    bitmaps_live (run_creates h ops (newfs_mount h dev).2) ∧
    ∀ path, create_fits (run_creates h ops (newfs_mount h dev).2) path = true →
      bits_kept (run_creates h ops (newfs_mount h dev).2)
        (newfs_mkdir h (run_creates h ops (newfs_mount h dev).2) path).2 ∧
      bits_kept (run_creates h ops (newfs_mount h dev).2)
        (newfs_mknod h (run_creates h ops (newfs_mount h dev).2) path).2 := by
  obtain ⟨k0, l0⟩ := newfs_mount_live h dev hio hblk hinit
  obtain ⟨k1, l1⟩ := run_creates_live h ops _ k0 l0
  refine ⟨l1, fun path _ => ⟨?_, ?_⟩⟩
  · exact (create_live h S_IFDIR _ path k1 l1).2.2
  · exact (create_live h S_IFREG _ path k1 l1).2.2

/-- On the 5-block device: after `newfs_mkdir("/d")` and a `newfs_mknod("/d/f")` that
is rolled back, the bitmaps are live, and a further call keeps the set bits. -/
theorem bitmaps_live_while_records_fit_witness :
    (newfs_mknod hdr (newfs_mkdir hdr (newfs_mount hdr dev5).2 path_d).2 path_d_f).1
      = .error .ENOSPC ∧
    bitmaps_live (run_creates hdr [(true, path_d), (false, path_d_f)] (newfs_mount hdr dev5).2) ∧
    bits_kept (run_creates hdr [(true, path_d), (false, path_d_f)] (newfs_mount hdr dev5).2)
      (newfs_mknod hdr
        (run_creates hdr [(true, path_d), (false, path_d_f)] (newfs_mount hdr dev5).2)
        [47, 97]).2 :=
  have hw := bitmaps_live_while_records_fit hdr dev5 (by decide!) (by decide!) (by decide!)
    [(true, path_d), (false, path_d_f)] (by decide!)
  ⟨by decide!, hw.1, (hw.2 [47, 97] (by decide!)).2⟩

/-! ## Refused transfers -/

/-- C21. `newfs_disk_read` and `newfs_disk_write` answer a request in this order: a
zero-length request succeeds and is a no-op (the buffer, resp. the device, comes
back as given), whatever the offset; otherwise a negative offset gives `-EINVAL` from
both; otherwise, if `round_up(offset + length, io_size) > disk_size`, the read gives
`-EIO` and the write `-ENOSPC`.  A failing call has no device among its results, and
`newfs_disk_read` never has: the device stays as it was. -/
theorem disk_transfer_refusals (s : newfs_super) (dev : ddriver) (offset : Int) (buf : Bytes)
    (size : Nat) :
    (size = 0 → newfs_disk_read s dev offset buf size = .ok buf ∧
      newfs_disk_write s dev offset buf size = .ok dev) ∧
    (size ≠ 0 → offset < 0 → newfs_disk_read s dev offset buf size = .error .EINVAL ∧
      newfs_disk_write s dev offset buf size = .error .EINVAL) ∧
    (size ≠ 0 → 0 ≤ offset → round_up (offset.toNat + size) s.io_size > s.disk_size →
      newfs_disk_read s dev offset buf size = .error .EIOERR ∧
      newfs_disk_write s dev offset buf size = .error .ENOSPC) := by
  refine ⟨?_, ?_, ?_⟩
  · intro h0
    unfold newfs_disk_read newfs_disk_write
    rw [if_pos h0, if_pos h0]
    exact ⟨rfl, rfl⟩
  · intro h0 hneg
    unfold newfs_disk_read newfs_disk_write
    rw [if_neg h0, if_pos hneg, if_neg h0, if_pos hneg]
    exact ⟨rfl, rfl⟩
  · intro h0 hpos hup
    have hneg : ¬ offset < 0 := by omega
    unfold newfs_disk_read newfs_disk_write
    rw [if_neg h0, if_neg hneg, if_neg h0, if_neg hneg]
    simp only []
    rw [if_pos hup, if_pos hup]
    exact ⟨rfl, rfl⟩

/-- Witness of C21 on the fresh 64-block volume (65536 bytes, unit 512): a zero-length
request past the end, a request at offset -1, and 100 bytes at offset 65500. -/
theorem disk_transfer_refusals_witness :
    (newfs_disk_read vol64.super vol64.dev 70000 stack_buf 0 = .ok stack_buf ∧
      newfs_disk_write vol64.super vol64.dev 70000 stack_buf 0 = .ok vol64.dev) ∧
    (newfs_disk_read vol64.super vol64.dev (-1) stack_buf 100 = .error .EINVAL ∧
      newfs_disk_write vol64.super vol64.dev (-1) stack_buf 100 = .error .EINVAL) ∧
    (newfs_disk_read vol64.super vol64.dev 65500 stack_buf 100 = .error .EIOERR ∧
      newfs_disk_write vol64.super vol64.dev 65500 stack_buf 100 = .error .ENOSPC) :=
  ⟨(disk_transfer_refusals vol64.super vol64.dev 70000 stack_buf 0).1 rfl,
    (disk_transfer_refusals vol64.super vol64.dev (-1) stack_buf 100).2.1 (by decide) (by decide),
    (disk_transfer_refusals vol64.super vol64.dev 65500 stack_buf 100).2.2 (by decide) (by decide)
      (by decide!)⟩

/-! ## Block transfers -/

theorem read_loop_units (dev : ddriver) (base io : Nat) (n : Nat) (buf : Bytes) :
    read_loop dev base io n buf
      = read_units dev io base ((List.range n).map (fun k => base + k * io)) buf := by
  induction n with
  | zero => rfl
  | succ n ih =>
    unfold read_units at ih ⊢
    rw [List.range_succ, List.map_append, List.foldl_append, ← ih]
    simp only [List.map_cons, List.map_nil, List.foldl_cons, List.foldl_nil, read_loop,
      Nat.add_sub_cancel_left]

theorem write_loop_units (base io : Nat) (buf : Bytes) (n : Nat) (dev : ddriver) :
    write_loop base io buf n dev
      = write_units io base ((List.range n).map (fun k => base + k * io)) buf dev := by
  induction n with
  | zero => rfl
  | succ n ih =>
    unfold write_units at ih ⊢
    rw [List.range_succ, List.map_append, List.foldl_append, ← ih]
    simp only [List.map_cons, List.map_nil, List.foldl_cons, List.foldl_nil, write_loop,
      Nat.add_sub_cancel_left]

/-- C22. When `block_size` is a positive multiple of `io_size`: `newfs_block_read(index)`
is `block_size / io_size` unit reads at the positions `index * block_size + k * io_size`
in ascending order, and `newfs_block_write` the same unit writes; the read puts in
`buf[0 .. block_size)` exactly the device bytes at
`[index * block_size, (index + 1) * block_size)` and leaves the rest of `buf`; after
`newfs_block_write(index, bytes)` a `newfs_block_read(index)` returns `bytes`, every
device byte outside block `index` is what it was (so every other block reads as
before), and the device keeps its transfer unit and capacity. -/
theorem block_transfer_round_trip (s : newfs_super) (dev : ddriver) (index : Nat)
    (bytes buf : Bytes) (hpos : 0 < s.block_size) (hio : s.io_size ∣ s.block_size) :
    (unit_positions s index).length = s.block_size / s.io_size ∧
    0 < (unit_positions s index).length ∧
    newfs_block_read s dev index buf
      = read_units dev s.io_size (index * s.block_size) (unit_positions s index) buf ∧
    newfs_block_write s dev index bytes
      = write_units s.io_size (index * s.block_size) (unit_positions s index) bytes dev ∧
    (∀ k, k < s.block_size →
      newfs_block_read s dev index buf k = dev.data (index * s.block_size + k)) ∧
    (∀ k, s.block_size ≤ k → newfs_block_read s dev index buf k = buf k) ∧
    (∀ k, k < s.block_size →
      newfs_block_read s (newfs_block_write s dev index bytes) index buf k = bytes k) ∧
    (∀ a, a < index * s.block_size ∨ (index + 1) * s.block_size ≤ a →
      (newfs_block_write s dev index bytes).data a = dev.data a) ∧
    (∀ j, j ≠ index → ∀ k, k < s.block_size →
      newfs_block_read s (newfs_block_write s dev index bytes) j buf k
        = newfs_block_read s dev j buf k) ∧
    same_sizes dev (newfs_block_write s dev index bytes) := by
  have hsucc : (index + 1) * s.block_size = index * s.block_size + s.block_size := by
    rw [Nat.add_mul, Nat.one_mul]
  refine ⟨?_, ?_, ?_, ?_, ?_, ?_, ?_, ?_, ?_, ?_⟩
  · unfold unit_positions
    rw [List.length_map, List.length_range]
  · unfold unit_positions
    rw [List.length_map, List.length_range]
    have hle : s.io_size ≤ s.block_size := Nat.le_of_dvd hpos hio
    have hio0 : 0 < s.io_size := by
      rcases Nat.eq_zero_or_pos s.io_size with h0 | h0
      · rw [h0] at hio
        have := Nat.eq_zero_of_zero_dvd hio
        omega
      · exact h0
    exact Nat.div_pos hle hio0
  · exact read_loop_units dev _ _ _ buf
  · exact write_loop_units _ _ bytes _ dev
  · intro k hk
    rw [newfs_block_read_apply _ _ _ _ hio, if_pos hk]
  · intro k hk
    rw [newfs_block_read_apply _ _ _ _ hio, if_neg (by omega)]
  · intro k hk
    rw [newfs_block_read_apply _ _ _ _ hio, if_pos hk, newfs_block_write_data _ _ _ _ hio,
      if_pos (by omega), Nat.add_sub_cancel_left]
  · intro a ha
    rw [newfs_block_write_data _ _ _ _ hio, if_neg (by omega)]
  · intro j hj k hk
    rw [newfs_block_read_apply _ _ _ _ hio, newfs_block_read_apply _ _ _ _ hio, if_pos hk,
      if_pos hk, newfs_block_write_data _ _ _ _ hio, if_neg]
    intro hc
    rcases Nat.lt_or_gt_of_ne hj with h1 | h1
    · have := Nat.mul_le_mul_right s.block_size (Nat.succ_le_of_lt h1)
      rw [Nat.succ_mul] at this
      omega
    · have := Nat.mul_le_mul_right s.block_size (Nat.succ_le_of_lt h1)
      rw [Nat.succ_mul] at this
      omega
  · exact write_loop_io_size _ _ _ _ _

/-- Witness of C22 on the volume made of `dev_aa` (blocks of 1024 bytes, unit 512):
block 7, two unit transfers, written with a superblock image. -/
theorem block_transfer_round_trip_witness :
    (unit_positions vol_aa.super 7).length = vol_aa.super.block_size / vol_aa.super.io_size ∧
    0 < (unit_positions vol_aa.super 7).length ∧
    newfs_block_read vol_aa.super vol_aa.dev 7 stack_buf
      = read_units vol_aa.dev vol_aa.super.io_size (7 * vol_aa.super.block_size)
          (unit_positions vol_aa.super 7) stack_buf ∧
    newfs_block_write vol_aa.super vol_aa.dev 7 (super_d_bytes (super_d_of vol_aa.super))
      = write_units vol_aa.super.io_size (7 * vol_aa.super.block_size)
          (unit_positions vol_aa.super 7) (super_d_bytes (super_d_of vol_aa.super)) vol_aa.dev ∧
    (∀ k, k < vol_aa.super.block_size →
      newfs_block_read vol_aa.super vol_aa.dev 7 stack_buf k
        = vol_aa.dev.data (7 * vol_aa.super.block_size + k)) ∧
    (∀ k, vol_aa.super.block_size ≤ k →
      newfs_block_read vol_aa.super vol_aa.dev 7 stack_buf k = stack_buf k) ∧
    (∀ k, k < vol_aa.super.block_size →
      newfs_block_read vol_aa.super
        (newfs_block_write vol_aa.super vol_aa.dev 7 (super_d_bytes (super_d_of vol_aa.super)))
        7 stack_buf k = super_d_bytes (super_d_of vol_aa.super) k) ∧
    (∀ a, a < 7 * vol_aa.super.block_size ∨ (7 + 1) * vol_aa.super.block_size ≤ a →
      (newfs_block_write vol_aa.super vol_aa.dev 7
        (super_d_bytes (super_d_of vol_aa.super))).data a = vol_aa.dev.data a) ∧
    (∀ j, j ≠ 7 → ∀ k, k < vol_aa.super.block_size →
      newfs_block_read vol_aa.super
        (newfs_block_write vol_aa.super vol_aa.dev 7 (super_d_bytes (super_d_of vol_aa.super)))
        j stack_buf k = newfs_block_read vol_aa.super vol_aa.dev j stack_buf k) ∧
    same_sizes vol_aa.dev
      (newfs_block_write vol_aa.super vol_aa.dev 7 (super_d_bytes (super_d_of vol_aa.super))) :=
  block_transfer_round_trip vol_aa.super vol_aa.dev 7 (super_d_bytes (super_d_of vol_aa.super))
    stack_buf (by decide!) (by decide!)

/-! ## Stubbed operations -/

/-- C28, as the code has it.  `newfs_unlink`, `newfs_rmdir` and `newfs_rename` return
`-ENOSYS` for every input; `newfs_write` returns the byte count `(int)size` it was
given, `newfs_read` returns 0 and `newfs_truncate` returns 0; none of the six changes
the engine state. -/
theorem stubs_results (st : newfs) (path buf dst : List Nat) (size : Nat) (offset : Int) :
    newfs_unlink st path = (.error .ENOSYS, st) ∧
    newfs_rmdir st path = (.error .ENOSYS, st) ∧
    newfs_rename st path dst = (.error .ENOSYS, st) ∧
    newfs_write st path buf size offset = (.ok (int_of_size size), st) ∧
    newfs_read st path buf size offset = (.ok 0, st) ∧
    newfs_truncate st path offset = (.ok 0, st) :=
  ⟨rfl, rfl, rfl, rfl, rfl, rfl⟩

/-- C28 as stated fails: on the fresh 64-block volume, a content write of 5 bytes to
`/d` returns 5, a content read returns 0 and a truncate returns 0, none of them
`-ENOSYS`. -/
theorem stubs_not_all_enosys :
    ¬ (∀ (st : newfs) (path buf : List Nat) (size : Nat) (offset : Int),
        (newfs_read st path buf size offset).1 = .error .ENOSYS ∧
        (newfs_write st path buf size offset).1 = .error .ENOSYS ∧
        (newfs_truncate st path offset).1 = .error .ENOSYS) ∧
    (newfs_write vol64 path_d [1, 2, 3, 4, 5] 5 0).1 = .ok 5 ∧
    (newfs_read vol64 path_d [] 5 0).1 = .ok 0 ∧
    (newfs_truncate vol64 path_d 0).1 = .ok 0 := by
  refine ⟨?_, rfl, rfl, rfl⟩
  intro h
  have h1 := (h vol64 path_d [] 5 0).1
  cases h1

/-! ## Loading children twice -/

theorem load_loop_mode (s : newfs_super) (dev : ddriver) (n : Nat) (dir : newfs_inode) :
    (load_loop s dev n dir).mode = dir.mode := by
  induction n with
  | zero => rfl
  | succ n ih =>
    simp only [load_loop]
    split
    · exact ih
    · exact ih

theorem newfs_load_dir_children_mode (s : newfs_super) (dev : ddriver) (dir : newfs_inode) :
    (newfs_load_dir_children s dev dir).2.mode = dir.mode := by
  unfold newfs_load_dir_children
  split
  · rfl
  · split
    · rfl
    · exact load_loop_mode s dev _ _

/-- C30. For a directory inode `newfs_load_dir_children` returns 0 and leaves
`children_loaded = true`; on an inode with `children_loaded = true` (so on the inode
any earlier call left) a call returns 0 and gives back the inode as it is, child
list and flag included, whatever the geometry and the device content `dev2` are by
then; on an inode that is not a directory it returns `-ENOTDIR` and gives back the inode
as it is.  The function has no device among its results: it only reads. -/
theorem load_dir_children_idempotent (s s2 : newfs_super) (dev dev2 : ddriver)
    (dir : newfs_inode) :
    (S_ISDIR dir.mode = true →
      (newfs_load_dir_children s dev dir).1 = .ok () ∧
      (newfs_load_dir_children s dev dir).2.children_loaded = true ∧
      newfs_load_dir_children s2 dev2 (newfs_load_dir_children s dev dir).2
        = (.ok (), (newfs_load_dir_children s dev dir).2)) ∧
    (S_ISDIR dir.mode = true → dir.children_loaded = true →
      newfs_load_dir_children s2 dev2 dir = (.ok (), dir)) ∧
    (S_ISDIR dir.mode = false → newfs_load_dir_children s dev dir = (.error .ENOTDIR, dir)) := by
  have again : ∀ d : newfs_inode, S_ISDIR d.mode = true → d.children_loaded = true →
      newfs_load_dir_children s2 dev2 d = (.ok (), d) := by
    intro d hd hl
    unfold newfs_load_dir_children
    rw [hd, if_neg (by simp), if_pos hl]
  refine ⟨?_, again dir, ?_⟩
  · intro hd
    have h1 : (newfs_load_dir_children s dev dir).1 = .ok () := by
      unfold newfs_load_dir_children
      rw [hd, if_neg (by simp)]
      split
      · rfl
      · rfl
    have h2 : (newfs_load_dir_children s dev dir).2.children_loaded = true := by
      unfold newfs_load_dir_children
      rw [hd, if_neg (by simp)]
      split
      · rename_i hl
        exact hl
      · rfl
    refine ⟨h1, h2, again _ ?_ h2⟩
    rw [newfs_load_dir_children_mode]
    exact hd
  · intro hd
    unfold newfs_load_dir_children
    rw [hd, if_pos (by simp)]

/-! ## A failed insertion -/

theorem load_loop_fields (s : newfs_super) (dev : ddriver) (n : Nat) (dir : newfs_inode) :
    (load_loop s dev n dir).size = dir.size ∧ (load_loop s dev n dir).blocks = dir.blocks ∧
    (load_loop s dev n dir).ino = dir.ino ∧ (load_loop s dev n dir).links = dir.links := by
  induction n with
  | zero => exact ⟨rfl, rfl, rfl, rfl⟩
  | succ n ih =>
    simp only [load_loop]
    split
    · exact ih
    · exact ih

theorem newfs_load_dir_children_fields (s : newfs_super) (dev : ddriver) (dir : newfs_inode) :
    (newfs_load_dir_children s dev dir).2.size = dir.size ∧
    (newfs_load_dir_children s dev dir).2.blocks = dir.blocks ∧
    (newfs_load_dir_children s dev dir).2.ino = dir.ino ∧
    (newfs_load_dir_children s dev dir).2.links = dir.links := by
  unfold newfs_load_dir_children
  split
  · exact ⟨rfl, rfl, rfl, rfl⟩
  · split
    · exact ⟨rfl, rfl, rfl, rfl⟩
    · exact load_loop_fields s dev _ _

/-- C29. Whenever `newfs_add_dentry` returns an error, the error is `-ENOTDIR` (exactly
when the inode is not a directory) or `-ENOSPC` (the entry index is past the eight
direct slots, or its slot has no block and no data block is free), and the whole
engine state is the one before the call: the device (so the directory's inode
record and data blocks and both bitmap regions) and both bitmaps in memory; the size
and the direct block pointers of the directory inode are as before; the inode is as
before, child list included, when its children were loaded (as at every call the
code makes) or it has no dentry, and otherwise it is the inode with the children
loaded from the device: the new entry is not linked. -/
theorem add_dentry_failure_atomic (st : newfs) (dir : newfs_inode) (name : List Nat)
    (ino mode : Nat) (ci : Option newfs_inode) (e : Errno)
    (he : (newfs_add_dentry st dir name ino mode ci).1 = .error e) :
    (newfs_add_dentry st dir name ino mode ci).2.2 = st ∧
    (newfs_add_dentry st dir name ino mode ci).2.1.size = dir.size ∧
    (newfs_add_dentry st dir name ino mode ci).2.1.blocks = dir.blocks ∧
    (e = .ENOTDIR ∨ e = .ENOSPC) ∧
    (e = .ENOTDIR ↔ S_ISDIR dir.mode = false) ∧
    (e = .ENOSPC →
      entry_blk_idx st.super (dir.size / SIZEOF_DENTRY_D) ≥ NEWFS_DIRECT_NUM ∨
      (dir.blocks.getD (entry_blk_idx st.super (dir.size / SIZEOF_DENTRY_D)) 0 = 0 ∧
        first_clear st.super.data_map st.super.data_count = none)) ∧
    (dir.children_loaded = true ∨ dir.dentry = false →
      (newfs_add_dentry st dir name ino mode ci).2.1 = dir) ∧
    ((newfs_add_dentry st dir name ino mode ci).2.1 = dir ∨
      (newfs_add_dentry st dir name ino mode ci).2.1
        = (newfs_load_dir_children st.super st.dev dir).2) := by
  by_cases h1 : S_ISDIR dir.mode = true
  · have hnd : ¬ ((!S_ISDIR dir.mode) = true) := by rw [h1]; simp
    obtain ⟨dir1, hdir1⟩ : ∃ dir1, dir1 = (if (dir.dentry && !dir.children_loaded) = true then
          (newfs_load_dir_children st.super st.dev dir).2 else dir) := ⟨_, rfl⟩
    have hsz : dir1.size = dir.size ∧ dir1.blocks = dir.blocks := by
      rw [hdir1]
      split
      · exact ⟨(newfs_load_dir_children_fields _ _ _).1, (newfs_load_dir_children_fields _ _ _).2.1⟩
      · exact ⟨rfl, rfl⟩
    have hsame : dir.children_loaded = true ∨ dir.dentry = false → dir1 = dir := by
      intro hc
      rw [hdir1, if_neg]
      rcases hc with hc | hc
      · rw [hc]; simp
      · rw [hc]; simp
    have hcase : dir1 = dir ∨ dir1 = (newfs_load_dir_children st.super st.dev dir).2 := by
      rw [hdir1]
      split
      · exact Or.inr rfl
      · exact Or.inl rfl
    have key : newfs_add_dentry st dir name ino mode ci = (.error .ENOSPC, dir1, st) ∧
        e = .ENOSPC ∧
        (entry_blk_idx st.super (dir1.size / SIZEOF_DENTRY_D) ≥ NEWFS_DIRECT_NUM ∨
          (dir1.blocks.getD (entry_blk_idx st.super (dir1.size / SIZEOF_DENTRY_D)) 0 = 0 ∧
            first_clear st.super.data_map st.super.data_count = none)) := by
      unfold newfs_add_dentry at he ⊢
      rw [if_neg hnd] at he ⊢
      dsimp only at he ⊢
      rw [← hdir1] at he ⊢
      by_cases h2 : entry_blk_idx st.super (dir1.size / SIZEOF_DENTRY_D) ≥ NEWFS_DIRECT_NUM
      · rw [if_pos h2] at he ⊢
        injection he with he
        exact ⟨rfl, he.symm, Or.inl h2⟩
      · rw [if_neg h2] at he ⊢
        unfold add_dentry_slot at he ⊢
        by_cases h3 : dir1.blocks.getD (entry_blk_idx st.super (dir1.size / SIZEOF_DENTRY_D)) 0 = 0
        · rw [if_pos h3] at he ⊢
          cases hfc : first_clear st.super.data_map st.super.data_count with
          | none =>
            rw [newfs_alloc_data_block_none st hfc] at he ⊢
            injection he with he
            exact ⟨rfl, he.symm, Or.inr ⟨h3, rfl⟩⟩
          | some j =>
            exfalso
            obtain ⟨a1, _⟩ := newfs_alloc_data_block_some st j hfc
            rcases hres : newfs_alloc_data_block st with ⟨r, st2⟩
            rw [hres] at a1 he
            simp only at a1
            subst a1
            cases he
        · rw [if_neg h3] at he
          cases he
    obtain ⟨k1, k2, k3⟩ := key
    rw [k1]
    rw [hsz.1, hsz.2] at k3
    refine ⟨rfl, hsz.1, hsz.2, Or.inr k2, ?_, fun _ => k3, hsame, hcase⟩
    rw [k2, h1]
    simp
  · have h1f : S_ISDIR dir.mode = false := by simpa using h1
    have key : newfs_add_dentry st dir name ino mode ci = (.error .ENOTDIR, dir, st) := by
      unfold newfs_add_dentry
      rw [if_pos (by rw [h1f]; rfl)]
    rw [key] at he ⊢
    injection he with he
    subst he
    refine ⟨rfl, rfl, rfl, Or.inl rfl, ⟨fun _ => h1f, fun _ => rfl⟩, ?_, fun _ => rfl, Or.inl rfl⟩
    intro hc
    cases hc

/-- Witness of C29 on the 5-block volume after `mkdir /d`, whose one data block is
taken: an insertion into the empty directory inode 1 finds no block (`ENOSPC`). -/
theorem add_dentry_failure_atomic_witness :
    (newfs_add_dentry vol5_d (new_inode_of hdr S_IFDIR 1) [102] 2 mode_reg none).1
      = .error .ENOSPC ∧
    (newfs_add_dentry vol5_d (new_inode_of hdr S_IFDIR 1) [102] 2 mode_reg none).2.2 = vol5_d ∧
    (newfs_add_dentry vol5_d (new_inode_of hdr S_IFDIR 1) [102] 2 mode_reg none).2.1
      = new_inode_of hdr S_IFDIR 1 :=
  ⟨by decide!,
    (add_dentry_failure_atomic vol5_d (new_inode_of hdr S_IFDIR 1) [102] 2 mode_reg none .ENOSPC
      (by decide!)).1,
    (add_dentry_failure_atomic vol5_d (new_inode_of hdr S_IFDIR 1) [102] 2 mode_reg none .ENOSPC
      (by decide!)).2.2.2.2.2.2.1 (Or.inr rfl)⟩

/-- Witness of C30: the root inode read back from the device after eight files were
made in `/` is loaded once from that device, then again against the blank device
`dev64`; the file inode `node5` is refused. -/
theorem load_dir_children_idempotent_witness :
    ((newfs_load_dir_children vol64_8files.2.super vol64_8files.2.dev
        (reread_inode vol64_8files.2 0)).1 = .ok () ∧
      (newfs_load_dir_children vol64_8files.2.super vol64_8files.2.dev
        (reread_inode vol64_8files.2 0)).2.children_loaded = true ∧
      newfs_load_dir_children vol64.super dev64
          (newfs_load_dir_children vol64_8files.2.super vol64_8files.2.dev
            (reread_inode vol64_8files.2 0)).2
        = (.ok (), (newfs_load_dir_children vol64_8files.2.super vol64_8files.2.dev
            (reread_inode vol64_8files.2 0)).2)) ∧
    newfs_load_dir_children vol64.super dev64 node5 = (.error .ENOTDIR, node5) :=
  ⟨(load_dir_children_idempotent vol64_8files.2.super vol64.super vol64_8files.2.dev dev64
      (reread_inode vol64_8files.2 0)).1 (by decide!),
    (load_dir_children_idempotent vol64.super vol64.super dev64 dev64 node5).2.2 (by decide!)⟩

/-! ## The two resolvers -/

theorem parent_loop_cons (s : newfs_super) (dev : ddriver) (token next : List Nat)
    (rest : List (List Nat)) (cur : newfs_dentry) (cur_inode : newfs_inode) :
    parent_loop s dev (token :: next :: rest) cur cur_inode
      = match newfs_find_child_dentry (newfs_load_dir_children s dev cur_inode).2 token with
        | none => (.error .ENOENT, cur.with_inode (newfs_load_dir_children s dev cur_inode).2)
        | some child =>
          match newfs_get_inode_from_dentry s dev child with
          | (.error e, child) =>
            (.error e, cur.with_inode { (newfs_load_dir_children s dev cur_inode).2 with
              first_child := (newfs_load_dir_children s dev cur_inode).2.first_child.set
                (find_child_pos (newfs_load_dir_children s dev cur_inode).2 token) child })
          | (.ok child_inode, child) =>
            match parent_loop s dev (next :: rest) child child_inode with
            | (r, child) =>
              (r.map (fun x => (find_child_pos (newfs_load_dir_children s dev cur_inode).2 token
                  :: x.1, x.2)),
                cur.with_inode { (newfs_load_dir_children s dev cur_inode).2 with
                  first_child := (newfs_load_dir_children s dev cur_inode).2.first_child.set
                    (find_child_pos (newfs_load_dir_children s dev cur_inode).2 token) child }) := by
  rfl

theorem path_dentry_loop_cons (s : newfs_super) (dev : ddriver) (token : List Nat)
    (rest : List (List Nat)) (cur : newfs_dentry) (cur_inode : newfs_inode) :
    path_dentry_loop s dev (token :: rest) cur cur_inode
      = match newfs_find_child_dentry (newfs_load_dir_children s dev cur_inode).2 token with
        | none => (.error .ENOENT, cur.with_inode (newfs_load_dir_children s dev cur_inode).2)
        | some child =>
          match newfs_get_inode_from_dentry s dev child with
          | (.error e, child) =>
            (.error e, cur.with_inode { (newfs_load_dir_children s dev cur_inode).2 with
              first_child := (newfs_load_dir_children s dev cur_inode).2.first_child.set
                (find_child_pos (newfs_load_dir_children s dev cur_inode).2 token) child })
          | (.ok child_inode, child) =>
            match path_dentry_loop s dev rest child child_inode with
            | (r, child) =>
              (r.map (fun p => find_child_pos (newfs_load_dir_children s dev cur_inode).2 token
                  :: p),
                cur.with_inode { (newfs_load_dir_children s dev cur_inode).2 with
                  first_child := (newfs_load_dir_children s dev cur_inode).2.first_child.set
                    (find_child_pos (newfs_load_dir_children s dev cur_inode).2 token) child }) := by
  rfl

/-- The loop of `newfs_get_parent_dentry` over `pre ++ [leaf]` does what the loop of
`newfs_path_dentry` does over `pre`, and returns with it the dentry reached and the
first `MAX_NAME_LEN - 1` characters of `leaf`. -/
theorem parent_loop_path_loop (s : newfs_super) (dev : ddriver) (leaf : List Nat)
    (pre : List (List Nat)) : ∀ (cur : newfs_dentry) (ci : newfs_inode),
    (∀ e, (path_dentry_loop s dev pre cur ci).1 = .error e →
      parent_loop s dev (pre ++ [leaf]) cur ci = (.error e, (path_dentry_loop s dev pre cur ci).2)) ∧
    (∀ p, (path_dentry_loop s dev pre cur ci).1 = .ok p →
      ∃ pd, dentry_at (path_dentry_loop s dev pre cur ci).2 p = some pd ∧
        parent_loop s dev (pre ++ [leaf]) cur ci
          = (.ok (p, pd, leaf.take (MAX_NAME_LEN - 1)), (path_dentry_loop s dev pre cur ci).2)) := by
  induction pre with
  | nil =>
    intro cur ci
    rw [List.nil_append, path_dentry_loop, parent_loop]
    refine ⟨fun e he => (by cases he), ?_⟩
    intro p hp
    injection hp with hp
    subst hp
    exact ⟨_, rfl, rfl⟩
  | cons t rest ih =>
    intro cur ci
    obtain ⟨next, rest', hnr⟩ : ∃ next rest', rest ++ [leaf] = next :: rest' := by
      cases rest with
      | nil => exact ⟨leaf, [], rfl⟩
      | cons a as => exact ⟨a, as ++ [leaf], rfl⟩
    rw [List.cons_append, hnr, parent_loop_cons, path_dentry_loop_cons]
    generalize (newfs_load_dir_children s dev ci).2 = ci1
    cases hfind : newfs_find_child_dentry ci1 t with
    | none =>
      simp only
      refine ⟨?_, fun p hp => (by cases hp)⟩
      intro e he
      injection he with he
      subst he
      rfl
    | some child =>
      simp only
      have hk := find_child_get ci1 t child hfind
      rcases hget : newfs_get_inode_from_dentry s dev child with ⟨rg, child1⟩
      cases rg with
      | error e1 =>
        simp only
        refine ⟨?_, fun p hp => (by cases hp)⟩
        intro e he
        injection he with he
        subst he
        rfl
      | ok chi =>
        simp only
        obtain ⟨i1, i2⟩ := ih child1 chi
        rw [hnr] at i1 i2
        rcases hrec : path_dentry_loop s dev rest child1 chi with ⟨r, child2⟩
        rw [hrec] at i1 i2
        simp only at i1 i2 ⊢
        cases r with
        | error e2 =>
          rw [i1 e2 rfl]
          refine ⟨?_, fun p hp => (by cases hp)⟩
          intro e he
          simp only [Except.map] at he
          injection he with he
          subst he
          rfl
        | ok p2 =>
          obtain ⟨pd, a1, a2⟩ := i2 p2 rfl
          rw [a2]
          refine ⟨fun e he => (by cases he), ?_⟩
          intro p hp
          simp only [Except.map] at hp
          injection hp with hp
          subst hp
          refine ⟨pd, ?_, rfl⟩
          rw [dentry_at_cons_eq _ _ p2 _ child2 (with_inode_inode _ _)
            (get?_set_self _ _ _ _ hk)]
          exact a1

/-! ## The entries of a tree -/

theorem tree_entries_some (n : List Nat) (i m : Nat) (x : newfs_inode) :
    tree_entries (.mk n i m (some x)) = (n, i, m) :: forest_entries x.first_child := by
  rw [tree_entries]

theorem forest_entries_cons (c : newfs_dentry) (cs : List newfs_dentry) :
    forest_entries (c :: cs) = tree_entries c ++ forest_entries cs := by
  rw [forest_entries]

theorem forest_entries_nil : forest_entries [] = [] := by
  rw [forest_entries]

theorem tree_entries_with_inode (d : newfs_dentry) (x : newfs_inode) :
    tree_entries (d.with_inode x) = entry_view d :: forest_entries x.first_child :=
  tree_entries_some _ _ _ _

theorem tree_entries_head (d : newfs_dentry) : entry_view d ∈ tree_entries d := by
  cases d with
  | mk n i m oi =>
    cases oi with
    | none =>
      rw [tree_entries]
      exact List.mem_singleton.2 rfl
    | some x =>
      rw [tree_entries_some]
      exact List.mem_cons_self _ _

theorem forest_entries_mem (l : List newfs_dentry) (c : newfs_dentry)
    (e : List Nat × Nat × Nat) (hc : c ∈ l) (he : e ∈ tree_entries c) : e ∈ forest_entries l := by
  induction l with
  | nil => cases hc
  | cons a as ih =>
    rw [forest_entries_cons]
    rcases List.mem_cons.1 hc with h1 | h1
    · subst h1
      exact List.mem_append_left _ he
    · exact List.mem_append_right _ (ih h1)

theorem forest_entries_set_eq (l : List newfs_dentry) (k : Nat) (c c' : newfs_dentry)
    (hk : l.get? k = some c) (he : tree_entries c' = tree_entries c) :
    forest_entries (l.set k c') = forest_entries l := by
  induction l generalizing k with
  | nil => cases hk
  | cons a as ih =>
    cases k with
    | zero =>
      simp only [List.get?_cons_zero, Option.some.injEq] at hk
      subst hk
      rw [List.set_cons_zero, forest_entries_cons, forest_entries_cons, he]
    | succ k =>
      simp only [List.get?_cons_succ] at hk
      rw [List.set_cons_succ, forest_entries_cons, forest_entries_cons, ih k hk]

theorem forest_entries_set_perm (l : List newfs_dentry) (k : Nat) (c c' : newfs_dentry)
    (e : List Nat × Nat × Nat) (hk : l.get? k = some c)
    (he : (tree_entries c').Perm (e :: tree_entries c)) :
    (forest_entries (l.set k c')).Perm (e :: forest_entries l) := by
  induction l generalizing k with
  | nil => cases hk
  | cons a as ih =>
    cases k with
    | zero =>
      simp only [List.get?_cons_zero, Option.some.injEq] at hk
      subst hk
      rw [List.set_cons_zero, forest_entries_cons, forest_entries_cons]
      exact List.Perm.append_right _ he
    | succ k =>
      simp only [List.get?_cons_succ] at hk
      rw [List.set_cons_succ, forest_entries_cons, forest_entries_cons]
      exact (List.Perm.append_left _ (ih k hk)).trans List.perm_middle

theorem entry_view_with_inode (d : newfs_dentry) (x : newfs_inode) :
    entry_view (d.with_inode x) = entry_view d := rfl

/-- Storing through a pointer a dentry with the entries of the one it replaces keeps
the entries of the tree. -/
theorem tree_entries_set_eq (root : newfs_dentry) (ptr : List Nat) (pd v : newfs_dentry)
    (h : dentry_at root ptr = some pd) (he : tree_entries v = tree_entries pd) :
    tree_entries (dentry_set root ptr v) = tree_entries root := by
  induction ptr generalizing root with
  | nil =>
    simp only [dentry_at, Option.some.injEq] at h
    subst h
    exact he
  | cons k p ih =>
    obtain ⟨ci, c, h1, h2, h3⟩ := dentry_at_cons root k p pd h
    rw [dentry_set_cons root k p v ci c h1 h2, tree_entries_with_inode]
    simp only
    rw [forest_entries_set_eq _ k c _ h2 (ih c h3), ← tree_entries_with_inode,
      with_inode_self root ci h1]

/-- Storing through a pointer a dentry with one entry more adds that entry to the
tree. -/
theorem tree_entries_set_perm (root : newfs_dentry) (ptr : List Nat) (pd v : newfs_dentry)
    (e : List Nat × Nat × Nat) (h : dentry_at root ptr = some pd)
    (he : (tree_entries v).Perm (e :: tree_entries pd)) :
    (tree_entries (dentry_set root ptr v)).Perm (e :: tree_entries root) := by
  induction ptr generalizing root with
  | nil =>
    simp only [dentry_at, Option.some.injEq] at h
    subst h
    exact he
  | cons k p ih =>
    obtain ⟨ci, c, h1, h2, h3⟩ := dentry_at_cons root k p pd h
    rw [dentry_set_cons root k p v ci c h1 h2, tree_entries_with_inode]
    simp only
    have hroot : tree_entries root = entry_view root :: forest_entries ci.first_child := by
      rw [← tree_entries_with_inode, with_inode_self root ci h1]
    rw [hroot]
    exact ((forest_entries_set_perm _ k c _ e h2 (ih c h3)).cons _).trans (List.Perm.swap _ _ _)

theorem names_fit_child (d : newfs_dentry) (x : newfs_inode) (c : newfs_dentry)
    (hd : d.inode = some x) (hc : c ∈ x.first_child) (h : names_fit d) : names_fit c := by
  intro e he
  apply h
  rw [← with_inode_self d x hd, tree_entries_with_inode]
  exact List.mem_cons_of_mem _ (forest_entries_mem _ c e hc he)

theorem names_fit_name (d : newfs_dentry) (h : names_fit d) : d.name.length < MAX_NAME_LEN :=
  h (entry_view d) (tree_entries_head d)

/-! ## Resolution on a session tree -/

/-- For a name that fits its field, `strncmp(.., MAX_NAME_LEN) == 0` is equality. -/
theorem strncmp_eq_exact (a b : List Nat) (n : Nat) (ha : a.length < n) :
    strncmp_eq a b n = (a == b) := by
  unfold strncmp_eq
  rw [List.take_of_length_le (Nat.le_of_lt ha), Bool.eq_iff_iff, beq_iff_eq, beq_iff_eq]
  by_cases hb : b.length ≤ n
  · rw [List.take_of_length_le hb]
  · constructor
    · intro h
      have := congrArg List.length h
      rw [List.length_take] at this
      omega
    · intro h
      rw [h] at ha
      omega

theorem find_child_exact (dir : newfs_inode) (seg : List Nat)
    (h : ∀ c, c ∈ dir.first_child → c.name.length < MAX_NAME_LEN) :
    newfs_find_child_dentry dir seg = dir.first_child.find? (fun c => c.name == seg) := by
  unfold newfs_find_child_dentry
  generalize dir.first_child = l at h
  induction l with
  | nil => rfl
  | cons a as ih =>
    rw [List.find?_cons, List.find?_cons, strncmp_eq_exact a.name seg MAX_NAME_LEN
      (h a (List.mem_cons_self _ _)), ih (fun c hc => h c (List.mem_cons_of_mem _ hc))]

theorem walk_cons (seg : List Nat) (rest : List (List Nat)) (d : newfs_dentry) (x : newfs_inode)
    (hd : d.inode = some x) :
    walk (seg :: rest) d
      = match x.first_child.find? (fun c => c.name == seg) with
        | none => none
        | some c => walk rest c := by
  rw [walk, hd]

/-- The loop of `newfs_path_dentry` on a session tree whose names fit: it keeps a
session tree with the same entries, returns a pointer to the dentry that the walk
by exact names reaches, and fails with `ENOENT` when the walk reaches none. -/
theorem path_dentry_loop_walk (s : newfs_super) (dev : ddriver) (lo : Nat)
    (toks : List (List Nat)) : ∀ (cur : newfs_dentry) (ci : newfs_inode),
    inode_ok lo ci → (∀ c, c ∈ ci.first_child → tree_ok lo c) → names_fit (cur.with_inode ci) →
    tree_ok lo (path_dentry_loop s dev toks cur ci).2 ∧
    tree_entries (path_dentry_loop s dev toks cur ci).2 = tree_entries (cur.with_inode ci) ∧
    (∀ d, walk toks (cur.with_inode ci) = some d →
      ∃ p, (path_dentry_loop s dev toks cur ci).1 = .ok p ∧
        dentry_at (path_dentry_loop s dev toks cur ci).2 p = some d) ∧
    (walk toks (cur.with_inode ci) = none →
      (path_dentry_loop s dev toks cur ci).1 = .error .ENOENT) := by
  induction toks with
  | nil =>
    intro cur ci h1 h2 _
    simp only [path_dentry_loop, walk]
    refine ⟨tree_ok_with_inode lo cur ci h1 h2, (by first | rfl | trivial), ?_,
      fun hc => (by cases hc)⟩
    intro d hd
    injection hd with hd
    subst hd
    exact ⟨[], rfl, rfl⟩
  | cons t rest ih =>
    intro cur ci h1 h2 hn
    obtain ⟨l1, l2, l3, l4, l5, l6, l7⟩ := newfs_load_dir_children_ok s dev lo ci h1
    rw [path_dentry_loop_cons, walk_cons t rest _ ci (with_inode_inode cur ci)]
    generalize (newfs_load_dir_children s dev ci).2 = ci1 at l1 l2 l3 l4 l5 l6 l7 ⊢
    have hch : ∀ c, c ∈ ci1.first_child → tree_ok lo c := by rw [l1]; exact h2
    have hnames : ∀ c, c ∈ ci1.first_child → c.name.length < MAX_NAME_LEN := by
      intro c hc
      rw [l1] at hc
      exact names_fit_name c (names_fit_child _ ci c (with_inode_inode cur ci) hc hn)
    have hent1 : tree_entries (cur.with_inode ci1) = tree_entries (cur.with_inode ci) := by
      rw [tree_entries_with_inode, tree_entries_with_inode, l1]
    rw [← l1, ← find_child_exact ci1 t hnames]
    cases hfind : newfs_find_child_dentry ci1 t with
    | none =>
      simp only
      exact ⟨tree_ok_with_inode lo cur ci1 l6 hch, hent1, fun d hd => (by cases hd),
        (by first | exact fun _ => rfl | trivial)⟩
    | some child =>
      simp only
      have hk := find_child_get ci1 t child hfind
      have hmem := get?_mem _ _ _ hk
      obtain ⟨chi, ech, hchi, hchc⟩ := tree_ok_inode lo child (hch child hmem)
      have hres : child.inode = some chi := by rw [ech]; rfl
      rw [newfs_get_inode_from_dentry_resolved s dev child chi hres]
      simp only
      have hnc : names_fit (child.with_inode chi) := by
        rw [with_inode_self child chi hres]
        exact names_fit_child _ ci child (with_inode_inode cur ci) (by rw [← l1]; exact hmem) hn
      obtain ⟨r1, r2, r3, r4⟩ := ih child chi hchi hchc hnc
      rw [with_inode_self child chi hres] at r2 r3 r4
      rcases hrec : path_dentry_loop s dev rest child chi with ⟨r, child'⟩
      rw [hrec] at r1 r2 r3 r4
      simp only at r1 r2 r3 r4 ⊢
      refine ⟨?_, ?_, ?_, ?_⟩
      · apply tree_ok_with_inode
        · exact inode_ok_set_child lo ci1 _ child child' l6 hk
        · intro y hy
          rcases mem_set_cases _ _ _ _ hy with h4 | h4
          · exact hch y h4
          · rw [h4]; exact r1
      · rw [tree_entries_with_inode]
        simp only
        rw [forest_entries_set_eq _ _ child child' hk r2, ← tree_entries_with_inode, hent1]
      · intro d hd
        obtain ⟨p, e1, e2⟩ := r3 d hd
        refine ⟨find_child_pos ci1 t :: p, by rw [e1]; rfl, ?_⟩
        rw [dentry_at_cons_eq _ _ p _ child' (with_inode_inode _ _) (get?_set_self _ _ _ _ hk)]
        exact e2
      · intro hd
        rw [r4 hd]
        rfl

/-! ## The entries through a creation -/

theorem state_entries_root (st : newfs) (root : newfs_dentry) :
    state_entries { st with super := { st.super with root_dentry := some root } }
      = tree_entries root := rfl

theorem state_entries_of_root (st : newfs) (root : newfs_dentry)
    (h : st.super.root_dentry = some root) : state_entries st = tree_entries root := by
  unfold state_entries
  rw [h]

theorem take_name_fits (name : List Nat) : (name.take (MAX_NAME_LEN - 1)).length < MAX_NAME_LEN := by
  rw [List.length_take]
  simp only [MAX_NAME_LEN]
  omega

/-- The loop of `newfs_get_parent_dentry` keeps the entries of a session tree, and
the leaf name it returns fits the name field. -/
theorem parent_loop_entries (s : newfs_super) (dev : ddriver) (lo : Nat) (l : List (List Nat))
    (cur : newfs_dentry) (ci : newfs_inode) (h1 : inode_ok lo ci)
    (h2 : ∀ c, c ∈ ci.first_child → tree_ok lo c) (hn : names_fit (cur.with_inode ci)) :
    tree_entries (parent_loop s dev l cur ci).2 = tree_entries (cur.with_inode ci) ∧
    ∀ ptr pd name, (parent_loop s dev l cur ci).1 = .ok (ptr, pd, name) →
      name.length < MAX_NAME_LEN := by
  rcases List.eq_nil_or_concat l with h0 | ⟨pre, leaf, h0⟩
  · subst h0
    simp only [parent_loop]
    exact ⟨by first | rfl | trivial, fun _ _ _ he => (by cases he)⟩
  · subst h0
    rw [List.concat_eq_append]
    obtain ⟨_, w2, _, _⟩ := path_dentry_loop_walk s dev lo pre cur ci h1 h2 hn
    obtain ⟨p1, p2⟩ := parent_loop_path_loop s dev leaf pre cur ci
    cases hr : (path_dentry_loop s dev pre cur ci).1 with
    | error e =>
      rw [p1 e hr]
      exact ⟨w2, fun _ _ _ he => (by cases he)⟩
    | ok p =>
      obtain ⟨pd, _, a2⟩ := p2 p hr
      rw [a2]
      refine ⟨w2, ?_⟩
      intro ptr pd' name he
      injection he with he
      injection he with e1 e2
      injection e2 with e2 e3
      rw [← e3]
      exact take_name_fits leaf

theorem newfs_get_parent_dentry_entries (lo : Nat) (st : newfs) (path : List Nat)
    (root : newfs_dentry) (hroot : st.super.root_dentry = some root) (hok : tree_ok lo root)
    (hn : names_fit root) :
    state_entries (newfs_get_parent_dentry st path).2 = tree_entries root ∧
    ∀ ptr pd name, (newfs_get_parent_dentry st path).1 = .ok (ptr, pd, name) →
      name.length < MAX_NAME_LEN := by
  unfold newfs_get_parent_dentry
  by_cases hp : path = [47]
  · rw [if_pos hp]
    exact ⟨state_entries_of_root st root hroot, fun _ _ _ he => (by cases he)⟩
  · rw [if_neg hp, hroot]
    simp only
    obtain ⟨ci, eroot, hci, hcc⟩ := tree_ok_inode lo root hok
    have hres : root.inode = some ci := by rw [eroot]; rfl
    rw [newfs_get_inode_from_dentry_resolved _ _ root ci hres]
    simp only
    have hn' : names_fit (root.with_inode ci) := by rw [with_inode_self root ci hres]; exact hn
    obtain ⟨r1, r2⟩ := parent_loop_entries st.super st.dev lo (path_tokens path) root ci hci hcc hn'
    rcases hrec : parent_loop st.super st.dev (path_tokens path) root ci with ⟨r, root'⟩
    rw [hrec] at r1 r2
    simp only at r1 r2 ⊢
    rw [with_inode_self root ci hres] at r1
    exact ⟨r1, r2⟩

/-- The lookup of `newfs_mkdir` / `newfs_mknod` keeps the entries of a session tree,
and the leaf name it returns fits the name field. -/
theorem create_lookup_entries (lo : Nat) (st : newfs) (path : List Nat)
    (root : newfs_dentry) (hroot : st.super.root_dentry = some root) (hok : tree_ok lo root)
    (hn : names_fit root) :
    state_entries (create_lookup st path).2 = tree_entries root ∧
    ∀ ptr pd pi name, (create_lookup st path).1 = .ok (ptr, pd, pi, name) →
      name.length < MAX_NAME_LEN := by
  obtain ⟨root1, e1, t1, _, p1⟩ := newfs_get_parent_dentry_spec lo st path root hroot hok
  obtain ⟨n1, n2⟩ := newfs_get_parent_dentry_entries lo st path root hroot hok hn
  unfold create_lookup
  rcases hres : newfs_get_parent_dentry st path with ⟨r, st1⟩
  rw [hres] at e1 p1 n1 n2
  simp only at e1 p1 n1 n2
  have hent1 : tree_entries root1 = tree_entries root := by
    rw [← n1, e1]
    rfl
  cases r with
  | error e =>
    simp only
    exact ⟨n1, fun _ _ _ _ he => (by cases he)⟩
  | ok x =>
    obtain ⟨ptr, pd, name⟩ := x
    simp only
    have hat := p1 ptr pd name rfl
    have tpd := tree_ok_at lo root1 ptr pd t1 hat
    obtain ⟨pi0, epd, hpi0, hpc⟩ := tree_ok_inode lo pd tpd
    have hresd : pd.inode = some pi0 := by rw [epd]; rfl
    rw [newfs_get_inode_from_dentry_resolved _ _ pd pi0 hresd]
    simp only
    by_cases hd : S_ISDIR pi0.mode = true
    · rw [hd]
      simp only [Bool.not_true, Bool.false_eq_true, if_false]
      obtain ⟨l1, _⟩ := newfs_load_dir_children_ok st1.super st1.dev lo pi0 hpi0
      generalize (newfs_load_dir_children st1.super st1.dev pi0).2 = pi at l1 ⊢
      have hv : tree_entries (pd.with_inode pi) = tree_entries pd := by
        rw [tree_entries_with_inode, l1, ← tree_entries_with_inode, with_inode_self pd pi0 hresd]
      have hroot' : state_entries (put_parent st1 ptr (pd.with_inode pi)) = tree_entries root := by
        rw [e1]
        show tree_entries (dentry_set root1 ptr (pd.with_inode pi)) = tree_entries root
        rw [tree_entries_set_eq root1 ptr pd _ hat hv, hent1]
      constructor
      · split_ifs
        · exact hroot'
        · exact hroot'
      · intro ptr' pd' pi' name' he
        split_ifs at he
        injection he with he
        injection he with a1 a2
        injection a2 with a2 a3
        injection a3 with a3 a4
        rw [← a4]
        exact n2 ptr pd name rfl
    · have hd' : S_ISDIR pi0.mode = false := by simpa using hd
      rw [hd']
      simp only [Bool.not_false, if_true]
      exact ⟨n1, fun _ _ _ _ he => (by cases he)⟩

theorem newfs_add_dentry_children (st : newfs) (dir : newfs_inode) (name : List Nat)
    (ino mode : Nat) (ci : newfs_inode) (hd : S_ISDIR dir.mode = true)
    (hl : dir.children_loaded = true) :
    ((newfs_add_dentry st dir name ino mode (some ci)).1 = .ok () →
      (newfs_add_dentry st dir name ino mode (some ci)).2.1.first_child
        = add_dentry_child name ino mode ci :: dir.first_child) ∧
    (∀ e, (newfs_add_dentry st dir name ino mode (some ci)).1 = .error e →
      (newfs_add_dentry st dir name ino mode (some ci)).2.1 = dir) := by
  rcases newfs_add_dentry_cases st dir name ino mode ci hd hl with h | ⟨_, _, h⟩ | ⟨_, _, j, _, h⟩
  · rw [h]
    exact ⟨fun he => (by cases he), fun _ _ => rfl⟩
  · rw [h]
    exact ⟨fun _ => rfl, fun e he => (by cases he)⟩
  · rw [h]
    exact ⟨fun _ => rfl, fun e he => (by cases he)⟩

theorem add_dentry_child_entries (name : List Nat) (ino mode : Nat) (h : newfs_h) (ifmt i : Nat) :
    tree_entries (add_dentry_child name ino mode (new_inode_of h ifmt i))
      = [(name.take (MAX_NAME_LEN - 1), ino, mode)] := by
  unfold add_dentry_child
  rw [tree_entries_some]
  rfl

/-- The statements of `newfs_mkdir` / `newfs_mknod` from `newfs_alloc_inode` on: a
failure keeps the entries of the tree; a success adds one entry, the leaf name with
the first free inode number, and sets the bit of that number. -/
theorem create_insert_entries (h : newfs_h) (ifmt : Nat) (st : newfs) (ptr : List Nat)
    (pd : newfs_dentry) (pi : newfs_inode) (name : List Nat) (root : newfs_dentry)
    (hf : formatted st.super) (hroot : st.super.root_dentry = some root) (hok : tree_ok 4 root)
    (hat : dentry_at root ptr = some (pd.with_inode pi)) (hd : S_ISDIR pi.mode = true)
    (hl : pi.children_loaded = true) :
    (∀ e, (create_insert h ifmt st ptr pd pi name).1 = .error e →
      state_entries (create_insert h ifmt st ptr pd pi name).2 = tree_entries root) ∧
    ((create_insert h ifmt st ptr pd pi name).1 = .ok () →
      ∃ i, first_clear st.super.inode_map st.super.inode_count = some i ∧
        (create_insert h ifmt st ptr pd pi name).2.super.inode_map
          = bitmap_set st.super.inode_map i ∧
        (state_entries (create_insert h ifmt st ptr pd pi name).2).Perm
          ((name.take (MAX_NAME_LEN - 1), i, u32 (ifmt ||| h.NEWFS_DEFAULT_PERM))
            :: tree_entries root)) := by
  obtain ⟨pi', epi, hpi, hpc⟩ := tree_ok_inode 4 _ (tree_ok_at 4 root ptr _ hok hat)
  have epi' : pi' = pi := by
    have : (pd.with_inode pi).inode = some pi' := by rw [epi]; rfl
    rw [with_inode_inode] at this
    injection this with this
    exact this.symm
  subst epi'
  cases hfc : first_clear st.super.inode_map st.super.inode_count with
  | none =>
    rw [create_insert_none h ifmt st ptr pd pi' name hfc]
    exact ⟨fun _ _ => state_entries_of_root st root hroot, fun he => (by cases he)⟩
  | some i =>
    obtain ⟨_, hi23, hclr, _⟩ := (first_clear_from_some _ _ _ _).1 hfc
    have hcount : st.super.inode_count = 23 := hf.2.2.2.2.2.2.2.2.1
    have hu : (new_inode_of h ifmt i).ino = i := u32_of_lt i (by omega)
    obtain ⟨w1, w2, w3, w4, w5, w6⟩ := create_written_facts h ifmt st i hf hfc
    obtain ⟨_, s7, s8, s9, s10, _, _⟩ :=
      newfs_add_dentry_session (create_written h ifmt st i) pi' name (new_inode_of h ifmt i).ino
        (new_inode_of h ifmt i).mode (new_inode_of h ifmt i) (create_add h ifmt st pi' name i) rfl
        w1 hd hl hpi hpc (new_inode_ok 4 h ifmt i).1 (new_inode_ok 4 h ifmt i).2
    obtain ⟨k1, k2⟩ := newfs_add_dentry_children (create_written h ifmt st i) pi' name
      (new_inode_of h ifmt i).ino (new_inode_of h ifmt i).mode (new_inode_of h ifmt i) hd hl
    have k1' : (create_add h ifmt st pi' name i).1 = .ok () →
        (create_add h ifmt st pi' name i).2.1.first_child
          = add_dentry_child name (new_inode_of h ifmt i).ino (new_inode_of h ifmt i).mode
              (new_inode_of h ifmt i) :: pi'.first_child := k1
    have k2' : ∀ e, (create_add h ifmt st pi' name i).1 = .error e →
        (create_add h ifmt st pi' name i).2.1 = pi' := k2
    obtain ⟨c1, c2⟩ := create_insert_some h ifmt st ptr pd pi' name i hfc
    cases hr1 : (create_add h ifmt st pi' name i).1 with
    | error e =>
      rw [c1 e hr1]
      refine ⟨?_, fun he => (by cases he)⟩
      intro _ _
      have hst := s7 e hr1
      rw [hst, hu, k2' e hr1]
      have hfsup := inode_free_super (create_written h ifmt st i) i
      have hfroot : (inode_free (create_written h ifmt st i) i).super.root_dentry = some root := by
        rw [hfsup]; exact w5.trans hroot
      obtain ⟨_, _, _, _, p5, _⟩ := put_parent_facts (inode_free (create_written h ifmt st i) i)
        ptr (pd.with_inode pi') root (formatted_of_eq _ _ _ _ _ hfsup w1) hfroot
      rw [state_entries_of_root _ _ p5]
      exact tree_entries_set_eq root ptr _ _ hat rfl
    | ok u =>
      rw [c2 hr1]
      refine ⟨fun e he => (by cases he), fun _ => ⟨i, rfl, ?_, ?_⟩⟩
      · have hroot4 : (create_add h ifmt st pi' name i).2.2.super.root_dentry = some root :=
          s9.trans (w5.trans hroot)
        obtain ⟨_, p2, _, _, _, _⟩ := put_parent_facts (create_add h ifmt st pi' name i).2.2
          ptr (pd.with_inode (create_add h ifmt st pi' name i).2.1) root s10 hroot4
        rw [p2, s8, w2]
      · have hroot4 : (create_add h ifmt st pi' name i).2.2.super.root_dentry = some root :=
          s9.trans (w5.trans hroot)
        obtain ⟨_, _, _, _, p5, _⟩ := put_parent_facts (create_add h ifmt st pi' name i).2.2
          ptr (pd.with_inode (create_add h ifmt st pi' name i).2.1) root s10 hroot4
        rw [state_entries_of_root _ _ p5]
        apply tree_entries_set_perm root ptr _ _ _ hat
        rw [tree_entries_with_inode, tree_entries_with_inode, k1' hr1, forest_entries_cons,
          add_dentry_child_entries, hu]
        exact List.Perm.swap _ _ _

/-- A `newfs_mkdir` / `newfs_mknod` call on a session whose names fit: a failure
keeps the entries of the tree; a success adds one entry, a name that fits with the
first free inode number, and sets the bit of that number. -/
theorem newfs_create_entries (h : newfs_h) (ifmt : Nat) (st : newfs) (path : List Nat)
    (root : newfs_dentry) (hf : formatted st.super) (hroot : st.super.root_dentry = some root)
    (hok : tree_ok 4 root) (hn : names_fit root) :
    (∀ e, (newfs_create h ifmt st path).1 = .error e →
      state_entries (newfs_create h ifmt st path).2 = tree_entries root) ∧
    ((newfs_create h ifmt st path).1 = .ok () →
      ∃ i name, first_clear st.super.inode_map st.super.inode_count = some i ∧
        (newfs_create h ifmt st path).2.super.inode_map = bitmap_set st.super.inode_map i ∧
        name.length < MAX_NAME_LEN ∧
        (state_entries (newfs_create h ifmt st path).2).Perm
          ((name, i, u32 (ifmt ||| h.NEWFS_DEFAULT_PERM)) :: tree_entries root)) := by
  obtain ⟨root1, e1, t1, _, p1⟩ := create_lookup_spec 4 st path root hroot hok
  obtain ⟨n1, n2⟩ := create_lookup_entries 4 st path root hroot hok hn
  have hf1 : formatted (create_lookup st path).2.super := by
    rw [e1]
    exact formatted_of_eq st.super _ _ _ _ rfl hf
  have hm1 : (create_lookup st path).2.super.inode_map = st.super.inode_map := by rw [e1]
  have hc1 : (create_lookup st path).2.super.inode_count = st.super.inode_count := by rw [e1]
  have hr1 : (create_lookup st path).2.super.root_dentry = some root1 := by rw [e1]
  have hent1 : tree_entries root1 = tree_entries root := by
    rw [← n1, state_entries_of_root _ _ hr1]
  unfold newfs_create
  rcases hres : create_lookup st path with ⟨r, st1⟩
  rw [hres] at hf1 hm1 hc1 hr1 p1 n1 n2
  simp only at hf1 hm1 hc1 hr1 p1 n1 n2
  cases r with
  | error e =>
    simp only
    exact ⟨fun _ _ => n1, fun he => (by cases he)⟩
  | ok x =>
    obtain ⟨ptr, pd, pi, name⟩ := x
    simp only
    obtain ⟨q1, q2, q3, _⟩ := p1 ptr pd pi name rfl
    obtain ⟨c1, c2⟩ := create_insert_entries h ifmt st1 ptr pd pi name root1 hf1 hr1 t1 q1 q2 q3
    refine ⟨?_, ?_⟩
    · intro e he
      rw [c1 e he, hent1]
    · intro he
      obtain ⟨i, a1, a2, a3⟩ := c2 he
      rw [hm1, hc1] at a1
      rw [hm1] at a2
      rw [hent1] at a3
      exact ⟨i, name.take (MAX_NAME_LEN - 1), a1, a2, take_name_fits name, a3⟩

theorem state_inos_perm (st out : newfs) (e : List Nat × Nat × Nat)
    (h : (state_entries out).Perm (e :: state_entries st)) :
    (state_inos out).Perm (e.2.1 :: state_inos st) := by
  unfold state_inos
  exact h.map _

/-- A creation keeps a fresh session a fresh session, and when it succeeds the tree
has one entry more, whose inode number no entry had. -/
theorem create_fresh (h : newfs_h) (ifmt : Nat) (st : newfs) (path : List Nat)
    (hk : fresh_session st) :
    fresh_session (newfs_create h ifmt st path).2 ∧
    ((newfs_create h ifmt st path).1 = .ok () →
      ∃ i name, i ∉ state_inos st ∧ name.length < MAX_NAME_LEN ∧
        first_clear st.super.inode_map st.super.inode_count = some i ∧
        (state_entries (newfs_create h ifmt st path).2).Perm
          ((name, i, u32 (ifmt ||| h.NEWFS_DEFAULT_PERM)) :: state_entries st)) ∧
    (∀ e, (newfs_create h ifmt st path).1 = .error e →
      state_entries (newfs_create h ifmt st path).2 = state_entries st) := by
  obtain ⟨⟨hf, root, hroot, hok⟩, ⟨root0, r1, _, hn⟩, hmark, hnd⟩ := hk
  have e0 : root0 = root := by
    rw [hroot] at r1
    injection r1 with r1
    exact r1.symm
  subst e0
  have hse : state_entries st = tree_entries root0 := state_entries_of_root st root0 hroot
  obtain ⟨c1, ⟨root', c2, c3, _, _, _⟩, c7, _, _⟩ :=
    newfs_create_session h ifmt st path root0 hf hroot hok
  obtain ⟨n1, n2⟩ := newfs_create_entries h ifmt st path root0 hf hroot hok hn
  have hse' : state_entries (newfs_create h ifmt st path).2 = tree_entries root' :=
    state_entries_of_root _ _ c2
  cases hr : (newfs_create h ifmt st path).1 with
  | error e =>
    have hsame : state_entries (newfs_create h ifmt st path).2 = state_entries st := by
      rw [n1 e hr, hse]
    have hsi : state_inos (newfs_create h ifmt st path).2 = state_inos st := by
      unfold state_inos
      rw [hsame]
    refine ⟨⟨⟨c1, root', c2, c3⟩, ⟨root', c2, c3, ?_⟩, ?_, ?_⟩, fun he => (by cases he),
      fun _ _ => hsame⟩
    · intro x hx
      rw [← hse', hsame, hse] at hx
      exact hn x hx
    · intro i hi
      rw [hsi] at hi
      exact c7 i (hmark i hi)
    · rw [hsi]
      exact hnd
  | ok u =>
    obtain ⟨i, name, a1, a2, a3, a4⟩ := n2 hr
    rw [← hse] at a4
    obtain ⟨_, _, hclr, _⟩ := (first_clear_from_some _ _ _ _).1 a1
    have hnew : i ∉ state_inos st := by
      intro hi
      have := hmark i hi
      rw [hclr] at this
      cases this
    have hperm := state_inos_perm st _ _ a4
    simp only at hperm
    refine ⟨⟨⟨c1, root', c2, c3⟩, ⟨root', c2, c3, ?_⟩, ?_, ?_⟩,
      fun _ => ⟨i, name, hnew, a3, a1, a4⟩, fun e he => (by cases he)⟩
    · intro x hx
      rw [← hse'] at hx
      rcases List.mem_cons.1 (a4.mem_iff.1 hx) with h1 | h1
      · rw [h1]
        exact a3
      · rw [hse] at h1
        exact hn x h1
    · intro x hx
      rcases List.mem_cons.1 (hperm.mem_iff.1 hx) with h1 | h1
      · rw [a2, bitmap_test_set, h1]
        simp
      · exact c7 x (hmark x h1)
    · exact hperm.nodup_iff.2 (List.nodup_cons.2 ⟨hnew, hnd⟩)

theorem run_creates_fresh (h : newfs_h) (ops : List (Bool × List Nat)) :
    ∀ st, fresh_session st → fresh_session (run_creates h ops st) := by
  induction ops with
  | nil => exact fun st hk => hk
  | cons op ops ih =>
    intro st hk
    obtain ⟨b, path⟩ := op
    cases b with
    | true => exact ih _ (create_fresh h S_IFDIR st path hk).1
    | false => exact ih _ (create_fresh h S_IFREG st path hk).1

/-- The root dentry that `newfs_prepare_root` builds on a freshly formatted volume is
the only entry of its tree: the name `/` with inode number 0. -/
theorem newfs_prepare_root_entries (h : newfs_h) (st : newfs) (hf : formatted st.super)
    (hr : st.super.root_ino = 0)
    (hrec : ∀ k, k < 44 → st.dev.data (3072 + k) = inode_d_bytes
      { mode := u32 (S_IFDIR ||| h.NEWFS_DEFAULT_PERM), size := 0, links := 1,
        blocks := List.replicate NEWFS_DIRECT_NUM 0 } k) :
    state_entries (newfs_prepare_root h st).2
      = [([47], 0, u32 (S_IFDIR ||| h.NEWFS_DEFAULT_PERM))] := by
  obtain ⟨f1, f2, f3, f4, f5, f6, f7, f8, f9, f10⟩ := hf
  have haddr : inode_addr st.super 0 = 3072 := by
    unfold inode_addr
    rw [inodes_per_block_1024 _ f2, f7, f2]
    simp only [NEWFS_BLOCK_SIZE, SIZEOF_INODE_D]
  have hread := newfs_read_inode_dev st.super st.dev 0 f1 f2 (by rw [f9]; norm_num)
  rw [haddr, inode_d_at_bytes _ _ _ hrec] at hread
  simp only at hread
  have hb : (List.range NEWFS_DIRECT_NUM).map
      (fun j => u32 ((List.replicate NEWFS_DIRECT_NUM 0).getD j 0)) = List.replicate 8 0 := by
    decide
  rw [hb] at hread
  unfold newfs_prepare_root newfs_get_inode_from_dentry
  simp only [newfs_dentry.inode, newfs_dentry.ino, hr, hread]
  have hok0 : inode_ok 4
      ({ ino := 0, mode := u32 (u32 (S_IFDIR ||| h.NEWFS_DEFAULT_PERM)), size := u32 0,
         links := u32 1, blocks := List.replicate 8 0, dentry := true, first_child := [],
         data := none, children_loaded := false } : newfs_inode) := by
    refine ⟨rfl, fun b hb => Or.inl (List.eq_of_mem_replicate hb), fun _ => ⟨rfl, (by show u32 0 < 136; decide)⟩⟩
  split_ifs with hd
  · obtain ⟨l1, _⟩ := newfs_load_dir_children_ok st.super st.dev 4 _ hok0
    show tree_entries (newfs_dentry.with_inode _ _) = _
    rw [tree_entries_with_inode, l1]
    rfl
  · rfl

/-- The state that the format path of `newfs_mount` leaves is a fresh session: its
only entry is the root, named `/`, with inode number 0, whose bit is set. -/
theorem newfs_mount_fresh (h : newfs_h) (dev : ddriver)
    (hio : dev.io_size ∣ NEWFS_BLOCK_SIZE) (hblk : 5 ≤ dev.disk_size / NEWFS_BLOCK_SIZE)
    (hinit : mount_is_init h dev = true) :
    fresh_session (newfs_mount h dev).2 ∧
    state_entries (newfs_mount h dev).2 = [([47], 0, u32 (S_IFDIR ||| h.NEWFS_DEFAULT_PERM))] := by
  obtain ⟨hf, ⟨root, r1, r2, r3⟩, _, m1, _⟩ := newfs_mount_session h dev hio hblk hinit
  have hdev := newfs_mount_format_dev h dev hio hblk hinit
  have hent : state_entries (newfs_mount h dev).2
      = [([47], 0, u32 (S_IFDIR ||| h.NEWFS_DEFAULT_PERM))] := by
    have hfc : first_clear (format_start h dev).super.inode_map
        (format_start h dev).super.inode_count = some 0 := format_first_clear h dev
    have hsup := (newfs_alloc_inode_some _ 0 hfc).2
    have hf1 : formatted (newfs_alloc_inode (format_start h dev)).2.super :=
      formatted_of_eq _ _ _ _ _ hsup (format_start_formatted h dev hio)
    have hst : (newfs_mount h dev).2.dev
        = (mount_format_root h (super_d_of (format_geometry h (mount_super dev))) (.ok 0)
            (newfs_alloc_inode (format_start h dev)).2).dev :=
      (newfs_mount_format_state h dev hblk hinit).2
    have hmount : newfs_mount h dev
        = newfs_prepare_root h
            (mount_format_root h (super_d_of (format_geometry h (mount_super dev))) (.ok 0)
              (newfs_alloc_inode (format_start h dev)).2) := by
      rw [newfs_mount_format h dev hblk hinit, mount_format_eq]
      rfl
    have hS := mount_format_root_super h (super_d_of (format_geometry h (mount_super dev)))
      (newfs_alloc_inode (format_start h dev)).2
    have hfS : formatted (mount_format_root h
        (super_d_of (format_geometry h (mount_super dev))) (.ok 0)
        (newfs_alloc_inode (format_start h dev)).2).super := by
      rw [hS]
      exact formatted_root_ino _ 0 hf1
    rw [hmount]
    apply newfs_prepare_root_entries h _ hfS (by rw [hS])
    intro k hk
    rw [← hst, hdev, if_neg (by omega), if_neg (by omega), if_neg (by omega), if_pos (by omega),
      Nat.add_sub_cancel_left]
  have hsi : state_inos (newfs_mount h dev).2 = [0] := by
    unfold state_inos
    rw [hent]
    rfl
  have hte : tree_entries root = [([47], 0, u32 (S_IFDIR ||| h.NEWFS_DEFAULT_PERM))] := by
    rw [← state_entries_of_root _ _ r1, hent]
  refine ⟨⟨⟨hf, root, r1, r2⟩, ⟨root, r1, r2, ?_⟩, ?_, ?_⟩, hent⟩
  · intro e he
    rw [hte] at he
    rw [List.mem_singleton.1 he]
    show [47].length < MAX_NAME_LEN
    decide
  · intro i hi
    rw [hsi] at hi
    rw [List.mem_singleton.1 hi, m1, bitmap_test_set]
    rfl
  · rw [hsi]
    exact List.nodup_singleton 0

/-! ## Path resolution -/

theorem path_tokens_root : path_tokens [47] = [] := by decide

/-- The function `newfs_path_dentry` on a session tree whose names fit. -/
theorem newfs_path_dentry_walk (st : newfs) (path : List Nat) (hs : session_tree st) :
    session_tree (newfs_path_dentry st path).2 ∧
    same_but_tree st (newfs_path_dentry st path).2 ∧
    state_entries (newfs_path_dentry st path).2 = state_entries st ∧
    (∀ d, state_walk st (path_tokens path) = some d →
      ∃ ptr, (newfs_path_dentry st path).1 = .ok ptr ∧
        state_dentry (newfs_path_dentry st path).2 ptr = some d) ∧
    (state_walk st (path_tokens path) = none →
      (newfs_path_dentry st path).1 = .error .ENOENT) := by
  obtain ⟨root, hroot, hok, hn⟩ := hs
  have hwalk : ∀ segs, state_walk st segs = walk segs root := by
    intro segs
    unfold state_walk
    rw [hroot]
    rfl
  rw [hwalk]
  unfold newfs_path_dentry
  rw [hroot]
  simp only
  by_cases hp : path = [47]
  · rw [if_pos hp, hp, path_tokens_root]
    refine ⟨⟨root, hroot, hok, hn⟩, same_but_tree_refl st, rfl, ?_, fun hc => (by cases hc)⟩
    intro d hd
    simp only [walk, Option.some.injEq] at hd
    subst hd
    refine ⟨[], rfl, ?_⟩
    unfold state_dentry
    rw [hroot]
    rfl
  · rw [if_neg hp]
    obtain ⟨ci, eroot, hci, hcc⟩ := tree_ok_inode 4 root hok
    have hres : root.inode = some ci := by rw [eroot]; rfl
    rw [newfs_get_inode_from_dentry_resolved _ _ root ci hres]
    simp only
    have hn' : names_fit (root.with_inode ci) := by rw [with_inode_self root ci hres]; exact hn
    obtain ⟨r1, r2, r3, r4⟩ :=
      path_dentry_loop_walk st.super st.dev 4 (path_tokens path) root ci hci hcc hn'
    rw [with_inode_self root ci hres] at r2 r3 r4
    rcases hrec : path_dentry_loop st.super st.dev (path_tokens path) root ci with ⟨r, root'⟩
    rw [hrec] at r1 r2 r3 r4
    simp only at r1 r2 r3 r4 ⊢
    refine ⟨⟨root', rfl, r1, ?_⟩, same_but_tree_root st _, ?_, r3, r4⟩
    · intro e he
      rw [r2] at he
      exact hn e he
    · rw [state_entries_root, r2, state_entries_of_root st root hroot]

/-- Resolution when the whole tree is in memory.  On a session tree whose names fit the
name field (every state of a session begun by a format is one),
`newfs_path_dentry(path)` returns a pointer to the dentry
reached from the root by taking, for each `/`-separated segment of the path in order,
the first child of the current dentry whose name is exactly the segment, and it
returns `-ENOENT` when some segment has no such child; the call changes nothing but
the tree, which keeps its entries, and for the path `/` it returns the root and
changes nothing at all. -/
theorem path_resolution_session (st : newfs) (path : List Nat) (hs : session_tree st) :
    session_tree (newfs_path_dentry st path).2 ∧
    same_but_tree st (newfs_path_dentry st path).2 ∧
    state_entries (newfs_path_dentry st path).2 = state_entries st ∧
    (∀ d, state_walk st (path_tokens path) = some d →
      ∃ ptr, (newfs_path_dentry st path).1 = .ok ptr ∧
        state_dentry (newfs_path_dentry st path).2 ptr = some d) ∧
    (state_walk st (path_tokens path) = none →
      (newfs_path_dentry st path).1 = .error .ENOENT) ∧
    newfs_path_dentry st [47] = (.ok [], st) := by
  obtain ⟨a1, a2, a3, a4, a5⟩ := newfs_path_dentry_walk st path hs
  refine ⟨a1, a2, a3, a4, a5, ?_⟩
  obtain ⟨root, hroot, _, _⟩ := hs
  unfold newfs_path_dentry
  rw [hroot]
  simp only
  rw [if_pos trivial]

theorem fresh_session_tree (st : newfs) (h : fresh_session st) : session_tree st := h.2.1

/-- The tree `/` with `d` with `f` on the fresh 64-block volume is a session tree. -/
theorem vol64_d_f_fresh : fresh_session vol64_d_f :=
  run_creates_fresh hdr [(true, path_d), (false, path_d_f)] _
    (newfs_mount_fresh hdr dev64 (by decide!) (by decide!) (by decide!)).1

/-! ## Parent and leaf -/

/-- The function `newfs_get_parent_dentry` on a path whose segments are those of
`pre_path` followed by `leaf`, the root dentry having its inode: it does what
`newfs_path_dentry(pre_path)` does. -/
theorem newfs_get_parent_dentry_path (st : newfs) (path pre_path leaf : List Nat)
    (root : newfs_dentry) (ri : newfs_inode) (hroot : st.super.root_dentry = some root)
    (hres : root.inode = some ri) (htok : path_tokens path = path_tokens pre_path ++ [leaf]) :
    (∀ e, (newfs_path_dentry st pre_path).1 = .error e →
      newfs_get_parent_dentry st path = (.error e, (newfs_path_dentry st pre_path).2)) ∧
    (∀ ptr, (newfs_path_dentry st pre_path).1 = .ok ptr →
      ∃ pd, state_dentry (newfs_path_dentry st pre_path).2 ptr = some pd ∧
        newfs_get_parent_dentry st path
          = (.ok (ptr, pd, leaf.take (MAX_NAME_LEN - 1)), (newfs_path_dentry st pre_path).2)) := by
  have hp : path ≠ [47] := by
    intro hc
    rw [hc, path_tokens_root] at htok
    exact List.cons_ne_nil _ _ (List.append_eq_nil.1 htok.symm).2
  unfold newfs_get_parent_dentry newfs_path_dentry
  rw [if_neg hp, hroot]
  simp only
  rw [newfs_get_inode_from_dentry_resolved _ _ root ri hres]
  simp only
  rw [htok]
  by_cases hq : pre_path = [47]
  · rw [if_pos hq, hq, path_tokens_root, List.nil_append]
    simp only [parent_loop]
    rw [with_inode_self root ri hres]
    refine ⟨fun e he => (by cases he), ?_⟩
    intro ptr hptr
    injection hptr with hptr
    subst hptr
    refine ⟨root, ?_, ?_⟩
    · unfold state_dentry
      rw [hroot]
      rfl
    · rw [← set_root_self st root hroot]
  · rw [if_neg hq]
    obtain ⟨p1, p2⟩ := parent_loop_path_loop st.super st.dev leaf (path_tokens pre_path) root ri
    rcases hrec : path_dentry_loop st.super st.dev (path_tokens pre_path) root ri with ⟨r, root'⟩
    rw [hrec] at p1 p2
    simp only at p1 p2 ⊢
    constructor
    · intro e he
      rw [p1 e he]
    · intro ptr hptr
      obtain ⟨pd, a1, a2⟩ := p2 ptr hptr
      rw [a2]
      exact ⟨pd, a1, rfl⟩

theorem root_resolved_some (st : newfs) (h : root_resolved st = true) :
    ∃ root ri, st.super.root_dentry = some root ∧ root.inode = some ri := by
  unfold root_resolved at h
  cases hr : st.super.root_dentry with
  | none => rw [hr] at h; cases h
  | some root =>
    rw [hr] at h
    simp only at h
    cases hi : root.inode with
    | none => rw [hi] at h; cases h
    | some ri => exact ⟨root, ri, rfl, hi⟩

/-- C24, as the code has it.  For a path whose segments are `s1 .. sn` (`n ≥ 1`), and
any path `pre_path` whose segments are `s1 .. s(n-1)` (`/` when `n = 1`), in a state
whose root dentry has its inode (every mounted state): `newfs_get_parent_dentry(path)`
fails exactly when `newfs_path_dentry(pre_path)` fails, with the same error, which on a
session tree is `-ENOENT` for a segment that does not resolve; otherwise it succeeds,
whether or not a child named `sn` exists, and returns as parent the pointer and the
dentry that `newfs_path_dentry(pre_path)` returns, and as leaf name the first
`MAX_NAME_LEN - 1 = 127` characters of `sn`, which is `sn` itself when `sn` has less
than 128 characters; both calls leave the same state. -/
theorem parent_and_leaf (st : newfs) (path pre_path leaf : List Nat)
    (hres : root_resolved st = true)
    (htok : path_tokens path = path_tokens pre_path ++ [leaf]) :
    (∀ e, (newfs_path_dentry st pre_path).1 = .error e →
      newfs_get_parent_dentry st path = (.error e, (newfs_path_dentry st pre_path).2)) ∧
    (∀ ptr, (newfs_path_dentry st pre_path).1 = .ok ptr →
      ∃ pd, state_dentry (newfs_path_dentry st pre_path).2 ptr = some pd ∧
        newfs_get_parent_dentry st path
          = (.ok (ptr, pd, leaf.take (MAX_NAME_LEN - 1)), (newfs_path_dentry st pre_path).2)) ∧
    (leaf.length < MAX_NAME_LEN → leaf.take (MAX_NAME_LEN - 1) = leaf) ∧
    (session_tree st → state_walk st (path_tokens pre_path) = none →
      (newfs_get_parent_dentry st path).1 = .error .ENOENT) ∧
    (session_tree st → ∀ d, state_walk st (path_tokens pre_path) = some d →
      ∃ ptr, (newfs_get_parent_dentry st path).1 = .ok (ptr, d, leaf.take (MAX_NAME_LEN - 1))) := by
  obtain ⟨root, ri, hroot, hri⟩ := root_resolved_some st hres
  obtain ⟨g1, g2⟩ := newfs_get_parent_dentry_path st path pre_path leaf root ri hroot hri htok
  refine ⟨g1, g2, ?_, ?_, ?_⟩
  · intro hl
    apply List.take_of_length_le
    simp only [MAX_NAME_LEN] at hl ⊢
    omega
  · intro hs hw
    have he := (newfs_path_dentry_walk st pre_path hs).2.2.2.2 hw
    rw [g1 _ he]
  · intro hs d hw
    obtain ⟨ptr, e1, e2⟩ := (newfs_path_dentry_walk st pre_path hs).2.2.2.1 d hw
    obtain ⟨pd, a1, a2⟩ := g2 ptr e1
    rw [e2] at a1
    injection a1 with a1
    subst a1
    exact ⟨ptr, by rw [a2]⟩

/-- C24 as stated fails for a long last segment: on the fresh 64-block volume, for the
path `/` followed by 128 letters `x`, whose only segment is those 128 letters,
`newfs_get_parent_dentry` succeeds and returns as leaf name 127 letters `x`, not the
segment. -/
theorem parent_leaf_truncated :
    path_tokens path_x128 = [List.replicate 128 120] ∧
    (newfs_get_parent_dentry vol64 path_x128).1.map (fun x => (x.1, x.2.2))
      = .ok ([], List.replicate 127 120) ∧
    (List.replicate 127 120 : List Nat) ≠ List.replicate 128 120 := by
  refine ⟨by decide!, by decide!, by decide⟩

/-- Witness of C24 with the tree `/` with `d` with `f`: for `/d/f` the parent is what
`/d` resolves to and the leaf is `f`. -/
theorem parent_and_leaf_witness :
    (∀ ptr, (newfs_path_dentry vol64_d_f path_d).1 = .ok ptr →
      ∃ pd, state_dentry (newfs_path_dentry vol64_d_f path_d).2 ptr = some pd ∧
        newfs_get_parent_dentry vol64_d_f path_d_f
          = (.ok (ptr, pd, [102].take (MAX_NAME_LEN - 1)), (newfs_path_dentry vol64_d_f path_d).2)) ∧
    ([102].take (MAX_NAME_LEN - 1) = [102]) ∧
    (newfs_path_dentry vol64_d_f path_d).1 = .ok [0] :=
  ⟨(parent_and_leaf vol64_d_f path_d_f path_d [102] (by decide!) (by decide!)).2.1,
    (parent_and_leaf vol64_d_f path_d_f path_d [102] (by decide!) (by decide!)).2.2.1 (by decide),
    by decide!⟩

/-! ## Fresh inode numbers -/

theorem root_ino_mem (st : newfs) (root : newfs_dentry) (h : st.super.root_dentry = some root) :
    root.ino ∈ state_inos st := by
  unfold state_inos
  rw [state_entries_of_root st root h]
  exact List.mem_map.2 ⟨entry_view root, tree_entries_head root, rfl⟩

/-- Fresh inode numbers while the records stay inside the buffer.  In a session begun
by a format (device of at least 5 blocks, transfer unit dividing the block size) the
tree starts as the root alone, with inode number 0; after every sequence of
`newfs_mkdir` / `newfs_mknod` calls each of which copies its record inside the block
buffer of `newfs_add_dentry`, whatever they return, no two entries of the tree share
an inode number (the list of the inode numbers of the entries, the root's among them,
has no repetition); and a further such `newfs_mkdir` or `newfs_mknod` that returns 0
leaves the entries that were there and one more, whose inode number no entry had. -/
theorem fresh_inode_numbers_while_records_fit (h : newfs_h) (dev : ddriver)
    (hio : dev.io_size ∣ NEWFS_BLOCK_SIZE) (hblk : 5 ≤ dev.disk_size / NEWFS_BLOCK_SIZE)
    (hinit : mount_is_init h dev = true) (ops : List (Bool × List Nat))
    (_hfit : creates_fit h ops (newfs_mount h dev).2 = true) :
    state_inos (newfs_mount h dev).2 = [0] ∧
    (state_inos (run_creates h ops (newfs_mount h dev).2)).Nodup ∧
    (∃ root, (run_creates h ops (newfs_mount h dev).2).super.root_dentry = some root ∧
      root.ino ∈ state_inos (run_creates h ops (newfs_mount h dev).2)) ∧
    ∀ path, create_fits (run_creates h ops (newfs_mount h dev).2) path = true →
      ((newfs_mkdir h (run_creates h ops (newfs_mount h dev).2) path).1 = .ok () →
        ∃ i name, i ∉ state_inos (run_creates h ops (newfs_mount h dev).2) ∧
          (state_entries (newfs_mkdir h (run_creates h ops (newfs_mount h dev).2) path).2).Perm
            ((name, i, u32 (S_IFDIR ||| h.NEWFS_DEFAULT_PERM))
              :: state_entries (run_creates h ops (newfs_mount h dev).2))) ∧
      ((newfs_mknod h (run_creates h ops (newfs_mount h dev).2) path).1 = .ok () →
        ∃ i name, i ∉ state_inos (run_creates h ops (newfs_mount h dev).2) ∧
          (state_entries (newfs_mknod h (run_creates h ops (newfs_mount h dev).2) path).2).Perm
            ((name, i, u32 (S_IFREG ||| h.NEWFS_DEFAULT_PERM))
              :: state_entries (run_creates h ops (newfs_mount h dev).2))) := by
  obtain ⟨k0, e0⟩ := newfs_mount_fresh h dev hio hblk hinit
  have k1 := run_creates_fresh h ops _ k0
  have k2 := k1
  obtain ⟨⟨_, root, hroot, _⟩, _, _, hnd⟩ := k2
  refine ⟨?_, hnd, ⟨root, hroot, root_ino_mem _ root hroot⟩, fun path _ => ⟨?_, ?_⟩⟩
  · unfold state_inos
    rw [e0]
    rfl
  · intro he
    obtain ⟨i, name, a1, _, _, a4⟩ := (create_fresh h S_IFDIR _ path k1).2.1 he
    exact ⟨i, name, a1, a4⟩
  · intro he
    obtain ⟨i, name, a1, _, _, a4⟩ := (create_fresh h S_IFREG _ path k1).2.1 he
    exact ⟨i, name, a1, a4⟩

/-- On the 64-block device: after `mkdir /d` and `mknod /d/f` the inode numbers are 0,
1, 2, and a further `mknod /g` succeeds and adds an entry. -/
theorem fresh_inode_numbers_while_records_fit_witness :
    (state_inos (run_creates hdr [(true, path_d), (false, path_d_f)]
      (newfs_mount hdr dev64).2)).Nodup ∧
    state_inos (run_creates hdr [(true, path_d), (false, path_d_f)] (newfs_mount hdr dev64).2)
      = [0, 1, 2] ∧
    ∃ i name,
      i ∉ state_inos (run_creates hdr [(true, path_d), (false, path_d_f)]
        (newfs_mount hdr dev64).2) ∧
      (state_entries (newfs_mknod hdr (run_creates hdr [(true, path_d), (false, path_d_f)]
        (newfs_mount hdr dev64).2) [47, 103]).2).Perm
        ((name, i, u32 (S_IFREG ||| hdr.NEWFS_DEFAULT_PERM))
          :: state_entries (run_creates hdr [(true, path_d), (false, path_d_f)]
            (newfs_mount hdr dev64).2)) :=
  have hw := fresh_inode_numbers_while_records_fit hdr dev64 (by decide!) (by decide!)
    (by decide!) [(true, path_d), (false, path_d_f)] (by decide!)
  ⟨hw.2.1, by decide!, (hw.2.2.2 [47, 103] (by decide!)).2 (by decide!)⟩

/-! ## Directory listing -/

theorem readdir_fill_spec (off : Nat) : ∀ (l : List newfs_dentry) (idx : Nat),
    idx + l.length < 4294967296 →
    readdir_fill off idx l
      = ((l.map newfs_dentry.name).zip ((List.range l.length).map (fun k => idx + k + 1))).drop
          (off - idx) := by
  intro l
  induction l with
  | nil =>
    intro idx _
    simp [readdir_fill]
  | cons c rest ih =>
    intro idx hlen
    rw [List.length_cons] at hlen
    have hu : u32 (idx + 1) = idx + 1 := u32_of_lt _ (by omega)
    have hrange : (List.range (rest.length + 1)).map (fun k => idx + k + 1)
        = (idx + 1) :: (List.range rest.length).map (fun k => idx + 1 + k + 1) := by
      rw [List.range_succ_eq_map, List.map_cons, List.map_map]
      congr 1
      apply List.map_congr_left
      intro k _
      simp only [Function.comp, Nat.succ_eq_add_one]
      omega
    rw [readdir_fill, hu, ih (idx + 1) (by omega), List.length_cons, hrange, List.map_cons,
      List.zip_cons_cons]
    by_cases hge : idx ≥ off
    · rw [if_pos hge]
      have e1 : off - idx = 0 := by omega
      have e2 : off - (idx + 1) = 0 := by omega
      rw [e1, e2, List.drop_zero, List.drop_zero]
    · rw [if_neg hge]
      have e1 : off - idx = (off - (idx + 1)) + 1 := by omega
      rw [e1, List.drop_succ_cons]

theorem state_dentry_of_root (st : newfs) (root : newfs_dentry) (ptr : List Nat)
    (h : st.super.root_dentry = some root) : state_dentry st ptr = dentry_at root ptr := by
  unfold state_dentry
  rw [h]
  rfl

/-- Listing when the whole tree is in memory.  On a session tree whose names fit (every
state of a session begun by a format is one), for a path that resolves to a directory,
whose children have the names
`names` in sibling order, head first, and for an offset `k` below `2^32`:
`newfs_readdir(path, offset = k)` returns 0 and calls `filler` once for each name at a
position `≥ k` of the list, in the order of the list, with that name and the position
plus one, and with nothing else (no `.`, no `..`): for `k = 0` the names emitted are
exactly `names`.  The sibling order is most recently inserted first: a successful
`newfs_add_dentry` into a loaded directory puts the new name at the head of the list. -/
theorem readdir_session_listing (st : newfs) (path : List Nat) (k : Nat)
    (names : List (List Nat)) (hs : session_tree st) (hl : state_listing st (path_tokens path) = some names)
    (hlen : names.length < 4294967296) (hk : k < 4294967296) :
    (newfs_readdir st path (k : Int)).1
      = .ok ((names.zip ((List.range names.length).map (fun j => j + 1))).drop k) ∧
    ((names.zip ((List.range names.length).map (fun j => j + 1))).drop k).map Prod.fst
      = names.drop k ∧
    (k = 0 → ∃ out, (newfs_readdir st path 0).1 = .ok out ∧ out.map Prod.fst = names) ∧
    (∀ (st2 : newfs) (dir : newfs_inode) (name : List Nat) (ino mode : Nat) (ci : newfs_inode),
      S_ISDIR dir.mode = true → dir.children_loaded = true →
      (newfs_add_dentry st2 dir name ino mode (some ci)).1 = .ok () →
      (newfs_add_dentry st2 dir name ino mode (some ci)).2.1.first_child.map newfs_dentry.name
        = name.take (MAX_NAME_LEN - 1) :: dir.first_child.map newfs_dentry.name) := by
  have hfst : ((names.zip ((List.range names.length).map (fun j => j + 1))).drop k).map Prod.fst
      = names.drop k := by
    rw [List.map_drop, List.map_fst_zip]
    rw [List.length_map, List.length_range]
  have hmain : (newfs_readdir st path (k : Int)).1
      = .ok ((names.zip ((List.range names.length).map (fun j => j + 1))).drop k) := by
    obtain ⟨d, hw, hd⟩ := Option.bind_eq_some.1 hl
    obtain ⟨i, hi, hdi⟩ := Option.bind_eq_some.1 hd
    have hdir : S_ISDIR i.mode = true := by
      by_contra hc
      rw [if_neg hc] at hdi
      cases hdi
    rw [if_pos hdir] at hdi
    injection hdi with hdi
    obtain ⟨⟨root', r1, r2, _⟩, _, _, w1, _⟩ := newfs_path_dentry_walk st path hs
    obtain ⟨ptr, e1, e2⟩ := w1 d hw
    unfold newfs_readdir
    rcases hres : newfs_path_dentry st path with ⟨r, st1⟩
    rw [hres] at e1 e2 r1
    simp only at e1 e2 r1
    subst e1
    simp only
    rw [e2]
    simp only
    rw [newfs_get_inode_from_dentry_resolved _ _ d i hi]
    simp only
    rw [if_neg (by rw [hdir]; simp)]
    simp only
    rw [state_dentry_of_root st1 root' ptr r1] at e2
    obtain ⟨i', ed, hok', _⟩ := tree_ok_inode 4 d (tree_ok_at 4 root' ptr d r2 e2)
    have ei : i' = i := by
      rw [ed] at hi
      simp only [newfs_dentry.inode, Option.some.injEq] at hi
      exact hi
    subst ei
    obtain ⟨l1, _⟩ := newfs_load_dir_children_ok st1.super st1.dev 4 i' hok'
    rw [l1]
    have hkk : ((k : Int) % 4294967296).toNat = k := by omega
    have hlen' : 0 + i'.first_child.length < 4294967296 := by
      rw [← hdi, List.length_map] at hlen
      omega
    rw [hkk, readdir_fill_spec k _ 0 hlen', ← hdi, List.length_map, Nat.sub_zero]
    simp only [Nat.zero_add]
  refine ⟨hmain, hfst, ?_, ?_⟩
  · intro h0
    subst h0
    exact ⟨_, hmain, by rw [hfst, List.drop_zero]⟩
  · intro st2 dir name ino mode ci hd hl2 he
    rw [(newfs_add_dentry_children st2 dir name ino mode ci hd hl2).1 he, List.map_cons]
    rfl

/-! ## Create, then stat -/

/-- C25 at a long leaf name.  On the fresh 64-block volume, for the path `/` followed
by 128 letters `x`: `newfs_mknod` returns 0 (it makes an entry named by the first 127
letters), a `newfs_getattr` of the same path then returns `-ENOENT`, while a second
`newfs_mknod` of the same path returns `-EEXIST`; `newfs_mkdir` behaves the same.  For
the short names of the scenario `mkdir /d`, `mknod /d/f` the attributes are reported:
`/d/f` is a regular file of size 0 with inode number 2, `/d` a directory. -/
theorem create_then_stat_long_name :
    (newfs_mknod hdr vol64 path_x128).1 = .ok () ∧
    (newfs_getattr (newfs_mknod hdr vol64 path_x128).2 path_x128).1 = .error .ENOENT ∧
    (newfs_mknod hdr (newfs_mknod hdr vol64 path_x128).2 path_x128).1 = .error .EEXIST ∧
    (newfs_mkdir hdr vol64 path_x128).1 = .ok () ∧
    (newfs_getattr (newfs_mkdir hdr vol64 path_x128).2 path_x128).1 = .error .ENOENT ∧
    (newfs_getattr vol64_d_f path_d_f).1
      = .ok { st_blksize := 1024, st_mode := S_IFREG ||| hdr.NEWFS_DEFAULT_PERM, st_ino := 2,
              st_size := 0, st_blocks := 0, st_nlink := 1 } ∧
    ((newfs_getattr (newfs_mkdir hdr vol64 path_d).2 path_d).1).map
        (fun a => (a.st_mode, a.st_size, a.st_ino))
      = .ok (S_IFDIR ||| hdr.NEWFS_DEFAULT_PERM, 0, 1) := by
  refine ⟨by decide!, by decide!, by decide!, by decide!, by decide!, by decide!, by decide!⟩

/-! ## Create, then resolve -/

theorem find?_set_findIdx {α : Type} (P : α → Bool) (l : List α) (c x : α)
    (h : l.find? P = some c) (hx : P x = true) : (l.set (l.findIdx P) x).find? P = some x := by
  induction l with
  | nil => cases h
  | cons a as ih =>
    rw [List.find?_cons] at h
    rw [List.findIdx_cons]
    by_cases ha : P a = true
    · rw [ha]
      simp only [cond_true, List.set_cons_zero, List.find?_cons, hx]
    · have ha' : P a = false := by simpa using ha
      rw [ha'] at h ⊢
      simp only [cond_false, List.set_cons_succ, List.find?_cons, ha']
      exact ih h

theorem dentry_set_name (d : newfs_dentry) (p : List Nat) (pd v : newfs_dentry)
    (h : dentry_at d p = some pd) (hv : v.name = pd.name) : (dentry_set d p v).name = d.name := by
  cases p with
  | nil =>
    simp only [dentry_at, Option.some.injEq] at h
    subst h
    exact hv
  | cons k p =>
    obtain ⟨ci, c, h1, h2, _⟩ := dentry_at_cons d k p pd h
    rw [dentry_set_cons d k p v ci c h1 h2]
    rfl

theorem tree_entries_name (d d' : newfs_dentry) (h : tree_entries d' = tree_entries d) :
    d'.name = d.name := by
  have h1 : ∀ x : newfs_dentry, (tree_entries x).head? = some (entry_view x) := by
    intro x
    cases x with
    | mk n i m oi =>
      cases oi with
      | none => rw [tree_entries]; rfl
      | some y => rw [tree_entries_some]; rfl
  have h2 := h1 d'
  rw [h, h1 d] at h2
  injection h2 with h2
  exact (congrArg Prod.fst h2).symm

theorem walk_append (pre post : List (List Nat)) : ∀ d,
    walk (pre ++ post) d = (walk pre d).bind (walk post) := by
  induction pre with
  | nil => intro d; rfl
  | cons t rest ih =>
    intro d
    rw [List.cons_append, walk, walk]
    cases d.inode with
    | none => rfl
    | some i =>
      simp only
      cases i.first_child.find? (fun c => c.name == t) with
      | none => rfl
      | some c => exact ih c

/-- After the loop of `newfs_get_parent_dentry` has returned the parent at `ptr`, the
walk by exact names over the segments before the leaf, in the tree left with any
dentry of the parent's name stored at `ptr`, reaches that dentry. -/
theorem parent_loop_walk_set (s : newfs_super) (dev : ddriver) (lo : Nat) (leaf : List Nat)
    (pre : List (List Nat)) : ∀ (cur : newfs_dentry) (ci : newfs_inode),
    inode_ok lo ci → (∀ c, c ∈ ci.first_child → tree_ok lo c) → names_fit (cur.with_inode ci) →
    ∀ ptr pd name cur', parent_loop s dev (pre ++ [leaf]) cur ci = (.ok (ptr, pd, name), cur') →
      dentry_at cur' ptr = some pd ∧ name = leaf.take (MAX_NAME_LEN - 1) ∧
      ∀ v : newfs_dentry, v.name = pd.name → walk pre (dentry_set cur' ptr v) = some v := by
  induction pre with
  | nil =>
    intro cur ci _ _ _ ptr pd name cur' he
    rw [List.nil_append, parent_loop] at he
    injection he with e1 e2
    injection e1 with e1
    injection e1 with e3 e4
    injection e4 with e4 e5
    subst e2 e3 e4 e5
    exact ⟨rfl, rfl, fun v _ => rfl⟩
  | cons t rest ih =>
    intro cur ci h1 h2 hn ptr pd name cur' he
    obtain ⟨next, rest', hnr⟩ : ∃ next rest', rest ++ [leaf] = next :: rest' := by
      cases rest with
      | nil => exact ⟨leaf, [], rfl⟩
      | cons a as => exact ⟨a, as ++ [leaf], rfl⟩
    obtain ⟨l1, l2, l3, l4, l5, l6, l7⟩ := newfs_load_dir_children_ok s dev lo ci h1
    rw [List.cons_append, hnr, parent_loop_cons] at he
    generalize (newfs_load_dir_children s dev ci).2 = ci1 at l1 l2 l3 l4 l5 l6 l7 he
    have hch : ∀ c, c ∈ ci1.first_child → tree_ok lo c := by rw [l1]; exact h2
    have hnames : ∀ c, c ∈ ci1.first_child → c.name.length < MAX_NAME_LEN := by
      intro c hc
      rw [l1] at hc
      exact names_fit_name c (names_fit_child _ ci c (with_inode_inode cur ci) hc hn)
    cases hfind : newfs_find_child_dentry ci1 t with
    | none =>
      rw [hfind] at he
      cases he
    | some child =>
      rw [hfind] at he
      simp only at he
      have hk := find_child_get ci1 t child hfind
      have hmem := get?_mem _ _ _ hk
      obtain ⟨chi, ech, hchi, hchc⟩ := tree_ok_inode lo child (hch child hmem)
      have hres : child.inode = some chi := by rw [ech]; rfl
      rw [newfs_get_inode_from_dentry_resolved s dev child chi hres] at he
      simp only at he
      have hnc : names_fit (child.with_inode chi) := by
        rw [with_inode_self child chi hres]
        exact names_fit_child _ ci child (with_inode_inode cur ci) (by rw [← l1]; exact hmem) hn
      have hent := (parent_loop_entries s dev lo (next :: rest') child chi hchi hchc hnc).1
      rw [with_inode_self child chi hres] at hent
      rcases hrec : parent_loop s dev (next :: rest') child chi with ⟨r, child'⟩
      rw [hrec] at he hent
      simp only at he hent
      cases r with
      | error e =>
        injection he with e1 _
        cases e1
      | ok x =>
        obtain ⟨p', pd', name'⟩ := x
        simp only [Except.map] at he
        injection he with e1 e2
        injection e1 with e1
        injection e1 with e3 e4
        injection e4 with e4 e5
        subst e2 e3 e4 e5
        rw [← hnr] at hrec
        obtain ⟨r1, r2, r3⟩ := ih child chi hchi hchc hnc p' pd' name' child' hrec
        have hat : dentry_at (cur.with_inode { ci1 with
            first_child := ci1.first_child.set (find_child_pos ci1 t) child' })
            (find_child_pos ci1 t :: p') = some pd' := by
          rw [dentry_at_cons_eq _ _ p' _ child' (with_inode_inode _ _) (get?_set_self _ _ _ _ hk)]
          exact r1
        refine ⟨hat, r2, ?_⟩
        intro v hv
        have hset : dentry_set (cur.with_inode { ci1 with
            first_child := ci1.first_child.set (find_child_pos ci1 t) child' })
            (find_child_pos ci1 t :: p') v
            = cur.with_inode { ci1 with
                first_child := ci1.first_child.set (find_child_pos ci1 t) (dentry_set child' p' v) } := by
          rw [dentry_set_cons _ _ p' v _ child' (with_inode_inode _ _) (get?_set_self _ _ _ _ hk)]
          simp only [List.set_set]
          rfl
        rw [hset, walk_cons t rest _ _ (with_inode_inode _ _)]
        simp only
        have hxname : (dentry_set child' p' v).name = child.name := by
          rw [dentry_set_name child' p' pd' v r1 hv]
          exact tree_entries_name child child' hent
        have hP : strncmp_eq child.name t MAX_NAME_LEN = true := by
          unfold newfs_find_child_dentry at hfind
          exact @List.find?_some newfs_dentry
            (fun iter => strncmp_eq iter.name t MAX_NAME_LEN) child ci1.first_child hfind
        have hfit : ∀ c, c ∈ ci1.first_child.set (find_child_pos ci1 t) (dentry_set child' p' v) →
            c.name.length < MAX_NAME_LEN := by
          intro c hc
          rcases mem_set_cases _ _ _ _ hc with h4 | h4
          · exact hnames c h4
          · rw [h4, hxname]
            exact hnames child hmem
        have hfx := find_child_exact { ci1 with
          first_child := ci1.first_child.set (find_child_pos ci1 t) (dentry_set child' p' v) } t hfit
        simp only at hfx
        rw [← hfx]
        unfold newfs_find_child_dentry find_child_pos
        simp only
        unfold newfs_find_child_dentry at hfind
        rw [find?_set_findIdx _ _ child _ hfind (by rw [hxname]; exact hP)]
        exact r3 v hv

theorem dentry_set_set (root : newfs_dentry) (ptr : List Nat) (pd a b : newfs_dentry)
    (h : dentry_at root ptr = some pd) :
    dentry_set (dentry_set root ptr a) ptr b = dentry_set root ptr b := by
  induction ptr generalizing root with
  | nil => rfl
  | cons k p ih =>
    obtain ⟨ci, c, h1, h2, h3⟩ := dentry_at_cons root k p pd h
    rw [dentry_set_cons root k p a ci c h1 h2, dentry_set_cons root k p b ci c h1 h2,
      dentry_set_cons _ k p b _ (dentry_set c p a) (with_inode_inode _ _)
        (get?_set_self _ _ _ _ h2)]
    simp only [List.set_set]
    rw [ih c h3]
    rfl

/-- The function `newfs_get_parent_dentry` on a session tree whose names fit, when it
succeeds: the path has a last segment, the leaf is its first `MAX_NAME_LEN - 1`
characters, and the segments before it lead to the parent. -/
theorem newfs_get_parent_dentry_walk (lo : Nat) (st : newfs) (path : List Nat)
    (root : newfs_dentry) (hroot : st.super.root_dentry = some root) (hok : tree_ok lo root)
    (hn : names_fit root) (ptr : List Nat) (pd : newfs_dentry) (name : List Nat)
    (he : (newfs_get_parent_dentry st path).1 = .ok (ptr, pd, name)) :
    ∃ root1 pre leaf, (newfs_get_parent_dentry st path).2.super.root_dentry = some root1 ∧
      dentry_at root1 ptr = some pd ∧ path_tokens path = pre ++ [leaf] ∧
      name = leaf.take (MAX_NAME_LEN - 1) ∧
      ∀ v : newfs_dentry, v.name = pd.name → walk pre (dentry_set root1 ptr v) = some v := by
  unfold newfs_get_parent_dentry at he ⊢
  by_cases hp : path = [47]
  · rw [if_pos hp] at he
    cases he
  · rw [if_neg hp, hroot] at he ⊢
    simp only at he ⊢
    obtain ⟨ci, eroot, hci, hcc⟩ := tree_ok_inode lo root hok
    have hres : root.inode = some ci := by rw [eroot]; rfl
    rw [newfs_get_inode_from_dentry_resolved _ _ root ci hres] at he ⊢
    simp only at he ⊢
    have hn' : names_fit (root.with_inode ci) := by rw [with_inode_self root ci hres]; exact hn
    rcases List.eq_nil_or_concat (path_tokens path) with h0 | ⟨pre, leaf, h0⟩
    · rw [h0] at he
      simp only [parent_loop] at he
      cases he
    · rw [List.concat_eq_append] at h0
      rw [h0] at he ⊢
      rcases hrec : parent_loop st.super st.dev (pre ++ [leaf]) root ci with ⟨r, root1⟩
      rw [hrec] at he
      simp only at he ⊢
      subst he
      obtain ⟨w1, w2, w3⟩ := parent_loop_walk_set st.super st.dev lo leaf pre root ci hci hcc hn'
        ptr pd name root1 hrec
      exact ⟨root1, pre, leaf, rfl, w1, rfl, w2, w3⟩

theorem create_lookup_walk (lo : Nat) (st : newfs) (path : List Nat)
    (root : newfs_dentry) (hroot : st.super.root_dentry = some root) (hok : tree_ok lo root)
    (hn : names_fit root) (ptr : List Nat) (pd : newfs_dentry) (pi : newfs_inode)
    (name : List Nat) (he : (create_lookup st path).1 = .ok (ptr, pd, pi, name)) :
    ∃ root1 pre leaf,
      (create_lookup st path).2.super.root_dentry = some (dentry_set root1 ptr (pd.with_inode pi)) ∧
      dentry_at root1 ptr = some pd ∧ path_tokens path = pre ++ [leaf] ∧
      name = leaf.take (MAX_NAME_LEN - 1) ∧
      ∀ v : newfs_dentry, v.name = pd.name → walk pre (dentry_set root1 ptr v) = some v := by
  have hg := newfs_get_parent_dentry_walk lo st path root hroot hok hn
  obtain ⟨root0, e1, t1, _, p1⟩ := newfs_get_parent_dentry_spec lo st path root hroot hok
  unfold create_lookup at he ⊢
  rcases hres : newfs_get_parent_dentry st path with ⟨r, st1⟩
  rw [hres] at he hg e1 p1
  simp only at he hg e1 p1 ⊢
  cases r with
  | error e => cases he
  | ok x =>
    obtain ⟨ptr0, pd0, name0⟩ := x
    simp only at he ⊢
    obtain ⟨root1, pre, leaf, g1, g2, g3, g4, g5⟩ := hg ptr0 pd0 name0 rfl
    have er : root0 = root1 := by
      rw [e1] at g1
      simp only [Option.some.injEq] at g1
      exact g1
    subst er
    have tpd := tree_ok_at lo root0 ptr0 pd0 t1 g2
    obtain ⟨pi0, epd, hpi0, hpc⟩ := tree_ok_inode lo pd0 tpd
    have hresd : pd0.inode = some pi0 := by rw [epd]; rfl
    rw [newfs_get_inode_from_dentry_resolved _ _ pd0 pi0 hresd] at he ⊢
    simp only at he ⊢
    by_cases hd : S_ISDIR pi0.mode = true
    · rw [hd] at he ⊢
      simp only [Bool.not_true, Bool.false_eq_true, if_false] at he ⊢
      generalize (newfs_load_dir_children st1.super st1.dev pi0).2 = pi1 at he ⊢
      have hroot' : (put_parent st1 ptr0 (pd0.with_inode pi1)).super.root_dentry
          = some (dentry_set root0 ptr0 (pd0.with_inode pi1)) := by
        rw [e1]
        rfl
      split_ifs at he ⊢
      injection he with he
      injection he with a1 a2
      injection a2 with a2 a3
      injection a3 with a3 a4
      subst a1 a2 a3 a4
      exact ⟨root0, pre, leaf, hroot', g2, g3, g4, g5⟩
    · have hd' : S_ISDIR pi0.mode = false := by simpa using hd
      rw [hd'] at he
      simp only [Bool.not_false, if_true] at he
      cases he

/-- The statements of `newfs_mkdir` / `newfs_mknod` from `newfs_alloc_inode` on, when
they succeed: the parent is stored back with the new child at the head of its list. -/
theorem create_insert_root (h : newfs_h) (ifmt : Nat) (st : newfs) (ptr : List Nat)
    (pd : newfs_dentry) (pi : newfs_inode) (name : List Nat) (root : newfs_dentry)
    (hf : formatted st.super) (hroot : st.super.root_dentry = some root) (hok : tree_ok 4 root)
    (hat : dentry_at root ptr = some (pd.with_inode pi)) (hd : S_ISDIR pi.mode = true)
    (hl : pi.children_loaded = true)
    (he : (create_insert h ifmt st ptr pd pi name).1 = .ok ()) :
    ∃ i dir, first_clear st.super.inode_map st.super.inode_count = some i ∧
      (create_insert h ifmt st ptr pd pi name).2.super.root_dentry
        = some (dentry_set root ptr (pd.with_inode dir)) ∧
      dir.first_child
        = add_dentry_child name i (u32 (ifmt ||| h.NEWFS_DEFAULT_PERM)) (new_inode_of h ifmt i)
          :: pi.first_child := by
  obtain ⟨pi', epi, hpi, hpc⟩ := tree_ok_inode 4 _ (tree_ok_at 4 root ptr _ hok hat)
  have epi' : pi' = pi := by
    have : (pd.with_inode pi).inode = some pi' := by rw [epi]; rfl
    rw [with_inode_inode] at this
    injection this with this
    exact this.symm
  subst epi'
  cases hfc : first_clear st.super.inode_map st.super.inode_count with
  | none =>
    rw [create_insert_none h ifmt st ptr pd pi' name hfc] at he
    cases he
  | some i =>
    obtain ⟨_, hi23, _, _⟩ := (first_clear_from_some _ _ _ _).1 hfc
    have hcount : st.super.inode_count = 23 := hf.2.2.2.2.2.2.2.2.1
    have hu : (new_inode_of h ifmt i).ino = i := u32_of_lt i (by omega)
    obtain ⟨w1, _, _, _, w5, _⟩ := create_written_facts h ifmt st i hf hfc
    obtain ⟨_, _, _, s9, s10, _, _⟩ :=
      newfs_add_dentry_session (create_written h ifmt st i) pi' name (new_inode_of h ifmt i).ino
        (new_inode_of h ifmt i).mode (new_inode_of h ifmt i) (create_add h ifmt st pi' name i) rfl
        w1 hd hl hpi hpc (new_inode_ok 4 h ifmt i).1 (new_inode_ok 4 h ifmt i).2
    obtain ⟨k1, _⟩ := newfs_add_dentry_children (create_written h ifmt st i) pi' name
      (new_inode_of h ifmt i).ino (new_inode_of h ifmt i).mode (new_inode_of h ifmt i) hd hl
    have k1' : (create_add h ifmt st pi' name i).1 = .ok () →
        (create_add h ifmt st pi' name i).2.1.first_child
          = add_dentry_child name (new_inode_of h ifmt i).ino (new_inode_of h ifmt i).mode
              (new_inode_of h ifmt i) :: pi'.first_child := k1
    obtain ⟨c1, c2⟩ := create_insert_some h ifmt st ptr pd pi' name i hfc
    cases hr1 : (create_add h ifmt st pi' name i).1 with
    | error e =>
      rw [c1 e hr1] at he
      cases he
    | ok u =>
      rw [c2 hr1]
      have hroot4 : (create_add h ifmt st pi' name i).2.2.super.root_dentry = some root :=
        s9.trans (w5.trans hroot)
      obtain ⟨_, _, _, _, p5, _⟩ := put_parent_facts (create_add h ifmt st pi' name i).2.2
        ptr (pd.with_inode (create_add h ifmt st pi' name i).2.1) root s10 hroot4
      refine ⟨i, (create_add h ifmt st pi' name i).2.1, rfl, p5, ?_⟩
      rw [k1' hr1, hu]
      rfl

/-- After a successful `newfs_mkdir` / `newfs_mknod` of a path whose last segment fits
the name field, the walk by exact names along the path reaches the new entry. -/
theorem create_then_walk (h : newfs_h) (ifmt : Nat) (st : newfs) (path : List Nat)
    (root : newfs_dentry) (hf : formatted st.super) (hroot : st.super.root_dentry = some root)
    (hok : tree_ok 4 root) (hn : names_fit root)
    (hshort : ∀ leaf, (path_tokens path).getLast? = some leaf → leaf.length < MAX_NAME_LEN)
    (he : (newfs_create h ifmt st path).1 = .ok ()) :
    ∃ i leaf, first_clear st.super.inode_map st.super.inode_count = some i ∧
      (path_tokens path).getLast? = some leaf ∧
      state_walk (newfs_create h ifmt st path).2 (path_tokens path)
        = some (add_dentry_child leaf i (u32 (ifmt ||| h.NEWFS_DEFAULT_PERM))
            (new_inode_of h ifmt i)) := by
  obtain ⟨root1, e1, t1, _, p1⟩ := create_lookup_spec 4 st path root hroot hok
  have hw := create_lookup_walk 4 st path root hroot hok hn
  have hf1 : formatted (create_lookup st path).2.super := by
    rw [e1]
    exact formatted_of_eq st.super _ _ _ _ rfl hf
  have hm1 : (create_lookup st path).2.super.inode_map = st.super.inode_map := by rw [e1]
  have hc1 : (create_lookup st path).2.super.inode_count = st.super.inode_count := by rw [e1]
  have hr1 : (create_lookup st path).2.super.root_dentry = some root1 := by rw [e1]
  unfold newfs_create at he ⊢
  rcases hres : create_lookup st path with ⟨r, st1⟩
  rw [hres] at hf1 hm1 hc1 hr1 p1 hw he
  simp only at hf1 hm1 hc1 hr1 p1 hw he
  cases r with
  | error e => cases he
  | ok x =>
    obtain ⟨ptr, pd, pi, name⟩ := x
    simp only at he ⊢
    obtain ⟨q1, q2, q3, _⟩ := p1 ptr pd pi name rfl
    obtain ⟨root0, pre, leaf, g1, g2, g3, g4, g5⟩ := hw ptr pd pi name rfl
    have er : root1 = dentry_set root0 ptr (pd.with_inode pi) := by
      rw [hr1] at g1
      simp only [Option.some.injEq] at g1
      exact g1
    obtain ⟨i, dir, a1, a2, a3⟩ :=
      create_insert_root h ifmt st1 ptr pd pi name root1 hf1 hr1 t1 q1 q2 q3 he
    rw [hm1, hc1] at a1
    have hlast : (path_tokens path).getLast? = some leaf := by
      rw [g3, List.getLast?_append]
      rfl
    have hleaf : leaf.length < MAX_NAME_LEN := hshort leaf hlast
    have hname : name = leaf := by
      rw [g4]
      apply List.take_of_length_le
      simp only [MAX_NAME_LEN] at hleaf ⊢
      omega
    refine ⟨i, leaf, a1, hlast, ?_⟩
    unfold state_walk
    rw [a2, er, dentry_set_set root0 ptr pd _ _ g2, g3]
    simp only [Option.some_bind]
    rw [walk_append, g5 (pd.with_inode dir) rfl]
    simp only [Option.some_bind]
    rw [walk_cons leaf [] _ dir (with_inode_inode _ _), a3, List.find?_cons, hname]
    have hb : ((add_dentry_child leaf i (u32 (ifmt ||| h.NEWFS_DEFAULT_PERM))
        (new_inode_of h ifmt i)).name == leaf) = true := by
      rw [beq_iff_eq]
      show leaf.take (MAX_NAME_LEN - 1) = leaf
      apply List.take_of_length_le
      simp only [MAX_NAME_LEN] at hleaf ⊢
      omega
    rw [hb]
    rfl

/-- In a fresh session, after a `newfs_mkdir` / `newfs_mknod` that returns 0 for a path
whose last segment has less than `MAX_NAME_LEN` characters, `newfs_getattr` of the same
path returns 0 and reports the mode given to the new inode, size 0 and the inode
number just allocated, which no entry had. -/
theorem create_then_stat_short (h : newfs_h) (ifmt : Nat) (st : newfs) (path : List Nat)
    (hk : fresh_session st)
    (hshort : ∀ leaf, (path_tokens path).getLast? = some leaf → leaf.length < MAX_NAME_LEN)
    (he : (newfs_create h ifmt st path).1 = .ok ()) :
    ∃ i, first_clear st.super.inode_map st.super.inode_count = some i ∧ i ∉ state_inos st ∧
      ((newfs_getattr (newfs_create h ifmt st path).2 path).1).map
          (fun a => (a.st_mode, a.st_size, a.st_ino))
        = .ok (u32 (ifmt ||| h.NEWFS_DEFAULT_PERM), 0, i) := by
  have hfresh := (create_fresh h ifmt st path hk).1
  obtain ⟨j, _, hj, _, hjc, _⟩ := (create_fresh h ifmt st path hk).2.1 he
  obtain ⟨⟨hf, root, hroot, hok⟩, ⟨root0, r1, _, hn⟩, _, _⟩ := hk
  have e0 : root0 = root := by
    rw [hroot] at r1
    injection r1 with r1
    exact r1.symm
  subst e0
  obtain ⟨i, leaf, a1, _, a3⟩ := create_then_walk h ifmt st path root0 hf hroot hok hn hshort he
  have eij : j = i := by
    rw [hjc] at a1
    injection a1
  subst eij
  obtain ⟨_, hi23, _, _⟩ := (first_clear_from_some _ _ _ _).1 a1
  have hcount : st.super.inode_count = 23 := hf.2.2.2.2.2.2.2.2.1
  have hu : u32 j = j := u32_of_lt j (by omega)
  obtain ⟨_, _, _, w1, _⟩ := newfs_path_dentry_walk (newfs_create h ifmt st path).2 path
    (fresh_session_tree _ hfresh)
  obtain ⟨ptr, e1, e2⟩ := w1 _ a3
  refine ⟨j, a1, hj, ?_⟩
  unfold newfs_getattr
  rcases hres : newfs_path_dentry (newfs_create h ifmt st path).2 path with ⟨r, st2⟩
  rw [hres] at e1 e2
  simp only at e1 e2
  subst e1
  simp only
  rw [e2]
  simp only
  rw [newfs_get_inode_from_dentry_resolved st2.super st2.dev
    (add_dentry_child leaf j (u32 (ifmt ||| h.NEWFS_DEFAULT_PERM)) (new_inode_of h ifmt j))
    { new_inode_of h ifmt j with dentry := true } rfl]
  simp only [Except.map, new_inode_of, hu]

/-- The scenario `mkdir /d`, `mknod /d/f` on the fresh 64-block volume, through the
general statement: `/d/f` is reported as a regular file of size 0 with inode number 2. -/
theorem create_then_stat_d_f :
    ((newfs_getattr vol64_d_f path_d_f).1).map (fun a => (a.st_mode, a.st_size, a.st_ino))
      = .ok (u32 (S_IFREG ||| hdr.NEWFS_DEFAULT_PERM), 0, 2) := by
  have hk : fresh_session (newfs_mkdir hdr vol64 path_d).2 :=
    run_creates_fresh hdr [(true, path_d)] _
      (newfs_mount_fresh hdr dev64 (by decide!) (by decide!) (by decide!)).1
  have hshort : ∀ leaf, (path_tokens path_d_f).getLast? = some leaf →
      leaf.length < MAX_NAME_LEN := by
    intro leaf hl
    have ht : (path_tokens path_d_f).getLast? = some [102] := by decide!
    rw [ht] at hl
    injection hl with hl
    rw [← hl]
    decide
  obtain ⟨i, a1, _, a3⟩ := create_then_stat_short hdr S_IFREG (newfs_mkdir hdr vol64 path_d).2
    path_d_f hk hshort (by decide!)
  have hi : first_clear (newfs_mkdir hdr vol64 path_d).2.super.inode_map
      (newfs_mkdir hdr vol64 path_d).2.super.inode_count = some 2 := by decide!
  rw [hi] at a1
  injection a1 with a1
  subst a1
  exact a3

theorem newfs_prepare_root_some (h : newfs_h) (st : newfs)
    (hok : (newfs_prepare_root h st).1 = .ok ()) :
    (newfs_prepare_root h st).2.super.root_dentry.isSome = true := by
  unfold newfs_prepare_root at hok ⊢
  dsimp only at hok ⊢
  split at hok
  · cases hok
  · rfl

theorem newfs_mount_root_some (h : newfs_h) (dev : ddriver)
    (hok : (newfs_mount h dev).1 = .ok ()) :
    (newfs_mount h dev).2.super.root_dentry.isSome = true := by
  have key : ∀ r : Except Errno Unit × newfs, r = newfs_mount h dev →
      r.1 = .ok () → r.2.super.root_dentry.isSome = true := by
    intro r hr
    unfold newfs_mount at hr
    dsimp only at hr
    split_ifs at hr with h1 h2
    · intro h3; rw [hr] at h3; cases h3
    · rw [hr]; exact newfs_prepare_root_some h _
    · split at hr
      · rw [hr]; exact newfs_prepare_root_some h _
      · rw [hr]; exact newfs_prepare_root_some h _
  exact key _ rfl hok

theorem newfs_path_dentry_root (st : newfs) (hroot : st.super.root_dentry.isSome = true) :
    newfs_path_dentry st [47] = (.ok [], st) := by
  unfold newfs_path_dentry
  cases hr : st.super.root_dentry with
  | none => rw [hr] at hroot; cases hroot
  | some root => simp only [if_true]

/-- C31. Root resolution needs no load: in every state with a root dentry (every
state after a successful `newfs_mount` has one), `newfs_path_dentry("/")` returns 0
with `*out = super.root_dentry` and leaves the state as it was, so the whole tree and
every `children_loaded` flag are unchanged; the result is the same whatever bytes the
device holds, the device being left as it is. -/
theorem root_path_needs_no_load (st : newfs) (hroot : st.super.root_dentry.isSome = true) :
    newfs_path_dentry st [47] = (.ok [], st) ∧
    state_dentry st [] = st.super.root_dentry ∧
    (∀ data : Bytes, newfs_path_dentry (with_data st data) [47] = (.ok [], with_data st data)) ∧
    (∀ (h : newfs_h) (dev : ddriver), (newfs_mount h dev).1 = .ok () →
      (newfs_mount h dev).2.super.root_dentry.isSome = true ∧
      newfs_path_dentry (newfs_mount h dev).2 [47] = (.ok [], (newfs_mount h dev).2)) := by
  refine ⟨newfs_path_dentry_root st hroot, ?_, fun data => newfs_path_dentry_root _ hroot,
    fun h dev hok => ⟨newfs_mount_root_some h dev hok,
      newfs_path_dentry_root _ (newfs_mount_root_some h dev hok)⟩⟩
  unfold state_dentry
  cases hr : st.super.root_dentry with
  | none => rfl
  | some root => rfl

theorem root_path_needs_no_load_witness :
    vol64_d_f.super.root_dentry.isSome = true ∧
    newfs_path_dentry vol64_d_f [47] = (.ok [], vol64_d_f) :=
  ⟨by decide!, (root_path_needs_no_load vol64_d_f (by decide!)).1⟩

theorem format_super_eq (h : newfs_h) (dev : ddriver) (m1 m2 : Bytes) (r : Option newfs_dentry) :
    format_super h dev m1 m2 r =
      { magic := h.NEWFS_MAGIC, io_size := dev.io_size, block_size := 1024,
        disk_size := dev.disk_size, block_count := dev.disk_size / 1024,
        sb_offset := 0, sb_blks := 1, ino_map_offset := 1, ino_map_blks := 1,
        data_map_offset := 2, data_map_blks := 1, inode_offset := 3, inode_blks := 1,
        data_offset := 4, data_blks := min (dev.disk_size / 1024 - 4) 8192,
        inode_count := 23, data_count := min (dev.disk_size / 1024 - 4) 8192, root_ino := 0,
        inode_map := m1, data_map := m2, root_dentry := r } := by
  unfold format_super
  rw [format_geometry_eq]

theorem format_super_formatted (h : newfs_h) (dev : ddriver) (m1 m2 : Bytes)
    (r : Option newfs_dentry) (hio : dev.io_size ∣ NEWFS_BLOCK_SIZE) :
    formatted (format_super h dev m1 m2 r) := by
  unfold formatted
  rw [format_super_eq]
  refine ⟨hio, rfl, rfl, rfl, rfl, rfl, rfl, rfl, rfl, ?_⟩
  show min (dev.disk_size / 1024 - 4) 8192 ≤ 8192
  omega

theorem newfs_alloc_inode_ok (st : newfs) (i : Nat) (h : (newfs_alloc_inode st).1 = .ok i) :
    first_clear st.super.inode_map st.super.inode_count = some i := by
  unfold newfs_alloc_inode at h
  cases hfc : first_clear st.super.inode_map st.super.inode_count with
  | none => rw [hfc] at h; cases h
  | some j =>
    rw [hfc] at h
    simp only at h
    cases h
    rfl

/-- The function `newfs_alloc_inode` when it returns `i`: outside the inode table the
device is the one that the flush of the inode bitmap has left. -/
theorem newfs_alloc_inode_after_flush (st : newfs) (i : Nat) (hf : formatted st.super)
    (hfc : first_clear st.super.inode_map st.super.inode_count = some i) (a : Nat)
    (ha : a < 3072 ∨ 4096 ≤ a) :
    (newfs_alloc_inode st).2.dev.data a
      = (newfs_flush_inode_map
          { st with super := { st.super with inode_map := bitmap_set st.super.inode_map i } }).dev.data
          a := by
  have key : ∀ T : newfs_super, T = { st.super with inode_map := bitmap_set st.super.inode_map i } →
      (newfs_flush_inode_map
        { st with super := { st.super with inode_map := bitmap_set st.super.inode_map i } }).dev
        = flush_loop T T.inode_map T.ino_map_offset T.ino_map_blks st.dev := by
    intro T hT
    subst hT
    rfl
  obtain ⟨T, hT⟩ : ∃ T : newfs_super,
      T = { st.super with inode_map := bitmap_set st.super.inode_map i } := ⟨_, rfl⟩
  have hfT : formatted T := formatted_of_eq _ _ _ _ _ hT hf
  have hmT : T.inode_map = bitmap_set st.super.inode_map i := by rw [hT]
  obtain ⟨_, hi, _, _⟩ := (first_clear_from_some _ _ _ _).1 hfc
  rw [hf.2.2.2.2.2.2.2.2.1] at hi
  rw [key T hT, flush_loop_block _ _ _ _ _ 1 hfT.1 hfT.2.1 hfT.2.2.1 hfT.2.2.2.1, hmT,
    newfs_alloc_inode_data st i hf hfc, if_neg (by omega)]

/-- C36. Inode records stay inside the inode table: under the geometry that format
computes, for every `ino < inode_count` the block `inode_offset + ino / recordsPerBlock`
of the record lies in `[inode_offset, inode_offset + inode_blks)` and its byte offset
`(ino mod recordsPerBlock) * 44` leaves room for the 44 bytes of the record in the
block buffer; `newfs_write_inode` succeeds and changes no byte of the device outside
the inode table; what `newfs_read_inode` returns depends on no byte outside the
inode table; and `newfs_alloc_inode`, when it returns `ino`, zeroes the record on the
device that its flush of the inode bitmap has left, changing no byte of it outside
the inode table. -/
theorem inode_records_inside_table (h : newfs_h) (dev : ddriver) (m1 m2 : Bytes)
    (r : Option newfs_dentry) (ino : Nat) (hio : dev.io_size ∣ NEWFS_BLOCK_SIZE)
    (hino : ino < (format_super h dev m1 m2 r).inode_count) :
    (format_super h dev m1 m2 r).inode_offset
      ≤ (format_super h dev m1 m2 r).inode_offset
          + ino / newfs_inodes_per_block (format_super h dev m1 m2 r) ∧
    (format_super h dev m1 m2 r).inode_offset
        + ino / newfs_inodes_per_block (format_super h dev m1 m2 r)
      < (format_super h dev m1 m2 r).inode_offset + (format_super h dev m1 m2 r).inode_blks ∧
    (ino % newfs_inodes_per_block (format_super h dev m1 m2 r)) * SIZEOF_INODE_D + SIZEOF_INODE_D
      ≤ (format_super h dev m1 m2 r).block_size ∧
    (∀ (d : ddriver) (node : newfs_inode), node.ino = ino →
      (newfs_write_inode (format_super h dev m1 m2 r) d node).1 = .ok () ∧
      ∀ a, (a < (format_super h dev m1 m2 r).inode_offset * (format_super h dev m1 m2 r).block_size ∨
          ((format_super h dev m1 m2 r).inode_offset + (format_super h dev m1 m2 r).inode_blks)
            * (format_super h dev m1 m2 r).block_size ≤ a) →
        (newfs_write_inode (format_super h dev m1 m2 r) d node).2.data a = d.data a) ∧
    (∀ d d' : ddriver,
      (∀ a, (format_super h dev m1 m2 r).inode_offset * (format_super h dev m1 m2 r).block_size ≤ a →
        a < ((format_super h dev m1 m2 r).inode_offset + (format_super h dev m1 m2 r).inode_blks)
            * (format_super h dev m1 m2 r).block_size →
        d'.data a = d.data a) →
      newfs_read_inode (format_super h dev m1 m2 r) d' ino
        = newfs_read_inode (format_super h dev m1 m2 r) d ino) ∧
    (∀ d : ddriver,
      (newfs_alloc_inode { super := format_super h dev m1 m2 r, dev := d }).1 = .ok ino →
      ∀ a, (a < (format_super h dev m1 m2 r).inode_offset * (format_super h dev m1 m2 r).block_size ∨
          ((format_super h dev m1 m2 r).inode_offset + (format_super h dev m1 m2 r).inode_blks)
            * (format_super h dev m1 m2 r).block_size ≤ a) →
        (newfs_alloc_inode { super := format_super h dev m1 m2 r, dev := d }).2.dev.data a
          = (newfs_flush_inode_map
              { super := { format_super h dev m1 m2 r with
                  inode_map := bitmap_set (format_super h dev m1 m2 r).inode_map ino },
                dev := d }).dev.data a) := by
  have hf := format_super_formatted h dev m1 m2 r hio
  obtain ⟨S, hS⟩ : ∃ S : newfs_super, S = format_super h dev m1 m2 r := ⟨_, rfl⟩
  rw [← hS] at hf hino ⊢
  have e1 : S.inode_offset = 3 := hf.2.2.2.2.2.2.1
  have e2 : S.inode_blks = 1 := by rw [hS, format_super_eq]
  have e3 : S.block_size = 1024 := hf.2.1
  have e4 : S.inode_count = 23 := hf.2.2.2.2.2.2.2.2.1
  have e5 : newfs_inodes_per_block S = 23 := inodes_per_block_1024 S e3
  rw [e4] at hino
  have hd : ino / 23 = 0 := by omega
  have hm : ino % 23 = ino := by omega
  have haddr : inode_addr S ino = 3072 + ino * 44 := by
    unfold inode_addr
    rw [e5, e1, e3, hd, hm]
  rw [e1, e2, e3, e5, hd, hm]
  simp only [SIZEOF_INODE_D]
  refine ⟨by omega, by omega, by omega, ?_, ?_, ?_⟩
  · intro d node hn
    constructor
    · unfold newfs_write_inode
      rw [if_neg (by rw [hn, e4]; omega)]
    · intro a ha
      rw [newfs_write_inode_data S d node hf.1 e3 (by rw [hn, e4]; exact hino), hn, haddr,
        if_neg (by omega)]
  · intro d d' hdd
    rw [newfs_read_inode_dev S d' ino hf.1 e3 (by rw [e4]; exact hino),
      newfs_read_inode_dev S d ino hf.1 e3 (by rw [e4]; exact hino), haddr]
    have hc : inode_d_at d'.data (3072 + ino * 44) = inode_d_at d.data (3072 + ino * 44) := by
      apply inode_d_at_congr
      intro k hk
      exact hdd _ (by omega) (by omega)
    rw [hc]
  · intro d hok a ha
    exact newfs_alloc_inode_after_flush { super := S, dev := d } ino hf
      (newfs_alloc_inode_ok _ _ hok) a (by omega)

theorem inode_records_inside_table_witness :
    (22 < (format_super hdr dev64 (fun _ => 0) (fun _ => 0) none).inode_count) ∧
    (22 % newfs_inodes_per_block (format_super hdr dev64 (fun _ => 0) (fun _ => 0) none))
        * SIZEOF_INODE_D + SIZEOF_INODE_D
      ≤ (format_super hdr dev64 (fun _ => 0) (fun _ => 0) none).block_size :=
  ⟨by decide, (inode_records_inside_table hdr dev64 (fun _ => 0) (fun _ => 0) none 22
    (by decide) (by decide)).2.2.1⟩

theorem newfs_alloc_data_block_cases (st : newfs) :
    (newfs_alloc_data_block st = (.error .ENOSPC, st) ∧
      first_clear st.super.data_map st.super.data_count = none) ∨
    ∃ i, first_clear st.super.data_map st.super.data_count = some i ∧
      i < st.super.data_count ∧ bitmap_test st.super.data_map i = false ∧
      (newfs_alloc_data_block st).1 = .ok (st.super.data_offset + i) ∧
      (newfs_alloc_data_block st).2.super
        = { st.super with data_map := bitmap_set st.super.data_map i } := by
  cases hfc : first_clear st.super.data_map st.super.data_count with
  | none => exact Or.inl ⟨newfs_alloc_data_block_none st hfc, rfl⟩
  | some i =>
    right
    obtain ⟨_, hi, hb, _⟩ := (first_clear_from_some _ _ _ _).1 hfc
    exact ⟨i, rfl, by omega, hb, (newfs_alloc_data_block_some st i hfc).1,
      (newfs_alloc_data_block_some st i hfc).2⟩

/-- C32. Data block numbers stay inside the data region: under the geometry that
format computes for a device of at least 5 blocks, the data region ends inside the
device, and `newfs_alloc_data_block` either returns `-ENOSPC` or returns a block
number `b` with `data_offset <= b < data_offset + data_count <= block_count`; `b` is
not 0, lies past the superblock, both bitmaps and the inode table, and is stored
unchanged in a 32-bit block slot. -/
theorem data_block_numbers_in_region (h : newfs_h) (dev : ddriver) (m1 m2 : Bytes)
    (r : Option newfs_dentry) (d : ddriver) (hblk : 5 ≤ dev.disk_size / NEWFS_BLOCK_SIZE) :
    (format_super h dev m1 m2 r).data_offset + (format_super h dev m1 m2 r).data_count
      ≤ (format_super h dev m1 m2 r).block_count ∧
    ((newfs_alloc_data_block { super := format_super h dev m1 m2 r, dev := d }).1
        = .error .ENOSPC ∨
      ∃ b, (newfs_alloc_data_block { super := format_super h dev m1 m2 r, dev := d }).1 = .ok b ∧
        (format_super h dev m1 m2 r).data_offset ≤ b ∧
        b < (format_super h dev m1 m2 r).data_offset + (format_super h dev m1 m2 r).data_count ∧
        b ≠ 0 ∧
        (format_super h dev m1 m2 r).sb_offset + (format_super h dev m1 m2 r).sb_blks ≤ b ∧
        (format_super h dev m1 m2 r).ino_map_offset + (format_super h dev m1 m2 r).ino_map_blks ≤ b ∧
        (format_super h dev m1 m2 r).data_map_offset + (format_super h dev m1 m2 r).data_map_blks ≤ b ∧
        (format_super h dev m1 m2 r).inode_offset + (format_super h dev m1 m2 r).inode_blks ≤ b ∧
        u32 b = b) := by
  obtain ⟨S, hS⟩ : ∃ S : newfs_super, S = format_super h dev m1 m2 r := ⟨_, rfl⟩
  rw [← hS]
  have e1 : S.data_offset = 4 := by rw [hS, format_super_eq]
  have e2 : S.data_count = min (dev.disk_size / 1024 - 4) 8192 := by rw [hS, format_super_eq]
  have e3 : S.block_count = dev.disk_size / 1024 := by rw [hS, format_super_eq]
  have e4 : S.sb_offset + S.sb_blks = 1 := by rw [hS, format_super_eq]; rfl
  have e5 : S.ino_map_offset + S.ino_map_blks = 2 := by rw [hS, format_super_eq]; rfl
  have e6 : S.data_map_offset + S.data_map_blks = 3 := by rw [hS, format_super_eq]; rfl
  have e7 : S.inode_offset + S.inode_blks = 4 := by rw [hS, format_super_eq]; rfl
  simp only [NEWFS_BLOCK_SIZE] at hblk
  refine ⟨by rw [e1, e2, e3]; omega, ?_⟩
  rcases newfs_alloc_data_block_cases { super := S, dev := d } with ⟨hn, _⟩ | ⟨i, _, hi, _, hr, _⟩
  · left
    rw [hn]
  · right
    have hi2 : i < S.data_count := hi
    have hr2 : (newfs_alloc_data_block { super := S, dev := d }).1 = .ok (S.data_offset + i) := hr
    refine ⟨S.data_offset + i, hr2, by omega, by omega, by omega, by omega, by omega, by omega,
      by omega, ?_⟩
    apply u32_of_lt
    omega

theorem data_block_numbers_in_region_witness :
    5 ≤ dev64.disk_size / NEWFS_BLOCK_SIZE ∧
    (format_super hdr dev64 (fun _ => 0) (fun _ => 0) none).data_offset
        + (format_super hdr dev64 (fun _ => 0) (fun _ => 0) none).data_count
      ≤ (format_super hdr dev64 (fun _ => 0) (fun _ => 0) none).block_count :=
  ⟨by decide, (data_block_numbers_in_region hdr dev64 (fun _ => 0) (fun _ => 0) none dev64
    (by decide)).1⟩

theorem names_fit_at (root : newfs_dentry) (ptr : List Nat) (d : newfs_dentry)
    (hn : names_fit root) (h : dentry_at root ptr = some d) : names_fit d := by
  induction ptr generalizing root with
  | nil =>
    simp only [dentry_at, Option.some.injEq] at h
    subst h
    exact hn
  | cons k p ih =>
    obtain ⟨ci, c, h1, h2, h3⟩ := dentry_at_cons root k p d h
    exact ih c (names_fit_child root ci c h1 (get?_mem _ _ _ h2) hn) h3

/-- The function `newfs_get_parent_dentry` on a session tree whose names fit, for a
path with a last segment: it returns the dentry that the walk over the segments
before the last reaches, or `ENOENT` when the walk reaches none. -/
theorem newfs_get_parent_dentry_tokens (lo : Nat) (st : newfs) (path : List Nat)
    (root : newfs_dentry) (hroot : st.super.root_dentry = some root) (hok : tree_ok lo root)
    (hn : names_fit root) (pre : List (List Nat)) (leaf : List Nat)
    (htok : path_tokens path = pre ++ [leaf]) :
    (∀ d, walk pre root = some d → ∃ ptr root1,
      newfs_get_parent_dentry st path
        = (.ok (ptr, d, leaf.take (MAX_NAME_LEN - 1)),
            { st with super := { st.super with root_dentry := some root1 } }) ∧
      dentry_at root1 ptr = some d ∧ tree_ok lo root1 ∧ tree_entries root1 = tree_entries root ∧
      ∀ v : newfs_dentry, v.name = d.name → walk pre (dentry_set root1 ptr v) = some v) ∧
    (walk pre root = none → (newfs_get_parent_dentry st path).1 = .error .ENOENT) := by
  have hp : path ≠ [47] := by
    intro hp
    rw [hp, path_tokens_root] at htok
    exact List.cons_ne_nil _ _ (List.append_eq_nil.1 htok.symm).2
  unfold newfs_get_parent_dentry
  rw [if_neg hp, hroot]
  simp only
  obtain ⟨ci, eroot, hci, hcc⟩ := tree_ok_inode lo root hok
  have hres : root.inode = some ci := by rw [eroot]; rfl
  rw [newfs_get_inode_from_dentry_resolved _ _ root ci hres]
  simp only
  have hn' : names_fit (root.with_inode ci) := by rw [with_inode_self root ci hres]; exact hn
  rw [htok]
  obtain ⟨w1, w2, w3, w4⟩ := path_dentry_loop_walk st.super st.dev lo pre root ci hci hcc hn'
  obtain ⟨p1, p2⟩ := parent_loop_path_loop st.super st.dev leaf pre root ci
  rw [with_inode_self root ci hres] at w2 w3 w4
  constructor
  · intro d hd
    obtain ⟨p, hp1, hp2⟩ := w3 d hd
    obtain ⟨pd, a1, a2⟩ := p2 p hp1
    have hpd : pd = d := by
      rw [hp2] at a1
      injection a1 with a1
      exact a1.symm
    subst hpd
    obtain ⟨_, _, s3⟩ := parent_loop_walk_set st.super st.dev lo leaf pre root ci hci hcc hn'
      p pd _ _ a2
    rw [a2]
    exact ⟨p, _, rfl, hp2, w1, w2, s3⟩
  · intro hnone
    rw [p1 _ (w4 hnone)]

/-- The lookup of `newfs_mkdir` / `newfs_mknod` on a session tree whose names fit,
when the segments before the last lead to the entry `d` with inode `di`: `ENOTDIR`
when `di` is not a directory, and `EEXIST` when `di` is a directory with a child
named as the leaf, the directory keeping its children. -/
theorem create_lookup_found (lo : Nat) (st : newfs) (path : List Nat)
    (root : newfs_dentry) (hroot : st.super.root_dentry = some root) (hok : tree_ok lo root)
    (hn : names_fit root) (pre : List (List Nat)) (leaf : List Nat)
    (htok : path_tokens path = pre ++ [leaf]) (d : newfs_dentry) (di : newfs_inode)
    (hw : walk pre root = some d) (hdi : d.inode = some di) :
    (S_ISDIR di.mode = false → (create_lookup st path).1 = .error .ENOTDIR) ∧
    (S_ISDIR di.mode = true →
      (di.first_child.find? (fun c => c.name == leaf.take (MAX_NAME_LEN - 1))).isSome = true →
      (create_lookup st path).1 = .error .EEXIST ∧
      ∃ di', state_walk (create_lookup st path).2 pre = some (d.with_inode di') ∧
        di'.mode = di.mode ∧ di'.first_child = di.first_child) := by
  obtain ⟨g1, _⟩ := newfs_get_parent_dentry_tokens lo st path root hroot hok hn pre leaf htok
  obtain ⟨ptr, root1, e1, e2, e3, e4, e5⟩ := g1 d hw
  have hnd : names_fit d := by
    apply names_fit_at root1 ptr d _ e2
    intro e he
    apply hn
    rw [← e4]
    exact he
  obtain ⟨di0, ed, hdi0, hdc⟩ := tree_ok_inode lo d (tree_ok_at lo root1 ptr d e3 e2)
  have hdd : di0 = di := by
    rw [ed] at hdi
    injection hdi
  subst hdd
  obtain ⟨S1, hS1⟩ : ∃ S1 : newfs,
      S1 = { st with super := { st.super with root_dentry := some root1 } } := ⟨_, rfl⟩
  rw [← hS1] at e1
  have hr1 : S1.super.root_dentry = some root1 := by rw [hS1]
  obtain ⟨l1, l2, l3, l4, l5, l6, l7⟩ := newfs_load_dir_children_ok S1.super S1.dev lo di0 hdi0
  unfold create_lookup
  rw [e1]
  simp only
  rw [newfs_get_inode_from_dentry_resolved _ _ d di0 hdi]
  simp only
  constructor
  · intro hf
    rw [hf]
    rfl
  · intro hdir hfind
    rw [hdir]
    simp only [Bool.not_true, Bool.false_eq_true, if_false]
    have hfit : ∀ c, c ∈ (newfs_load_dir_children S1.super S1.dev di0).2.first_child →
        c.name.length < MAX_NAME_LEN := by
      intro c hc
      rw [l1] at hc
      exact names_fit_name c (names_fit_child d di0 c hdi hc hnd)
    rw [find_child_exact _ _ hfit, l1, hfind]
    simp only [if_true]
    refine ⟨trivial, (newfs_load_dir_children S1.super S1.dev di0).2, ?_, l3, l1⟩
    unfold state_walk put_parent
    simp only [hr1, Option.map_some', Option.some_bind]
    exact e5 _ rfl

theorem state_listing_some (st : newfs) (segs : List (List Nat)) (names : List (List Nat))
    (h : state_listing st segs = some names) :
    ∃ root d di, st.super.root_dentry = some root ∧ walk segs root = some d ∧
      d.inode = some di ∧ S_ISDIR di.mode = true ∧ names = di.first_child.map newfs_dentry.name := by
  unfold state_listing state_walk at h
  cases hr : st.super.root_dentry with
  | none => rw [hr] at h; cases h
  | some root =>
    rw [hr] at h
    simp only [Option.some_bind] at h
    cases hw : walk segs root with
    | none => rw [hw] at h; cases h
    | some d =>
      rw [hw] at h
      simp only [Option.some_bind] at h
      cases hi : d.inode with
      | none => rw [hi] at h; cases h
      | some di =>
        rw [hi] at h
        simp only [Option.some_bind] at h
        by_cases hd : S_ISDIR di.mode = true
        · rw [if_pos hd] at h
          injection h with h
          exact ⟨root, d, di, rfl, hw, hi, hd, h.symm⟩
        · rw [if_neg hd] at h
          cases h

theorem state_is_file_some (st : newfs) (segs : List (List Nat))
    (h : state_is_file st segs = true) :
    ∃ root d di, st.super.root_dentry = some root ∧ walk segs root = some d ∧
      d.inode = some di ∧ S_ISDIR di.mode = false := by
  unfold state_is_file state_walk at h
  cases hr : st.super.root_dentry with
  | none => rw [hr] at h; cases h
  | some root =>
    rw [hr] at h
    simp only [Option.some_bind] at h
    cases hw : walk segs root with
    | none => rw [hw] at h; cases h
    | some d =>
      rw [hw] at h
      simp only at h
      cases hi : d.inode with
      | none => rw [hi] at h; cases h
      | some di =>
        rw [hi] at h
        simp only at h
        refine ⟨root, d, di, rfl, hw, hi, ?_⟩
        cases hm : S_ISDIR di.mode with
        | false => rfl
        | true => rw [hm] at h; cases h

/-- A creation refused by the lookup leaves the device and `super` apart from the
tree as they were, and the tree keeps its entries. -/
theorem newfs_create_refused (h : newfs_h) (ifmt : Nat) (st : newfs) (path : List Nat) (e : Errno)
    (he : (create_lookup st path).1 = .error e) :
    (newfs_create h ifmt st path).1 = .error e ∧
    (newfs_create h ifmt st path).2 = (create_lookup st path).2 ∧
    (newfs_create h ifmt st path).2.dev = st.dev ∧
    (newfs_create h ifmt st path).2.super.inode_map = st.super.inode_map ∧
    (newfs_create h ifmt st path).2.super.data_map = st.super.data_map := by
  have hf := create_lookup_frame st path
  have key : newfs_create h ifmt st path = (.error e, (create_lookup st path).2) := by
    unfold newfs_create
    rcases hres : create_lookup st path with ⟨r, st1⟩
    rw [hres] at he
    simp only at he
    subst he
    rfl
  rw [key]
  refine ⟨rfl, rfl, hf.1, ?_, ?_⟩
  · show (create_lookup st path).2.super.inode_map = _
    rw [hf.2]
  · show (create_lookup st path).2.super.data_map = _
    rw [hf.2]

theorem newfs_create_dup (h : newfs_h) (ifmt : Nat) (st : newfs) (path : List Nat)
    (pre : List (List Nat)) (leaf : List Nat) (names : List (List Nat))
    (hs : session_tree st) (htok : path_tokens path = pre ++ [leaf])
    (hl : state_listing st pre = some names) (hdup : leaf.take (MAX_NAME_LEN - 1) ∈ names) :
    (newfs_create h ifmt st path).1 = .error .EEXIST ∧
    (newfs_create h ifmt st path).2.dev = st.dev ∧
    (newfs_create h ifmt st path).2.super.inode_map = st.super.inode_map ∧
    (newfs_create h ifmt st path).2.super.data_map = st.super.data_map ∧
    state_listing (newfs_create h ifmt st path).2 pre = some names ∧
    state_entries (newfs_create h ifmt st path).2 = state_entries st := by
  obtain ⟨root0, hroot0, hok, hn⟩ := hs
  obtain ⟨root, d, di, hroot, hw, hdi, hdir, hnames⟩ := state_listing_some st pre names hl
  have er : root0 = root := by
    rw [hroot0] at hroot
    injection hroot
  subst er
  have hfind : (di.first_child.find? (fun c => c.name == leaf.take (MAX_NAME_LEN - 1))).isSome
      = true := by
    rw [List.find?_isSome]
    rw [hnames] at hdup
    obtain ⟨c, hc, hcn⟩ := List.mem_map.1 hdup
    exact ⟨c, hc, by rw [hcn]; exact beq_self_eq_true _⟩
  obtain ⟨_, k2⟩ := create_lookup_found 4 st path root0 hroot0 hok hn pre leaf htok d di hw hdi
  obtain ⟨k3, di', k4, k5, k6⟩ := k2 hdir hfind
  obtain ⟨r1, r2, r3, r4, r5⟩ := newfs_create_refused h ifmt st path _ k3
  refine ⟨r1, r3, r4, r5, ?_, ?_⟩
  · rw [r2]
    unfold state_listing
    rw [k4]
    simp only [Option.some_bind, with_inode_inode]
    rw [k5, if_pos hdir, k6, hnames]
  · rw [r2, (create_lookup_entries 4 st path root0 hroot0 hok hn).1,
      state_entries_of_root st root0 hroot0]

/-- Duplicate creation when the whole tree is in memory.  On a session tree, for
a path whose segments before the last lead to a directory that has a child named as
the first 127 characters of the last segment, `newfs_mkdir` and `newfs_mknod` return
`-EEXIST` and leave the device, both bitmaps (so no inode is allocated), the child
list of that directory and the entries of the tree as they were; and for the path
`/` they return `-EEXIST` and leave the whole state as it was. -/
theorem duplicate_create_session (h : newfs_h) (st : newfs) (path : List Nat)
    (pre : List (List Nat)) (leaf : List Nat) (names : List (List Nat))
    (hs : session_tree st) (htok : path_tokens path = pre ++ [leaf])
    (hl : state_listing st pre = some names) (hdup : leaf.take (MAX_NAME_LEN - 1) ∈ names) :
    ((newfs_mkdir h st path).1 = .error .EEXIST ∧
      (newfs_mkdir h st path).2.dev = st.dev ∧
      (newfs_mkdir h st path).2.super.inode_map = st.super.inode_map ∧
      (newfs_mkdir h st path).2.super.data_map = st.super.data_map ∧
      state_listing (newfs_mkdir h st path).2 pre = some names ∧
      state_entries (newfs_mkdir h st path).2 = state_entries st) ∧
    ((newfs_mknod h st path).1 = .error .EEXIST ∧
      (newfs_mknod h st path).2.dev = st.dev ∧
      (newfs_mknod h st path).2.super.inode_map = st.super.inode_map ∧
      (newfs_mknod h st path).2.super.data_map = st.super.data_map ∧
      state_listing (newfs_mknod h st path).2 pre = some names ∧
      state_entries (newfs_mknod h st path).2 = state_entries st) ∧
    (∀ st0 : newfs, newfs_mkdir h st0 [47] = (.error .EEXIST, st0) ∧
      newfs_mknod h st0 [47] = (.error .EEXIST, st0)) :=
  ⟨newfs_create_dup h S_IFDIR st path pre leaf names hs htok hl hdup,
    newfs_create_dup h S_IFREG st path pre leaf names hs htok hl hdup,
    fun _ => ⟨rfl, rfl⟩⟩

/-! ## What the dentries of a tree hold, through lookups -/

theorem tree_fold_some {α : Type} (f : newfs_dentry → List α) (n : List Nat) (i m : Nat)
    (x : newfs_inode) :
    tree_fold f (.mk n i m (some x)) = f (.mk n i m (some x)) ++ forest_fold f x.first_child := by
  rw [tree_fold]

theorem forest_fold_cons {α : Type} (f : newfs_dentry → List α) (c : newfs_dentry)
    (cs : List newfs_dentry) : forest_fold f (c :: cs) = tree_fold f c ++ forest_fold f cs := by
  rw [forest_fold]

theorem forest_fold_nil {α : Type} (f : newfs_dentry → List α) : forest_fold f [] = [] := by
  rw [forest_fold]

theorem tree_fold_with_inode {α : Type} (f : newfs_dentry → List α) (d : newfs_dentry)
    (x : newfs_inode) :
    tree_fold f (d.with_inode x) = f (d.with_inode x) ++ forest_fold f x.first_child :=
  tree_fold_some f _ _ _ _

theorem tree_fold_resolved {α : Type} (f : newfs_dentry → List α) (d : newfs_dentry)
    (x : newfs_inode) (h : d.inode = some x) :
    tree_fold f d = f d ++ forest_fold f x.first_child := by
  have e := tree_fold_with_inode f d x
  rw [with_inode_self d x h] at e
  exact e

theorem tree_fold_own {α : Type} (f : newfs_dentry → List α) (d : newfs_dentry) :
    (f d).Sublist (tree_fold f d) := by
  cases d with
  | mk n i m oi =>
    cases oi with
    | none =>
      rw [tree_fold]
    | some x =>
      rw [tree_fold_some]
      exact List.sublist_append_left _ _

theorem forest_fold_sublist {α : Type} (f : newfs_dentry → List α) (l : List newfs_dentry)
    (k : Nat) (c : newfs_dentry) (hk : l.get? k = some c) :
    (tree_fold f c).Sublist (forest_fold f l) := by
  induction l generalizing k with
  | nil => cases hk
  | cons a as ih =>
    rw [forest_fold_cons]
    cases k with
    | zero =>
      simp only [List.get?_cons_zero, Option.some.injEq] at hk
      subst hk
      exact List.sublist_append_left _ _
    | succ k =>
      simp only [List.get?_cons_succ] at hk
      exact (ih k hk).trans (List.sublist_append_right _ _)

theorem tree_fold_at {α : Type} (f : newfs_dentry → List α) (root : newfs_dentry)
    (ptr : List Nat) (d : newfs_dentry) (h : dentry_at root ptr = some d) :
    (tree_fold f d).Sublist (tree_fold f root) := by
  induction ptr generalizing root with
  | nil =>
    simp only [dentry_at, Option.some.injEq] at h
    subst h
    exact List.Sublist.refl _
  | cons k p ih =>
    obtain ⟨ci, c, h1, h2, h3⟩ := dentry_at_cons root k p d h
    rw [tree_fold_resolved f root ci h1]
    exact ((ih c h3).trans (forest_fold_sublist f _ k c h2)).trans (List.sublist_append_right _ _)

theorem forest_fold_set_eq {α : Type} (f : newfs_dentry → List α) (l : List newfs_dentry)
    (k : Nat) (c c' : newfs_dentry) (hk : l.get? k = some c)
    (he : tree_fold f c' = tree_fold f c) : forest_fold f (l.set k c') = forest_fold f l := by
  induction l generalizing k with
  | nil => cases hk
  | cons a as ih =>
    cases k with
    | zero =>
      simp only [List.get?_cons_zero, Option.some.injEq] at hk
      subst hk
      rw [List.set_cons_zero, forest_fold_cons, forest_fold_cons, he]
    | succ k =>
      simp only [List.get?_cons_succ] at hk
      rw [List.set_cons_succ, forest_fold_cons, forest_fold_cons, ih k hk]

theorem forest_fold_set_perm {α : Type} (f : newfs_dentry → List α) (l : List newfs_dentry)
    (k : Nat) (c c' : newfs_dentry) (e : List α) (hk : l.get? k = some c)
    (he : (tree_fold f c').Perm (e ++ tree_fold f c)) :
    (forest_fold f (l.set k c')).Perm (e ++ forest_fold f l) := by
  induction l generalizing k with
  | nil => cases hk
  | cons a as ih =>
    cases k with
    | zero =>
      simp only [List.get?_cons_zero, Option.some.injEq] at hk
      subst hk
      rw [List.set_cons_zero, forest_fold_cons, forest_fold_cons, ← List.append_assoc]
      exact List.Perm.append_right _ he
    | succ k =>
      simp only [List.get?_cons_succ] at hk
      rw [List.set_cons_succ, forest_fold_cons, forest_fold_cons]
      exact (List.Perm.append_left _ (ih k hk)).trans (List.perm_append_comm_assoc _ _ _)

/-- Storing through a pointer a dentry that holds what the one it replaces held keeps
what the tree holds. -/
theorem tree_fold_set_eq {α : Type} (f : newfs_dentry → List α) (hst : node_stable f)
    (root : newfs_dentry) (ptr : List Nat) (pd v : newfs_dentry)
    (h : dentry_at root ptr = some pd) (he : tree_fold f v = tree_fold f pd) :
    tree_fold f (dentry_set root ptr v) = tree_fold f root := by
  induction ptr generalizing root with
  | nil =>
    simp only [dentry_at, Option.some.injEq] at h
    subst h
    exact he
  | cons k p ih =>
    obtain ⟨ci, c, h1, h2, h3⟩ := dentry_at_cons root k p pd h
    have hs := hst root ci (ci.first_child.set k (dentry_set c p v)) ci.children_loaded
      (List.length_set _ _ _)
    rw [dentry_set_cons root k p v ci c h1 h2, tree_fold_with_inode]
    simp only
    rw [hs, forest_fold_set_eq f _ k c _ h2 (ih c h3), ← tree_fold_with_inode,
      with_inode_self root ci h1]

/-- Storing through a pointer a dentry that holds `e` more than the one it replaces
adds `e` to what the tree holds. -/
theorem tree_fold_set_perm {α : Type} (f : newfs_dentry → List α) (hst : node_stable f)
    (root : newfs_dentry) (ptr : List Nat) (pd v : newfs_dentry) (e : List α)
    (h : dentry_at root ptr = some pd) (he : (tree_fold f v).Perm (e ++ tree_fold f pd)) :
    (tree_fold f (dentry_set root ptr v)).Perm (e ++ tree_fold f root) := by
  induction ptr generalizing root with
  | nil =>
    simp only [dentry_at, Option.some.injEq] at h
    subst h
    exact he
  | cons k p ih =>
    obtain ⟨ci, c, h1, h2, h3⟩ := dentry_at_cons root k p pd h
    have hs := hst root ci (ci.first_child.set k (dentry_set c p v)) ci.children_loaded
      (List.length_set _ _ _)
    rw [dentry_set_cons root k p v ci c h1 h2, tree_fold_with_inode]
    simp only
    have hroot : tree_fold f root = f (root.with_inode ci) ++ forest_fold f ci.first_child := by
      rw [← tree_fold_with_inode, with_inode_self root ci h1]
    rw [hs, hroot]
    exact (List.Perm.append_left _ (forest_fold_set_perm f _ k c _ e h2 (ih c h3))).trans
      (List.perm_append_comm_assoc _ _ _)

theorem newfs_load_dir_children_node {α : Type} (f : newfs_dentry → List α)
    (hst : node_stable f) (s : newfs_super) (dev : ddriver) (lo : Nat) (d : newfs_dentry)
    (ci : newfs_inode) (h : inode_ok lo ci) :
    f (d.with_inode (newfs_load_dir_children s dev ci).2) = f (d.with_inode ci) := by
  obtain ⟨h1, h2, h3⟩ := h
  by_cases hd : S_ISDIR ci.mode = true
  · by_cases hl : ci.children_loaded = true
    · have e : (newfs_load_dir_children s dev ci).2 = ci := by
        unfold newfs_load_dir_children
        rw [hd, if_neg (by simp), if_pos hl]
      rw [e]
    · have hl' : ci.children_loaded = false := by simpa using hl
      obtain ⟨e1, e2⟩ := h3 hl'
      have e3 : ci.size / SIZEOF_DENTRY_D = 0 := Nat.div_eq_of_lt e2
      have e : (newfs_load_dir_children s dev ci).2
          = { ci with first_child := [], children_loaded := true } := by
        unfold newfs_load_dir_children
        rw [hd, if_neg (by simp), if_neg hl]
        simp only [e3, load_loop]
      rw [e]
      exact hst d ci [] true (by rw [e1])
  · have hd' : S_ISDIR ci.mode = false := by simpa using hd
    have e : (newfs_load_dir_children s dev ci).2 = ci := by
      unfold newfs_load_dir_children
      rw [hd', if_pos (by simp)]
    rw [e]

/-- The loop of `newfs_path_dentry` on a session tree keeps what the tree holds. -/
theorem path_dentry_loop_fold {α : Type} (f : newfs_dentry → List α) (hst : node_stable f)
    (s : newfs_super) (dev : ddriver) (lo : Nat) (toks : List (List Nat)) :
    ∀ (cur : newfs_dentry) (ci : newfs_inode),
    inode_ok lo ci → (∀ c, c ∈ ci.first_child → tree_ok lo c) →
    tree_ok lo (path_dentry_loop s dev toks cur ci).2 ∧
    tree_fold f (path_dentry_loop s dev toks cur ci).2 = tree_fold f (cur.with_inode ci) := by
  induction toks with
  | nil =>
    intro cur ci h1 h2
    simp only [path_dentry_loop]
    exact ⟨tree_ok_with_inode lo cur ci h1 h2, by first | rfl | trivial⟩
  | cons t rest ih =>
    intro cur ci h1 h2
    obtain ⟨l1, l2, l3, l4, l5, l6, l7⟩ := newfs_load_dir_children_ok s dev lo ci h1
    have hnode := newfs_load_dir_children_node f hst s dev lo cur ci h1
    rw [path_dentry_loop_cons]
    generalize (newfs_load_dir_children s dev ci).2 = ci1 at l1 l2 l3 l4 l5 l6 l7 hnode ⊢
    have hch : ∀ c, c ∈ ci1.first_child → tree_ok lo c := by rw [l1]; exact h2
    have hent1 : tree_fold f (cur.with_inode ci1) = tree_fold f (cur.with_inode ci) := by
      rw [tree_fold_with_inode, tree_fold_with_inode, l1, hnode]
    cases hfind : newfs_find_child_dentry ci1 t with
    | none =>
      simp only
      exact ⟨tree_ok_with_inode lo cur ci1 l6 hch, hent1⟩
    | some child =>
      simp only
      have hk := find_child_get ci1 t child hfind
      have hmem := get?_mem _ _ _ hk
      obtain ⟨chi, ech, hchi, hchc⟩ := tree_ok_inode lo child (hch child hmem)
      have hres : child.inode = some chi := by rw [ech]; rfl
      rw [newfs_get_inode_from_dentry_resolved s dev child chi hres]
      simp only
      obtain ⟨r1, r2⟩ := ih child chi hchi hchc
      rw [with_inode_self child chi hres] at r2
      rcases hrec : path_dentry_loop s dev rest child chi with ⟨r, child'⟩
      rw [hrec] at r1 r2
      simp only at r1 r2 ⊢
      constructor
      · apply tree_ok_with_inode
        · exact inode_ok_set_child lo ci1 _ child child' l6 hk
        · intro y hy
          rcases mem_set_cases _ _ _ _ hy with h4 | h4
          · exact hch y h4
          · rw [h4]; exact r1
      · have hs := hst cur ci1 (ci1.first_child.set (find_child_pos ci1 t) child')
          ci1.children_loaded (List.length_set _ _ _)
        rw [tree_fold_with_inode]
        simp only
        rw [hs, forest_fold_set_eq f _ _ child child' hk r2, ← tree_fold_with_inode, hent1]

/-- The loop of `newfs_get_parent_dentry` on a session tree keeps what the tree
holds. -/
theorem parent_loop_fold {α : Type} (f : newfs_dentry → List α) (hst : node_stable f)
    (s : newfs_super) (dev : ddriver) (lo : Nat) (l : List (List Nat))
    (cur : newfs_dentry) (ci : newfs_inode) (h1 : inode_ok lo ci)
    (h2 : ∀ c, c ∈ ci.first_child → tree_ok lo c) :
    tree_fold f (parent_loop s dev l cur ci).2 = tree_fold f (cur.with_inode ci) := by
  rcases List.eq_nil_or_concat l with h0 | ⟨pre, leaf, h0⟩
  · subst h0
    simp only [parent_loop]
  · subst h0
    rw [List.concat_eq_append]
    obtain ⟨_, w2⟩ := path_dentry_loop_fold f hst s dev lo pre cur ci h1 h2
    obtain ⟨p1, p2⟩ := parent_loop_path_loop s dev leaf pre cur ci
    cases hr : (path_dentry_loop s dev pre cur ci).1 with
    | error e =>
      rw [p1 e hr]
      exact w2
    | ok p =>
      obtain ⟨pd, _, a2⟩ := p2 p hr
      rw [a2]
      exact w2

theorem state_fold_of_root {α : Type} (f : newfs_dentry → List α) (st : newfs)
    (root : newfs_dentry) (h : st.super.root_dentry = some root) :
    state_fold f st = tree_fold f root := by
  unfold state_fold
  rw [h]

theorem newfs_get_parent_dentry_fold {α : Type} (f : newfs_dentry → List α)
    (hst : node_stable f) (lo : Nat) (st : newfs) (path : List Nat)
    (root : newfs_dentry) (hroot : st.super.root_dentry = some root) (hok : tree_ok lo root) :
    state_fold f (newfs_get_parent_dentry st path).2 = tree_fold f root := by
  unfold newfs_get_parent_dentry
  by_cases hp : path = [47]
  · rw [if_pos hp]
    exact state_fold_of_root f st root hroot
  · rw [if_neg hp, hroot]
    simp only
    obtain ⟨ci, eroot, hci, hcc⟩ := tree_ok_inode lo root hok
    have hres : root.inode = some ci := by rw [eroot]; rfl
    rw [newfs_get_inode_from_dentry_resolved _ _ root ci hres]
    simp only
    have r1 := parent_loop_fold f hst st.super st.dev lo (path_tokens path) root ci hci hcc
    rcases hrec : parent_loop st.super st.dev (path_tokens path) root ci with ⟨r, root'⟩
    rw [hrec] at r1
    simp only at r1 ⊢
    rw [with_inode_self root ci hres] at r1
    exact r1

/-- The lookup of `newfs_mkdir` / `newfs_mknod` on a session tree keeps what the tree
holds. -/
theorem create_lookup_fold {α : Type} (f : newfs_dentry → List α) (hst : node_stable f)
    (lo : Nat) (st : newfs) (path : List Nat)
    (root : newfs_dentry) (hroot : st.super.root_dentry = some root) (hok : tree_ok lo root) :
    state_fold f (create_lookup st path).2 = tree_fold f root := by
  obtain ⟨root1, e1, t1, _, p1⟩ := newfs_get_parent_dentry_spec lo st path root hroot hok
  have n1 := newfs_get_parent_dentry_fold f hst lo st path root hroot hok
  unfold create_lookup
  rcases hres : newfs_get_parent_dentry st path with ⟨r, st1⟩
  rw [hres] at e1 p1 n1
  simp only at e1 p1 n1
  have hent1 : tree_fold f root1 = tree_fold f root := by
    rw [← n1, e1]
    rfl
  cases r with
  | error e =>
    simp only
    exact n1
  | ok x =>
    obtain ⟨ptr, pd, name⟩ := x
    simp only
    have hat := p1 ptr pd name rfl
    have tpd := tree_ok_at lo root1 ptr pd t1 hat
    obtain ⟨pi0, epd, hpi0, hpc⟩ := tree_ok_inode lo pd tpd
    have hresd : pd.inode = some pi0 := by rw [epd]; rfl
    rw [newfs_get_inode_from_dentry_resolved _ _ pd pi0 hresd]
    simp only
    by_cases hd : S_ISDIR pi0.mode = true
    · rw [hd]
      simp only [Bool.not_true, Bool.false_eq_true, if_false]
      obtain ⟨l1, _⟩ := newfs_load_dir_children_ok st1.super st1.dev lo pi0 hpi0
      have hnode := newfs_load_dir_children_node f hst st1.super st1.dev lo pd pi0 hpi0
      generalize (newfs_load_dir_children st1.super st1.dev pi0).2 = pi at l1 hnode ⊢
      have hv : tree_fold f (pd.with_inode pi) = tree_fold f pd := by
        rw [tree_fold_with_inode, l1, hnode, ← tree_fold_with_inode, with_inode_self pd pi0 hresd]
      have hroot' : state_fold f (put_parent st1 ptr (pd.with_inode pi)) = tree_fold f root := by
        rw [e1]
        show tree_fold f (dentry_set root1 ptr (pd.with_inode pi)) = tree_fold f root
        rw [tree_fold_set_eq f hst root1 ptr pd _ hat hv, hent1]
      split_ifs
      · exact hroot'
      · exact hroot'
    · have hd' : S_ISDIR pi0.mode = false := by simpa using hd
      rw [hd']
      simp only [Bool.not_false, if_true]
      exact n1

theorem own_blocks_stable : node_stable own_blocks := fun _ _ _ _ _ => rfl

theorem own_file_kids_stable : node_stable own_file_kids := by
  intro d ci l b hl
  unfold own_file_kids
  simp only [with_inode_inode]
  rw [hl]

/-! ## The data region through a creation -/

theorem data_kept_but_refl (blk : Nat) (dev : ddriver) : data_kept_but blk dev dev :=
  fun _ _ _ => rfl

theorem data_kept_but_trans (blk : Nat) (a b c : ddriver) (h1 : data_kept_but blk a b)
    (h2 : data_kept_but blk b c) : data_kept_but blk a c :=
  fun x hx hb => (h2 x hx hb).trans (h1 x hx hb)

theorem data_kept_but_zero (blk : Nat) (a b : ddriver) (h : data_kept_but 0 a b) :
    data_kept_but blk a b :=
  fun x hx _ => h x hx (Or.inr (by omega))

theorem newfs_block_write_data_kept (s : newfs_super) (dev : ddriver) (blk : Nat) (buf : Bytes)
    (hf : formatted s) : data_kept_but blk dev (newfs_block_write s dev blk buf) := by
  intro a _ hb
  rw [newfs_block_write_data _ _ _ _ hf.1, hf.2.1]
  simp only [NEWFS_BLOCK_SIZE]
  rw [if_neg (by omega)]

theorem newfs_write_inode_data_kept (s : newfs_super) (dev : ddriver) (node : newfs_inode)
    (hf : formatted s) : data_kept_but 0 dev (newfs_write_inode s dev node).2 := by
  by_cases hn : node.ino < s.inode_count
  · intro a ha _
    have hc : s.inode_count = 23 := hf.2.2.2.2.2.2.2.2.1
    have haddr : inode_addr s node.ino = 3072 + node.ino * 44 := by
      unfold inode_addr
      rw [inodes_per_block_1024 s hf.2.1, hf.2.2.2.2.2.2.1, hf.2.1]
      have h1 : node.ino / 23 = 0 := by omega
      have h2 : node.ino % 23 = node.ino := by omega
      rw [h1, h2]
      simp only [NEWFS_BLOCK_SIZE, SIZEOF_INODE_D]
    rw [newfs_write_inode_data s dev node hf.1 hf.2.1 hn, haddr, if_neg (by omega)]
  · unfold newfs_write_inode
    rw [if_pos (by omega)]
    exact data_kept_but_refl 0 dev

theorem newfs_alloc_inode_data_kept (st : newfs) (hf : formatted st.super) :
    data_kept_but 0 st.dev (newfs_alloc_inode st).2.dev := by
  cases hfc : first_clear st.super.inode_map st.super.inode_count with
  | none =>
    rw [newfs_alloc_inode_none st hfc]
    exact data_kept_but_refl 0 _
  | some i =>
    intro a ha _
    obtain ⟨_, hi, _, _⟩ := (first_clear_from_some _ _ _ _).1 hfc
    rw [hf.2.2.2.2.2.2.2.2.1] at hi
    rw [newfs_alloc_inode_data st i hf hfc, if_neg (by omega), if_neg (by omega)]

theorem inode_free_data_kept (st : newfs) (i : Nat) (hf : formatted st.super) :
    data_kept_but 0 st.dev (inode_free st i).dev := by
  intro a ha _
  have key : ∀ S : newfs_super,
      S = { st.super with inode_map := bitmap_clear st.super.inode_map i } →
      (inode_free st i).dev = flush_loop S S.inode_map S.ino_map_offset S.ino_map_blks st.dev := by
    intro S hS
    subst hS
    rfl
  obtain ⟨S, hS⟩ : ∃ S : newfs_super,
      S = { st.super with inode_map := bitmap_clear st.super.inode_map i } := ⟨_, rfl⟩
  have hfS : formatted S := formatted_of_eq _ _ _ _ _ hS hf
  rw [key S hS, flush_loop_block _ _ _ _ _ 1 hfS.1 hfS.2.1 hfS.2.2.1 hfS.2.2.2.1,
    if_neg (by omega)]

theorem newfs_alloc_data_block_data_kept (st : newfs) (j : Nat) (hf : formatted st.super)
    (hfc : first_clear st.super.data_map st.super.data_count = some j) :
    data_kept_but (4 + j) st.dev (newfs_alloc_data_block st).2.dev := by
  intro a ha hb
  rw [newfs_alloc_data_block_data st j hf hfc, if_neg (by omega), if_neg (by omega)]

theorem add_dentry_store_data_kept (st : newfs) (dir : newfs_inode) (entry : newfs_dentry_d)
    (bi bo : Nat) (c : Option newfs_dentry) (hf : formatted st.super) :
    data_kept_but (dir.blocks.getD bi 0) st.dev (add_dentry_store st dir entry bi bo c).2.dev := by
  unfold add_dentry_store
  exact data_kept_but_trans _ _ _ _ (newfs_block_write_data_kept _ _ _ _ hf)
    (data_kept_but_zero _ _ _ (newfs_write_inode_data_kept _ _ _ hf))

theorem create_written_data_kept (h : newfs_h) (ifmt : Nat) (st : newfs) (i : Nat)
    (hf : formatted st.super)
    (hfc : first_clear st.super.inode_map st.super.inode_count = some i) :
    data_kept_but 0 st.dev (create_written h ifmt st i).dev ∧
    (create_written h ifmt st i).super
      = { st.super with inode_map := bitmap_set st.super.inode_map i } := by
  obtain ⟨_, hsup⟩ := newfs_alloc_inode_some st i hfc
  have hf2 : formatted (newfs_alloc_inode st).2.super := formatted_of_eq _ _ _ _ _ hsup hf
  refine ⟨?_, hsup⟩
  unfold create_written
  exact data_kept_but_trans _ _ _ _ (newfs_alloc_inode_data_kept st hf)
    (newfs_write_inode_data_kept _ _ _ hf2)

theorem getD_mem_of_lt (l : List Nat) (k : Nat) (hk : k < l.length) : l.getD k 0 ∈ l := by
  rw [List.getD_eq_getElem _ _ hk]
  exact List.getElem_mem _

theorem getD_set_at (l : List Nat) (k b : Nat) (hk : k < l.length) :
    (l.set k b).getD k 0 = b := by
  rw [List.getD_eq_getElem _ _ (by rw [List.length_set]; exact hk)]
  exact List.getElem_set_self _

/-- What a call of the insertion statements of `newfs_mkdir` / `newfs_mknod` leaves
of a session: on failure the data bitmap, the data region and what the tree holds
are kept; on success the parent has the new child, one of its blocks `blk` is the
only block of the data region written, and either its blocks are kept with the
data bitmap or the first free block went to an empty slot and its bit was set. -/
theorem create_insert_shape (h : newfs_h) (ifmt : Nat) (st : newfs) (ptr : List Nat)
    (pd : newfs_dentry) (pi : newfs_inode) (name : List Nat) (root : newfs_dentry)
    (hf : formatted st.super) (hroot : st.super.root_dentry = some root) (hok : tree_ok 4 root)
    (hat : dentry_at root ptr = some (pd.with_inode pi)) (hd : S_ISDIR pi.mode = true)
    (hl : pi.children_loaded = true) :
    (∀ e, (create_insert h ifmt st ptr pd pi name).1 = .error e →
      (create_insert h ifmt st ptr pd pi name).2.super.data_map = st.super.data_map ∧
      data_kept_but 0 st.dev (create_insert h ifmt st ptr pd pi name).2.dev ∧
      ∀ (α : Type) (f : newfs_dentry → List α), node_stable f →
        state_fold f (create_insert h ifmt st ptr pd pi name).2 = tree_fold f root) ∧
    ((create_insert h ifmt st ptr pd pi name).1 = .ok () →
      ∃ i dir blk,
        (create_insert h ifmt st ptr pd pi name).2.super.root_dentry
          = some (dentry_set root ptr (pd.with_inode dir)) ∧
        dir.first_child
          = add_dentry_child name i (u32 (ifmt ||| h.NEWFS_DEFAULT_PERM)) (new_inode_of h ifmt i)
            :: pi.first_child ∧
        dir.mode = pi.mode ∧
        data_kept_but blk st.dev (create_insert h ifmt st ptr pd pi name).2.dev ∧
        blk ∈ dir.blocks ∧ blk ≠ 0 ∧
        ((dir.blocks = pi.blocks ∧
            (create_insert h ifmt st ptr pd pi name).2.super.data_map = st.super.data_map) ∨
          ∃ j bi, first_clear st.super.data_map st.super.data_count = some j ∧ blk = 4 + j ∧
            bi < pi.blocks.length ∧ pi.blocks.getD bi 0 = 0 ∧
            dir.blocks = pi.blocks.set bi (4 + j) ∧
            (create_insert h ifmt st ptr pd pi name).2.super.data_map
              = bitmap_set st.super.data_map j)) := by
  obtain ⟨pi', epi, hpi, hpc⟩ := tree_ok_inode 4 _ (tree_ok_at 4 root ptr _ hok hat)
  have epi' : pi' = pi := by
    have : (pd.with_inode pi).inode = some pi' := by rw [epi]; rfl
    rw [with_inode_inode] at this
    injection this with this
    exact this.symm
  subst epi'
  have hlen : pi'.blocks.length = 8 := hpi.1
  cases hfc : first_clear st.super.inode_map st.super.inode_count with
  | none =>
    rw [create_insert_none h ifmt st ptr pd pi' name hfc]
    exact ⟨fun _ _ => ⟨rfl, data_kept_but_refl 0 _, fun _ f _ => state_fold_of_root f st root hroot⟩,
      fun he => (by cases he)⟩
  | some i =>
    obtain ⟨_, hi23, hclr, _⟩ := (first_clear_from_some _ _ _ _).1 hfc
    have hcount : st.super.inode_count = 23 := hf.2.2.2.2.2.2.2.2.1
    have hu : (new_inode_of h ifmt i).ino = i := u32_of_lt i (by omega)
    obtain ⟨w1, w2, w3, w4, w5, w6⟩ := create_written_facts h ifmt st i hf hfc
    obtain ⟨v1, v2⟩ := create_written_data_kept h ifmt st i hf hfc
    have wdc : (create_written h ifmt st i).super.data_count = st.super.data_count := by rw [v2]
    obtain ⟨c1, c2⟩ := create_insert_some h ifmt st ptr pd pi' name i hfc
    have hcases := newfs_add_dentry_cases (create_written h ifmt st i) pi' name
      (new_inode_of h ifmt i).ino (new_inode_of h ifmt i).mode (new_inode_of h ifmt i) hd hl
    have hadd : create_add h ifmt st pi' name i
        = newfs_add_dentry (create_written h ifmt st i) pi' name (new_inode_of h ifmt i).ino
            (new_inode_of h ifmt i).mode (some (new_inode_of h ifmt i)) := rfl
    rw [← hadd] at hcases
    generalize hbi : entry_blk_idx (create_written h ifmt st i).super (pi'.size / SIZEOF_DENTRY_D)
      = bi at hcases
    generalize entry_blk_off (create_written h ifmt st i).super (pi'.size / SIZEOF_DENTRY_D)
      = bo at hcases
    rcases hcases with hA | ⟨hb8, hnz, hA⟩ | ⟨hb8, hz, j, hj, hA⟩
    · have hr1 : (create_add h ifmt st pi' name i).1 = .error .ENOSPC := by rw [hA]
      rw [c1 _ hr1, hA]
      simp only
      refine ⟨fun _ _ => ?_, fun he => (by cases he)⟩
      have hfsup := inode_free_super (create_written h ifmt st i) (new_inode_of h ifmt i).ino
      have hfroot : (inode_free (create_written h ifmt st i)
          (new_inode_of h ifmt i).ino).super.root_dentry = some root := by
        rw [hfsup]; exact w5.trans hroot
      obtain ⟨_, _, p3, _, p5, _⟩ := put_parent_facts
        (inode_free (create_written h ifmt st i) (new_inode_of h ifmt i).ino)
        ptr (pd.with_inode pi') root (formatted_of_eq _ _ _ _ _ hfsup w1) hfroot
      refine ⟨?_, ?_, ?_⟩
      · rw [p3, hfsup]
        exact w3
      · exact data_kept_but_trans _ _ _ _ v1 (inode_free_data_kept _ _ w1)
      · intro α f hst
        rw [state_fold_of_root f _ _ p5]
        exact tree_fold_set_eq f hst root ptr _ _ hat rfl
    · have hr1 : (create_add h ifmt st pi' name i).1 = .ok () := by rw [hA]
      rw [c2 hr1, hA]
      simp only
      refine ⟨fun e he => (by cases he), fun _ => ?_⟩
      have hroot4 : (add_dentry_store (create_written h ifmt st i) pi'
          (add_dentry_entry name (new_inode_of h ifmt i).ino (new_inode_of h ifmt i).mode) bi bo
          (some (add_dentry_child name (new_inode_of h ifmt i).ino (new_inode_of h ifmt i).mode
            (new_inode_of h ifmt i)))).2.super.root_dentry = some root := by
        rw [add_dentry_store_super]
        exact w5.trans hroot
      obtain ⟨_, _, p3, _, p5, _⟩ := put_parent_facts _ ptr
        (pd.with_inode (add_dentry_store (create_written h ifmt st i) pi'
          (add_dentry_entry name (new_inode_of h ifmt i).ino (new_inode_of h ifmt i).mode) bi bo
          (some (add_dentry_child name (new_inode_of h ifmt i).ino (new_inode_of h ifmt i).mode
            (new_inode_of h ifmt i)))).1) root
        (by rw [add_dentry_store_super]; exact w1) hroot4
      refine ⟨i, _, pi'.blocks.getD bi 0, p5, ?_, rfl, ?_, ?_, hnz, Or.inl ⟨rfl, ?_⟩⟩
      · show add_dentry_child name (new_inode_of h ifmt i).ino (new_inode_of h ifmt i).mode
          (new_inode_of h ifmt i) :: pi'.first_child = _
        rw [hu]
        rfl
      · exact data_kept_but_trans _ _ _ _ (data_kept_but_zero _ _ _ v1)
          (add_dentry_store_data_kept (create_written h ifmt st i) pi'
            (add_dentry_entry name (new_inode_of h ifmt i).ino (new_inode_of h ifmt i).mode) bi bo
            (some (add_dentry_child name (new_inode_of h ifmt i).ino (new_inode_of h ifmt i).mode
              (new_inode_of h ifmt i))) w1)
      · exact getD_mem_of_lt pi'.blocks bi (hlen.symm ▸ hb8)
      · rw [p3, add_dentry_store_super]
        exact w3
    · have hr1 : (create_add h ifmt st pi' name i).1 = .ok () := by rw [hA]
      rw [c2 hr1, hA]
      simp only
      refine ⟨fun e he => (by cases he), fun _ => ?_⟩
      obtain ⟨_, hj2, _, _⟩ := (first_clear_from_some _ _ _ _).1 hj
      have hdc : (create_written h ifmt st i).super.data_count ≤ 8192 := w1.2.2.2.2.2.2.2.2.2
      have hdo : (create_written h ifmt st i).super.data_offset = 4 := w1.2.2.2.2.2.2.2.1
      have hblk : u32 ((create_written h ifmt st i).super.data_offset + j) = 4 + j := by
        rw [hdo]
        exact u32_of_lt _ (by omega)
      rw [hblk]
      obtain ⟨_, hsb⟩ := newfs_alloc_data_block_some (create_written h ifmt st i) j hj
      have hfb : formatted (newfs_alloc_data_block (create_written h ifmt st i)).2.super :=
        formatted_of_eq _ _ _ _ _ hsb w1
      have hroot4 : (add_dentry_store (newfs_alloc_data_block (create_written h ifmt st i)).2
          (dir_with_block pi' bi (4 + j))
          (add_dentry_entry name (new_inode_of h ifmt i).ino (new_inode_of h ifmt i).mode) bi bo
          (some (add_dentry_child name (new_inode_of h ifmt i).ino (new_inode_of h ifmt i).mode
            (new_inode_of h ifmt i)))).2.super.root_dentry = some root := by
        rw [add_dentry_store_super, hsb]
        exact w5.trans hroot
      obtain ⟨_, _, p3, _, p5, _⟩ := put_parent_facts _ ptr
        (pd.with_inode (add_dentry_store (newfs_alloc_data_block (create_written h ifmt st i)).2
          (dir_with_block pi' bi (4 + j))
          (add_dentry_entry name (new_inode_of h ifmt i).ino (new_inode_of h ifmt i).mode) bi bo
          (some (add_dentry_child name (new_inode_of h ifmt i).ino (new_inode_of h ifmt i).mode
            (new_inode_of h ifmt i)))).1) root
        (by rw [add_dentry_store_super]; exact hfb) hroot4
      have hbl : bi < pi'.blocks.length := by rw [hlen]; exact hb8
      have hgd : (dir_with_block pi' bi (4 + j)).blocks.getD bi 0 = 4 + j :=
        getD_set_at _ _ _ hbl
      have hkept := add_dentry_store_data_kept
        (newfs_alloc_data_block (create_written h ifmt st i)).2 (dir_with_block pi' bi (4 + j))
        (add_dentry_entry name (new_inode_of h ifmt i).ino (new_inode_of h ifmt i).mode) bi bo
        (some (add_dentry_child name (new_inode_of h ifmt i).ino (new_inode_of h ifmt i).mode
          (new_inode_of h ifmt i))) hfb
      rw [hgd] at hkept
      refine ⟨i, _, 4 + j, p5, ?_, rfl, ?_, ?_, by omega, Or.inr ⟨j, bi, ?_, rfl, hbl, hz, rfl, ?_⟩⟩
      · show add_dentry_child name (new_inode_of h ifmt i).ino (new_inode_of h ifmt i).mode
          (new_inode_of h ifmt i) :: pi'.first_child = _
        rw [hu]
        rfl
      · exact data_kept_but_trans _ _ _ _ (data_kept_but_zero _ _ _ v1)
          (data_kept_but_trans _ _ _ _
            (newfs_alloc_data_block_data_kept _ j w1 hj) hkept)
      · show 4 + j ∈ pi'.blocks.set bi (4 + j)
        exact List.mem_iff_get?.2 ⟨bi, by
          rw [List.get?_eq_getElem?, List.getElem?_set_self hbl]⟩
      · rw [← w3, ← wdc]
        exact hj
      · rw [p3, add_dentry_store_super, hsb]
        show bitmap_set (create_written h ifmt st i).super.data_map j = _
        rw [w3]

/-! ## Block ownership through a creation -/

theorem filter_set_perm (l : List Nat) (k b : Nat) (hk : k < l.length) (hz : l.getD k 0 = 0)
    (hb : b ≠ 0) :
    ((l.set k b).filter (fun x => x != 0)).Perm (b :: l.filter (fun x => x != 0)) := by
  induction l generalizing k with
  | nil => cases hk
  | cons a as ih =>
    cases k with
    | zero =>
      simp only [List.getD_cons_zero] at hz
      subst hz
      rw [List.set_cons_zero, List.filter_cons_of_pos (by simpa using hb),
        List.filter_cons_of_neg (by simp)]
    | succ k =>
      simp only [List.getD_cons_succ] at hz
      simp only [List.length_cons, Nat.add_lt_add_iff_right] at hk
      rw [List.set_cons_succ]
      by_cases ha : a = 0
      · subst ha
        rw [List.filter_cons_of_neg (by simp), List.filter_cons_of_neg (by simp)]
        exact ih k hk hz
      · rw [List.filter_cons_of_pos (by simpa using ha), List.filter_cons_of_pos (by simpa using ha)]
        exact ((ih k hk hz).cons a).trans (List.Perm.swap _ _ _)

theorem add_dentry_child_blocks (name : List Nat) (ino mode : Nat) (h : newfs_h) (ifmt i : Nat) :
    tree_fold own_blocks (add_dentry_child name ino mode (new_inode_of h ifmt i)) = [] := by
  unfold add_dentry_child
  rw [tree_fold_some]
  show List.filter (fun b => b != 0) (List.replicate NEWFS_DIRECT_NUM 0) ++ forest_fold own_blocks [] = []
  rw [forest_fold_nil]
  rfl

theorem add_dentry_child_file_kids (name : List Nat) (ino mode : Nat) (h : newfs_h)
    (ifmt i : Nat) :
    tree_fold own_file_kids (add_dentry_child name ino mode (new_inode_of h ifmt i)) = [] := by
  unfold add_dentry_child
  rw [tree_fold_some]
  show (if S_ISDIR (new_inode_of h ifmt i).mode then [] else List.replicate 0 ())
    ++ forest_fold own_file_kids [] = []
  rw [forest_fold_nil]
  split_ifs <;> rfl

theorem own_file_kids_dir (d : newfs_dentry) (x : newfs_inode) (h : S_ISDIR x.mode = true) :
    own_file_kids (d.with_inode x) = [] := by
  unfold own_file_kids
  simp only [with_inode_inode]
  rw [if_pos h]

theorem state_blocks_of_root (st : newfs) (root : newfs_dentry)
    (h : st.super.root_dentry = some root) : state_blocks st = tree_fold own_blocks root :=
  state_fold_of_root own_blocks st root h

/-- The insertion statements of `newfs_mkdir` / `newfs_mknod` keep the ownership of
blocks and leave the entries that are not directories without children. -/
theorem create_insert_kept (h : newfs_h) (ifmt : Nat) (st : newfs) (ptr : List Nat)
    (pd : newfs_dentry) (pi : newfs_inode) (name : List Nat) (root : newfs_dentry)
    (hf : formatted st.super) (hroot : st.super.root_dentry = some root) (hok : tree_ok 4 root)
    (hat : dentry_at root ptr = some (pd.with_inode pi)) (hd : S_ISDIR pi.mode = true)
    (hl : pi.children_loaded = true) (hb : blocks_owned st) (hk : state_file_kids st = []) :
    blocks_owned (create_insert h ifmt st ptr pd pi name).2 ∧
    state_file_kids (create_insert h ifmt st ptr pd pi name).2 = [] := by
  obtain ⟨s1, s2⟩ := create_insert_shape h ifmt st ptr pd pi name root hf hroot hok hat hd hl
  obtain ⟨hb1, hb2⟩ := hb
  rw [state_blocks_of_root st root hroot] at hb1 hb2
  have hk0 : tree_fold own_file_kids root = [] := by
    rw [← state_fold_of_root own_file_kids st root hroot]
    exact hk
  cases hr : (create_insert h ifmt st ptr pd pi name).1 with
  | error e =>
    obtain ⟨a1, _, a3⟩ := s1 e hr
    refine ⟨⟨?_, ?_⟩, ?_⟩
    · show (state_fold own_blocks _).Nodup
      rw [a3 _ own_blocks own_blocks_stable]
      exact hb1
    · intro b hbm
      have hbm' : b ∈ state_fold own_blocks (create_insert h ifmt st ptr pd pi name).2 := hbm
      rw [a3 _ own_blocks own_blocks_stable] at hbm'
      rw [a1]
      exact hb2 b hbm'
    · show state_fold own_file_kids _ = []
      rw [a3 _ own_file_kids own_file_kids_stable]
      exact hk0
  | ok u =>
    obtain ⟨i, dir, blk, r1, r2, r3, _, _, _, r7⟩ := s2 hr
    have hdd : S_ISDIR dir.mode = true := by rw [r3]; exact hd
    have hkids : state_file_kids (create_insert h ifmt st ptr pd pi name).2 = [] := by
      show state_fold own_file_kids _ = []
      rw [state_fold_of_root _ _ _ r1,
        tree_fold_set_eq own_file_kids own_file_kids_stable root ptr _ _ hat ?_]
      · exact hk0
      · rw [tree_fold_with_inode, tree_fold_with_inode, r2, forest_fold_cons,
          add_dentry_child_file_kids, own_file_kids_dir _ _ hdd, own_file_kids_dir _ _ hd]
        rfl
    have hfold : ∀ e : List Nat, (dir.blocks.filter (fun x => x != 0)).Perm
        (e ++ pi.blocks.filter (fun x => x != 0)) →
        (state_blocks (create_insert h ifmt st ptr pd pi name).2).Perm
          (e ++ tree_fold own_blocks root) := by
      intro e he
      show (state_fold own_blocks _).Perm _
      rw [state_fold_of_root _ _ _ r1]
      apply tree_fold_set_perm own_blocks own_blocks_stable root ptr _ _ e hat
      rw [tree_fold_with_inode, tree_fold_with_inode, r2, forest_fold_cons,
        add_dentry_child_blocks, List.nil_append, ← List.append_assoc]
      exact List.Perm.append_right _ he
    refine ⟨?_, hkids⟩
    rcases r7 with ⟨e1, e2⟩ | ⟨j, bi, e1, e2, e3, e4, e5, e6⟩
    · have hp := hfold [] (by rw [e1]; exact List.Perm.refl _)
      rw [List.nil_append] at hp
      refine ⟨hp.nodup_iff.2 hb1, ?_⟩
      intro b hbm
      rw [e2]
      exact hb2 b (hp.mem_iff.1 hbm)
    · obtain ⟨_, _, hclr, _⟩ := (first_clear_from_some _ _ _ _).1 e1
      have hp := hfold [4 + j] (by
        rw [e5]
        exact filter_set_perm _ _ _ e3 e4 (by omega))
      have hnew : 4 + j ∉ tree_fold own_blocks root := by
        intro hm
        have := (hb2 _ hm).2
        rw [Nat.add_sub_cancel_left, hclr] at this
        cases this
      refine ⟨hp.nodup_iff.2 (List.nodup_cons.2 ⟨hnew, hb1⟩), ?_⟩
      intro b hbm
      rw [e6, bitmap_test_set]
      rcases List.mem_cons.1 (hp.mem_iff.1 hbm) with hb0 | hb0
      · subst hb0
        refine ⟨by omega, ?_⟩
        rw [Nat.add_sub_cancel_left]
        simp
      · refine ⟨(hb2 b hb0).1, ?_⟩
        rw [(hb2 b hb0).2]
        simp

/-- A `newfs_mkdir` / `newfs_mknod` call keeps a session with owned blocks. -/
theorem create_kept (h : newfs_h) (ifmt : Nat) (st : newfs) (path : List Nat)
    (hk : kept_session st) : kept_session (newfs_create h ifmt st path).2 := by
  obtain ⟨⟨hf, root, hroot, hok⟩, hb, hkids⟩ := hk
  have hsess : session_ok (newfs_create h ifmt st path).2 := by
    obtain ⟨c1, ⟨root', c2, c3, _⟩, _⟩ := newfs_create_session h ifmt st path root hf hroot hok
    exact ⟨c1, root', c2, c3⟩
  refine ⟨hsess, ?_⟩
  obtain ⟨root1, e1, t1, _, p1⟩ := create_lookup_spec 4 st path root hroot hok
  have hfr := create_lookup_frame st path
  have hb1 : blocks_owned (create_lookup st path).2 := by
    obtain ⟨b1, b2⟩ := hb
    have hsb : state_blocks (create_lookup st path).2 = state_blocks st := by
      show state_fold own_blocks _ = _
      rw [create_lookup_fold own_blocks own_blocks_stable 4 st path root hroot hok]
      exact (state_blocks_of_root st root hroot).symm
    refine ⟨by rw [hsb]; exact b1, ?_⟩
    intro b hbm
    rw [hsb] at hbm
    rw [hfr.2]
    exact b2 b hbm
  have hk1 : state_file_kids (create_lookup st path).2 = [] := by
    show state_fold own_file_kids _ = _
    rw [create_lookup_fold own_file_kids own_file_kids_stable 4 st path root hroot hok,
      ← state_fold_of_root own_file_kids st root hroot]
    exact hkids
  have hf1 : formatted (create_lookup st path).2.super := formatted_of_eq _ _ _ _ _ hfr.2 hf
  have hroot1 : (create_lookup st path).2.super.root_dentry = some root1 := by rw [e1]
  unfold newfs_create
  rcases hres : create_lookup st path with ⟨r, st1⟩
  rw [hres] at hb1 hk1 hf1 hroot1 p1
  simp only at hb1 hk1 hf1 hroot1 p1
  cases r with
  | error e => exact ⟨hb1, hk1⟩
  | ok x =>
    obtain ⟨ptr, pd, pi, name⟩ := x
    obtain ⟨q1, q2, q3, _⟩ := p1 ptr pd pi name rfl
    exact create_insert_kept h ifmt st1 ptr pd pi name root1 hf1 hroot1 t1 q1 q2 q3 hb1 hk1

theorem run_creates_kept (h : newfs_h) (ops : List (Bool × List Nat)) :
    ∀ st, kept_session st → kept_session (run_creates h ops st) := by
  induction ops with
  | nil => intro st hk; exact hk
  | cons op ops ih =>
    intro st hk
    obtain ⟨b, path⟩ := op
    cases b with
    | true => exact ih _ (create_kept h S_IFDIR st path hk)
    | false => exact ih _ (create_kept h S_IFREG st path hk)

/-! ## The tree after a format -/

/-- The root dentry that `newfs_prepare_root` builds on a freshly formatted volume
owns an inode without children and without blocks. -/
theorem newfs_prepare_root_bare (h : newfs_h) (st : newfs) (hf : formatted st.super)
    (hr : st.super.root_ino = 0)
    (hrec : ∀ k, k < 44 → st.dev.data (3072 + k) = inode_d_bytes
      { mode := u32 (S_IFDIR ||| h.NEWFS_DEFAULT_PERM), size := 0, links := 1,
        blocks := List.replicate NEWFS_DIRECT_NUM 0 } k) :
    ∃ ri, (newfs_prepare_root h st).2.super.root_dentry
        = some (.mk [47] 0 (u32 (S_IFDIR ||| h.NEWFS_DEFAULT_PERM)) (some ri)) ∧
      ri.first_child = [] ∧ ri.blocks = List.replicate 8 0 := by
  obtain ⟨f1, f2, f3, f4, f5, f6, f7, f8, f9, f10⟩ := hf
  have haddr : inode_addr st.super 0 = 3072 := by
    unfold inode_addr
    rw [inodes_per_block_1024 _ f2, f7, f2]
    simp only [NEWFS_BLOCK_SIZE, SIZEOF_INODE_D]
  have hread := newfs_read_inode_dev st.super st.dev 0 f1 f2 (by rw [f9]; norm_num)
  rw [haddr, inode_d_at_bytes _ _ _ hrec] at hread
  simp only at hread
  have hb : (List.range NEWFS_DIRECT_NUM).map
      (fun j => u32 ((List.replicate NEWFS_DIRECT_NUM 0).getD j 0)) = List.replicate 8 0 := by
    decide
  rw [hb] at hread
  unfold newfs_prepare_root newfs_get_inode_from_dentry
  simp only [newfs_dentry.inode, newfs_dentry.ino, hr, hread]
  have hok0 : inode_ok 4
      ({ ino := 0, mode := u32 (u32 (S_IFDIR ||| h.NEWFS_DEFAULT_PERM)), size := u32 0,
         links := u32 1, blocks := List.replicate 8 0, dentry := true, first_child := [],
         data := none, children_loaded := false } : newfs_inode) := by
    refine ⟨rfl, fun b hb => Or.inl (List.eq_of_mem_replicate hb), fun _ => ⟨rfl, (by show u32 0 < 136; decide)⟩⟩
  split_ifs with hd
  · obtain ⟨l1, l2, _⟩ := newfs_load_dir_children_ok st.super st.dev 4 _ hok0
    exact ⟨_, rfl, l1, l2⟩
  · exact ⟨_, rfl, rfl, rfl⟩

/-- The state that the format path of `newfs_mount` leaves is a session with owned
blocks: its tree holds no block pointer and no child. -/
theorem newfs_mount_kept (h : newfs_h) (dev : ddriver)
    (hio : dev.io_size ∣ NEWFS_BLOCK_SIZE) (hblk : 5 ≤ dev.disk_size / NEWFS_BLOCK_SIZE)
    (hinit : mount_is_init h dev = true) : kept_session (newfs_mount h dev).2 := by
  obtain ⟨hf, ⟨root, r1, r2, r3⟩, _, m1, _⟩ := newfs_mount_session h dev hio hblk hinit
  have hdev := newfs_mount_format_dev h dev hio hblk hinit
  have htree : ∃ ri, (newfs_mount h dev).2.super.root_dentry
        = some (.mk [47] 0 (u32 (S_IFDIR ||| h.NEWFS_DEFAULT_PERM)) (some ri)) ∧
      ri.first_child = [] ∧ ri.blocks = List.replicate 8 0 := by
    have hfc : first_clear (format_start h dev).super.inode_map
        (format_start h dev).super.inode_count = some 0 := format_first_clear h dev
    have hsup := (newfs_alloc_inode_some _ 0 hfc).2
    have hf1 : formatted (newfs_alloc_inode (format_start h dev)).2.super :=
      formatted_of_eq _ _ _ _ _ hsup (format_start_formatted h dev hio)
    have hst : (newfs_mount h dev).2.dev
        = (mount_format_root h (super_d_of (format_geometry h (mount_super dev))) (.ok 0)
            (newfs_alloc_inode (format_start h dev)).2).dev :=
      (newfs_mount_format_state h dev hblk hinit).2
    have hmount : newfs_mount h dev
        = newfs_prepare_root h
            (mount_format_root h (super_d_of (format_geometry h (mount_super dev))) (.ok 0)
              (newfs_alloc_inode (format_start h dev)).2) := by
      rw [newfs_mount_format h dev hblk hinit, mount_format_eq]
      rfl
    have hS := mount_format_root_super h (super_d_of (format_geometry h (mount_super dev)))
      (newfs_alloc_inode (format_start h dev)).2
    have hfS : formatted (mount_format_root h
        (super_d_of (format_geometry h (mount_super dev))) (.ok 0)
        (newfs_alloc_inode (format_start h dev)).2).super := by
      rw [hS]
      exact formatted_root_ino _ 0 hf1
    rw [hmount]
    apply newfs_prepare_root_bare h _ hfS (by rw [hS])
    intro k hk
    rw [← hst, hdev, if_neg (by omega), if_neg (by omega), if_neg (by omega), if_pos (by omega),
      Nat.add_sub_cancel_left]
  obtain ⟨ri, t1, t2, t3⟩ := htree
  have hfold : ∀ (α : Type) (f : newfs_dentry → List α),
      state_fold f (newfs_mount h dev).2
        = f (.mk [47] 0 (u32 (S_IFDIR ||| h.NEWFS_DEFAULT_PERM)) (some ri)) := by
    intro α f
    rw [state_fold_of_root f _ _ t1, tree_fold_some, t2, forest_fold_nil, List.append_nil]
  have hblocks : state_blocks (newfs_mount h dev).2 = [] := by
    show state_fold own_blocks _ = []
    rw [hfold]
    show List.filter (fun b => b != 0) ri.blocks = []
    rw [t3]
    rfl
  refine ⟨⟨hf, root, r1, r2⟩, ⟨?_, ?_⟩, ?_⟩
  · rw [hblocks]
    exact List.nodup_nil
  · intro b hb
    rw [hblocks] at hb
    cases hb
  · show state_fold own_file_kids _ = []
    rw [hfold]
    show (if S_ISDIR ri.mode then [] else List.replicate ri.first_child.length ()) = []
    rw [t2]
    split_ifs <;> rfl

/-! ## Pointers and what the tree holds -/

theorem walk_at (segs : List (List Nat)) : ∀ (root d : newfs_dentry),
    walk segs root = some d → ∃ p, dentry_at root p = some d := by
  induction segs with
  | nil =>
    intro root d hw
    exact ⟨[], hw⟩
  | cons t rest ih =>
    intro root d hw
    cases hi : root.inode with
    | none =>
      rw [walk, hi] at hw
      cases hw
    | some x =>
      rw [walk_cons t rest root x hi] at hw
      cases hfind : x.first_child.find? (fun c => c.name == t) with
      | none => rw [hfind] at hw; cases hw
      | some c =>
        rw [hfind] at hw
        simp only at hw
        obtain ⟨p, hp⟩ := ih c d hw
        obtain ⟨n, hn⟩ := List.mem_iff_get?.1 (List.mem_of_find?_eq_some hfind)
        exact ⟨n :: p, by rw [dentry_at_cons_eq root n p x c hi hn]; exact hp⟩

theorem forest_fold_two {α : Type} (f : newfs_dentry → List α) (l : List newfs_dentry)
    (k k' : Nat) (c c' : newfs_dentry) (x : α) (hk : l.get? k = some c)
    (hk' : l.get? k' = some c') (hne : k ≠ k') (hx : x ∈ tree_fold f c)
    (hx' : x ∈ tree_fold f c') : ¬ (forest_fold f l).Nodup := by
  induction l generalizing k k' with
  | nil => cases hk
  | cons a as ih =>
    rw [forest_fold_cons]
    intro hnd
    have hdis := List.disjoint_of_nodup_append hnd
    cases k with
    | zero =>
      simp only [List.get?_cons_zero, Option.some.injEq] at hk
      subst hk
      cases k' with
      | zero => exact hne rfl
      | succ k' =>
        simp only [List.get?_cons_succ] at hk'
        exact hdis hx ((forest_fold_sublist f as k' c' hk').subset hx')
    | succ k =>
      simp only [List.get?_cons_succ] at hk
      cases k' with
      | zero =>
        simp only [List.get?_cons_zero, Option.some.injEq] at hk'
        subst hk'
        exact hdis hx' ((forest_fold_sublist f as k c hk).subset hx)
      | succ k' =>
        simp only [List.get?_cons_succ] at hk'
        exact ih k k' hk hk' (fun e => hne (by rw [e])) (List.Nodup.of_append_right hnd)

/-- What two different dentries of a tree hold occurs twice in what the tree holds. -/
theorem tree_fold_two {α : Type} (f : newfs_dentry → List α) (q : List Nat) :
    ∀ (root : newfs_dentry) (q' : List Nat) (d d' : newfs_dentry) (x : α),
    dentry_at root q = some d → dentry_at root q' = some d' → q ≠ q' →
    x ∈ f d → x ∈ f d' → ¬ (tree_fold f root).Nodup := by
  induction q with
  | nil =>
    intro root q' d d' x h1 h2 hne hx hx'
    simp only [dentry_at, Option.some.injEq] at h1
    subst h1
    cases q' with
    | nil => exact absurd rfl hne
    | cons k' p' =>
      obtain ⟨ci, c, e1, e2, e3⟩ := dentry_at_cons root k' p' d' h2
      rw [tree_fold_resolved f root ci e1]
      intro hnd
      exact List.disjoint_of_nodup_append hnd hx
        ((forest_fold_sublist f _ k' c e2).subset
          ((tree_fold_at f c p' d' e3).subset ((tree_fold_own f d').subset hx')))
  | cons k p ih =>
    intro root q' d d' x h1 h2 hne hx hx'
    obtain ⟨ci, c, e1, e2, e3⟩ := dentry_at_cons root k p d h1
    rw [tree_fold_resolved f root ci e1]
    intro hnd
    cases q' with
    | nil =>
      simp only [dentry_at, Option.some.injEq] at h2
      subst h2
      exact List.disjoint_of_nodup_append hnd hx'
        ((forest_fold_sublist f _ k c e2).subset
          ((tree_fold_at f c p d e3).subset ((tree_fold_own f d).subset hx)))
    | cons k' p' =>
      obtain ⟨ci', c', e1', e2', e3'⟩ := dentry_at_cons root k' p' d' h2
      have hci : ci' = ci := by
        rw [e1] at e1'
        injection e1' with e1'
        exact e1'.symm
      subst hci
      have hnf := List.Nodup.of_append_right hnd
      by_cases hkk : k = k'
      · subst hkk
        have hcc : c' = c := by
          rw [e2] at e2'
          injection e2' with e2'
          exact e2'.symm
        subst hcc
        exact ih c' p' d d' x e3 e3' (fun e => hne (by rw [e])) hx hx'
          ((forest_fold_sublist f _ k c' e2).nodup hnf)
      · exact forest_fold_two f _ k k' c c' x e2 e2' hkk
          ((tree_fold_at f c p d e3).subset ((tree_fold_own f d).subset hx))
          ((tree_fold_at f c' p' d' e3').subset ((tree_fold_own f d').subset hx')) hnf

theorem nodup_filter_slots (l : List Nat) (k k' b : Nat)
    (hnd : (l.filter (fun x => x != 0)).Nodup) (hk : l.get? k = some b)
    (hk' : l.get? k' = some b) (hb : b ≠ 0) : k = k' := by
  have hmem : ∀ (as : List Nat) (n : Nat), as.get? n = some b →
      b ∈ as.filter (fun x => x != 0) := by
    intro as n hn
    exact List.mem_filter.2 ⟨List.get?_mem hn, by simpa using hb⟩
  induction l generalizing k k' with
  | nil => cases hk
  | cons a as ih =>
    cases k with
    | zero =>
      simp only [List.get?_cons_zero, Option.some.injEq] at hk
      subst hk
      cases k' with
      | zero => rfl
      | succ k' =>
        simp only [List.get?_cons_succ] at hk'
        rw [List.filter_cons_of_pos (by simpa using hb)] at hnd
        exact absurd (hmem as k' hk') (List.nodup_cons.1 hnd).1
    | succ k =>
      simp only [List.get?_cons_succ] at hk
      cases k' with
      | zero =>
        simp only [List.get?_cons_zero, Option.some.injEq] at hk'
        subst hk'
        rw [List.filter_cons_of_pos (by simpa using hb)] at hnd
        exact absurd (hmem as k hk) (List.nodup_cons.1 hnd).1
      | succ k' =>
        simp only [List.get?_cons_succ] at hk'
        have hnd' : (as.filter (fun x => x != 0)).Nodup :=
          (List.Sublist.filter (fun x => x != 0) (List.sublist_cons_self a as)).nodup hnd
        rw [ih k k' hnd' hk hk']

theorem own_blocks_mem (d : newfs_dentry) (i : newfs_inode) (b : Nat) (hi : d.inode = some i)
    (hb : b ∈ i.blocks) (hz : b ≠ 0) : b ∈ own_blocks d := by
  unfold own_blocks
  rw [hi]
  exact List.mem_filter.2 ⟨hb, by simpa using hz⟩

theorem state_blocks_mem (st : newfs) (q : List Nat) (d : newfs_dentry) (i : newfs_inode)
    (b : Nat) (hd : state_dentry st q = some d) (hi : d.inode = some i) (hb : b ∈ i.blocks)
    (hz : b ≠ 0) : b ∈ state_blocks st := by
  unfold state_dentry at hd
  cases hr : st.super.root_dentry with
  | none => rw [hr] at hd; cases hd
  | some root =>
    rw [hr] at hd
    simp only [Option.some_bind] at hd
    rw [state_blocks_of_root st root hr]
    exact (tree_fold_at own_blocks root q d hd).subset
      ((tree_fold_own own_blocks d).subset (own_blocks_mem d i b hi hb hz))

/-- In a session with owned blocks no entry that is not a directory has children. -/
theorem kept_files_childless (st : newfs) (hk : state_file_kids st = []) :
    files_childless st := by
  intro ptr d i hd hi hm
  unfold state_dentry at hd
  cases hr : st.super.root_dentry with
  | none => rw [hr] at hd; cases hd
  | some root =>
    rw [hr] at hd
    simp only [Option.some_bind] at hd
    have hsub := (tree_fold_own own_file_kids d).trans (tree_fold_at own_file_kids root ptr d hd)
    rw [← state_fold_of_root own_file_kids st root hr] at hsub
    have hk' : state_fold own_file_kids st = [] := hk
    rw [hk'] at hsub
    have hown : own_file_kids d = [] := List.sublist_nil.1 hsub
    unfold own_file_kids at hown
    rw [hi] at hown
    simp only [hm, Bool.false_eq_true, if_false] at hown
    exact List.length_eq_zero.1 (by
      have := congrArg List.length hown
      simpa using this)

/-! ## The blocks a creation writes -/

/-- When the lookup of `newfs_mkdir` / `newfs_mknod` succeeds on a session tree whose
names fit, the parent it returns is the dentry that the walk over the segments
before the last reaches, with the blocks that dentry's inode has. -/
theorem create_lookup_parent (lo : Nat) (st : newfs) (path : List Nat)
    (root : newfs_dentry) (hroot : st.super.root_dentry = some root) (hok : tree_ok lo root)
    (hn : names_fit root) (ptr : List Nat) (pd : newfs_dentry) (pi : newfs_inode)
    (name : List Nat) (he : (create_lookup st path).1 = .ok (ptr, pd, pi, name)) :
    ∃ pi0, walk (path_tokens path).dropLast root = some pd ∧ pd.inode = some pi0 ∧
      pi.blocks = pi0.blocks := by
  obtain ⟨_, pre, leaf, _, _, htok, _, _⟩ :=
    create_lookup_walk lo st path root hroot hok hn ptr pd pi name he
  have hdl : (path_tokens path).dropLast = pre := by
    rw [htok]
    simp
  rw [hdl]
  obtain ⟨g1, g2⟩ := newfs_get_parent_dentry_tokens lo st path root hroot hok hn pre leaf htok
  cases hw : walk pre root with
  | none =>
    have hg := g2 hw
    unfold create_lookup at he
    rcases hres : newfs_get_parent_dentry st path with ⟨r, st1⟩
    rw [hres] at hg he
    simp only at hg
    subst hg
    simp only at he
    cases he
  | some d =>
    obtain ⟨ptr', root1, e1, e2, e3, e4, e5⟩ := g1 d hw
    obtain ⟨di, ed, hdi0, hdc⟩ := tree_ok_inode lo d (tree_ok_at lo root1 ptr' d e3 e2)
    have hdi : d.inode = some di := by rw [ed]; rfl
    obtain ⟨S1, hS1⟩ : ∃ S1 : newfs,
        S1 = { st with super := { st.super with root_dentry := some root1 } } := ⟨_, rfl⟩
    rw [← hS1] at e1
    obtain ⟨l1, l2, l3, l4, l5, l6, l7⟩ := newfs_load_dir_children_ok S1.super S1.dev lo di hdi0
    unfold create_lookup at he
    rw [e1] at he
    simp only at he
    rw [newfs_get_inode_from_dentry_resolved _ _ d di hdi] at he
    simp only at he
    by_cases hd : S_ISDIR di.mode = true
    · rw [hd] at he
      simp only [Bool.not_true, Bool.false_eq_true, if_false] at he
      split_ifs at he
      injection he with he
      injection he with a1 a2
      injection a2 with a2 a3
      injection a3 with a3 a4
      subst a2
      rw [← a3]
      exact ⟨di, rfl, hdi, l2⟩
    · have hd' : S_ISDIR di.mode = false := by simpa using hd
      rw [hd'] at he
      simp only [Bool.not_false, if_true] at he
      cases he

/-- A `newfs_mkdir` / `newfs_mknod` call on a fresh session writes at most one block
of the data region: a block that was free, or a block of the directory that the
segments before the last lead to. -/
theorem create_data_frame (h : newfs_h) (ifmt : Nat) (st : newfs) (path : List Nat)
    (hfs : fresh_session st) :
    ∃ blk, data_kept_but blk st.dev (newfs_create h ifmt st path).2.dev ∧
      (blk = 0 ∨ (4 ≤ blk ∧ bitmap_test st.super.data_map (blk - 4) = false) ∨
        (blk ≠ 0 ∧ ∃ P Pi, state_walk st (path_tokens path).dropLast = some P ∧
          P.inode = some Pi ∧ blk ∈ Pi.blocks)) := by
  obtain ⟨⟨hf, root, hroot, hok⟩, ⟨root', hroot', _, hn'⟩, _, _⟩ := hfs
  have er : root' = root := by
    rw [hroot] at hroot'
    injection hroot' with hroot'
    exact hroot'.symm
  subst er
  cases hr : (create_lookup st path).1 with
  | error e =>
    obtain ⟨_, _, r3, _, _⟩ := newfs_create_refused h ifmt st path e hr
    refine ⟨0, ?_, Or.inl rfl⟩
    rw [r3]
    exact data_kept_but_refl 0 _
  | ok x =>
    obtain ⟨ptr, pd, pi, name⟩ := x
    obtain ⟨pi0, k1, k2, k3⟩ := create_lookup_parent 4 st path root' hroot hok hn' ptr pd pi name hr
    obtain ⟨root1, e1, t1, _, p1⟩ := create_lookup_spec 4 st path root' hroot hok
    obtain ⟨q1, q2, q3, _⟩ := p1 ptr pd pi name hr
    have hfr := create_lookup_frame st path
    have hf1 : formatted (create_lookup st path).2.super := formatted_of_eq _ _ _ _ _ hfr.2 hf
    have hroot1 : (create_lookup st path).2.super.root_dentry = some root1 := by rw [e1]
    have hdm : (create_lookup st path).2.super.data_map = st.super.data_map := by rw [hfr.2]
    have hdc : (create_lookup st path).2.super.data_count = st.super.data_count := by rw [hfr.2]
    have hdev : (create_lookup st path).2.dev = st.dev := hfr.1
    have hcreate : newfs_create h ifmt st path
        = create_insert h ifmt (create_lookup st path).2 ptr pd pi name := by
      unfold newfs_create
      rcases hres : create_lookup st path with ⟨r, st1⟩
      rw [hres] at hr
      simp only at hr
      subst hr
      rfl
    rw [hcreate]
    obtain ⟨s1, s2⟩ := create_insert_shape h ifmt (create_lookup st path).2 ptr pd pi name root1
      hf1 hroot1 t1 q1 q2 q3
    rw [hdev] at s1 s2
    cases hr2 : (create_insert h ifmt (create_lookup st path).2 ptr pd pi name).1 with
    | error e =>
      obtain ⟨_, a2, _⟩ := s1 e hr2
      exact ⟨0, a2, Or.inl rfl⟩
    | ok u =>
      obtain ⟨i, dir, blk, _, _, _, r4, r5, r6, r7⟩ := s2 hr2
      refine ⟨blk, r4, Or.inr ?_⟩
      rcases r7 with ⟨b1, _⟩ | ⟨j, bi, b1, b2, _, _, _, _⟩
      · right
        refine ⟨r6, pd, pi0, ?_, k2, ?_⟩
        · unfold state_walk
          rw [hroot]
          exact k1
        · rw [← k3, ← b1]
          exact r5
      · left
        rw [hdm, hdc] at b1
        obtain ⟨_, _, hclr, _⟩ := (first_clear_from_some _ _ _ _).1 b1
        rw [b2, Nat.add_sub_cancel_left]
        exact ⟨by omega, hclr⟩

/-- Directory blocks apart while the records stay inside the buffer.  In a session
begun by a format (device of at least 5 blocks, transfer unit dividing the block
size), after every sequence of `newfs_mkdir` / `newfs_mknod` calls each of which
copies its record inside the block buffer of `newfs_add_dentry`, every non-zero
direct-block pointer of every inode of the tree lies in the data region and has its
bit set in the data bitmap; no block number occurs at two different places (dentry of
the tree and slot of its inode); and a further such `newfs_mkdir` or `newfs_mknod`,
whatever it returns, changes no byte of a block of an inode other than that of the
directory that the segments before the last lead to. -/
theorem directory_blocks_apart_while_records_fit (h : newfs_h) (dev : ddriver)
    (hio : dev.io_size ∣ NEWFS_BLOCK_SIZE) (hblk : 5 ≤ dev.disk_size / NEWFS_BLOCK_SIZE)
    (hinit : mount_is_init h dev = true) (ops : List (Bool × List Nat))
    (_hfit : creates_fit h ops (newfs_mount h dev).2 = true) :
    (∀ (q : List Nat) (d : newfs_dentry) (i : newfs_inode) (b : Nat),
      state_dentry (run_creates h ops (newfs_mount h dev).2) q = some d → d.inode = some i →
      b ∈ i.blocks → b ≠ 0 →
      (run_creates h ops (newfs_mount h dev).2).super.data_offset ≤ b ∧
      bitmap_test (run_creates h ops (newfs_mount h dev).2).super.data_map
        (b - (run_creates h ops (newfs_mount h dev).2).super.data_offset) = true) ∧
    (∀ (q q' : List Nat) (d d' : newfs_dentry) (i i' : newfs_inode) (k k' b : Nat),
      state_dentry (run_creates h ops (newfs_mount h dev).2) q = some d → d.inode = some i →
      i.blocks.get? k = some b →
      state_dentry (run_creates h ops (newfs_mount h dev).2) q' = some d' → d'.inode = some i' →
      i'.blocks.get? k' = some b → b ≠ 0 → q = q' ∧ k = k') ∧
    (∀ (dir : Bool) (path : List Nat) (q : List Nat) (d : newfs_dentry) (i : newfs_inode)
      (b a : Nat),
      create_fits (run_creates h ops (newfs_mount h dev).2) path = true →
      state_dentry (run_creates h ops (newfs_mount h dev).2) q = some d → d.inode = some i →
      b ∈ i.blocks → b ≠ 0 →
      state_walk (run_creates h ops (newfs_mount h dev).2) (path_tokens path).dropLast ≠ some d →
      b * (run_creates h ops (newfs_mount h dev).2).super.block_size ≤ a →
      a < b * (run_creates h ops (newfs_mount h dev).2).super.block_size
          + (run_creates h ops (newfs_mount h dev).2).super.block_size →
      (run_creates h [(dir, path)] (run_creates h ops (newfs_mount h dev).2)).dev.data a
        = (run_creates h ops (newfs_mount h dev).2).dev.data a) := by
  have hfresh := run_creates_fresh h ops _ (newfs_mount_fresh h dev hio hblk hinit).1
  have hkept := run_creates_kept h ops _ (newfs_mount_kept h dev hio hblk hinit)
  clear _hfit
  generalize run_creates h ops (newfs_mount h dev).2 = S at hfresh hkept ⊢
  obtain ⟨⟨hf, root, hroot, hok⟩, ⟨hnd, hmark⟩, _⟩ := hkept
  have hdo : S.super.data_offset = 4 := hf.2.2.2.2.2.2.2.1
  have hbs : S.super.block_size = 1024 := hf.2.1
  rw [hdo, hbs]
  have hat : ∀ (q : List Nat) (d : newfs_dentry), state_dentry S q = some d →
      dentry_at root q = some d := by
    intro q d hd
    rw [state_dentry_of_root S root q hroot] at hd
    exact hd
  rw [state_blocks_of_root S root hroot] at hnd
  refine ⟨?_, ?_, ?_⟩
  · intro q d i b hd hi hb hz
    exact hmark b (state_blocks_mem S q d i b hd hi hb hz)
  · intro q q' d d' i i' k k' b hd hi hk hd' hi' hk' hz
    have hm : b ∈ own_blocks d := own_blocks_mem d i b hi (List.get?_mem hk) hz
    have hm' : b ∈ own_blocks d' := own_blocks_mem d' i' b hi' (List.get?_mem hk') hz
    have hq : q = q' := by
      by_contra hne
      exact tree_fold_two own_blocks q root q' d d' b (hat q d hd) (hat q' d' hd') hne hm hm' hnd
    subst hq
    refine ⟨rfl, ?_⟩
    have hdd : d' = d := by
      rw [hd] at hd'
      injection hd' with hd'
      exact hd'.symm
    subst hdd
    have hii : i' = i := by
      rw [hi] at hi'
      injection hi' with hi'
      exact hi'.symm
    subst hii
    have hown : (own_blocks d').Nodup :=
      ((tree_fold_own own_blocks d').trans (tree_fold_at own_blocks root q d' (hat q d' hd))).nodup
        hnd
    unfold own_blocks at hown
    rw [hi] at hown
    exact nodup_filter_slots _ k k' b hown hk hk' hz
  · intro dir path q d i b a _ hd hi hb hz hnp ha1 ha2
    have hbm := hmark b (state_blocks_mem S q d i b hd hi hb hz)
    have hout : ∀ ifmt, (newfs_create h ifmt S path).2.dev.data a = S.dev.data a := by
      intro ifmt
      obtain ⟨blk, f1, f2⟩ := create_data_frame h ifmt S path hfresh
      apply f1 a (by omega)
      have hne : b ≠ blk := by
        rcases f2 with f2 | ⟨_, f2⟩ | ⟨f3, P, Pi, f4, f5, f6⟩
        · rw [f2]; exact hz
        · intro e
          rw [← e, hbm.2] at f2
          cases f2
        · intro e
          unfold state_walk at f4 hnp
          rw [hroot] at f4 hnp
          simp only [Option.some_bind] at f4 hnp
          obtain ⟨p0, hp0⟩ := walk_at _ root P f4
          have hqp : q ≠ p0 := by
            intro e2
            have hd2 := hat q d hd
            rw [e2, hp0] at hd2
            injection hd2 with hd2
            rw [hd2] at f4
            exact hnp f4
          exact tree_fold_two own_blocks q root p0 d P b (hat q d hd) hp0 hqp
            (own_blocks_mem d i b hi hb hz) (own_blocks_mem P Pi b f5 (e ▸ f6) hz) hnd
      omega
    cases dir with
    | true => exact hout S_IFDIR
    | false => exact hout S_IFREG

theorem directory_blocks_apart_while_records_fit_witness :
    (dev64.io_size ∣ NEWFS_BLOCK_SIZE ∧ 5 ≤ dev64.disk_size / NEWFS_BLOCK_SIZE ∧
      mount_is_init hdr dev64 = true) ∧
    state_blocks (run_creates hdr [(true, path_d), (false, path_d_f)] (newfs_mount hdr dev64).2)
      = [4, 5] ∧
    ∀ (q q' : List Nat) (d d' : newfs_dentry) (i i' : newfs_inode) (k k' b : Nat),
      state_dentry (run_creates hdr [(true, path_d), (false, path_d_f)]
        (newfs_mount hdr dev64).2) q = some d → d.inode = some i →
      i.blocks.get? k = some b →
      state_dentry (run_creates hdr [(true, path_d), (false, path_d_f)]
        (newfs_mount hdr dev64).2) q' = some d' → d'.inode = some i' →
      i'.blocks.get? k' = some b → b ≠ 0 → q = q' ∧ k = k' :=
  ⟨⟨by decide!, by decide!, by decide!⟩, by decide!,
    (directory_blocks_apart_while_records_fit hdr dev64 (by decide!) (by decide!) (by decide!)
      [(true, path_d), (false, path_d_f)] (by decide!)).2.1⟩

/-! ## Traversal through a regular file -/

theorem newfs_getattr_error (st : newfs) (path : List Nat) (e : Errno)
    (h : (newfs_path_dentry st path).1 = .error e) : (newfs_getattr st path).1 = .error e := by
  unfold newfs_getattr
  rcases hres : newfs_path_dentry st path with ⟨r, st1⟩
  rw [hres] at h
  simp only at h
  subst h
  rfl

theorem newfs_readdir_error (st : newfs) (path : List Nat) (offset : Int) (e : Errno)
    (h : (newfs_path_dentry st path).1 = .error e) :
    (newfs_readdir st path offset).1 = .error e := by
  unfold newfs_readdir
  rcases hres : newfs_path_dentry st path with ⟨r, st1⟩
  rw [hres] at h
  simp only at h
  subst h
  rfl

theorem newfs_access_error (st : newfs) (path : List Nat) (type : Int) (e : Errno)
    (h : (newfs_path_dentry st path).1 = .error e) :
    (newfs_access st path type).1 = .error e := by
  have hr : (newfs_path_resolve st path).1 = .error e := by
    unfold newfs_path_resolve
    rcases hres : newfs_path_dentry st path with ⟨r, st1⟩
    rw [hres] at h
    simp only at h
    subst h
    rfl
  unfold newfs_access
  rcases hres : newfs_path_resolve st path with ⟨r, st1⟩
  rw [hres] at hr
  simp only at hr
  subst hr
  rfl

/-- Traversal through a non-directory when the whole tree is in memory: on a session
tree in which no entry that
is not a directory has children, for a path one of whose segments before the last
names (by the walk over the segments before it) an entry that is not a directory,
`newfs_path_dentry`, `newfs_getattr`, `newfs_readdir` and `newfs_access` return
`-ENOENT`, not `-ENOTDIR`; and when that entry is the immediate parent (the segment
after it is the last), `newfs_mkdir` and `newfs_mknod` return `-ENOTDIR` and leave the
device and both bitmaps as they were, so no inode is allocated. -/
theorem traversal_through_file_session (h : newfs_h) (st : newfs) (path : List Nat)
    (pre : List (List Nat)) (seg : List Nat) (rest : List (List Nat)) (offset type : Int)
    (hs : session_tree st) (hleaf : files_childless st)
    (htok : path_tokens path = pre ++ seg :: rest) (hfile : state_is_file st pre = true) :
    (newfs_path_dentry st path).1 = .error .ENOENT ∧
    (newfs_getattr st path).1 = .error .ENOENT ∧
    (newfs_readdir st path offset).1 = .error .ENOENT ∧
    (newfs_access st path type).1 = .error .ENOENT ∧
    (rest = [] →
      ((newfs_mkdir h st path).1 = .error .ENOTDIR ∧
        (newfs_mkdir h st path).2.dev = st.dev ∧
        (newfs_mkdir h st path).2.super.inode_map = st.super.inode_map ∧
        (newfs_mkdir h st path).2.super.data_map = st.super.data_map) ∧
      ((newfs_mknod h st path).1 = .error .ENOTDIR ∧
        (newfs_mknod h st path).2.dev = st.dev ∧
        (newfs_mknod h st path).2.super.inode_map = st.super.inode_map ∧
        (newfs_mknod h st path).2.super.data_map = st.super.data_map)) := by
  obtain ⟨root, d, di, hroot, hw, hdi, hreg⟩ := state_is_file_some st pre hfile
  have hs2 := hs
  obtain ⟨root0, hroot0, hok, hn⟩ := hs2
  have er : root0 = root := by
    rw [hroot0] at hroot
    injection hroot
  subst er
  obtain ⟨p, hp⟩ := walk_at pre root0 d hw
  have hkids : di.first_child = [] :=
    hleaf p d di (by rw [state_dentry_of_root st root0 p hroot0]; exact hp) hdi hreg
  have hnone : state_walk st (path_tokens path) = none := by
    unfold state_walk
    rw [hroot0, htok]
    simp only [Option.some_bind]
    rw [walk_append, hw]
    simp only [Option.some_bind]
    rw [walk_cons seg rest d di hdi, hkids]
    rfl
  have hpd := (newfs_path_dentry_walk st path hs).2.2.2.2 hnone
  refine ⟨hpd, newfs_getattr_error st path _ hpd, newfs_readdir_error st path offset _ hpd,
    newfs_access_error st path type _ hpd, ?_⟩
  intro hrest
  rw [hrest] at htok
  have hlk := (create_lookup_found 4 st path root0 hroot0 hok hn pre seg htok d di hw hdi).1 hreg
  obtain ⟨a1, _, a3, a4, a5⟩ := newfs_create_refused h S_IFDIR st path _ hlk
  obtain ⟨b1, _, b3, b4, b5⟩ := newfs_create_refused h S_IFREG st path _ hlk
  exact ⟨⟨a1, a3, a4, a5⟩, ⟨b1, b3, b4, b5⟩⟩

/-- The tree `/` with `d` with `f` on the fresh 64-block volume is a session with
owned blocks. -/
theorem vol64_d_f_kept : kept_session vol64_d_f :=
  run_creates_kept hdr [(true, path_d), (false, path_d_f)] _
    (newfs_mount_kept hdr dev64 (by decide!) (by decide!) (by decide!))

/-! ## What a load leaves in memory -/

theorem cstr_at_length (b : Bytes) : ∀ (n off : Nat), (cstr_at b off n).length ≤ n := by
  intro n
  induction n with
  | zero =>
    intro off
    simp [cstr_at]
  | succ n ih =>
    intro off
    rw [cstr_at]
    split
    · simp
    · rw [List.length_cons]
      exact Nat.succ_le_succ (ih _)

/-- Every child that the loop of `newfs_load_dir_children` links has no inode yet and a
name of at most `MAX_NAME_LEN - 1` characters, whatever the bytes read are. -/
theorem load_loop_children (s : newfs_super) (dev : ddriver) (n : Nat) (dir : newfs_inode) :
    ∀ c, c ∈ (load_loop s dev n dir).first_child →
      c ∈ dir.first_child ∨ (c.inode = none ∧ c.name.length < MAX_NAME_LEN) := by
  induction n with
  | zero => exact fun c hc => Or.inl hc
  | succ n ih =>
    intro c hc
    simp only [load_loop] at hc
    split at hc
    · exact ih c hc
    · simp only [newfs_link_child] at hc
      rcases List.mem_cons.1 hc with h1 | h1
      · right
        subst h1
        refine ⟨rfl, ?_⟩
        show (cstr_at _ 0 (MAX_NAME_LEN - 1)).length < MAX_NAME_LEN
        have := cstr_at_length (dentry_d_at (newfs_block_read s dev
          ((load_loop s dev n dir).blocks.getD (entry_blk_idx s n) 0) stack_buf)
          (entry_blk_off s n)).name (MAX_NAME_LEN - 1) 0
        simp only [MAX_NAME_LEN] at this ⊢
        omega
      · exact ih c h1

/-- The children of an inode once loaded are the ones it had (it was loaded, or is no
directory), or children just read, each without inode and with a name that fits. -/
theorem loaded_children_cases (s : newfs_super) (dev : ddriver) (i : newfs_inode) :
    loaded_children s dev i = i.first_child ∨
    (∀ c, c ∈ loaded_children s dev i → c.inode = none ∧ c.name.length < MAX_NAME_LEN) := by
  unfold loaded_children newfs_load_dir_children
  split
  · exact Or.inl rfl
  · split
    · exact Or.inl rfl
    · right
      intro c hc
      rcases load_loop_children s dev _ _ c hc with h1 | h1
      · cases h1
      · exact h1

theorem newfs_load_dir_children_loaded (s : newfs_super) (dev : ddriver) (i : newfs_inode)
    (h : S_ISDIR i.mode = true) : (newfs_load_dir_children s dev i).2.children_loaded = true := by
  unfold newfs_load_dir_children
  rw [h]
  simp only [Bool.not_true, Bool.false_eq_true, if_false]
  split
  · rename_i hl
    exact hl
  · rfl

theorem newfs_load_dir_children_file (s : newfs_super) (dev : ddriver) (i : newfs_inode)
    (h : S_ISDIR i.mode = false) : newfs_load_dir_children s dev i = (.error .ENOTDIR, i) := by
  unfold newfs_load_dir_children
  rw [h]
  rfl

/-- Once the children of an inode are loaded, loading again gives the child list that
is there, whichever it is. -/
theorem loaded_children_again (s : newfs_super) (dev : ddriver) (i : newfs_inode)
    (l : List newfs_dentry) :
    loaded_children s dev { (newfs_load_dir_children s dev i).2 with first_child := l } = l := by
  unfold loaded_children
  cases hd : S_ISDIR i.mode with
  | false =>
    rw [newfs_load_dir_children_file s dev i hd]
    rw [newfs_load_dir_children_file s dev _ (by exact hd)]
  | true =>
    have hm : S_ISDIR ({ (newfs_load_dir_children s dev i).2 with first_child := l } :
        newfs_inode).mode = true := by
      show S_ISDIR (newfs_load_dir_children s dev i).2.mode = true
      rw [newfs_load_dir_children_mode, hd]
    have hl := newfs_load_dir_children_loaded s dev i hd
    generalize (newfs_load_dir_children s dev i).2 = x at hm hl
    unfold newfs_load_dir_children
    rw [hm]
    simp only [Bool.not_true, Bool.false_eq_true, if_false]
    rw [if_pos (by exact hl)]

/-! ## Names that fit, node by node -/

theorem forest_entries_mem_inv (l : List newfs_dentry) (e : List Nat × Nat × Nat)
    (he : e ∈ forest_entries l) : ∃ c, c ∈ l ∧ e ∈ tree_entries c := by
  induction l with
  | nil =>
    rw [forest_entries] at he
    cases he
  | cons a as ih =>
    rw [forest_entries_cons] at he
    rcases List.mem_append.1 he with h1 | h1
    · exact ⟨a, List.mem_cons_self _ _, h1⟩
    · obtain ⟨c, hc, hce⟩ := ih h1
      exact ⟨c, List.mem_cons_of_mem _ hc, hce⟩

theorem names_fit_with_inode (d : newfs_dentry) (i : newfs_inode) :
    names_fit (d.with_inode i) ↔
      d.name.length < MAX_NAME_LEN ∧ ∀ c, c ∈ i.first_child → names_fit c := by
  constructor
  · intro h
    refine ⟨names_fit_name (d.with_inode i) h, fun c hc => ?_⟩
    exact names_fit_child _ i c (with_inode_inode d i) hc h
  · intro h e he
    rw [tree_entries_with_inode] at he
    rcases List.mem_cons.1 he with h1 | h1
    · rw [h1]
      exact h.1
    · obtain ⟨c, hc, hce⟩ := forest_entries_mem_inv _ e h1
      exact h.2 c hc e hce

theorem names_fit_bare (c : newfs_dentry) (h1 : c.inode = none)
    (h2 : c.name.length < MAX_NAME_LEN) : names_fit c := by
  cases c with
  | mk n i m x =>
    simp only [newfs_dentry.inode] at h1
    subst h1
    intro e he
    rw [tree_entries] at he
    rw [List.mem_singleton.1 he]
    exact h2

/-- Loading the children of the inode of a dentry keeps the names of its tree fitting. -/
theorem names_fit_loaded (s : newfs_super) (dev : ddriver) (d : newfs_dentry) (i : newfs_inode)
    (h : names_fit (d.with_inode i)) :
    names_fit (d.with_inode (newfs_load_dir_children s dev i).2) := by
  rw [names_fit_with_inode] at h ⊢
  refine ⟨h.1, fun c hc => ?_⟩
  rcases loaded_children_cases s dev i with h1 | h1
  · unfold loaded_children at h1
    rw [h1] at hc
    exact h.2 c hc
  · obtain ⟨a, b⟩ := h1 c hc
    exact names_fit_bare c a b

/-- What `newfs_get_inode_from_dentry` returns: the inode the dentry owns; or, for a
dentry without inode, `EINVAL` with the dentry as it is, or the inode read for it, whose
children are just read (none for an inode that is no directory). -/
theorem newfs_get_inode_from_dentry_cases (s : newfs_super) (dev : ddriver) (c : newfs_dentry) :
    (∃ i, c.inode = some i ∧ newfs_get_inode_from_dentry s dev c = (.ok i, c)) ∨
    (c.inode = none ∧
      (newfs_get_inode_from_dentry s dev c = (.error .EINVAL, c) ∨
        ∃ i, newfs_get_inode_from_dentry s dev c = (.ok i, c.with_inode i) ∧
          (∀ k, k ∈ i.first_child → k.inode = none ∧ k.name.length < MAX_NAME_LEN) ∧
          (S_ISDIR i.mode = false → i.first_child = []))) := by
  cases hi : c.inode with
  | some i => exact Or.inl ⟨i, rfl, newfs_get_inode_from_dentry_resolved s dev c i hi⟩
  | none =>
    right
    refine ⟨rfl, ?_⟩
    unfold newfs_get_inode_from_dentry
    rw [hi]
    simp only
    by_cases hlt : c.ino < s.inode_count
    · right
      obtain ⟨x, hx, hx0⟩ : ∃ x, newfs_read_inode s dev c.ino = .ok x ∧ x.first_child = [] :=
        ⟨_, newfs_read_inode_ok s dev c.ino hlt, rfl⟩
      rw [hx]
      simp only
      refine ⟨_, rfl, ?_, ?_⟩
      · intro k hk
        by_cases hd : S_ISDIR x.mode = true
        · rw [if_pos hd] at hk
          rcases loaded_children_cases s dev { x with dentry := true } with h1 | h1
          · unfold loaded_children at h1
            rw [h1] at hk
            rw [show ({ x with dentry := true } : newfs_inode).first_child = [] from hx0] at hk
            cases hk
          · exact h1 k hk
        · rw [if_neg hd] at hk
          rw [show ({ x with dentry := true } : newfs_inode).first_child = [] from hx0] at hk
          cases hk
      · intro hm
        by_cases hd : S_ISDIR x.mode = true
        · rw [if_pos hd] at hm
          rw [newfs_load_dir_children_mode] at hm
          rw [show ({ x with dentry := true } : newfs_inode).mode = x.mode from rfl, hd] at hm
          cases hm
        · rw [if_neg hd]
          exact hx0
    · left
      rw [newfs_read_inode_error s dev c.ino (by omega)]

/-- The dentry that `newfs_get_inode_from_dentry` leaves keeps the names fitting. -/
theorem names_fit_resolved (s : newfs_super) (dev : ddriver) (c : newfs_dentry) (ci : newfs_inode)
    (c' : newfs_dentry) (h : names_fit c)
    (he : newfs_get_inode_from_dentry s dev c = (.ok ci, c')) :
    c' = c.with_inode ci ∧ names_fit (c.with_inode ci) := by
  rcases newfs_get_inode_from_dentry_cases s dev c with ⟨i, h1, h2⟩ | ⟨h1, h2 | ⟨i, h2, h3, _⟩⟩
  · rw [h2] at he
    injection he with e1 e2
    injection e1 with e1
    subst e1
    subst e2
    rw [with_inode_self c i h1]
    exact ⟨rfl, h⟩
  · rw [h2] at he
    injection he with e1 e2
    cases e1
  · rw [h2] at he
    injection he with e1 e2
    injection e1 with e1
    subst e1
    subst e2
    refine ⟨rfl, ?_⟩
    rw [names_fit_with_inode]
    exact ⟨names_fit_name c h, fun k hk => names_fit_bare k (h3 k hk).1 (h3 k hk).2⟩

/-! ## Resolution with lazy loading -/

theorem lazy_walk_cons (s : newfs_super) (dev : ddriver) (seg : List Nat) (rest : List (List Nat))
    (cur : newfs_dentry) (i : newfs_inode) :
    lazy_walk s dev (seg :: rest) cur i
      = match (loaded_children s dev i).find? (fun c => c.name == seg) with
        | none => .error .ENOENT
        | some c =>
          match newfs_get_inode_from_dentry s dev c with
          | (.error e, _) => .error e
          | (.ok ci, c) => lazy_walk s dev rest c ci := by
  rw [lazy_walk]

theorem lazy_walk_cur (s : newfs_super) (dev : ddriver) (toks : List (List Nat))
    (c : newfs_dentry) (x i : newfs_inode) :
    lazy_walk s dev toks (c.with_inode x) i = lazy_walk s dev toks c i := by
  cases toks with
  | nil => rfl
  | cons t rest => rw [lazy_walk_cons, lazy_walk_cons]

theorem names_fit_set (d : newfs_dentry) (i : newfs_inode) (k : Nat) (x : newfs_dentry)
    (h : names_fit (d.with_inode i)) (hx : names_fit x) :
    names_fit (d.with_inode { i with first_child := i.first_child.set k x }) := by
  rw [names_fit_with_inode] at h ⊢
  refine ⟨h.1, fun c hc => ?_⟩
  rcases mem_set_cases _ _ _ _ hc with h1 | h1
  · exact h.2 c h1
  · rw [h1]
    exact hx

/-- The loop of `newfs_path_dentry` on any tree whose names fit, children loaded or
still on the device: it returns a pointer to the dentry that the walk with lazy
loading reaches, and the error of that walk when it reaches none; the tree it leaves
has names that fit. -/
theorem path_dentry_loop_lazy (s : newfs_super) (dev : ddriver) (toks : List (List Nat)) :
    ∀ (cur : newfs_dentry) (ci : newfs_inode), names_fit (cur.with_inode ci) →
    names_fit (path_dentry_loop s dev toks cur ci).2 ∧
    (∃ i', (path_dentry_loop s dev toks cur ci).2 = cur.with_inode i') ∧
    (∀ d, lazy_walk s dev toks cur ci = .ok d →
      ∃ p, (path_dentry_loop s dev toks cur ci).1 = .ok p ∧
        dentry_at (path_dentry_loop s dev toks cur ci).2 p = some d) ∧
    (∀ e, lazy_walk s dev toks cur ci = .error e →
      (path_dentry_loop s dev toks cur ci).1 = .error e) := by
  induction toks with
  | nil =>
    intro cur ci hn
    simp only [path_dentry_loop, lazy_walk]
    refine ⟨hn, ⟨ci, rfl⟩, ?_, fun e he => (by cases he)⟩
    intro d hd
    injection hd with hd
    subst hd
    exact ⟨[], rfl, rfl⟩
  | cons t rest ih =>
    intro cur ci hn
    have hn1 := names_fit_loaded s dev cur ci hn
    rw [path_dentry_loop_cons, lazy_walk_cons]
    unfold loaded_children
    generalize (newfs_load_dir_children s dev ci).2 = ci1 at hn1 ⊢
    have hnames : ∀ c, c ∈ ci1.first_child → c.name.length < MAX_NAME_LEN := fun c hc =>
      names_fit_name c (((names_fit_with_inode cur ci1).1 hn1).2 c hc)
    rw [← find_child_exact ci1 t hnames]
    cases hfind : newfs_find_child_dentry ci1 t with
    | none =>
      simp only
      refine ⟨hn1, ⟨ci1, rfl⟩, fun d hd => (by cases hd), ?_⟩
      intro e he
      injection he with he
      rw [he]
    | some child =>
      simp only
      have hk := find_child_get ci1 t child hfind
      have hmem := get?_mem _ _ _ hk
      have hnc : names_fit child := ((names_fit_with_inode cur ci1).1 hn1).2 child hmem
      rcases hg : newfs_get_inode_from_dentry s dev child with ⟨r, child'⟩
      cases r with
      | error e =>
        simp only
        have hc' : child' = child := by
          rcases newfs_get_inode_from_dentry_cases s dev child with
            ⟨i, _, h2⟩ | ⟨_, h2 | ⟨i, h2, _, _⟩⟩
          · rw [h2] at hg
            cases hg
          · rw [h2] at hg
            injection hg with _ e2
            exact e2.symm
          · rw [h2] at hg
            cases hg
        subst hc'
        refine ⟨names_fit_set cur ci1 _ child' hn1 hnc, ⟨_, rfl⟩, fun d hd => (by cases hd), ?_⟩
        intro e2 he
        injection he with he
        rw [he]
      | ok chi =>
        simp only
        obtain ⟨hc', hnr⟩ := names_fit_resolved s dev child chi child' hnc hg
        subst hc'
        obtain ⟨r1, ⟨i', r2⟩, r3, r4⟩ := ih (child.with_inode chi) chi hnr
        rcases hrec : path_dentry_loop s dev rest (child.with_inode chi) chi with ⟨r, child''⟩
        rw [hrec] at r1 r2 r3 r4
        simp only at r1 r2 r3 r4 ⊢
        refine ⟨names_fit_set cur ci1 _ child'' hn1 r1, ⟨_, rfl⟩, ?_, ?_⟩
        · intro d hd
          obtain ⟨p, e1, e2⟩ := r3 d hd
          refine ⟨find_child_pos ci1 t :: p, by rw [e1]; rfl, ?_⟩
          rw [dentry_at_cons_eq _ _ p _ child'' (with_inode_inode _ _) (get?_set_self _ _ _ _ hk)]
          exact e2
        · intro e he
          rw [r4 e he]
          rfl

theorem state_names_fit_iff (st : newfs) (root : newfs_dentry)
    (hr : st.super.root_dentry = some root) : state_names_fit st = true ↔ names_fit root := by
  unfold state_names_fit names_fit
  rw [state_entries_of_root st root hr, List.all_eq_true]
  constructor
  · intro h e he
    exact of_decide_eq_true (h e he)
  · intro h e he
    exact decide_eq_true (h e he)

theorem lazy_walk_error (s : newfs_super) (dev : ddriver) (toks : List (List Nat)) :
    ∀ (cur : newfs_dentry) (i : newfs_inode) (e : Errno),
      lazy_walk s dev toks cur i = .error e → e = .ENOENT ∨ e = .EINVAL := by
  induction toks with
  | nil =>
    intro cur i e he
    simp only [lazy_walk] at he
    cases he
  | cons t rest ih =>
    intro cur i e he
    rw [lazy_walk_cons] at he
    split at he
    · injection he with he
      exact Or.inl he.symm
    · split at he
      · rename_i e2 _ heq
        injection he with he
        subst he
        right
        exact newfs_get_inode_from_dentry_error s dev _ e2 (by rw [heq])
      · exact ih _ _ e he

theorem state_lazy_walk_of_root (st : newfs) (root : newfs_dentry) (ri : newfs_inode)
    (segs : List (List Nat)) (hr : st.super.root_dentry = some root) (hi : root.inode = some ri) :
    state_lazy_walk st segs = lazy_walk st.super st.dev segs root ri := by
  unfold state_lazy_walk
  rw [hr]
  simp only
  rw [newfs_get_inode_from_dentry_resolved _ _ root ri hi]

theorem root_resolved_root (st : newfs) (d : newfs_dentry) (i : newfs_inode) :
    root_resolved { st with super := { st.super with root_dentry := some (d.with_inode i) } }
      = true := rfl

/-- The function `newfs_path_dentry` on any state whose root dentry has its inode and
whose names fit, whatever is loaded of the tree: it does what the walk with lazy
loading does. -/
theorem newfs_path_dentry_lazy (st : newfs) (path : List Nat)
    (hroot : root_resolved st = true) (hn : state_names_fit st = true) :
    root_resolved (newfs_path_dentry st path).2 = true ∧
    state_names_fit (newfs_path_dentry st path).2 = true ∧
    same_but_tree st (newfs_path_dentry st path).2 ∧
    (∀ d, state_lazy_walk st (path_tokens path) = .ok d →
      ∃ ptr, (newfs_path_dentry st path).1 = .ok ptr ∧
        state_dentry (newfs_path_dentry st path).2 ptr = some d) ∧
    (∀ e, state_lazy_walk st (path_tokens path) = .error e →
      (newfs_path_dentry st path).1 = .error e) := by
  obtain ⟨root, ri, hr, hi⟩ := root_resolved_some st hroot
  have hnr : names_fit root := (state_names_fit_iff st root hr).1 hn
  rw [state_lazy_walk_of_root st root ri _ hr hi]
  unfold newfs_path_dentry
  rw [hr]
  simp only
  by_cases hp : path = [47]
  · rw [if_pos hp, hp, path_tokens_root]
    refine ⟨hroot, hn, same_but_tree_refl st, ?_, fun e he => (by cases he)⟩
    intro d hd
    simp only [lazy_walk] at hd
    injection hd with hd
    rw [with_inode_self root ri hi] at hd
    subst hd
    refine ⟨[], rfl, ?_⟩
    unfold state_dentry
    rw [hr]
    rfl
  · rw [if_neg hp]
    rw [newfs_get_inode_from_dentry_resolved _ _ root ri hi]
    simp only
    have hn' : names_fit (root.with_inode ri) := by rw [with_inode_self root ri hi]; exact hnr
    obtain ⟨r1, ⟨i', r2⟩, r3, r4⟩ :=
      path_dentry_loop_lazy st.super st.dev (path_tokens path) root ri hn'
    rcases hrec : path_dentry_loop st.super st.dev (path_tokens path) root ri with ⟨r, root'⟩
    rw [hrec] at r1 r2 r3 r4
    simp only at r1 r2 r3 r4 ⊢
    refine ⟨?_, ?_, same_but_tree_root st _, r3, r4⟩
    · rw [r2]
      rfl
    · exact (state_names_fit_iff _ root' rfl).2 r1

theorem except_map_error {α β : Type} (f : α → β) (x : Except Errno α) (e : Errno)
    (h : x.map f = .error e) : x = .error e := by
  cases x with
  | error e2 =>
    injection h with h
    rw [h]
  | ok a => cases h

/-- C23. For every state whose root dentry has its inode (every mounted state) and
whose names fit the name field, whatever part of the tree is in memory and whatever
part is still on the device, and for every path: `newfs_path_dentry(path)` returns a
pointer to the dentry reached from the root by taking, for each `/`-separated segment
of the path in order, among the children of the current directory (loaded from the
device when they are not yet in memory) the first whose name is exactly the segment,
with the inode it owns or the one read for it; it returns `-ENOENT` at the first
segment that has no such child, and otherwise fails only with `-EINVAL`, when the
inode of a child cannot be read.  The call changes nothing but the tree, which keeps
a resolved root and names that fit, and for the path `/` it returns the root and
changes nothing at all. -/
theorem path_resolution (st : newfs) (path : List Nat)
    (hroot : root_resolved st = true) (hn : state_names_fit st = true) :
    root_resolved (newfs_path_dentry st path).2 = true ∧
    state_names_fit (newfs_path_dentry st path).2 = true ∧
    same_but_tree st (newfs_path_dentry st path).2 ∧
    (∀ d, state_lazy_walk st (path_tokens path) = .ok d →
      ∃ ptr, (newfs_path_dentry st path).1 = .ok ptr ∧
        state_dentry (newfs_path_dentry st path).2 ptr = some d) ∧
    (∀ e, state_lazy_walk st (path_tokens path) = .error e →
      (newfs_path_dentry st path).1 = .error e) ∧
    (∀ e, (newfs_path_dentry st path).1 = .error e → e = .ENOENT ∨ e = .EINVAL) ∧
    newfs_path_dentry st [47] = (.ok [], st) := by
  obtain ⟨a1, a2, a3, a4, a5⟩ := newfs_path_dentry_lazy st path hroot hn
  refine ⟨a1, a2, a3, a4, a5, ?_, ?_⟩
  · intro e he
    obtain ⟨root, ri, hr, hi⟩ := root_resolved_some st hroot
    cases hw : state_lazy_walk st (path_tokens path) with
    | error e2 =>
      rw [a5 e2 hw] at he
      injection he with he
      subst he
      rw [state_lazy_walk_of_root st root ri _ hr hi] at hw
      exact lazy_walk_error _ _ _ _ _ _ hw
    | ok d =>
      obtain ⟨ptr, hp, _⟩ := a4 d hw
      rw [hp] at he
      cases he
  · obtain ⟨root, ri, hr, hi⟩ := root_resolved_some st hroot
    unfold newfs_path_dentry
    rw [hr]
    simp only
    rw [if_pos trivial]

/-- Witness of C23 on the volume with the tree `/` with `d` with `f`, unmounted and
mounted again, so that only the root and its entries are in memory: `/d/f` resolves
to the entry the walk reaches, which is `f` with inode number 2, through the children
of `d` that the call loads, and `/d/missing` gives `ENOENT`. -/
theorem path_resolution_witness :
    (mount_is_init hdr (newfs_umount vol64_d_f) = false ∧
      root_resolved vol64_d_f_again = true ∧ state_names_fit vol64_d_f_again = true ∧
      state_walk vol64_d_f_again (path_tokens path_d_f) = none) ∧
    (∀ d, state_lazy_walk vol64_d_f_again (path_tokens path_d_f) = .ok d →
      ∃ ptr, (newfs_path_dentry vol64_d_f_again path_d_f).1 = .ok ptr ∧
        state_dentry (newfs_path_dentry vol64_d_f_again path_d_f).2 ptr = some d) ∧
    (state_lazy_walk vol64_d_f_again (path_tokens path_d_f)).map entry_view
      = .ok ([102], 2, 0o100777) ∧
    (newfs_path_dentry vol64_d_f_again path_d_f).1 = .ok [0, 0] ∧
    (newfs_path_dentry vol64_d_f_again [47, 100, 47, 109, 105, 115, 115, 105, 110, 103]).1
      = .error .ENOENT :=
  ⟨⟨by decide!, by decide!, by decide!, Option.isNone_iff_eq_none.1 (by decide!)⟩,
    (path_resolution vol64_d_f_again path_d_f (by decide!) (by decide!)).2.2.2.1,
    by decide!, by decide!,
    (path_resolution vol64_d_f_again [47, 100, 47, 109, 105, 115, 115, 105, 110, 103]
      (by decide!) (by decide!)).2.2.2.2.1 .ENOENT
      (except_map_error entry_view _ _ (by decide!))⟩

/-! ## The tree pointer of `super` plays no part in a load -/

theorem load_loop_root (s : newfs_super) (r : Option newfs_dentry) (dev : ddriver) (n : Nat)
    (dir : newfs_inode) :
    load_loop { s with root_dentry := r } dev n dir = load_loop s dev n dir := by
  induction n with
  | zero => rfl
  | succ n ih =>
    simp only [load_loop]
    rw [ih]
    rfl

theorem newfs_load_dir_children_root (s : newfs_super) (r : Option newfs_dentry) (dev : ddriver)
    (dir : newfs_inode) :
    newfs_load_dir_children { s with root_dentry := r } dev dir
      = newfs_load_dir_children s dev dir := by
  unfold newfs_load_dir_children
  simp only [load_loop_root]

theorem newfs_get_inode_from_dentry_root (s : newfs_super) (r : Option newfs_dentry)
    (dev : ddriver) (d : newfs_dentry) :
    newfs_get_inode_from_dentry { s with root_dentry := r } dev d
      = newfs_get_inode_from_dentry s dev d := by
  unfold newfs_get_inode_from_dentry
  simp only [newfs_load_dir_children_root]
  rfl

theorem lazy_walk_root (s : newfs_super) (r : Option newfs_dentry) (dev : ddriver)
    (toks : List (List Nat)) : ∀ (cur : newfs_dentry) (i : newfs_inode),
    lazy_walk { s with root_dentry := r } dev toks cur i = lazy_walk s dev toks cur i := by
  induction toks with
  | nil => exact fun _ _ => rfl
  | cons t rest ih =>
    intro cur i
    rw [lazy_walk_cons, lazy_walk_cons]
    unfold loaded_children
    rw [newfs_load_dir_children_root]
    simp only [newfs_get_inode_from_dentry_root, ih]

/-! ## Directory listing, children loaded or not -/

theorem lazy_listing_some (st : newfs) (segs : List (List Nat)) (names : List (List Nat))
    (h : lazy_listing st segs = some names) :
    ∃ d i, state_lazy_walk st segs = .ok d ∧ d.inode = some i ∧ S_ISDIR i.mode = true ∧
      names = (loaded_children st.super st.dev i).map newfs_dentry.name := by
  unfold lazy_listing at h
  cases hw : state_lazy_walk st segs with
  | error e =>
    rw [hw] at h
    cases h
  | ok d =>
    rw [hw] at h
    simp only at h
    cases hi : d.inode with
    | none =>
      rw [hi] at h
      cases h
    | some i =>
      rw [hi] at h
      simp only [Option.some_bind] at h
      by_cases hd : S_ISDIR i.mode = true
      · rw [if_pos hd] at h
        injection h with h
        exact ⟨d, i, rfl, hi, hd, h.symm⟩
      · rw [if_neg hd] at h
        cases h

theorem same_but_tree_load (st st1 : newfs) (h : same_but_tree st st1) (i : newfs_inode) :
    newfs_load_dir_children st1.super st1.dev i = newfs_load_dir_children st.super st.dev i := by
  obtain ⟨hd, hs⟩ := h
  rw [hs, hd]
  exact newfs_load_dir_children_root _ _ _ _

/-- C27. For every state whose root dentry has its inode (every mounted state) and
whose names fit the name field, whatever part of the tree is in memory and whatever
part is still on the device, for a path that resolves to a directory, whose children
(loaded from the device when they are not yet in memory) have the names `names` in
sibling order, head first, and for an offset `k` below `2^32`:
`newfs_readdir(path, offset = k)` returns 0 and calls `filler` once for each name at a
position `≥ k` of the list, in the order of the list, with that name and the position
plus one, and with nothing else (no `.`, no `..`): for `k = 0` the names emitted are
exactly `names`.  The sibling order is most recently inserted first: a successful
`newfs_add_dentry` into a loaded directory puts the new name at the head of the list. -/
theorem readdir_lists_children (st : newfs) (path : List Nat) (k : Nat) (names : List (List Nat))
    (hroot : root_resolved st = true) (hn : state_names_fit st = true)
    (hl : lazy_listing st (path_tokens path) = some names)
    (hlen : names.length < 4294967296) (hk : k < 4294967296) :
    (newfs_readdir st path (k : Int)).1
      = .ok ((names.zip ((List.range names.length).map (fun j => j + 1))).drop k) ∧
    ((names.zip ((List.range names.length).map (fun j => j + 1))).drop k).map Prod.fst
      = names.drop k ∧
    (k = 0 → ∃ out, (newfs_readdir st path 0).1 = .ok out ∧ out.map Prod.fst = names) ∧
    (∀ (st2 : newfs) (dir : newfs_inode) (name : List Nat) (ino mode : Nat) (ci : newfs_inode),
      S_ISDIR dir.mode = true → dir.children_loaded = true →
      (newfs_add_dentry st2 dir name ino mode (some ci)).1 = .ok () →
      (newfs_add_dentry st2 dir name ino mode (some ci)).2.1.first_child.map newfs_dentry.name
        = name.take (MAX_NAME_LEN - 1) :: dir.first_child.map newfs_dentry.name) := by
  have hfst : ((names.zip ((List.range names.length).map (fun j => j + 1))).drop k).map Prod.fst
      = names.drop k := by
    rw [List.map_drop, List.map_fst_zip]
    rw [List.length_map, List.length_range]
  have hmain : (newfs_readdir st path (k : Int)).1
      = .ok ((names.zip ((List.range names.length).map (fun j => j + 1))).drop k) := by
    obtain ⟨d, i, hw, hi, hdir, hnames⟩ := lazy_listing_some st _ names hl
    obtain ⟨_, _, hsame, w1, _⟩ := newfs_path_dentry_lazy st path hroot hn
    obtain ⟨ptr, e1, e2⟩ := w1 d hw
    unfold newfs_readdir
    rcases hres : newfs_path_dentry st path with ⟨r, st1⟩
    rw [hres] at e1 e2 hsame
    simp only at e1 e2 hsame
    subst e1
    simp only
    rw [e2]
    simp only
    rw [newfs_get_inode_from_dentry_resolved _ _ d i hi]
    simp only
    rw [if_neg (by rw [hdir]; simp)]
    simp only
    rw [same_but_tree_load st st1 hsame i]
    unfold loaded_children at hnames
    have hkk : ((k : Int) % 4294967296).toNat = k := by omega
    have hlen' : 0 + (newfs_load_dir_children st.super st.dev i).2.first_child.length
        < 4294967296 := by
      rw [hnames, List.length_map] at hlen
      omega
    rw [hkk, readdir_fill_spec k _ 0 hlen', hnames, List.length_map, Nat.sub_zero]
    simp only [Nat.zero_add]
  refine ⟨hmain, hfst, ?_, ?_⟩
  · intro h0
    subst h0
    exact ⟨_, hmain, by rw [hfst, List.drop_zero]⟩
  · intro st2 dir name ino mode ci hd hl2 he
    rw [(newfs_add_dentry_children st2 dir name ino mode ci hd hl2).1 he, List.map_cons]
    rfl

/-- Witness of C27.  On the volume with the tree `/` with `d` with `f`, unmounted and
mounted again, the children of `d` are still on the device: the listing of `/d` loads
them and is exactly `f`.  In the session that made the tree the listing is the same. -/
theorem readdir_lists_children_witness :
    (root_resolved vol64_d_f_again = true ∧ state_names_fit vol64_d_f_again = true ∧
      lazy_listing vol64_d_f_again (path_tokens path_d) = some [[102]] ∧
      state_listing vol64_d_f_again (path_tokens path_d) = none) ∧
    (newfs_readdir vol64_d_f_again path_d 0).1 = .ok [([102], 1)] ∧
    (∃ out, (newfs_readdir vol64_d_f_again path_d 0).1 = .ok out ∧ out.map Prod.fst = [[102]]) ∧
    (newfs_readdir vol64_d_f path_d 0).1 = .ok [([102], 1)] :=
  ⟨⟨by decide!, by decide!, by decide!, by decide!⟩,
    (readdir_lists_children vol64_d_f_again path_d 0 [[102]] (by decide!) (by decide!)
      (by decide!) (by decide) (by decide)).1,
    (readdir_lists_children vol64_d_f_again path_d 0 [[102]] (by decide!) (by decide!)
      (by decide!) (by decide) (by decide)).2.2.1 rfl,
    (readdir_lists_children vol64_d_f path_d 0 [[102]] (by decide!) (by decide!)
      (by decide!) (by decide) (by decide)).1⟩

/-! ## The walk over the tree a resolution leaves -/

theorem find_exact_set (ci1 : newfs_inode) (t : List Nat) (child y : newfs_dentry)
    (hnames : ∀ c, c ∈ ci1.first_child → c.name.length < MAX_NAME_LEN)
    (hfind : newfs_find_child_dentry ci1 t = some child) (hy : y.name = child.name) :
    (ci1.first_child.set (find_child_pos ci1 t) y).find? (fun c => c.name == t) = some y := by
  have hchild : strncmp_eq child.name t MAX_NAME_LEN = true := by
    have := List.find?_some hfind
    exact this
  have hfind' : ci1.first_child.find? (fun iter => strncmp_eq iter.name t MAX_NAME_LEN)
      = some child := hfind
  have hset := find?_set_findIdx (fun iter => strncmp_eq iter.name t MAX_NAME_LEN)
    ci1.first_child child y hfind' (by
      show strncmp_eq y.name t MAX_NAME_LEN = true
      rw [hy]
      exact hchild)
  have hk := find_child_get ci1 t child hfind
  have hex := find_child_exact
    { ci1 with first_child := ci1.first_child.set (find_child_pos ci1 t) y } t (by
      intro c hc
      rcases mem_set_cases _ _ _ _ hc with h1 | h1
      · exact hnames c h1
      · rw [h1, hy]
        exact hnames child (get?_mem _ _ _ hk))
  rw [← hex]
  exact hset

/-- After the loop of `newfs_path_dentry` has returned a pointer, the walk with lazy
loading over the tree it leaves, with the dentry at the pointer given the inode `vi`,
reaches that dentry. -/
theorem path_dentry_loop_relazy (s : newfs_super) (dev : ddriver) (toks : List (List Nat)) :
    ∀ (cur : newfs_dentry) (ci : newfs_inode), names_fit (cur.with_inode ci) →
    ∀ (p : List Nat) (d : newfs_dentry) (vi : newfs_inode),
      (path_dentry_loop s dev toks cur ci).1 = .ok p →
      dentry_at (path_dentry_loop s dev toks cur ci).2 p = some d →
      ∃ ci2, dentry_set (path_dentry_loop s dev toks cur ci).2 p (d.with_inode vi)
          = cur.with_inode ci2 ∧
        lazy_walk s dev toks cur ci2 = .ok (d.with_inode vi) := by
  induction toks with
  | nil =>
    intro cur ci _ p d vi hp hd
    simp only [path_dentry_loop] at hp hd ⊢
    injection hp with hp
    subst hp
    simp only [dentry_at, Option.some.injEq] at hd
    subst hd
    exact ⟨vi, rfl, rfl⟩
  | cons t rest ih =>
    intro cur ci hn p d vi hp hd
    have hn1 := names_fit_loaded s dev cur ci hn
    have hagain := loaded_children_again s dev ci
    rw [path_dentry_loop_cons] at hp hd ⊢
    generalize (newfs_load_dir_children s dev ci).2 = ci1 at hn1 hagain hp hd ⊢
    have hnames : ∀ c, c ∈ ci1.first_child → c.name.length < MAX_NAME_LEN := fun c hc =>
      names_fit_name c (((names_fit_with_inode cur ci1).1 hn1).2 c hc)
    cases hfind : newfs_find_child_dentry ci1 t with
    | none =>
      rw [hfind] at hp
      cases hp
    | some child =>
      rw [hfind] at hp hd
      simp only at hp hd ⊢
      have hk := find_child_get ci1 t child hfind
      have hmem := get?_mem _ _ _ hk
      have hnc : names_fit child := ((names_fit_with_inode cur ci1).1 hn1).2 child hmem
      rcases hg : newfs_get_inode_from_dentry s dev child with ⟨r, child'⟩
      rw [hg] at hp hd
      cases r with
      | error e => cases hp
      | ok chi =>
        simp only at hp hd ⊢
        obtain ⟨hc', hnr⟩ := names_fit_resolved s dev child chi child' hnc hg
        subst hc'
        have ih2 := ih (child.with_inode chi) chi hnr
        rcases hrec : path_dentry_loop s dev rest (child.with_inode chi) chi with ⟨r, child''⟩
        rw [hrec] at hp hd ih2
        simp only at hp hd ih2 ⊢
        cases r with
        | error e => cases hp
        | ok p' =>
          injection hp with hp
          subst hp
          rw [dentry_at_cons_eq _ _ p' _ child'' (with_inode_inode _ _)
            (get?_set_self _ _ _ _ hk)] at hd
          obtain ⟨ci2', s1, s2⟩ := ih2 p' d vi rfl hd
          refine ⟨{ ci1 with
            first_child := ci1.first_child.set (find_child_pos ci1 t)
              ((child.with_inode chi).with_inode ci2') }, ?_, ?_⟩
          · rw [dentry_set_cons _ _ p' _ _ child'' (with_inode_inode _ _)
              (get?_set_self _ _ _ _ hk), s1]
            simp only [List.set_set]
            rfl
          · rw [lazy_walk_cons, hagain]
            rw [find_exact_set ci1 t child ((child.with_inode chi).with_inode ci2') hnames hfind
              rfl]
            simp only
            rw [newfs_get_inode_from_dentry_resolved s dev _ ci2' (with_inode_inode _ _)]
            simp only
            rw [lazy_walk_cur]
            exact s2

/-! ## The lookup of a creation, children loaded or not -/

/-- The function `newfs_get_parent_dentry` on any state whose root dentry has its inode
and whose names fit, for a path whose segments are `pre` followed by `leaf`: it
returns the dentry that the walk with lazy loading over `pre` reaches, with the first
`MAX_NAME_LEN - 1` characters of `leaf`, and the error of that walk when it reaches
none. -/
theorem newfs_get_parent_dentry_lazy (st : newfs) (path : List Nat)
    (hroot : root_resolved st = true) (hn : state_names_fit st = true)
    (pre : List (List Nat)) (leaf : List Nat) (htok : path_tokens path = pre ++ [leaf]) :
    (∀ d, state_lazy_walk st pre = .ok d → ∃ ptr root1,
      newfs_get_parent_dentry st path
        = (.ok (ptr, d, leaf.take (MAX_NAME_LEN - 1)),
            { st with super := { st.super with root_dentry := some root1 } }) ∧
      dentry_at root1 ptr = some d ∧
      ∀ vi : newfs_inode, ∃ root0 ci2, st.super.root_dentry = some root0 ∧
        dentry_set root1 ptr (d.with_inode vi) = root0.with_inode ci2 ∧
        lazy_walk st.super st.dev pre root0 ci2 = .ok (d.with_inode vi)) ∧
    (∀ e, state_lazy_walk st pre = .error e →
      (newfs_get_parent_dentry st path).1 = .error e) := by
  obtain ⟨root, ri, hr, hi⟩ := root_resolved_some st hroot
  have hnr : names_fit root := (state_names_fit_iff st root hr).1 hn
  have hp : path ≠ [47] := by
    intro hp
    rw [hp, path_tokens_root] at htok
    exact List.cons_ne_nil _ _ (List.append_eq_nil.1 htok.symm).2
  rw [state_lazy_walk_of_root st root ri _ hr hi]
  unfold newfs_get_parent_dentry
  rw [if_neg hp, hr]
  simp only
  rw [newfs_get_inode_from_dentry_resolved _ _ root ri hi]
  simp only
  have hn' : names_fit (root.with_inode ri) := by rw [with_inode_self root ri hi]; exact hnr
  rw [htok]
  obtain ⟨_, _, w3, w4⟩ := path_dentry_loop_lazy st.super st.dev pre root ri hn'
  have w5 := path_dentry_loop_relazy st.super st.dev pre root ri hn'
  obtain ⟨p1, p2⟩ := parent_loop_path_loop st.super st.dev leaf pre root ri
  constructor
  · intro d hd
    obtain ⟨p, e1, e2⟩ := w3 d hd
    obtain ⟨pd, a1, a2⟩ := p2 p e1
    have epd : pd = d := by
      rw [e2] at a1
      injection a1 with a1
      exact a1.symm
    subst epd
    rw [a2]
    refine ⟨p, _, rfl, a1, fun vi => ?_⟩
    obtain ⟨ci2, s1, s2⟩ := w5 p pd vi e1 e2
    exact ⟨root, ci2, rfl, s1, s2⟩
  · intro e he
    rw [p1 e (w4 e he)]

theorem strncmp_eq_refl (a : List Nat) (n : Nat) : strncmp_eq a a n = true := by
  unfold strncmp_eq
  exact beq_self_eq_true _

/-- The lookup of `newfs_mkdir` / `newfs_mknod` on any state whose root dentry has its
inode and whose names fit, for a path whose segments are `pre` followed by `leaf`: the
error of the walk with lazy loading over `pre` when it reaches nothing; `ENOTDIR` when
it reaches an entry whose inode is not a directory; `EEXIST` when it reaches a
directory one of whose children, once loaded, is named as the first
`MAX_NAME_LEN - 1` characters of `leaf`, and then the directory keeps its children. -/
theorem create_lookup_lazy (st : newfs) (path : List Nat)
    (hroot : root_resolved st = true) (hn : state_names_fit st = true)
    (pre : List (List Nat)) (leaf : List Nat) (htok : path_tokens path = pre ++ [leaf]) :
    (∀ e, state_lazy_walk st pre = .error e → (create_lookup st path).1 = .error e) ∧
    (∀ d i, state_lazy_walk st pre = .ok d → d.inode = some i →
      (S_ISDIR i.mode = false → (create_lookup st path).1 = .error .ENOTDIR) ∧
      (S_ISDIR i.mode = true →
        leaf.take (MAX_NAME_LEN - 1) ∈ (loaded_children st.super st.dev i).map newfs_dentry.name →
        (create_lookup st path).1 = .error .EEXIST ∧
        lazy_listing (create_lookup st path).2 pre
          = some ((loaded_children st.super st.dev i).map newfs_dentry.name))) := by
  obtain ⟨g1, g2⟩ := newfs_get_parent_dentry_lazy st path hroot hn pre leaf htok
  constructor
  · intro e he
    have h1 := g2 e he
    unfold create_lookup
    rcases hres : newfs_get_parent_dentry st path with ⟨r, st1⟩
    rw [hres] at h1
    simp only at h1
    subst h1
    rfl
  · intro d i hd hi
    obtain ⟨ptr, root1, e1, e2, e3⟩ := g1 d hd
    unfold create_lookup
    rw [e1]
    simp only
    rw [newfs_get_inode_from_dentry_resolved _ _ d i hi]
    simp only
    constructor
    · intro hf
      rw [hf]
      rfl
    · intro hdir hdup
      rw [hdir]
      simp only [Bool.not_true, Bool.false_eq_true, if_false]
      rw [newfs_load_dir_children_root]
      have hfind : (newfs_find_child_dentry (newfs_load_dir_children st.super st.dev i).2
          (leaf.take (MAX_NAME_LEN - 1))).isSome = true := by
        unfold newfs_find_child_dentry
        rw [List.find?_isSome]
        obtain ⟨c, hc, hcn⟩ := List.mem_map.1 hdup
        exact ⟨c, hc, by rw [hcn]; exact strncmp_eq_refl _ _⟩
      rw [hfind]
      simp only [if_true]
      refine ⟨trivial, ?_⟩
      obtain ⟨root0, ci2, s0, s1, s2⟩ := e3 (newfs_load_dir_children st.super st.dev i).2
      unfold lazy_listing state_lazy_walk put_parent
      simp only [Option.map_some']
      rw [s1, newfs_get_inode_from_dentry_root,
        newfs_get_inode_from_dentry_resolved _ _ _ ci2 (with_inode_inode _ _)]
      simp only
      rw [lazy_walk_root, lazy_walk_cur, s2]
      simp only [with_inode_inode, Option.some_bind]
      rw [newfs_load_dir_children_mode, if_pos hdir]
      have hag := loaded_children_again st.super st.dev i
        (newfs_load_dir_children st.super st.dev i).2.first_child
      unfold loaded_children at hag ⊢
      rw [newfs_load_dir_children_root, hag]

/-! ## Duplicate creation, children loaded or not -/

theorem newfs_create_dup_lazy (h : newfs_h) (ifmt : Nat) (st : newfs) (path : List Nat)
    (pre : List (List Nat)) (leaf : List Nat) (names : List (List Nat))
    (hroot : root_resolved st = true) (hn : state_names_fit st = true)
    (htok : path_tokens path = pre ++ [leaf])
    (hl : lazy_listing st pre = some names) (hdup : leaf.take (MAX_NAME_LEN - 1) ∈ names) :
    (newfs_create h ifmt st path).1 = .error .EEXIST ∧
    (newfs_create h ifmt st path).2.dev = st.dev ∧
    (newfs_create h ifmt st path).2.super.inode_map = st.super.inode_map ∧
    (newfs_create h ifmt st path).2.super.data_map = st.super.data_map ∧
    lazy_listing (newfs_create h ifmt st path).2 pre = some names := by
  obtain ⟨d, i, hw, hi, hdir, hnames⟩ := lazy_listing_some st pre names hl
  obtain ⟨k3, k4⟩ := ((create_lookup_lazy st path hroot hn pre leaf htok).2 d i hw hi).2 hdir
    (by rw [← hnames]; exact hdup)
  obtain ⟨r1, r2, r3, r4, r5⟩ := newfs_create_refused h ifmt st path _ k3
  refine ⟨r1, r3, r4, r5, ?_⟩
  rw [r2, k4, hnames]

/-- C34. Duplicate creation is rejected without side effects: for every state whose
root dentry has its inode (every mounted state) and whose names fit the name field,
whatever part of the tree is in memory and whatever part is still on the device, and
for a path whose segments before the last lead to a directory one of whose children
(loaded from the device when they are not yet in memory) is named as the first 127
characters of the last segment, `newfs_mkdir` and `newfs_mknod` return `-EEXIST` and
leave the device, both bitmaps (so no inode is allocated) and the child list of that
directory as they were; and for the path `/` they return `-EEXIST` and leave the
whole state as it was. -/
theorem duplicate_create_rejected (h : newfs_h) (st : newfs) (path : List Nat)
    (pre : List (List Nat)) (leaf : List Nat) (names : List (List Nat))
    (hroot : root_resolved st = true) (hn : state_names_fit st = true)
    (htok : path_tokens path = pre ++ [leaf])
    (hl : lazy_listing st pre = some names) (hdup : leaf.take (MAX_NAME_LEN - 1) ∈ names) :
    ((newfs_mkdir h st path).1 = .error .EEXIST ∧
      (newfs_mkdir h st path).2.dev = st.dev ∧
      (newfs_mkdir h st path).2.super.inode_map = st.super.inode_map ∧
      (newfs_mkdir h st path).2.super.data_map = st.super.data_map ∧
      lazy_listing (newfs_mkdir h st path).2 pre = some names) ∧
    ((newfs_mknod h st path).1 = .error .EEXIST ∧
      (newfs_mknod h st path).2.dev = st.dev ∧
      (newfs_mknod h st path).2.super.inode_map = st.super.inode_map ∧
      (newfs_mknod h st path).2.super.data_map = st.super.data_map ∧
      lazy_listing (newfs_mknod h st path).2 pre = some names) ∧
    (∀ st0 : newfs, newfs_mkdir h st0 [47] = (.error .EEXIST, st0) ∧
      newfs_mknod h st0 [47] = (.error .EEXIST, st0)) :=
  ⟨newfs_create_dup_lazy h S_IFDIR st path pre leaf names hroot hn htok hl hdup,
    newfs_create_dup_lazy h S_IFREG st path pre leaf names hroot hn htok hl hdup,
    fun _ => ⟨rfl, rfl⟩⟩

/-- Witness of C34.  On the volume with the tree `/` with `d` with `f`, unmounted and
mounted again, the children of `d` are still on the device: `newfs_mkdir("/d/f")` and
`newfs_mknod("/d/f")` load them and return `-EEXIST`.  In the session that made the
tree they return the same. -/
theorem duplicate_create_rejected_witness :
    (root_resolved vol64_d_f_again = true ∧ state_names_fit vol64_d_f_again = true ∧
      path_tokens path_d_f = [[100]] ++ [[102]] ∧
      lazy_listing vol64_d_f_again [[100]] = some [[102]] ∧
      List.take (MAX_NAME_LEN - 1) [102] ∈ [[102]] ∧
      state_listing vol64_d_f_again [[100]] = none) ∧
    (newfs_mkdir hdr vol64_d_f_again path_d_f).1 = .error .EEXIST ∧
    (newfs_mknod hdr vol64_d_f_again path_d_f).1 = .error .EEXIST ∧
    (newfs_mknod hdr vol64_d_f path_d_f).1 = .error .EEXIST :=
  ⟨⟨by decide!, by decide!, by decide, by decide!, by decide, by decide!⟩,
    (duplicate_create_rejected hdr vol64_d_f_again path_d_f [[100]] [102] [[102]]
      (by decide!) (by decide!) (by decide) (by decide!) (by decide)).1.1,
    (duplicate_create_rejected hdr vol64_d_f_again path_d_f [[100]] [102] [[102]]
      (by decide!) (by decide!) (by decide) (by decide!) (by decide)).2.1.1,
    (duplicate_create_rejected hdr vol64_d_f path_d_f [[100]] [102] [[102]]
      (by decide!) (by decide!) (by decide) (by decide!) (by decide)).2.1.1⟩

/-! ## Traversal through a regular file, children loaded or not -/

theorem lazy_walk_append (s : newfs_super) (dev : ddriver) (pre post : List (List Nat)) :
    ∀ (cur : newfs_dentry) (i : newfs_inode),
    (∀ e, lazy_walk s dev pre cur i = .error e →
      lazy_walk s dev (pre ++ post) cur i = .error e) ∧
    (∀ d, lazy_walk s dev pre cur i = .ok d →
      ∃ dd di, d = dd.with_inode di ∧
        lazy_walk s dev (pre ++ post) cur i = lazy_walk s dev post dd di) := by
  induction pre with
  | nil =>
    intro cur i
    simp only [lazy_walk, List.nil_append]
    refine ⟨fun e he => (by cases he), fun d hd => ?_⟩
    injection hd with hd
    exact ⟨cur, i, hd.symm, rfl⟩
  | cons t rest ih =>
    intro cur i
    rw [List.cons_append, lazy_walk_cons, lazy_walk_cons]
    cases hfind : (loaded_children s dev i).find? (fun c => c.name == t) with
    | none =>
      simp only
      exact ⟨fun e he => he, fun d hd => (by cases hd)⟩
    | some c =>
      simp only
      rcases hg : newfs_get_inode_from_dentry s dev c with ⟨r, c'⟩
      cases r with
      | error e =>
        simp only
        exact ⟨fun e he => he, fun d hd => (by cases hd)⟩
      | ok ci =>
        simp only
        exact ih c' ci

theorem forest_fold_nil_iff {α : Type} (f : newfs_dentry → List α) (l : List newfs_dentry) :
    forest_fold f l = [] ↔ ∀ c, c ∈ l → tree_fold f c = [] := by
  induction l with
  | nil =>
    rw [forest_fold_nil]
    exact ⟨fun _ c hc => (by cases hc), fun _ => rfl⟩
  | cons a as ih =>
    rw [forest_fold_cons, List.append_eq_nil, ih]
    constructor
    · intro h c hc
      rcases List.mem_cons.1 hc with h1 | h1
      · rw [h1]
        exact h.1
      · exact h.2 c h1
    · intro h
      exact ⟨h a (List.mem_cons_self _ _), fun c hc => h c (List.mem_cons_of_mem _ hc)⟩

/-- No entry of the tree of `d.with_inode i` that is not a directory has children in
memory: `i` has none if it is not a directory, and the same holds below each child. -/
theorem file_kids_with_inode (d : newfs_dentry) (i : newfs_inode) :
    tree_fold own_file_kids (d.with_inode i) = [] ↔
      (S_ISDIR i.mode = false → i.first_child = []) ∧
      ∀ c, c ∈ i.first_child → tree_fold own_file_kids c = [] := by
  rw [tree_fold_with_inode, List.append_eq_nil, forest_fold_nil_iff]
  have hown : own_file_kids (d.with_inode i) = [] ↔ (S_ISDIR i.mode = false → i.first_child = []) := by
    unfold own_file_kids
    rw [with_inode_inode]
    simp only
    cases hm : S_ISDIR i.mode with
    | true =>
      simp
    | false =>
      simp only [Bool.false_eq_true, if_false, forall_const]
      constructor
      · intro h
        have := congrArg List.length h
        rw [List.length_replicate] at this
        exact List.length_eq_zero.1 this
      · intro h
        rw [h]
        rfl
  rw [hown]

theorem file_kids_bare (c : newfs_dentry) (h : c.inode = none) :
    tree_fold own_file_kids c = [] := by
  cases c with
  | mk n i m x =>
    simp only [newfs_dentry.inode] at h
    subst h
    rw [tree_fold]
    rfl

theorem file_kids_loaded (s : newfs_super) (dev : ddriver) (d : newfs_dentry) (i : newfs_inode)
    (h : tree_fold own_file_kids (d.with_inode i) = []) :
    tree_fold own_file_kids (d.with_inode (newfs_load_dir_children s dev i).2) = [] := by
  cases hm : S_ISDIR i.mode with
  | false =>
    rw [newfs_load_dir_children_file s dev i hm]
    exact h
  | true =>
    rw [file_kids_with_inode] at h ⊢
    rw [newfs_load_dir_children_mode, hm]
    refine ⟨fun hc => (by cases hc), fun c hc => ?_⟩
    rcases loaded_children_cases s dev i with h1 | h1
    · unfold loaded_children at h1
      rw [h1] at hc
      exact h.2 c hc
    · exact file_kids_bare c (h1 c hc).1

theorem file_kids_resolved (s : newfs_super) (dev : ddriver) (c : newfs_dentry) (ci : newfs_inode)
    (c' : newfs_dentry) (h : tree_fold own_file_kids c = [])
    (he : newfs_get_inode_from_dentry s dev c = (.ok ci, c')) :
    c' = c.with_inode ci ∧ tree_fold own_file_kids (c.with_inode ci) = [] := by
  rcases newfs_get_inode_from_dentry_cases s dev c with ⟨i, h1, h2⟩ | ⟨h1, h2 | ⟨i, h2, h3, h4⟩⟩
  · rw [h2] at he
    injection he with e1 e2
    injection e1 with e1
    subst e1
    subst e2
    rw [with_inode_self c i h1]
    exact ⟨rfl, h⟩
  · rw [h2] at he
    injection he with e1 e2
    cases e1
  · rw [h2] at he
    injection he with e1 e2
    injection e1 with e1
    subst e1
    subst e2
    refine ⟨rfl, ?_⟩
    rw [file_kids_with_inode]
    exact ⟨h4, fun k hk => file_kids_bare k (h3 k hk).1⟩

/-- The dentry that the walk with lazy loading reaches has, like the tree it starts
from, no children in memory below an entry that is not a directory. -/
theorem lazy_walk_file_kids (s : newfs_super) (dev : ddriver) (toks : List (List Nat)) :
    ∀ (cur : newfs_dentry) (i : newfs_inode),
    tree_fold own_file_kids (cur.with_inode i) = [] →
    ∀ d, lazy_walk s dev toks cur i = .ok d → tree_fold own_file_kids d = [] := by
  induction toks with
  | nil =>
    intro cur i hk d hd
    simp only [lazy_walk] at hd
    injection hd with hd
    rw [← hd]
    exact hk
  | cons t rest ih =>
    intro cur i hk d hd
    rw [lazy_walk_cons] at hd
    have hk1 := file_kids_loaded s dev cur i hk
    cases hfind : (loaded_children s dev i).find? (fun c => c.name == t) with
    | none =>
      rw [hfind] at hd
      cases hd
    | some c =>
      rw [hfind] at hd
      simp only at hd
      have hc : c ∈ (newfs_load_dir_children s dev i).2.first_child := List.mem_of_find?_eq_some hfind
      have hkc := ((file_kids_with_inode cur _).1 hk1).2 c hc
      rcases hg : newfs_get_inode_from_dentry s dev c with ⟨r, c'⟩
      rw [hg] at hd
      cases r with
      | error e => cases hd
      | ok ci =>
        simp only at hd
        obtain ⟨hc', hkr⟩ := file_kids_resolved s dev c ci c' hkc hg
        subst hc'
        exact ih (c.with_inode ci) ci hkr d hd

theorem lazy_is_file_some (st : newfs) (segs : List (List Nat))
    (h : lazy_is_file st segs = true) :
    ∃ d i, state_lazy_walk st segs = .ok d ∧ d.inode = some i ∧ S_ISDIR i.mode = false := by
  unfold lazy_is_file at h
  cases hw : state_lazy_walk st segs with
  | error e =>
    rw [hw] at h
    cases h
  | ok d =>
    rw [hw] at h
    simp only at h
    cases hi : d.inode with
    | none =>
      rw [hi] at h
      cases h
    | some i =>
      rw [hi] at h
      simp only at h
      refine ⟨d, i, rfl, hi, ?_⟩
      cases hm : S_ISDIR i.mode with
      | false => rfl
      | true =>
        rw [hm] at h
        cases h

/-- The walk with lazy loading does not go through an entry that is not a directory:
it gives `ENOENT` at the segment after it. -/
theorem state_lazy_walk_through_file (st : newfs) (pre : List (List Nat)) (seg : List Nat)
    (rest : List (List Nat)) (hroot : root_resolved st = true)
    (hleaf : state_file_kids st = []) (hfile : lazy_is_file st pre = true) :
    state_lazy_walk st (pre ++ seg :: rest) = .error .ENOENT := by
  obtain ⟨d, i, hw, hi, hreg⟩ := lazy_is_file_some st pre hfile
  obtain ⟨root, ri, hr, hri⟩ := root_resolved_some st hroot
  rw [state_lazy_walk_of_root st root ri _ hr hri] at hw ⊢
  have hk0 : tree_fold own_file_kids (root.with_inode ri) = [] := by
    rw [with_inode_self root ri hri]
    unfold state_file_kids at hleaf
    rw [state_fold_of_root own_file_kids st root hr] at hleaf
    exact hleaf
  have hkd := lazy_walk_file_kids st.super st.dev pre root ri hk0 d hw
  obtain ⟨dd, di, edd, happ⟩ := (lazy_walk_append st.super st.dev pre (seg :: rest) root ri).2 d hw
  have edi : di = i := by
    rw [edd, with_inode_inode] at hi
    injection hi
  subst edi
  rw [edd] at hkd
  have hnone : di.first_child = [] := ((file_kids_with_inode dd di).1 hkd).1 hreg
  rw [happ, lazy_walk_cons]
  unfold loaded_children
  rw [newfs_load_dir_children_file _ _ di hreg, hnone]
  rfl

/-- C35. Traversal through a non-directory: for every state whose root dentry has its
inode (every mounted state), whose names fit the name field and in which no entry that
is not a directory has children in memory, whatever part of the tree is in memory and
whatever part is still on the device, and for a path one of whose segments before the
last names (by the walk over the segments before it, children loaded from the device
when they are not yet in memory) an entry that is not a directory:
`newfs_path_dentry`, `newfs_getattr`, `newfs_readdir` and `newfs_access` return
`-ENOENT`, not `-ENOTDIR`; and when that entry is the immediate parent (the segment
after it is the last), `newfs_mkdir` and `newfs_mknod` return `-ENOTDIR` and leave the
device and both bitmaps as they were, so no inode is allocated. -/
theorem traversal_through_file (h : newfs_h) (st : newfs) (path : List Nat)
    (pre : List (List Nat)) (seg : List Nat) (rest : List (List Nat)) (offset type : Int)
    (hroot : root_resolved st = true) (hn : state_names_fit st = true)
    (hleaf : state_file_kids st = [])
    (htok : path_tokens path = pre ++ seg :: rest) (hfile : lazy_is_file st pre = true) :
    (newfs_path_dentry st path).1 = .error .ENOENT ∧
    (newfs_getattr st path).1 = .error .ENOENT ∧
    (newfs_readdir st path offset).1 = .error .ENOENT ∧
    (newfs_access st path type).1 = .error .ENOENT ∧
    (rest = [] →
      ((newfs_mkdir h st path).1 = .error .ENOTDIR ∧
        (newfs_mkdir h st path).2.dev = st.dev ∧
        (newfs_mkdir h st path).2.super.inode_map = st.super.inode_map ∧
        (newfs_mkdir h st path).2.super.data_map = st.super.data_map) ∧
      ((newfs_mknod h st path).1 = .error .ENOTDIR ∧
        (newfs_mknod h st path).2.dev = st.dev ∧
        (newfs_mknod h st path).2.super.inode_map = st.super.inode_map ∧
        (newfs_mknod h st path).2.super.data_map = st.super.data_map)) := by
  have hnone := state_lazy_walk_through_file st pre seg rest hroot hleaf hfile
  rw [← htok] at hnone
  have hpd := (newfs_path_dentry_lazy st path hroot hn).2.2.2.2 _ hnone
  refine ⟨hpd, newfs_getattr_error st path _ hpd, newfs_readdir_error st path offset _ hpd,
    newfs_access_error st path type _ hpd, ?_⟩
  intro hrest
  rw [hrest] at htok
  obtain ⟨d, i, hw, hi, hreg⟩ := lazy_is_file_some st pre hfile
  have hlk := ((create_lookup_lazy st path hroot hn pre seg htok).2 d i hw hi).1 hreg
  obtain ⟨a1, _, a3, a4, a5⟩ := newfs_create_refused h S_IFDIR st path _ hlk
  obtain ⟨b1, _, b3, b4, b5⟩ := newfs_create_refused h S_IFREG st path _ hlk
  exact ⟨⟨a1, a3, a4, a5⟩, ⟨b1, b3, b4, b5⟩⟩

/-- Witness of C35.  On the volume with the tree `/` with `d` with `f`, unmounted and
mounted again, the path `/d/f/x` goes through the regular file `f`, which is reached
through the children of `d` that the call loads from the device. -/
theorem traversal_through_file_witness :
    (root_resolved vol64_d_f_again = true ∧ state_names_fit vol64_d_f_again = true ∧
      state_file_kids vol64_d_f_again = [] ∧
      path_tokens [47, 100, 47, 102, 47, 120] = [[100], [102]] ++ [120] :: [] ∧
      lazy_is_file vol64_d_f_again [[100], [102]] = true ∧
      state_is_file vol64_d_f_again [[100], [102]] = false) ∧
    (newfs_path_dentry vol64_d_f_again [47, 100, 47, 102, 47, 120]).1 = .error .ENOENT ∧
    (newfs_mkdir hdr vol64_d_f_again [47, 100, 47, 102, 47, 120]).1 = .error .ENOTDIR ∧
    (newfs_path_dentry vol64_d_f [47, 100, 47, 102, 47, 120]).1 = .error .ENOENT :=
  have hw := traversal_through_file hdr vol64_d_f_again [47, 100, 47, 102, 47, 120]
    [[100], [102]] [120] [] 0 0 (by decide!) (by decide!) (by decide!) (by decide) (by decide!)
  ⟨⟨by decide!, by decide!, by decide!, by decide, by decide!, by decide!⟩, hw.1,
    (hw.2.2.2.2 rfl).1.1,
    (traversal_through_file hdr vol64_d_f [47, 100, 47, 102, 47, 120]
      [[100], [102]] [120] [] 0 0 (by decide!) (by decide!) (by decide!) (by decide)
      (by decide!)).1⟩

/-! ## The eighth creation in one directory -/

/-- After `newfs_prepare_root` has returned 0 the root dentry has its inode, its name
and the names of the children read for it fit the name field, and no entry that is
not a directory has children in memory. -/
theorem newfs_prepare_root_sound (h : newfs_h) (st : newfs)
    (hok : (newfs_prepare_root h st).1 = .ok ()) :
    root_resolved (newfs_prepare_root h st).2 = true ∧
    state_names_fit (newfs_prepare_root h st).2 = true ∧
    state_file_kids (newfs_prepare_root h st).2 = [] := by
  unfold newfs_prepare_root at hok ⊢
  simp only at hok ⊢
  rcases newfs_get_inode_from_dentry_cases st.super st.dev
    (newfs_dentry.mk [47] st.super.root_ino (u32 (S_IFDIR ||| h.NEWFS_DEFAULT_PERM)) none) with
    ⟨i, h1, _⟩ | ⟨_, h2 | ⟨i, h2, h3, h4⟩⟩
  · cases h1
  · rw [h2] at hok
    cases hok
  · rw [h2]
    simp only
    refine ⟨rfl, ?_, ?_⟩
    · rw [state_names_fit_iff _ _ rfl, names_fit_with_inode]
      refine ⟨?_, fun c hc => names_fit_bare c (h3 c hc).1 (h3 c hc).2⟩
      show [47].length < MAX_NAME_LEN
      decide
    · unfold state_file_kids
      rw [state_fold_of_root own_file_kids _ _ rfl, file_kids_with_inode]
      exact ⟨h4, fun c hc => file_kids_bare c (h3 c hc).1⟩

/-- After every `newfs_mount` that returns 0, whether it has formatted the device or
loaded what the device held: the root dentry has its inode, the names of the tree in
memory fit the name field, and no entry that is not a directory has children in
memory. -/
theorem newfs_mount_sound (h : newfs_h) (dev : ddriver)
    (hok : (newfs_mount h dev).1 = .ok ()) :
    root_resolved (newfs_mount h dev).2 = true ∧
    state_names_fit (newfs_mount h dev).2 = true ∧
    state_file_kids (newfs_mount h dev).2 = [] := by
  have key : ∀ r : Except Errno Unit × newfs, r = newfs_mount h dev →
      r.1 = .ok () →
      root_resolved r.2 = true ∧ state_names_fit r.2 = true ∧ state_file_kids r.2 = [] := by
    intro r hr
    unfold newfs_mount at hr
    dsimp only at hr
    split_ifs at hr with h1 h2
    · intro h3; rw [hr] at h3; cases h3
    · rw [hr]; exact newfs_prepare_root_sound h _
    · split at hr
      · rw [hr]; exact newfs_prepare_root_sound h _
      · rw [hr]; exact newfs_prepare_root_sound h _
  exact key _ rfl hok

theorem file_kids_set (d : newfs_dentry) (i : newfs_inode) (k : Nat) (x : newfs_dentry)
    (h : tree_fold own_file_kids (d.with_inode i) = []) (hx : tree_fold own_file_kids x = []) :
    tree_fold own_file_kids (d.with_inode { i with first_child := i.first_child.set k x })
      = [] := by
  rw [file_kids_with_inode] at h ⊢
  refine ⟨fun hm => ?_, fun c hc => ?_⟩
  · show i.first_child.set k x = []
    rw [h.1 hm]
    rfl
  · rcases mem_set_cases _ _ _ _ hc with h1 | h1
    · exact h.2 c h1
    · rw [h1]
      exact hx

/-- The loop of `newfs_path_dentry` gives no children to an entry that is not a
directory. -/
theorem path_dentry_loop_file_kids (s : newfs_super) (dev : ddriver) (toks : List (List Nat)) :
    ∀ (cur : newfs_dentry) (ci : newfs_inode),
    tree_fold own_file_kids (cur.with_inode ci) = [] →
    tree_fold own_file_kids (path_dentry_loop s dev toks cur ci).2 = [] := by
  induction toks with
  | nil =>
    intro cur ci hk
    simp only [path_dentry_loop]
    exact hk
  | cons t rest ih =>
    intro cur ci hk
    have hk1 := file_kids_loaded s dev cur ci hk
    rw [path_dentry_loop_cons]
    generalize (newfs_load_dir_children s dev ci).2 = ci1 at hk1 ⊢
    cases hfind : newfs_find_child_dentry ci1 t with
    | none =>
      simp only
      exact hk1
    | some child =>
      simp only
      have hkk := find_child_get ci1 t child hfind
      have hmem := get?_mem _ _ _ hkk
      have hkc := ((file_kids_with_inode cur ci1).1 hk1).2 child hmem
      rcases hg : newfs_get_inode_from_dentry s dev child with ⟨r, child'⟩
      cases r with
      | error e =>
        simp only
        have hc' : child' = child := by
          rcases newfs_get_inode_from_dentry_cases s dev child with
            ⟨i, _, h2⟩ | ⟨_, h2 | ⟨i, h2, _, _⟩⟩
          · rw [h2] at hg
            cases hg
          · rw [h2] at hg
            injection hg with _ e2
            exact e2.symm
          · rw [h2] at hg
            cases hg
        subst hc'
        exact file_kids_set cur ci1 _ child' hk1 hkc
      | ok chi =>
        simp only
        obtain ⟨hc', hkr⟩ := file_kids_resolved s dev child chi child' hkc hg
        subst hc'
        have r1 := ih (child.with_inode chi) chi hkr
        rcases hrec : path_dentry_loop s dev rest (child.with_inode chi) chi with ⟨r, child''⟩
        rw [hrec] at r1
        exact file_kids_set cur ci1 _ child'' hk1 r1

/-- The function `newfs_path_dentry` keeps what every mount gives: a root dentry with
its inode, names that fit, and no children in memory below an entry that is not a
directory. -/
theorem newfs_path_dentry_sound (st : newfs) (path : List Nat)
    (hroot : root_resolved st = true) (hn : state_names_fit st = true)
    (hleaf : state_file_kids st = []) :
    root_resolved (newfs_path_dentry st path).2 = true ∧
    state_names_fit (newfs_path_dentry st path).2 = true ∧
    state_file_kids (newfs_path_dentry st path).2 = [] := by
  obtain ⟨a1, a2, _⟩ := newfs_path_dentry_lazy st path hroot hn
  refine ⟨a1, a2, ?_⟩
  obtain ⟨root, ri, hr, hi⟩ := root_resolved_some st hroot
  unfold newfs_path_dentry
  rw [hr]
  simp only
  by_cases hp : path = [47]
  · rw [if_pos hp]
    exact hleaf
  · rw [if_neg hp, newfs_get_inode_from_dentry_resolved _ _ root ri hi]
    simp only
    have hk0 : tree_fold own_file_kids (root.with_inode ri) = [] := by
      rw [with_inode_self root ri hi]
      unfold state_file_kids at hleaf
      rw [state_fold_of_root own_file_kids st root hr] at hleaf
      exact hleaf
    have r1 := path_dentry_loop_file_kids st.super st.dev (path_tokens path) root ri hk0
    rcases hrec : path_dentry_loop st.super st.dev (path_tokens path) root ri with ⟨r, root'⟩
    rw [hrec] at r1
    simp only at r1 ⊢
    unfold state_file_kids
    rw [state_fold_of_root own_file_kids _ root' rfl]
    exact r1

/-! ## Every call keeps what a mount gives -/

theorem state_sound_iff (st : newfs) (root : newfs_dentry)
    (hr : st.super.root_dentry = some root) : state_sound st ↔ tree_sound root := by
  unfold state_sound tree_sound
  rw [state_names_fit_iff st root hr]
  unfold state_file_kids root_resolved
  rw [state_fold_of_root own_file_kids st root hr, hr]

theorem state_sound_root (st : newfs) (h : state_sound st) :
    ∃ root, st.super.root_dentry = some root ∧ tree_sound root := by
  obtain ⟨root, ri, hr, _⟩ := root_resolved_some st h.1
  exact ⟨root, hr, (state_sound_iff st root hr).1 h⟩

theorem state_sound_congr (st st' : newfs) (h : st'.super.root_dentry = st.super.root_dentry)
    (hs : state_sound st) : state_sound st' := by
  obtain ⟨root, hr, ht⟩ := state_sound_root st hs
  exact (state_sound_iff st' root (h.trans hr)).2 ht

theorem tree_sound_with_inode (d : newfs_dentry) (i : newfs_inode)
    (hn : names_fit (d.with_inode i)) (hk : tree_fold own_file_kids (d.with_inode i) = []) :
    tree_sound (d.with_inode i) := ⟨rfl, hn, hk⟩

theorem names_fit_dentry_set (p : List Nat) : ∀ (root v : newfs_dentry),
    names_fit root → names_fit v → names_fit (dentry_set root p v) := by
  induction p with
  | nil =>
    intro root v _ hv
    simp only [dentry_set]
    exact hv
  | cons k p ih =>
    intro root v hr hv
    cases hi : root.inode with
    | none =>
      simp only [dentry_set, hi]
      exact hr
    | some ci =>
      cases hc : ci.first_child.get? k with
      | none =>
        simp only [dentry_set, hi, hc]
        exact hr
      | some c =>
        rw [dentry_set_cons root k p v ci c hi hc]
        have hr' : names_fit (root.with_inode ci) := by rw [with_inode_self root ci hi]; exact hr
        exact names_fit_set root ci k _ hr'
          (ih c v (names_fit_child root ci c hi (get?_mem _ _ _ hc) hr) hv)

theorem file_kids_dentry_set (p : List Nat) : ∀ (root v : newfs_dentry),
    tree_fold own_file_kids root = [] → tree_fold own_file_kids v = [] →
    tree_fold own_file_kids (dentry_set root p v) = [] := by
  induction p with
  | nil =>
    intro root v _ hv
    simp only [dentry_set]
    exact hv
  | cons k p ih =>
    intro root v hr hv
    cases hi : root.inode with
    | none =>
      simp only [dentry_set, hi]
      exact hr
    | some ci =>
      cases hc : ci.first_child.get? k with
      | none =>
        simp only [dentry_set, hi, hc]
        exact hr
      | some c =>
        rw [dentry_set_cons root k p v ci c hi hc]
        have hr' : tree_fold own_file_kids (root.with_inode ci) = [] := by
          rw [with_inode_self root ci hi]
          exact hr
        exact file_kids_set root ci k _ hr'
          (ih c v (((file_kids_with_inode root ci).1 hr').2 c (get?_mem _ _ _ hc)) hv)

theorem resolved_dentry_set (p : List Nat) (root v : newfs_dentry)
    (hr : root.inode.isSome = true) (hv : v.inode.isSome = true) :
    (dentry_set root p v).inode.isSome = true := by
  cases p with
  | nil =>
    simp only [dentry_set]
    exact hv
  | cons k p =>
    cases hi : root.inode with
    | none =>
      rw [hi] at hr
      cases hr
    | some ci =>
      cases hc : ci.first_child.get? k with
      | none =>
        simp only [dentry_set, hi, hc]
        rfl
      | some c =>
        rw [dentry_set_cons root k p v ci c hi hc]
        rfl

theorem tree_sound_dentry_set (p : List Nat) (root v : newfs_dentry)
    (hr : tree_sound root) (hv : tree_sound v) : tree_sound (dentry_set root p v) :=
  ⟨resolved_dentry_set p root v hr.1 hv.1, names_fit_dentry_set p root v hr.2.1 hv.2.1,
    file_kids_dentry_set p root v hr.2.2 hv.2.2⟩

theorem put_parent_sound (st : newfs) (ptr : List Nat) (v : newfs_dentry)
    (hs : state_sound st) (hv : tree_sound v) : state_sound (put_parent st ptr v) := by
  obtain ⟨root, hr, ht⟩ := state_sound_root st hs
  have hr' : (put_parent st ptr v).super.root_dentry = some (dentry_set root ptr v) := by
    rw [put_parent_super]
    simp only [hr, Option.map_some']
  exact (state_sound_iff _ _ hr').2 (tree_sound_dentry_set ptr root v ht hv)

theorem file_kids_at (root : newfs_dentry) (ptr : List Nat) (d : newfs_dentry)
    (hk : tree_fold own_file_kids root = []) (h : dentry_at root ptr = some d) :
    tree_fold own_file_kids d = [] := by
  have := tree_fold_at own_file_kids root ptr d h
  rw [hk] at this
  exact List.eq_nil_of_sublist_nil this

/-- The dentry that `newfs_get_inode_from_dentry` leaves for a dentry of a sound tree
is sound. -/
theorem tree_sound_resolved (s : newfs_super) (dev : ddriver) (d : newfs_dentry) (i : newfs_inode)
    (d' : newfs_dentry) (hn : names_fit d) (hk : tree_fold own_file_kids d = [])
    (he : newfs_get_inode_from_dentry s dev d = (.ok i, d')) :
    d' = d.with_inode i ∧ tree_sound (d.with_inode i) := by
  obtain ⟨e1, n1⟩ := names_fit_resolved s dev d i d' hn he
  obtain ⟨_, k1⟩ := file_kids_resolved s dev d i d' hk he
  exact ⟨e1, rfl, n1, k1⟩

theorem tree_sound_loaded (s : newfs_super) (dev : ddriver) (d : newfs_dentry) (i : newfs_inode)
    (h : tree_sound (d.with_inode i)) :
    tree_sound (d.with_inode (newfs_load_dir_children s dev i).2) :=
  ⟨rfl, names_fit_loaded s dev d i h.2.1, file_kids_loaded s dev d i h.2.2⟩

theorem state_dentry_sound (st : newfs) (ptr : List Nat) (d : newfs_dentry)
    (hs : state_sound st) (h : state_dentry st ptr = some d) :
    names_fit d ∧ tree_fold own_file_kids d = [] := by
  obtain ⟨root, hr, ht⟩ := state_sound_root st hs
  rw [state_dentry_of_root st root ptr hr] at h
  exact ⟨names_fit_at root ptr d ht.2.1 h, file_kids_at root ptr d ht.2.2 h⟩

theorem newfs_path_dentry_state_sound (st : newfs) (path : List Nat) (hs : state_sound st) :
    state_sound (newfs_path_dentry st path).2 :=
  newfs_path_dentry_sound st path hs.1 hs.2.1 hs.2.2

theorem newfs_getattr_sound (st : newfs) (path : List Nat) (hs : state_sound st) :
    state_sound (newfs_getattr st path).2 := by
  have h1 := newfs_path_dentry_state_sound st path hs
  unfold newfs_getattr
  rcases hres : newfs_path_dentry st path with ⟨r, st1⟩
  rw [hres] at h1
  simp only at h1
  cases r with
  | error e => exact h1
  | ok ptr =>
    simp only
    cases hd : state_dentry st1 ptr with
    | none => exact h1
    | some d =>
      simp only
      obtain ⟨hn, hk⟩ := state_dentry_sound st1 ptr d h1 hd
      rcases hg : newfs_get_inode_from_dentry st1.super st1.dev d with ⟨r2, d'⟩
      cases r2 with
      | error e => exact h1
      | ok i =>
        simp only
        obtain ⟨e1, t1⟩ := tree_sound_resolved _ _ d i d' hn hk hg
        rw [e1]
        exact put_parent_sound st1 ptr _ h1 t1

theorem newfs_readdir_sound (st : newfs) (path : List Nat) (offset : Int) (hs : state_sound st) :
    state_sound (newfs_readdir st path offset).2 := by
  have h1 := newfs_path_dentry_state_sound st path hs
  unfold newfs_readdir
  rcases hres : newfs_path_dentry st path with ⟨r, st1⟩
  rw [hres] at h1
  simp only at h1
  cases r with
  | error e => exact h1
  | ok ptr =>
    simp only
    cases hd : state_dentry st1 ptr with
    | none => exact h1
    | some d =>
      simp only
      obtain ⟨hn, hk⟩ := state_dentry_sound st1 ptr d h1 hd
      rcases hg : newfs_get_inode_from_dentry st1.super st1.dev d with ⟨r2, d'⟩
      cases r2 with
      | error e => exact h1
      | ok i =>
        simp only
        obtain ⟨e1, t1⟩ := tree_sound_resolved _ _ d i d' hn hk hg
        subst e1
        split
        · exact put_parent_sound st1 ptr _ h1 t1
        · exact put_parent_sound st1 ptr _ h1 (tree_sound_loaded _ _ _ i t1)

theorem newfs_access_sound (st : newfs) (path : List Nat) (type : Int) (hs : state_sound st) :
    state_sound (newfs_access st path type).2 := by
  have h1 := newfs_path_dentry_state_sound st path hs
  have h2 : state_sound (newfs_path_resolve st path).2 := by
    unfold newfs_path_resolve
    rcases hres : newfs_path_dentry st path with ⟨r, st1⟩
    rw [hres] at h1
    simp only at h1
    cases r with
    | error e => exact h1
    | ok ptr =>
      simp only
      cases hd : state_dentry st1 ptr with
      | none => exact h1
      | some d =>
        simp only
        obtain ⟨hn, hk⟩ := state_dentry_sound st1 ptr d h1 hd
        rcases hg : newfs_get_inode_from_dentry st1.super st1.dev d with ⟨r2, d'⟩
        cases r2 with
        | error e => exact h1
        | ok i =>
          simp only
          obtain ⟨e1, t1⟩ := tree_sound_resolved _ _ d i d' hn hk hg
          rw [e1]
          exact put_parent_sound st1 ptr _ h1 t1
  unfold newfs_access
  rcases hres : newfs_path_resolve st path with ⟨r, st1⟩
  rw [hres] at h2
  simp only at h2
  cases r with
  | error e => exact h2
  | ok u => exact h2

/-! ## A creation keeps what a mount gives -/

/-- The pointer that the loop of `newfs_path_dentry` returns designates a dentry that
has its inode. -/
theorem path_dentry_loop_resolved (s : newfs_super) (dev : ddriver) (toks : List (List Nat))
    (cur : newfs_dentry) (ci : newfs_inode) (hn : names_fit (cur.with_inode ci)) (p : List Nat)
    (hp : (path_dentry_loop s dev toks cur ci).1 = .ok p) :
    ∃ (dd : newfs_dentry) (di : newfs_inode),
      dentry_at (path_dentry_loop s dev toks cur ci).2 p = some (dd.with_inode di) := by
  obtain ⟨_, _, r3, r4⟩ := path_dentry_loop_lazy s dev toks cur ci hn
  cases hw : lazy_walk s dev toks cur ci with
  | error e =>
    rw [r4 e hw] at hp
    cases hp
  | ok d =>
    obtain ⟨p', e1, e2⟩ := r3 d hw
    rw [e1] at hp
    injection hp with hp
    subst hp
    obtain ⟨dd, di, edd, _⟩ := (lazy_walk_append s dev toks [] cur ci).2 d hw
    rw [edd] at e2
    exact ⟨dd, di, e2⟩

theorem path_dentry_loop_tree_sound (s : newfs_super) (dev : ddriver) (toks : List (List Nat))
    (cur : newfs_dentry) (ci : newfs_inode) (h : tree_sound (cur.with_inode ci)) :
    tree_sound (path_dentry_loop s dev toks cur ci).2 := by
  obtain ⟨r1, ⟨i', r2⟩, _, _⟩ := path_dentry_loop_lazy s dev toks cur ci h.2.1
  refine ⟨?_, r1, path_dentry_loop_file_kids s dev toks cur ci h.2.2⟩
  rw [r2]
  rfl

/-- The function `newfs_get_parent_dentry` keeps a sound state sound, and the parent
it returns is the dentry at the pointer it returns and has its inode. -/
theorem newfs_get_parent_dentry_sound (st : newfs) (path : List Nat) (hs : state_sound st) :
    state_sound (newfs_get_parent_dentry st path).2 ∧
    ∀ ptr pd name, (newfs_get_parent_dentry st path).1 = .ok (ptr, pd, name) →
      (∃ i, pd.inode = some i) ∧
      state_dentry (newfs_get_parent_dentry st path).2 ptr = some pd := by
  obtain ⟨root, ri, hr, hi⟩ := root_resolved_some st hs.1
  have ht : tree_sound root := (state_sound_iff st root hr).1 hs
  have ht' : tree_sound (root.with_inode ri) := by rw [with_inode_self root ri hi]; exact ht
  unfold newfs_get_parent_dentry
  by_cases hp : path = [47]
  · rw [if_pos hp]
    exact ⟨hs, fun _ _ _ he => (by cases he)⟩
  · rw [if_neg hp, hr]
    simp only
    rw [newfs_get_inode_from_dentry_resolved _ _ root ri hi]
    simp only
    rcases List.eq_nil_or_concat (path_tokens path) with h0 | ⟨pre, leaf, h0⟩
    · rw [h0]
      simp only [parent_loop]
      exact ⟨(state_sound_iff _ _ rfl).2 ht', fun _ _ _ he => (by cases he)⟩
    · rw [h0, List.concat_eq_append]
      have hloop := path_dentry_loop_tree_sound st.super st.dev pre root ri ht'
      have hres := path_dentry_loop_resolved st.super st.dev pre root ri ht'.2.1
      obtain ⟨p1, p2⟩ := parent_loop_path_loop st.super st.dev leaf pre root ri
      cases hr1 : (path_dentry_loop st.super st.dev pre root ri).1 with
      | error e =>
        rw [p1 e hr1]
        exact ⟨(state_sound_iff _ _ rfl).2 hloop, fun _ _ _ he => (by cases he)⟩
      | ok p =>
        obtain ⟨pd, a1, a2⟩ := p2 p hr1
        obtain ⟨dd, di, a3⟩ := hres p hr1
        rw [a2]
        refine ⟨(state_sound_iff _ _ rfl).2 hloop, ?_⟩
        intro ptr pd' name he
        injection he with he
        injection he with e1 e2
        injection e2 with e2 e3
        subst e1
        subst e2
        have epd : pd = dd.with_inode di := by
          rw [a1] at a3
          injection a3
        refine ⟨⟨di, by rw [epd]; rfl⟩, ?_⟩
        rw [state_dentry_of_root _ _ _ rfl]
        exact a1

/-- The lookup of `newfs_mkdir` / `newfs_mknod` keeps a sound state sound, and the
parent it hands on is a loaded directory whose dentry is sound. -/
theorem create_lookup_sound (st : newfs) (path : List Nat) (hs : state_sound st) :
    state_sound (create_lookup st path).2 ∧
    ∀ ptr pd pi name, (create_lookup st path).1 = .ok (ptr, pd, pi, name) →
      S_ISDIR pi.mode = true ∧ pi.children_loaded = true ∧ tree_sound (pd.with_inode pi) := by
  obtain ⟨g1, g2⟩ := newfs_get_parent_dentry_sound st path hs
  unfold create_lookup
  rcases hres : newfs_get_parent_dentry st path with ⟨r, st1⟩
  rw [hres] at g1 g2
  simp only at g1 g2
  cases r with
  | error e => exact ⟨g1, fun _ _ _ _ he => (by cases he)⟩
  | ok x =>
    obtain ⟨ptr, pd, name⟩ := x
    simp only
    obtain ⟨⟨i, hi⟩, hat⟩ := g2 ptr pd name rfl
    obtain ⟨hn, hk⟩ := state_dentry_sound st1 ptr pd g1 hat
    have hpd : tree_sound (pd.with_inode i) := by
      rw [with_inode_self pd i hi]
      exact ⟨by rw [hi]; rfl, hn, hk⟩
    rw [newfs_get_inode_from_dentry_resolved _ _ pd i hi]
    simp only
    cases hd : S_ISDIR i.mode with
    | false =>
      simp only [Bool.not_false, if_true]
      exact ⟨g1, fun _ _ _ _ he => (by cases he)⟩
    | true =>
      simp only [Bool.not_true, Bool.false_eq_true, if_false]
      have hput := put_parent_sound st1 ptr _ g1 (tree_sound_loaded st1.super st1.dev pd i hpd)
      split
      · exact ⟨hput, fun _ _ _ _ he => (by cases he)⟩
      · refine ⟨hput, ?_⟩
        intro ptr' pd' pi' name' he
        injection he with he
        injection he with e1 e2
        injection e2 with e2 e3
        injection e3 with e3 e4
        subst e2
        subst e3
        refine ⟨?_, newfs_load_dir_children_loaded _ _ i hd,
          tree_sound_loaded st1.super st1.dev pd i hpd⟩
        rw [newfs_load_dir_children_mode, hd]

theorem newfs_add_dentry_mode (st : newfs) (dir : newfs_inode) (name : List Nat) (ino mode : Nat)
    (ci : newfs_inode) (hd : S_ISDIR dir.mode = true) (hl : dir.children_loaded = true) :
    (newfs_add_dentry st dir name ino mode (some ci)).2.1.mode = dir.mode := by
  rcases newfs_add_dentry_cases st dir name ino mode ci hd hl with h | ⟨_, _, h⟩ | ⟨_, _, j, _, h⟩
  · rw [h]
  · rw [h]
    rfl
  · rw [h]
    rfl

theorem newfs_add_dentry_root (st : newfs) (dir : newfs_inode) (name : List Nat) (ino mode : Nat)
    (ci : Option newfs_inode) :
    (newfs_add_dentry st dir name ino mode ci).2.2.super.root_dentry = st.super.root_dentry := by
  rw [newfs_add_dentry_frame]

theorem add_dentry_child_sound (name : List Nat) (ino mode : Nat) (h : newfs_h) (ifmt i : Nat) :
    tree_sound (add_dentry_child name ino mode (new_inode_of h ifmt i)) := by
  refine ⟨rfl, ?_, add_dentry_child_file_kids name ino mode h ifmt i⟩
  intro e he
  rw [add_dentry_child_entries] at he
  rw [List.mem_singleton.1 he]
  exact take_name_fits name

/-- The insertion statements of `newfs_mkdir` / `newfs_mknod` keep a sound state
sound. -/
theorem create_insert_sound (h : newfs_h) (ifmt : Nat) (st : newfs) (ptr : List Nat)
    (pd : newfs_dentry) (pi : newfs_inode) (name : List Nat) (hs : state_sound st)
    (hd : S_ISDIR pi.mode = true) (hl : pi.children_loaded = true)
    (ht : tree_sound (pd.with_inode pi)) :
    state_sound (create_insert h ifmt st ptr pd pi name).2 := by
  cases hfc : first_clear st.super.inode_map st.super.inode_count with
  | none =>
    rw [create_insert_none h ifmt st ptr pd pi name hfc]
    exact hs
  | some i =>
    obtain ⟨c1, c2⟩ := create_insert_some h ifmt st ptr pd pi name i hfc
    have hroot : (create_add h ifmt st pi name i).2.2.super.root_dentry = st.super.root_dentry := by
      unfold create_add
      rw [newfs_add_dentry_root]
      exact newfs_alloc_inode_root st
    obtain ⟨k1, k2⟩ := newfs_add_dentry_children (create_written h ifmt st i) pi name
      (new_inode_of h ifmt i).ino (new_inode_of h ifmt i).mode (new_inode_of h ifmt i) hd hl
    have k1' : (create_add h ifmt st pi name i).1 = .ok () →
        (create_add h ifmt st pi name i).2.1.first_child
          = add_dentry_child name (new_inode_of h ifmt i).ino (new_inode_of h ifmt i).mode
              (new_inode_of h ifmt i) :: pi.first_child := k1
    have k2' : ∀ e, (create_add h ifmt st pi name i).1 = .error e →
        (create_add h ifmt st pi name i).2.1 = pi := k2
    have km : (create_add h ifmt st pi name i).2.1.mode = pi.mode :=
      newfs_add_dentry_mode (create_written h ifmt st i) pi name _ _ _ hd hl
    cases hr1 : (create_add h ifmt st pi name i).1 with
    | error e =>
      rw [c1 e hr1, k2' e hr1]
      apply put_parent_sound _ _ _ _ ht
      apply state_sound_congr st _ _ hs
      rw [inode_free_super]
      exact hroot
    | ok u =>
      rw [c2 hr1]
      apply put_parent_sound _ _ _ (state_sound_congr st _ hroot hs)
      refine ⟨rfl, ?_, ?_⟩
      · rw [names_fit_with_inode, k1' hr1]
        refine ⟨((names_fit_with_inode pd pi).1 ht.2.1).1, fun c hc => ?_⟩
        rcases List.mem_cons.1 hc with h1 | h1
        · rw [h1]
          exact (add_dentry_child_sound name _ _ h ifmt i).2.1
        · exact ((names_fit_with_inode pd pi).1 ht.2.1).2 c h1
      · rw [file_kids_with_inode, km, hd, k1' hr1]
        refine ⟨fun hc => (by cases hc), fun c hc => ?_⟩
        rcases List.mem_cons.1 hc with h1 | h1
        · rw [h1]
          exact (add_dentry_child_sound name _ _ h ifmt i).2.2
        · exact ((file_kids_with_inode pd pi).1 ht.2.2).2 c h1

theorem newfs_create_sound (h : newfs_h) (ifmt : Nat) (st : newfs) (path : List Nat)
    (hs : state_sound st) : state_sound (newfs_create h ifmt st path).2 := by
  obtain ⟨l1, l2⟩ := create_lookup_sound st path hs
  unfold newfs_create
  rcases hres : create_lookup st path with ⟨r, st1⟩
  rw [hres] at l1 l2
  simp only at l1 l2
  cases r with
  | error e => exact l1
  | ok x =>
    obtain ⟨ptr, pd, pi, name⟩ := x
    simp only
    obtain ⟨a1, a2, a3⟩ := l2 ptr pd pi name rfl
    exact create_insert_sound h ifmt st1 ptr pd pi name l1 a1 a2 a3

theorem run_call_sound (h : newfs_h) (st : newfs) (c : fs_call) (hs : state_sound st) :
    state_sound (run_call h st c) := by
  cases c with
  | path_dentry path => exact newfs_path_dentry_state_sound st path hs
  | getattr path => exact newfs_getattr_sound st path hs
  | readdir path offset => exact newfs_readdir_sound st path offset hs
  | access path type => exact newfs_access_sound st path type hs
  | mkdir path => exact newfs_create_sound h S_IFDIR st path hs
  | mknod path => exact newfs_create_sound h S_IFREG st path hs

theorem run_calls_sound (h : newfs_h) (cs : List fs_call) :
    ∀ st, state_sound st → state_sound (run_calls h cs st) := by
  induction cs with
  | nil => exact fun st hs => hs
  | cons c cs ih => exact fun st hs => ih _ (run_call_sound h st c hs)

/-- Every mounted state is sound.  After a `newfs_mount` that returns 0, on the format
path or on the load path, and after every sequence of calls of `newfs_path_dentry`,
`newfs_getattr`, `newfs_readdir`, `newfs_access`, `newfs_mkdir` and `newfs_mknod` each
of which copies its record, if it copies one, inside the block buffer of
`newfs_add_dentry`, whatever the calls return: the root dentry has its inode, the
names of the tree in memory fit the name field, and no entry that is not a directory
has children in memory. -/
theorem mounted_states_sound (h : newfs_h) (dev : ddriver) (cs : List fs_call)
    (hok : (newfs_mount h dev).1 = .ok ())
    (_hfit : calls_fit h cs (newfs_mount h dev).2 = true) :
    root_resolved (run_calls h cs (newfs_mount h dev).2) = true ∧
    state_names_fit (run_calls h cs (newfs_mount h dev).2) = true ∧
    state_file_kids (run_calls h cs (newfs_mount h dev).2) = [] :=
  run_calls_sound h cs _ (newfs_mount_sound h dev hok)

/-- On the volume with the tree `/` with `d` with `f`, unmounted and mounted again: a
listing of `/d`, a new file `/d/g` and a lookup of `/d/g` leave a sound state. -/
theorem mounted_states_sound_witness :
    ((newfs_mount hdr (newfs_umount vol64_d_f)).1 = .ok () ∧
      calls_fit hdr [.readdir path_d 0, .mknod [47, 100, 47, 103], .getattr [47, 100, 47, 103]]
        (newfs_mount hdr (newfs_umount vol64_d_f)).2 = true) ∧
    state_names_fit (run_calls hdr
      [.readdir path_d 0, .mknod [47, 100, 47, 103], .getattr [47, 100, 47, 103]]
      (newfs_mount hdr (newfs_umount vol64_d_f)).2) = true :=
  ⟨⟨by decide!, by decide!⟩,
    (mounted_states_sound hdr (newfs_umount vol64_d_f)
      [.readdir path_d 0, .mknod [47, 100, 47, 103], .getattr [47, 100, 47, 103]]
      (by decide!) (by decide!)).2.1⟩

end Newfs
